import Mathlib

/-!
Shallow embedding of the TFP edge-swap engine.

Sources: `include/Swaps.h`, `include/PQSorterMerger.h`, `include/EdgeSwapTFP.cpp`.

Conventions of the embedding.

* Node ids, edge ids and swap ids are natural numbers; the code never does
  arithmetic on them apart from counting up.
* An stxxl sorter is the list of the pushed items; `sort()` is
  `List.insertionSort` under the comparator; reading pops the head.
* An stxxl priority queue (descending comparator, smallest item on top) is a
  list kept in ascending order; `push` is `List.orderedInsert`.
* The build with assertions (`NDEBUG` undefined) is embedded: an
  `ExistenceInfoMsg` carries its `exists` bit, and a failing `assert` (or a
  read of an empty stream) makes the pass return `none`.
-/

/-! ## Edges and swap descriptors -/

/-- Modelled from the spec: `edge_t` of the absent `defs.h`, a pair of node
ids compared lexicographically. -/
structure edge_t where
  first : Nat
  second : Nat
deriving DecidableEq, Repr

/-- Key giving the lexicographic comparison of `std::pair`. -/
def edge_t.key (e : edge_t) : Nat ×ₗ Nat := toLex (e.first, e.second)

instance edge_t.instLinearOrder : LinearOrder edge_t :=
  LinearOrder.lift' edge_t.key (by
    intro a b h
    cases a; cases b
    simp only [edge_t.key, EmbeddingLike.apply_eq_iff_eq, Prod.mk.injEq] at h
    simp [h.1, h.2])

/-- Modelled from the spec: a loop has `u = v`. -/
def edge_t.is_loop (e : edge_t) : Bool := e.first == e.second

/-- Modelled from the spec: an edge is normalized to `(min, max)`. -/
def edge_t.normalize (e : edge_t) : edge_t :=
  if e.second < e.first then ⟨e.second, e.first⟩ else e

/-- `SwapDescriptor` of `Swaps.h`: the two edge ids `_edges[0]`, `_edges[1]`
and the direction bit. -/
structure SwapDescriptor where
  edges0 : Nat
  edges1 : Nat
  direction : Bool
deriving DecidableEq, Repr

/-- Constructor `SwapDescriptor(e1, e2, dir)`: asserts `e1 != e2` and stores
the two ids in ascending order. -/
def SwapDescriptor.make (e1 e2 : Nat) (dir : Bool) : Option SwapDescriptor :=
  if e1 = e2 then none
  else if e1 > e2 then some ⟨e2, e1, dir⟩
  else some ⟨e1, e2, dir⟩

/-- Modelled from the spec: `_swap_edges` of the absent `EdgeSwapTFP.hpp`
(spec 4.5): from `(u1,v1)`, `(u2,v2)` direction `false` yields `(u1,u2)` and
`(v1,v2)`, direction `true` yields `(u1,v2)` and `(u2,v1)`, each normalized. -/
def _swap_edges (e1 e2 : edge_t) (direction : Bool) : edge_t × edge_t :=
  if direction then
    ((edge_t.mk e1.first e2.second).normalize, (edge_t.mk e2.first e1.second).normalize)
  else
    ((edge_t.mk e1.first e2.first).normalize, (edge_t.mk e1.second e2.second).normalize)

/-- `SwapResult` of `Swaps.h`. -/
structure SwapResult where
  performed : Bool
  loop : Bool
  edges0 : edge_t
  edges1 : edge_t
  conflictDetected0 : Bool
  conflictDetected1 : Bool
deriving DecidableEq, Repr

/-- `SwapResult::normalize`. -/
def SwapResult.normalize (r : SwapResult) : SwapResult :=
  let a := r.edges0.normalize
  let b := r.edges1.normalize
  if b > a then
    { r with edges0 := b, edges1 := a,
             conflictDetected0 := r.conflictDetected1,
             conflictDetected1 := r.conflictDetected0 }
  else
    { r with edges0 := a, edges1 := b }

/-! ## Messages

The message structs and their comparators live in the absent
`EdgeSwapTFP.hpp`; the fields are the ones `EdgeSwapTFP.cpp` reads and
writes. -/

/-- Message `{sid, eid, edge_value}`: when swap `sid` processes edge `eid`,
one candidate pre-state is `edge_value`. -/
structure DependencyChainEdgeMsg where
  swap_id : Nat
  edge_id : Nat
  edge : edge_t
deriving DecidableEq, Repr

/-- Message `{sid, eid, next_sid}`. -/
structure DependencyChainSuccessorMsg where
  swap_id : Nat
  edge_id : Nat
  successor : Nat
deriving DecidableEq, Repr

/-- Existence query `{edge, sid, forward_only}`. -/
structure ExistenceRequestMsg where
  edge : edge_t
  swap_id : Nat
  forward_only : Bool
deriving DecidableEq, Repr

/-- Existence info `{sid, edge, exists}`. -/
structure ExistenceInfoMsg where
  swap_id : Nat
  edge : edge_t
  exists_bit : Bool
deriving DecidableEq, Repr

/-- Existence successor `{sid, edge, next_sid}`. -/
structure ExistenceSuccessorMsg where
  swap_id : Nat
  edge : edge_t
  successor : Nat
deriving DecidableEq, Repr

/-- Modelled from the spec: dependency-chain messages are keyed first by
`sid`, then by edge id, then by the edge value. -/
def DependencyChainEdgeMsg.key (m : DependencyChainEdgeMsg) : Nat ×ₗ (Nat ×ₗ edge_t) :=
  toLex (m.swap_id, toLex (m.edge_id, m.edge))

instance DependencyChainEdgeMsg.instLinearOrder : LinearOrder DependencyChainEdgeMsg :=
  LinearOrder.lift' DependencyChainEdgeMsg.key (by
    intro a b h
    cases a; cases b
    simp only [DependencyChainEdgeMsg.key, EmbeddingLike.apply_eq_iff_eq, Prod.mk.injEq] at h
    simp [h.1, h.2.1, h.2.2])

/-- Modelled from the spec: successor messages are keyed by `sid`, then edge
id, then the successor. -/
def DependencyChainSuccessorMsg.key (m : DependencyChainSuccessorMsg) : Nat ×ₗ (Nat ×ₗ Nat) :=
  toLex (m.swap_id, toLex (m.edge_id, m.successor))

instance DependencyChainSuccessorMsg.instLinearOrder : LinearOrder DependencyChainSuccessorMsg :=
  LinearOrder.lift' DependencyChainSuccessorMsg.key (by
    intro a b h
    cases a; cases b
    simp only [DependencyChainSuccessorMsg.key, EmbeddingLike.apply_eq_iff_eq, Prod.mk.injEq] at h
    simp [h.1, h.2.1, h.2.2])

/-- Modelled from the spec: existence requests are sorted by the queried
edge; inside the run of one edge Pass C meets the swap ids in descending
order (its assertion `last_swap > request.swap_id`). -/
def ExistenceRequestMsg.key (m : ExistenceRequestMsg) : edge_t ×ₗ (Natᵒᵈ ×ₗ Bool) :=
  toLex (m.edge, toLex (OrderDual.toDual m.swap_id, m.forward_only))

instance ExistenceRequestMsg.instLinearOrder : LinearOrder ExistenceRequestMsg :=
  LinearOrder.lift' ExistenceRequestMsg.key (by
    intro a b h
    cases a; cases b
    simp only [ExistenceRequestMsg.key, EmbeddingLike.apply_eq_iff_eq, Prod.mk.injEq] at h
    simp [h.1, h.2.1, h.2.2])

/-- Modelled from the spec: existence infos are keyed by `sid`, then the
edge, then the bit. -/
def ExistenceInfoMsg.key (m : ExistenceInfoMsg) : Nat ×ₗ (edge_t ×ₗ Bool) :=
  toLex (m.swap_id, toLex (m.edge, m.exists_bit))

instance ExistenceInfoMsg.instLinearOrder : LinearOrder ExistenceInfoMsg :=
  LinearOrder.lift' ExistenceInfoMsg.key (by
    intro a b h
    cases a; cases b
    simp only [ExistenceInfoMsg.key, EmbeddingLike.apply_eq_iff_eq, Prod.mk.injEq] at h
    simp [h.1, h.2.1, h.2.2])

/-- Modelled from the spec: existence successors are keyed by `sid`, then
the edge, then the successor. -/
def ExistenceSuccessorMsg.key (m : ExistenceSuccessorMsg) : Nat ×ₗ (edge_t ×ₗ Nat) :=
  toLex (m.swap_id, toLex (m.edge, m.successor))

instance ExistenceSuccessorMsg.instLinearOrder : LinearOrder ExistenceSuccessorMsg :=
  LinearOrder.lift' ExistenceSuccessorMsg.key (by
    intro a b h
    cases a; cases b
    simp only [ExistenceSuccessorMsg.key, EmbeddingLike.apply_eq_iff_eq, Prod.mk.injEq] at h
    simp [h.1, h.2.1, h.2.2])

/-! ## Sorter and priority queue primitives -/

/-- Sorter `sort()`: the pushed items in ascending order. -/
def sorter_sort {α : Type} [LinearOrder α] (xs : List α) : List α :=
  xs.insertionSort (· ≤ ·)

/-- Priority queue `push`: the queue is kept ascending, its top is the head. -/
def pq_push {α : Type} [LinearOrder α] (x : α) (pq : List α) : List α :=
  pq.orderedInsert (· ≤ ·) x

/-! ## `PQSorterMerger` -/

/-- Source of the item the merger currently yields. -/
inductive PQSorterMergerSourceType where
  | SrcPriorityQueue
  | SrcSorter
deriving DecidableEq, Repr

/-- State of a `PQSorterMerger`: the referenced priority queue and sorter
and the cached head `_value` with its source (`none` while never fetched). -/
structure PQSorterMerger (α : Type) where
  _pq : List α
  _sorter : List α
  _value_src : PQSorterMergerSourceType
  _value : Option α

namespace PQSorterMerger

variable {α : Type} [LinearOrder α]

/-- Method `empty()`: both sources are empty. -/
def empty (m : PQSorterMerger α) : Bool := m._pq.isEmpty && m._sorter.isEmpty

/-- Method `_fetch()`: caches the smaller head; `_comp(_pq.top(), *_sorter)`
is the descending comparator, true when the queue top is strictly larger. -/
def _fetch (m : PQSorterMerger α) : Option (PQSorterMerger α) :=
  match m._pq, m._sorter with
  | [], [] => none
  | [], s :: _ => some { m with _value := some s, _value_src := .SrcSorter }
  | p :: _, [] => some { m with _value := some p, _value_src := .SrcPriorityQueue }
  | p :: _, s :: _ =>
    if p > s then some { m with _value := some s, _value_src := .SrcSorter }
    else some { m with _value := some p, _value_src := .SrcPriorityQueue }

/-- Method `update()`. -/
def update (m : PQSorterMerger α) : PQSorterMerger α :=
  if m.empty then m else (m._fetch).getD m

/-- Constructor with its flag for the first fetch left at `true`. -/
def init (pq sorter : List α) : PQSorterMerger α :=
  update { _pq := pq, _sorter := sorter, _value_src := .SrcSorter, _value := none }

/-- Method `operator++`. -/
def incr (m : PQSorterMerger α) : Option (PQSorterMerger α) :=
  if m.empty then none
  else
    let popped : Option (PQSorterMerger α) :=
      match m._value_src with
      | .SrcPriorityQueue =>
        match m._pq with
        | [] => none
        | _ :: rest => some { m with _pq := rest }
      | .SrcSorter =>
        match m._sorter with
        | [] => none
        | _ :: rest => some { m with _sorter := rest }
    match popped with
    | none => none
    | some m1 => if m1.empty then some m1 else m1._fetch

/-- Method `operator*`. -/
def deref (m : PQSorterMerger α) : Option α :=
  if m.empty then none else m._value

/-- Method `source()`. -/
def source (m : PQSorterMerger α) : Option PQSorterMergerSourceType :=
  if m.empty then none else some m._value_src

/-- A push into the referenced priority queue that bypasses the merger. -/
def pq_pushed (m : PQSorterMerger α) (x : α) : PQSorterMerger α :=
  { m with _pq := pq_push x m._pq }

/-- Number of items left in both sources. -/
def size (m : PQSorterMerger α) : Nat := m._pq.length + m._sorter.length

end PQSorterMerger

/-! ## `std::binary_search` -/

/-- `std::lower_bound` on positions `first .. first + count` of `xs`; the
first argument bounds the number of halving steps. -/
def lower_bound (xs : List edge_t) (val : edge_t) : Nat → Nat → Nat → Nat
  | 0, first, _ => first
  | fuel + 1, first, count =>
    if count = 0 then first
    else
      match xs[first + count / 2]? with
      | none => first
      | some x =>
        if x < val then lower_bound xs val fuel (first + count / 2 + 1) (count - (count / 2 + 1))
        else lower_bound xs val fuel first (count / 2)

/-- `std::binary_search(xs.begin(), xs.end(), val)`. -/
def binary_search (xs : List edge_t) (val : edge_t) : Bool :=
  match xs[lower_bound xs val xs.length 0 xs.length]? with
  | none => false
  | some x => !(decide (val < x))

/-! ## Pass A: `_compute_dependency_chain` -/

/-- Loop state of `_compute_dependency_chain`. -/
structure DepChainState where
  eid : Nat
  edge_reader : List edge_t
  last_swap : Nat
  edge_remains_valid : List Bool
  _depchain_edge_sorter : List DependencyChainEdgeMsg
  _depchain_successor_sorter : List DependencyChainSuccessorMsg

/-- The messages `(edge-id, swap-id)` pushed into `edge_swap_sorter`: two per
swap, the swap id counting from `sid`. -/
def edge_swap_msgs : List SwapDescriptor → Nat → List (Nat ×ₗ Nat)
  | [], _ => []
  | swap_desc :: rest, sid =>
    toLex (swap_desc.edges0, sid) :: toLex (swap_desc.edges1, sid) :: edge_swap_msgs rest (sid + 1)

/-- Loop `for (; eid < requested_edge; ++eid, ++edge_reader)`, the argument
being the trip count `requested_edge - eid`. -/
def skip_edges : Nat → DepChainState → Option DepChainState
  | 0, st => some st
  | k + 1, st =>
    match st.edge_reader with
    | [] => none
    | _ :: rest =>
      skip_edges k { st with eid := st.eid + 1, edge_reader := rest,
                             edge_remains_valid := st.edge_remains_valid ++ [true] }

/-- Body of the merge scan for one message `(requested_edge, requesting_swap)`. -/
def depchain_step (st : DepChainState) (requested_edge requesting_swap : Nat) :
    Option DepChainState :=
  match skip_edges (requested_edge - st.eid) st with
  | none => none
  | some st1 =>
    if st1.eid = requested_edge then
      match st1.edge_reader with
      | [] => none
      | edge :: rest =>
        some { st1 with
          _depchain_edge_sorter :=
            st1._depchain_edge_sorter ++ [⟨requesting_swap, requested_edge, edge⟩],
          edge_remains_valid := st1.edge_remains_valid ++ [false],
          edge_reader := rest,
          eid := st1.eid + 1,
          last_swap := requesting_swap }
    else
      some { st1 with
        _depchain_successor_sorter :=
          st1._depchain_successor_sorter ++ [⟨st1.last_swap, requested_edge, requesting_swap⟩],
        last_swap := requesting_swap }

/-- The merge scan over the sorted `edge_swap_sorter`. -/
def depchain_scan : List (Nat ×ₗ Nat) → DepChainState → Option DepChainState
  | [], st => some st
  | msg :: rest, st =>
    match depchain_step st (ofLex msg).1 (ofLex msg).2 with
    | none => none
    | some st1 => depchain_scan rest st1

/-- Result of Pass A. -/
structure DepChainResult where
  _depchain_edge_sorter : List DependencyChainEdgeMsg
  _depchain_successor_sorter : List DependencyChainSuccessorMsg
  edge_remains_valid : List Bool
deriving DecidableEq, Repr

/-- Pass A, `_compute_dependency_chain(edge_reader, edge_remains_valid)`;
`edges_size` is `_edges.size()`. -/
def _compute_dependency_chain (edges_size : Nat) (edge_reader : List edge_t)
    (swaps : List SwapDescriptor) : Option DepChainResult :=
  let edge_swap_sorter := sorter_sort (edge_swap_msgs swaps 0)
  match depchain_scan edge_swap_sorter
      { eid := 0, edge_reader := edge_reader, last_swap := 0, edge_remains_valid := [],
        _depchain_edge_sorter := [], _depchain_successor_sorter := [] } with
  | none => none
  | some st =>
    some { _depchain_edge_sorter := sorter_sort st._depchain_edge_sorter,
           _depchain_successor_sorter := sorter_sort st._depchain_successor_sorter,
           edge_remains_valid :=
             st.edge_remains_valid ++ List.replicate (edges_size - st.eid) true }

/-! ## Pass B: `_compute_conflicts` -/

/-- Loop state of `_compute_conflicts`. -/
structure ConflictState where
  _depchain_successor_sorter : List DependencyChainSuccessorMsg
  depchain_pqsort : PQSorterMerger DependencyChainEdgeMsg
  _existence_request_sorter : List ExistenceRequestMsg

/-- Block "get successor" for edge `eid` of swap `sid`: the successor (`0`
if there is none) and the sorter after the read. -/
def get_successor (sid eid : Nat) (sorter : List DependencyChainSuccessorMsg) :
    Option (Nat × List DependencyChainSuccessorMsg) :=
  match sorter with
  | [] => some (0, [])
  | msg :: rest =>
    if ¬ (msg.swap_id ≥ sid) then none
    else if ¬ (msg.swap_id > sid ∨ msg.edge_id ≥ eid) then none
    else if msg.swap_id ≠ sid ∨ msg.edge_id ≠ eid then some (0, msg :: rest)
    else some (msg.successor, rest)

/-- Loop "fetch possible edge state before swap"; the first argument bounds
the trip count by the number of items left in the merger. -/
def fetch_states (sid eid : Nat) :
    Nat → PQSorterMerger DependencyChainEdgeMsg → List edge_t →
      Option (PQSorterMerger DependencyChainEdgeMsg × List edge_t)
  | 0, m, edges => some (m, edges)
  | fuel + 1, m, edges =>
    if m.empty then some (m, edges)
    else
      match m.deref with
      | none => none
      | some msg =>
        if msg.swap_id ≠ sid ∨ msg.edge_id ≠ eid then some (m, edges)
        else
          match m.incr with
          | none => none
          | some m1 =>
            if edges.isEmpty ∨ some msg.edge ≠ edges.getLast? then
              fetch_states sid eid fuel m1 (edges ++ [msg.edge])
            else fetch_states sid eid fuel m1 edges

/-- Body of `for (i = 0; i < 2; i++)`, "fetch messages sent to this edge":
returns the successor and the state set of edge `eid`. -/
def fetch_messages (sid eid : Nat) (st : ConflictState) :
    Option (ConflictState × Nat × List edge_t) :=
  match get_successor sid eid st._depchain_successor_sorter with
  | none => none
  | some (successor, sorter1) =>
    match fetch_states sid eid st.depchain_pqsort.size st.depchain_pqsort [] with
    | none => none
    | some (m1, edges) =>
      if edges.isEmpty then none
      else if ¬ (successor = 0 ∨ successor > sid) then none
      else some ({ st with _depchain_successor_sorter := sorter1, depchain_pqsort := m1 },
                  successor, edges)

/-- Innermost body of the cartesian product: handles the new edge of side
`i` (edge id `eid`, successor `successor`). -/
def push_new_edge (sid eid successor : Nat) (new_edge : edge_t) (st : ConflictState) :
    ConflictState :=
  let m := if successor ≠ 0 then
      st.depchain_pqsort.pq_pushed ⟨successor, eid, new_edge⟩
    else st.depchain_pqsort
  { st with depchain_pqsort := m,
            _existence_request_sorter := st._existence_request_sorter ++ [⟨new_edge, sid, false⟩] }

/-- Body of the cartesian product for one pair `(e1, e2)`. -/
def push_pair (sid : Nat) (swap : SwapDescriptor) (successors : Nat × Nat)
    (st : ConflictState) (e1 e2 : edge_t) : ConflictState :=
  let new_edges := _swap_edges e1 e2 swap.direction
  push_new_edge sid swap.edges1 successors.2 new_edges.2
    (push_new_edge sid swap.edges0 successors.1 new_edges.1 st)

/-- Loop `for (auto &edge : edges[i])` forwarding the unchanged pre-states. -/
def push_old_edge (sid eid successor : Nat) (st : ConflictState) (edge : edge_t) :
    ConflictState :=
  let m := if successor ≠ 0 then
      st.depchain_pqsort.pq_pushed ⟨successor, eid, edge⟩
    else st.depchain_pqsort
  { st with depchain_pqsort := m,
            _existence_request_sorter := st._existence_request_sorter ++ [⟨edge, sid, true⟩] }

/-- Assertion "ensure that all messages to this swap have been consumed":
the merger is empty or its head is addressed to a later swap. -/
def all_consumed (sid : Nat) (m : PQSorterMerger DependencyChainEdgeMsg) : Bool :=
  m.empty ||
    (match m.deref with
     | none => false
     | some msg => decide (msg.swap_id > sid))

/-- One iteration of the loop over the swaps in `_compute_conflicts`. -/
def conflicts_step (sid : Nat) (swap : SwapDescriptor) (st : ConflictState) :
    Option ConflictState :=
  match fetch_messages sid swap.edges0 st with
  | none => none
  | some (st0, successor0, edges0) =>
    match fetch_messages sid swap.edges1 st0 with
    | none => none
    | some (st1, successor1, edges1) =>
      if !(all_consumed sid st1.depchain_pqsort) then none
      else
        let st2 := edges0.foldl
          (fun s e1 => edges1.foldl
            (fun s2 e2 => push_pair sid swap (successor0, successor1) s2 e1 e2) s) st1
        let st3 := edges0.foldl (push_old_edge sid swap.edges0 successor0) st2
        let st4 := edges1.foldl (push_old_edge sid swap.edges1 successor1) st3
        if successor0 ≠ 0 ∨ successor1 ≠ 0 then
          some { st4 with depchain_pqsort := st4.depchain_pqsort.update }
        else some st4

/-- The loop over the swaps of `_compute_conflicts`, the swap id counting
from `sid`. -/
def conflicts_loop : List SwapDescriptor → Nat → ConflictState → Option ConflictState
  | [], _, st => some st
  | swap :: rest, sid, st =>
    match conflicts_step sid swap st with
    | none => none
    | some st1 => conflicts_loop rest (sid + 1) st1

/-- Pass B, `_compute_conflicts`: the sorted existence requests. The two
dependency-chain sorters are rewound, so Pass D reads them from the start. -/
def _compute_conflicts (swaps : List SwapDescriptor) (a : DepChainResult) :
    Option (List ExistenceRequestMsg) :=
  match conflicts_loop swaps 0
      { _depchain_successor_sorter := a._depchain_successor_sorter,
        depchain_pqsort := PQSorterMerger.init [] a._depchain_edge_sorter,
        _existence_request_sorter := [] } with
  | none => none
  | some st => some (sorter_sort st._existence_request_sorter)

/-! ## Pass C: `_process_existence_requests` -/

/-- Loop "find edge in graph": advances the edge reader while the edge read
is not above `current_edge`; returns the reader and the `exists` flag. -/
def find_edge (current_edge : edge_t) : List edge_t → Bool → List edge_t × Bool
  | [], found => ([], found)
  | edge :: rest, found =>
    if edge > current_edge then (edge :: rest, found)
    else find_edge current_edge rest (edge == current_edge)

/-- Loop "build dependency chain ... and find the earliest swap" over the
run of requests for `current_edge`; returns the unread requests,
`last_swap`, `foundTargetEdge` and the successor sorter. -/
def chain_requests (current_edge : edge_t) :
    List ExistenceRequestMsg → Nat → Bool → List ExistenceSuccessorMsg →
      Option (List ExistenceRequestMsg × Nat × Bool × List ExistenceSuccessorMsg)
  | [], last_swap, foundTargetEdge, succ => some ([], last_swap, foundTargetEdge, succ)
  | request :: rest, last_swap, foundTargetEdge, succ =>
    if request.edge ≠ current_edge then some (request :: rest, last_swap, foundTargetEdge, succ)
    else if last_swap ≠ request.swap_id ∧ foundTargetEdge = true then
      if ¬ (last_swap > request.swap_id) then none
      else chain_requests current_edge rest request.swap_id
        (foundTargetEdge || !request.forward_only)
        (succ ++ [⟨request.swap_id, current_edge, last_swap⟩])
    else chain_requests current_edge rest request.swap_id
      (foundTargetEdge || !request.forward_only) succ

/-- Loop state of `_process_existence_requests`. -/
structure ExistenceState where
  edge_reader : List edge_t
  _existence_request_sorter : List ExistenceRequestMsg
  _existence_successor_sorter : List ExistenceSuccessorMsg
  _existence_info_sorter : List ExistenceInfoMsg

/-- Loop `while (!_existence_request_sorter.empty())`; the first argument
bounds the trip count (every trip reads at least one request). -/
def existence_loop : Nat → ExistenceState → Option ExistenceState
  | 0, st =>
    match st._existence_request_sorter with
    | [] => some st
    | _ :: _ => none
  | fuel + 1, st =>
    match st._existence_request_sorter with
    | [] => some st
    | request :: _ =>
      let found := find_edge request.edge st.edge_reader false
      match chain_requests request.edge st._existence_request_sorter request.swap_id false
          st._existence_successor_sorter with
      | none => none
      | some (rest, last_swap, foundTargetEdge, succ) =>
        existence_loop fuel
          { edge_reader := found.1,
            _existence_request_sorter := rest,
            _existence_successor_sorter := succ,
            _existence_info_sorter :=
              if foundTargetEdge then
                st._existence_info_sorter ++ [⟨last_swap, request.edge, found.2⟩]
              else st._existence_info_sorter }

/-- Result of Pass C. -/
structure ExistenceResult where
  _existence_successor_sorter : List ExistenceSuccessorMsg
  _existence_info_sorter : List ExistenceInfoMsg
deriving DecidableEq, Repr

/-- Pass C, `_process_existence_requests`, on the edge list `_edges` and the
sorted requests. -/
def _process_existence_requests (edges : List edge_t) (requests : List ExistenceRequestMsg) :
    Option ExistenceResult :=
  match existence_loop requests.length
      { edge_reader := edges, _existence_request_sorter := requests,
        _existence_successor_sorter := [], _existence_info_sorter := [] } with
  | none => none
  | some st =>
    some { _existence_successor_sorter := sorter_sort st._existence_successor_sorter,
           _existence_info_sorter := sorter_sort st._existence_info_sorter }

/-! ## Pass D: `_perform_swaps` -/

/-- The local array `edge_t edges[4]`: the two pre-states and, at offset 2,
`new_edges`. The code prints it as "State in sid" when debugging. -/
structure SwapEdges where
  edges0 : edge_t
  edges1 : edge_t
  new_edges0 : edge_t
  new_edges1 : edge_t
deriving DecidableEq, Repr

/-- Array access `edges[k]`, `k < 4`. -/
def SwapEdges.get (e : SwapEdges) (k : Nat) : edge_t :=
  match k with
  | 0 => e.edges0
  | 1 => e.edges1
  | 2 => e.new_edges0
  | _ => e.new_edges1

/-- Index `i + 2*perform_swap` of the final edge of side `i`. -/
def final_index (i : Nat) (perform_swap : Bool) : Nat := i + 2 * (if perform_swap then 1 else 0)

/-- Loop state of `_perform_swaps`. -/
structure PerformState where
  edge_state_pqsort : PQSorterMerger DependencyChainEdgeMsg
  _depchain_successor_sorter : List DependencyChainSuccessorMsg
  existence_info_pqsort : PQSorterMerger ExistenceInfoMsg
  _existence_successor_sorter : List ExistenceSuccessorMsg
  _edge_update_sorter : List edge_t
  _result : List SwapResult
  state_log : List SwapEdges

/-- Body of "collect the current state of the edge to be swapped" for one
side: checks the three assertions and pops the message. -/
def pop_edge_state (sid eid : Nat) (m : PQSorterMerger DependencyChainEdgeMsg) :
    Option (edge_t × PQSorterMerger DependencyChainEdgeMsg) :=
  if m.empty then none
  else
    match m.deref with
    | none => none
    | some msg =>
      if msg.swap_id ≠ sid then none
      else if msg.edge_id ≠ eid then none
      else
        match m.incr with
        | none => none
        | some m1 => some (msg.edge, m1)

/-- Loop "gather all edge states that have been sent to this swap"; returns
the merger, `existence_infos` and `missing_infos`. The first argument bounds
the trip count by the number of items left in the merger. -/
def gather_infos (sid : Nat) :
    Nat → PQSorterMerger ExistenceInfoMsg → List edge_t → List edge_t →
      Option (PQSorterMerger ExistenceInfoMsg × List edge_t × List edge_t)
  | 0, m, existence_infos, missing_infos => some (m, existence_infos, missing_infos)
  | fuel + 1, m, existence_infos, missing_infos =>
    if m.empty then some (m, existence_infos, missing_infos)
    else
      match m.deref with
      | none => none
      | some msg =>
        if msg.swap_id ≠ sid then some (m, existence_infos, missing_infos)
        else
          match m.incr with
          | none => none
          | some m1 =>
            if msg.exists_bit then
              gather_infos sid fuel m1 (existence_infos ++ [msg.edge]) missing_infos
            else gather_infos sid fuel m1 existence_infos (missing_infos ++ [msg.edge])

/-- Body of "check if there's an conflicting edge" for one new edge, with
its assertion on `missing_infos`. -/
def check_conflict (existence_infos missing_infos : List edge_t) (new_edge : edge_t) :
    Option Bool :=
  let found := binary_search existence_infos new_edge
  if !found && !(binary_search missing_infos new_edge) then none else some found

/-- Loop "forward edge state to successor swap": returns the successor
sorter, the edge-state queue and `successor_found`. -/
def forward_edge_state (sid : Nat) (swap : SwapDescriptor) (edges : SwapEdges)
    (perform_swap : Bool) :
    List DependencyChainSuccessorMsg → List DependencyChainEdgeMsg → Bool × Bool →
      Option (List DependencyChainSuccessorMsg × List DependencyChainEdgeMsg × (Bool × Bool))
  | [], pq, successor_found => some ([], pq, successor_found)
  | succ :: rest, pq, successor_found =>
    if ¬ (succ.swap_id ≥ sid) then none
    else if succ.swap_id > sid then some (succ :: rest, pq, successor_found)
    else if ¬ (succ.edge_id = swap.edges0 ∨ succ.edge_id = swap.edges1) then none
    else if ¬ (succ.successor > sid) then none
    else
      let successor := if succ.edge_id = swap.edges0 then 0 else 1
      forward_edge_state sid swap edges perform_swap rest
        (pq_push ⟨succ.successor, succ.edge_id, edges.get (final_index successor perform_swap)⟩ pq)
        (if successor = 0 then (true, successor_found.2) else (successor_found.1, true))

/-- Loop "forward existence information": returns the successor sorter and
the existence-info queue. -/
def forward_existence (sid : Nat) (edges : SwapEdges) (perform_swap : Bool)
    (existence_infos missing_infos : List edge_t) :
    List ExistenceSuccessorMsg → List ExistenceInfoMsg →
      Option (List ExistenceSuccessorMsg × List ExistenceInfoMsg)
  | [], pq => some ([], pq)
  | succ :: rest, pq =>
    if ¬ (succ.swap_id ≥ sid) then none
    else if succ.swap_id > sid then some (succ :: rest, pq)
    else if (perform_swap = true ∧ (succ.edge = edges.new_edges0 ∨ succ.edge = edges.new_edges1)) ∨
        (perform_swap = false ∧ (succ.edge = edges.edges0 ∨ succ.edge = edges.edges1)) then
      forward_existence sid edges perform_swap existence_infos missing_infos rest
        (pq_push ⟨succ.successor, succ.edge, true⟩ pq)
    else if succ.edge = edges.edges0 ∨ succ.edge = edges.edges1 then
      forward_existence sid edges perform_swap existence_infos missing_infos rest
        (pq_push ⟨succ.successor, succ.edge, false⟩ pq)
    else
      let found := binary_search existence_infos succ.edge
      if !found && !(binary_search missing_infos succ.edge) then none
      else
        forward_existence sid edges perform_swap existence_infos missing_infos rest
          (pq_push ⟨succ.successor, succ.edge, found⟩ pq)

/-- One iteration of the loop over the swaps in `_perform_swaps`. -/
def perform_step (sid : Nat) (swap : SwapDescriptor) (st : PerformState) : Option PerformState :=
  if ¬ (swap.edges0 < swap.edges1) then none
  else
    match pop_edge_state sid swap.edges0 st.edge_state_pqsort.update with
    | none => none
    | some (e0, m0) =>
      match pop_edge_state sid swap.edges1 m0 with
      | none => none
      | some (e1, m1) =>
        let new_edges := _swap_edges e0 e1 swap.direction
        let edges : SwapEdges := ⟨e0, e1, new_edges.1, new_edges.2⟩
        let x0 := st.existence_info_pqsort.update
        match gather_infos sid x0.size x0 [] [] with
        | none => none
        | some (x1, existence_infos, missing_infos) =>
          match check_conflict existence_infos missing_infos edges.new_edges0,
                check_conflict existence_infos missing_infos edges.new_edges1 with
          | some conflict0, some conflict1 =>
            let loop := edges.new_edges0.is_loop || edges.new_edges1.is_loop
            let perform_swap := !(conflict0 || conflict1 || loop)
            let res : SwapResult :=
              (SwapResult.mk perform_swap loop edges.new_edges0 edges.new_edges1
                conflict0 conflict1).normalize
            match forward_edge_state sid swap edges perform_swap
                st._depchain_successor_sorter m1._pq (false, false) with
            | none => none
            | some (succ_sorter, edge_state_pq, successor_found) =>
              let upd0 :=
                if successor_found.1 then st._edge_update_sorter
                else st._edge_update_sorter ++ [edges.get (final_index 0 perform_swap)]
              let upd1 :=
                if successor_found.2 then upd0
                else upd0 ++ [edges.get (final_index 1 perform_swap)]
              match forward_existence sid edges perform_swap existence_infos missing_infos
                  st._existence_successor_sorter x1._pq with
              | none => none
              | some (ex_succ_sorter, existence_info_pq) =>
                some { edge_state_pqsort := { m1 with _pq := edge_state_pq },
                       _depchain_successor_sorter := succ_sorter,
                       existence_info_pqsort := { x1 with _pq := existence_info_pq },
                       _existence_successor_sorter := ex_succ_sorter,
                       _edge_update_sorter := upd1,
                       _result := st._result ++ [res],
                       state_log := st.state_log ++ [edges] }
          | _, _ => none

/-- The loop over the swaps of `_perform_swaps`, the swap id counting from
`sid`. -/
def perform_loop : List SwapDescriptor → Nat → PerformState → Option PerformState
  | [], _, st => some st
  | swap :: rest, sid, st =>
    match perform_step sid swap st with
    | none => none
    | some st1 => perform_loop rest (sid + 1) st1

/-- Result of Pass D: the sorted edge updates, the results handed to the
debug writer and the logged states. -/
structure PerformResult where
  _edge_update_sorter : List edge_t
  _result : List SwapResult
  state_log : List SwapEdges
deriving DecidableEq, Repr

/-- Pass D, `_perform_swaps`, with the three closing assertions. -/
def _perform_swaps (swaps : List SwapDescriptor) (a : DepChainResult) (c : ExistenceResult) :
    Option PerformResult :=
  match perform_loop swaps 0
      { edge_state_pqsort := PQSorterMerger.init [] a._depchain_edge_sorter,
        _depchain_successor_sorter := a._depchain_successor_sorter,
        existence_info_pqsort := PQSorterMerger.init [] c._existence_info_sorter,
        _existence_successor_sorter := c._existence_successor_sorter,
        _edge_update_sorter := [],
        _result := [],
        state_log := [] } with
  | none => none
  | some st =>
    if ¬ st._depchain_successor_sorter.isEmpty then none
    else if ¬ st._existence_successor_sorter.isEmpty then none
    else if ¬ st.existence_info_pqsort._pq.isEmpty then none
    else some { _edge_update_sorter := sorter_sort st._edge_update_sorter,
                _result := st._result,
                state_log := st.state_log }

/-! ## The iteration loop: `run` -/

/-- Modelled from the spec: the edges of the old list that the mask
`edge_remains_valid` does not mark `false` (spec 4.4, 4.8). The spec gives the
mask the length `|edges|`, and the second clause, for a mask that has run
out, is outside what it describes: there the model keeps the edge. In `run`
that clause is reached only by the final stream of a call without any swap,
whose mask was never written; every mask Pass A writes has the length of the
edge list. -/
def valid_edges : List edge_t → List Bool → List edge_t
  | [], _ => []
  | e :: es, [] => e :: valid_edges es []
  | e :: es, true :: mask => e :: valid_edges es mask
  | _ :: es, false :: mask => valid_edges es mask

/-- Modelled from the spec: `EdgeVectorUpdateStream` of the absent
`EdgeVectorUpdateStream.hpp` (spec 4.8): the merge of the old edge list with
the sorted update sorter under the `edge_remains_valid` mask; it is both the
stream Pass A reads and the new content of `_edges`. -/
def EdgeVectorUpdateStream (edges : List edge_t) (edge_remains_valid : List Bool)
    (updated_edges : List edge_t) : List edge_t :=
  List.merge (valid_edges edges edge_remains_valid) updated_edges (fun a b => decide (a ≤ b))

/-- Inner loop of the check of `run`: no loop, strictly ascending. -/
def check_ascending : edge_t → List edge_t → Bool
  | _, [] => true
  | last_edge, edge :: rest =>
    !edge.is_loop && decide (last_edge < edge) && check_ascending edge rest

/-- The check `run` makes on `_edges` in every iteration when assertions
are on; it reads the first edge unconditionally. -/
def check_edges : List edge_t → Bool
  | [] => false
  | last_edge :: rest => !last_edge.is_loop && check_ascending last_edge rest

/-- State of the engine across the iterations of `run`. -/
structure TFPState where
  _edges : List edge_t
  _edge_update_sorter : List edge_t
  last_update_mask : List Bool
  first_iteration : Bool
  _result : List SwapResult
  state_log : List SwapEdges
deriving DecidableEq, Repr

/-- Body of the `while` loop of `run` for the sub-batch `batch`
(`_swaps_begin .. _swaps_end`). -/
def run_iteration (initial_edge_size : Nat) (st : TFPState) (batch : List SwapDescriptor) :
    Option TFPState :=
  let edges1 :=
    if st.first_iteration then st._edges
    else EdgeVectorUpdateStream st._edges st.last_update_mask st._edge_update_sorter
  match _compute_dependency_chain st._edges.length edges1 batch with
  | none => none
  | some a =>
    if edges1.length ≠ initial_edge_size then none
    else if !check_edges edges1 then none
    else
      match _compute_conflicts batch a with
      | none => none
      | some requests =>
        match _process_existence_requests edges1 requests with
        | none => none
        | some c =>
          match _perform_swaps batch a c with
          | none => none
          | some d =>
            some { _edges := edges1,
                   _edge_update_sorter := d._edge_update_sorter,
                   last_update_mask := a.edge_remains_valid,
                   first_iteration := false,
                   _result := st._result ++ d._result,
                   state_log := st.state_log ++ d.state_log }

/-- The `while (_swaps_begin != _swaps.end())` loop of `run`; the first
argument bounds the trip count (every trip takes at least one swap). -/
def run_loop (swaps_per_iteration initial_edge_size : Nat) :
    Nat → List SwapDescriptor → TFPState → Option TFPState
  | _, [], st => some st
  | 0, _ :: _, _ => none
  | fuel + 1, swap :: swaps, st =>
    let n := if swaps_per_iteration ≠ 0 then min (swaps.length + 1) swaps_per_iteration
             else swaps.length + 1
    match run_iteration initial_edge_size st ((swap :: swaps).take n) with
    | none => none
    | some st1 => run_loop swaps_per_iteration initial_edge_size fuel ((swap :: swaps).drop n) st1

/-- `EdgeSwapTFP::run(swaps_per_iteration)` on the edge list `edges` and
the swaps `swaps`; `_result` collects every result handed to the debug
writer, in emission order. -/
def run (edges : List edge_t) (swaps : List SwapDescriptor) (swaps_per_iteration : Nat) :
    Option TFPState :=
  match run_loop swaps_per_iteration edges.length swaps.length swaps
      { _edges := edges, _edge_update_sorter := [], last_update_mask := [],
        first_iteration := true, _result := [], state_log := [] } with
  | none => none
  | some st =>
    some { st with
      _edges := EdgeVectorUpdateStream st._edges st.last_update_mask st._edge_update_sorter }

/-! ## Notions used to state the properties -/

namespace PQSorterMerger

variable {α : Type} [LinearOrder α]

/-- All items a merger still holds. -/
def items (m : PQSorterMerger α) : List α := m._pq ++ m._sorter

/-- Both sources of the merger are ascending. -/
def Ascending (m : PQSorterMerger α) : Prop :=
  m._pq.Sorted (· ≤ ·) ∧ m._sorter.Sorted (· ≤ ·)

/-- The cached head is up to date: `update()` would change nothing. -/
def Fresh (m : PQSorterMerger α) : Prop := m.update = m

end PQSorterMerger

/-- Swap `s` names edge id `e`. -/
def touches (s : SwapDescriptor) (e : Nat) : Prop := e = s.edges0 ∨ e = s.edges1

instance (s : SwapDescriptor) (e : Nat) : Decidable (touches s e) := by
  unfold touches; infer_instance

/-- A valid batch on `m` edges: every swap names two ascending edge ids
below `m`. -/
def valid_batch (m : Nat) (swaps : List SwapDescriptor) : Prop :=
  ∀ s ∈ swaps, s.edges0 < s.edges1 ∧ s.edges1 < m

/-- Swap `s` is the first swap of the batch, counting from position `k`,
that names edge id `e`. -/
def next_touch (swaps : List SwapDescriptor) (k e s : Nat) : Prop :=
  k ≤ s ∧ (∃ d, swaps[s]? = some d ∧ touches d e) ∧
    ∀ j d, k ≤ j → j < s → swaps[j]? = some d → ¬ touches d e

/-- No swap of the batch at position `k` or later names edge id `e`. -/
def no_touch_from (swaps : List SwapDescriptor) (k e : Nat) : Prop :=
  ∀ j d, k ≤ j → swaps[j]? = some d → ¬ touches d e

/-- A simple edge list: strictly ascending and without loops. -/
def simple_list (edges : List edge_t) : Prop :=
  edges.Sorted (· < ·) ∧ ∀ e ∈ edges, e.is_loop = false

/-- What Pass A has to emit as dependency-chain edge messages. -/
def DepSpec (edges : List edge_t) (swaps : List SwapDescriptor) (msg : DependencyChainEdgeMsg) :
    Prop :=
  next_touch swaps 0 msg.edge_id msg.swap_id ∧ edges[msg.edge_id]? = some msg.edge

/-- What Pass A has to emit as successor messages. -/
def SuccSpec (swaps : List SwapDescriptor) (msg : DependencyChainSuccessorMsg) : Prop :=
  (∃ d, swaps[msg.swap_id]? = some d ∧ touches d msg.edge_id) ∧
    next_touch swaps (msg.swap_id + 1) msg.edge_id msg.successor

/-- The mask Pass A has to emit: bit `e` is `true` iff no swap names `e`. -/
def mask_spec (m : Nat) (swaps : List SwapDescriptor) : List Bool :=
  (List.range m).map (fun e => decide (∀ s ∈ swaps, ¬ touches s e))

/-- State of the merge scan of Pass A after the messages `done` have been
handled, on the edge list `edges`. -/
structure ScanInv (edges : List edge_t) (done : List (Nat ×ₗ Nat)) (st : DepChainState) :
    Prop where
  reader : st.edge_reader = edges.drop st.eid
  eid_le : st.eid ≤ edges.length
  done_lt : ∀ p ∈ done, (ofLex p).1 < st.eid
  last_mem : done ≠ [] → toLex (st.eid - 1, st.last_swap) ∈ done ∧ 0 < st.eid
  last_max : ∀ q ∈ done, (ofLex q).1 + 1 = st.eid → (ofLex q).2 ≤ st.last_swap
  eid_zero : done = [] → st.eid = 0
  mask_len : st.edge_remains_valid.length = st.eid
  mask_get : ∀ i, i < st.eid →
    st.edge_remains_valid[i]? = some (decide (∀ p ∈ done, (ofLex p).1 ≠ i))
  dep_nodup : st._depchain_edge_sorter.Nodup
  dep_mem : ∀ msg, msg ∈ st._depchain_edge_sorter ↔
    (toLex (msg.edge_id, msg.swap_id) ∈ done ∧
      (∀ q ∈ done, (ofLex q).1 = msg.edge_id → msg.swap_id ≤ (ofLex q).2) ∧
      edges[msg.edge_id]? = some msg.edge)
  succ_nodup : st._depchain_successor_sorter.Nodup
  succ_mem : ∀ msg, msg ∈ st._depchain_successor_sorter ↔
    (toLex (msg.edge_id, msg.swap_id) ∈ done ∧ toLex (msg.edge_id, msg.successor) ∈ done ∧
      msg.swap_id < msg.successor ∧
      ∀ q ∈ done, (ofLex q).1 = msg.edge_id →
        ¬ (msg.swap_id < (ofLex q).2 ∧ (ofLex q).2 < msg.successor))

/-- What Pass A has to produce on the edge list `edges` for the batch
`swaps`. -/
structure PassASpec (edges : List edge_t) (swaps : List SwapDescriptor) (a : DepChainResult) :
    Prop where
  mask : a.edge_remains_valid = mask_spec edges.length swaps
  dep_sorted : a._depchain_edge_sorter.Sorted (· < ·)
  dep_mem : ∀ msg, msg ∈ a._depchain_edge_sorter ↔ DepSpec edges swaps msg
  succ_sorted : a._depchain_successor_sorter.Sorted (· < ·)
  succ_mem : ∀ msg, msg ∈ a._depchain_successor_sorter ↔ SuccSpec swaps msg

/-! ### Reference semantics: the swaps applied one after the other -/

/-- Reference: the pre-states and would-be new edges of swap `s` on the edge
list `cur`, indexed by edge id. -/
def ref_edges (cur : List edge_t) (s : SwapDescriptor) : SwapEdges :=
  let e0 := cur.getD s.edges0 ⟨0, 0⟩
  let e1 := cur.getD s.edges1 ⟨0, 0⟩
  let n := _swap_edges e0 e1 s.direction
  ⟨e0, e1, n.1, n.2⟩

/-- Reference: swap `s` is performed on `cur` iff neither new edge is in
`cur` and neither is a loop. -/
def ref_perform (cur : List edge_t) (s : SwapDescriptor) : Bool :=
  !(decide ((ref_edges cur s).new_edges0 ∈ cur) || decide ((ref_edges cur s).new_edges1 ∈ cur) ||
    ((ref_edges cur s).new_edges0.is_loop || (ref_edges cur s).new_edges1.is_loop))

/-- Reference: the edge list after swap `s`. -/
def ref_step (cur : List edge_t) (s : SwapDescriptor) : List edge_t :=
  if ref_perform cur s then
    (cur.set s.edges0 (ref_edges cur s).new_edges0).set s.edges1 (ref_edges cur s).new_edges1
  else cur

/-- Reference: the edge list after all swaps of the batch, in order. -/
def ref_run (cur : List edge_t) (swaps : List SwapDescriptor) : List edge_t :=
  swaps.foldl ref_step cur

/-- Reference: the edge list right before swap `k` of the batch. -/
def ref_state (edges : List edge_t) (swaps : List SwapDescriptor) (k : Nat) : List edge_t :=
  ref_run edges (swaps.take k)

/-- Reference: the `SwapResult` of swap `s` on `cur`. -/
def ref_result (cur : List edge_t) (s : SwapDescriptor) : SwapResult :=
  (SwapResult.mk (ref_perform cur s)
    ((ref_edges cur s).new_edges0.is_loop || (ref_edges cur s).new_edges1.is_loop)
    (ref_edges cur s).new_edges0 (ref_edges cur s).new_edges1
    (decide ((ref_edges cur s).new_edges0 ∈ cur))
    (decide ((ref_edges cur s).new_edges1 ∈ cur))).normalize

/-- State of the loop of Pass B before swap `k`. -/
structure ConflictInv (edges : List edge_t) (swaps : List SwapDescriptor) (k : Nat)
    (st : ConflictState) : Prop where
  pq_asc : st.depchain_pqsort.Ascending
  pq_fresh : st.depchain_pqsort.Fresh
  succ_sorted : st._depchain_successor_sorter.Sorted (· < ·)
  succ_mem : ∀ msg, msg ∈ st._depchain_successor_sorter ↔ (SuccSpec swaps msg ∧ k ≤ msg.swap_id)
  dep_sound : ∀ msg ∈ st.depchain_pqsort.items, next_touch swaps k msg.edge_id msg.swap_id
  dep_complete : ∀ e s, next_touch swaps k e s →
    ⟨s, e, (ref_state edges swaps k).getD e ⟨0, 0⟩⟩ ∈ st.depchain_pqsort.items
  req_lt : ∀ r ∈ st._existence_request_sorter, r.swap_id < k
  req_src : ∀ j d, j < k → swaps[j]? = some d →
    ⟨(ref_edges (ref_state edges swaps j) d).edges0, j, true⟩ ∈ st._existence_request_sorter ∧
    ⟨(ref_edges (ref_state edges swaps j) d).edges1, j, true⟩ ∈ st._existence_request_sorter
  req_tgt : ∀ j d, j < k → swaps[j]? = some d →
    ⟨(ref_edges (ref_state edges swaps j) d).new_edges0, j, false⟩ ∈ st._existence_request_sorter ∧
    ⟨(ref_edges (ref_state edges swaps j) d).new_edges1, j, false⟩ ∈ st._existence_request_sorter

/-- Effect of the pushes of one iteration of Pass B (swap `k` with edge ids
`a`, `b` and successors `succ0`, `succ1`) on the loop state. -/
structure PushRel (k a b succ0 succ1 : Nat) (st st1 : ConflictState) : Prop where
  succ_eq : st1._depchain_successor_sorter = st._depchain_successor_sorter
  sorter_eq : st1.depchain_pqsort._sorter = st.depchain_pqsort._sorter
  value_eq : st1.depchain_pqsort._value = st.depchain_pqsort._value
  src_eq : st1.depchain_pqsort._value_src = st.depchain_pqsort._value_src
  pq_sorted : st.depchain_pqsort._pq.Sorted (· ≤ ·) → st1.depchain_pqsort._pq.Sorted (· ≤ ·)
  pq_same : succ0 = 0 → succ1 = 0 → st1.depchain_pqsort._pq = st.depchain_pqsort._pq
  pq_mono : ∀ x ∈ st.depchain_pqsort._pq, x ∈ st1.depchain_pqsort._pq
  pq_new : ∀ x ∈ st1.depchain_pqsort._pq, x ∈ st.depchain_pqsort._pq ∨
    (succ0 ≠ 0 ∧ x.swap_id = succ0 ∧ x.edge_id = a) ∨
    (succ1 ≠ 0 ∧ x.swap_id = succ1 ∧ x.edge_id = b)
  req_mono : ∀ r ∈ st._existence_request_sorter, r ∈ st1._existence_request_sorter
  req_new : ∀ r ∈ st1._existence_request_sorter, r ∈ st._existence_request_sorter ∨ r.swap_id = k

/-- What Pass B has to produce: the sorted requests name only swaps of the
batch, and every swap has asked about its two actual pre-states (as sources)
and its two actual new edges (as targets). -/
structure PassBSpec (edges : List edge_t) (swaps : List SwapDescriptor)
    (requests : List ExistenceRequestMsg) : Prop where
  sorted : requests.Sorted (· ≤ ·)
  lt : ∀ r ∈ requests, r.swap_id < swaps.length
  src : ∀ j d, swaps[j]? = some d →
    ⟨(ref_edges (ref_state edges swaps j) d).edges0, j, true⟩ ∈ requests ∧
    ⟨(ref_edges (ref_state edges swaps j) d).edges1, j, true⟩ ∈ requests
  tgt : ∀ j d, swaps[j]? = some d →
    ⟨(ref_edges (ref_state edges swaps j) d).new_edges0, j, false⟩ ∈ requests ∧
    ⟨(ref_edges (ref_state edges swaps j) d).new_edges1, j, false⟩ ∈ requests

/-- Swap `s` has asked about edge `e` (as a source or as a target). -/
def asks (R : List ExistenceRequestMsg) (e : edge_t) (s : Nat) : Prop :=
  ∃ f, (⟨e, s, f⟩ : ExistenceRequestMsg) ∈ R

/-- Swap `s` has asked about edge `e` as a target (`forward_only = false`). -/
def targets (R : List ExistenceRequestMsg) (e : edge_t) (s : Nat) : Prop :=
  (⟨e, s, false⟩ : ExistenceRequestMsg) ∈ R

/-- What Pass C has to emit as existence successors for the requests `R`:
the links between consecutive askers of an edge, up to its last target. -/
def ExSuccSpec (R : List ExistenceRequestMsg) (msg : ExistenceSuccessorMsg) : Prop :=
  asks R msg.edge msg.swap_id ∧ asks R msg.edge msg.successor ∧ msg.swap_id < msg.successor ∧
    (∀ t, msg.swap_id < t → t < msg.successor → ¬ asks R msg.edge t) ∧
    ∃ t, msg.successor ≤ t ∧ targets R msg.edge t

/-- What Pass C has to emit as existence infos for the requests `R`: one
answer per edge that is a target, addressed to its earliest asker. -/
def ExInfoSpec (edges : List edge_t) (R : List ExistenceRequestMsg) (msg : ExistenceInfoMsg) :
    Prop :=
  asks R msg.edge msg.swap_id ∧ (∀ t, asks R msg.edge t → msg.swap_id ≤ t) ∧
    (∃ t, targets R msg.edge t) ∧ msg.exists_bit = decide (msg.edge ∈ edges)

/-- What Pass C has to produce. -/
structure PassCSpec (edges : List edge_t) (R : List ExistenceRequestMsg) (c : ExistenceResult) :
    Prop where
  succ_sorted : c._existence_successor_sorter.Sorted (· ≤ ·)
  succ_mem : ∀ msg, msg ∈ c._existence_successor_sorter ↔ ExSuccSpec R msg
  info_sorted : c._existence_info_sorter.Sorted (· ≤ ·)
  info_mem : ∀ msg, msg ∈ c._existence_info_sorter ↔ ExInfoSpec edges R msg

/-- State of the inner loop of Pass C on the run of edge `c`, after the
requests `P` have been handled. -/
structure ChainInv (c : edge_t) (P : List ExistenceRequestMsg) (todo : List ExistenceRequestMsg)
    (last_swap : Nat) (found : Bool) (succ : List ExistenceSuccessorMsg) : Prop where
  last_le : ∀ q ∈ P, q.edge = c → last_swap ≤ q.swap_id
  last_asks : (∃ q ∈ P, q.edge = c) → asks P c last_swap
  first : (¬ ∃ q ∈ P, q.edge = c) → ∀ r, todo.head? = some r → r.swap_id = last_swap
  found_iff : found = true ↔ ∃ q ∈ P, q.edge = c ∧ q.forward_only = false
  succ_mem : ∀ msg, msg ∈ succ ↔ ExSuccSpec P msg

/-- State of the outer loop of Pass C after the requests `P` (whole runs)
have been handled. -/
structure ExistInv (edges : List edge_t) (P : List ExistenceRequestMsg) (st : ExistenceState) :
    Prop where
  consumed : ∃ consumed, edges = consumed ++ st.edge_reader ∧
    ∀ x ∈ consumed, ∃ q ∈ P, x ≤ q.edge
  succ_mem : ∀ msg, msg ∈ st._existence_successor_sorter ↔ ExSuccSpec P msg
  info_mem : ∀ msg, msg ∈ st._existence_info_sorter ↔ ExInfoSpec edges P msg

/-- Reference: the `SwapResult`s of the batch, one per swap. -/
def ref_results : List edge_t → List SwapDescriptor → List SwapResult
  | _, [] => []
  | cur, s :: rest => ref_result cur s :: ref_results (ref_step cur s) rest

/-- Reference: the pre-states and new edges of every swap of the batch. -/
def ref_log : List edge_t → List SwapDescriptor → List SwapEdges
  | _, [] => []
  | cur, s :: rest => ref_edges cur s :: ref_log (ref_step cur s) rest

/-- An edge list indexed by edge id that is a simple graph: no edge twice,
no loop. -/
def simple_state (cur : List edge_t) : Prop :=
  cur.Nodup ∧ ∀ e ∈ cur, e.is_loop = false

/-- Some swap before position `k` names edge id `e`. -/
def touched_before (swaps : List SwapDescriptor) (k e : Nat) : Prop :=
  ∃ j d, j < k ∧ swaps[j]? = some d ∧ touches d e

/-- The edge-state message Pass D forwards for the successor message
`succ` of swap `swap`. -/
def forward_msg (swap : SwapDescriptor) (edges : SwapEdges) (perform_swap : Bool)
    (succ : DependencyChainSuccessorMsg) : DependencyChainEdgeMsg :=
  ⟨succ.successor, succ.edge_id,
    edges.get (final_index (if succ.edge_id = swap.edges0 then 0 else 1) perform_swap)⟩

/-- State of the loop of Pass D before swap `k`, for the requests `R` of
Pass B: every queue holds exactly what the sequential reference state
`ref_state edges swaps k` prescribes. -/
structure PerformInv (edges : List edge_t) (swaps : List SwapDescriptor)
    (R : List ExistenceRequestMsg) (k : Nat) (st : PerformState) : Prop where
  dep_asc : st.edge_state_pqsort.Ascending
  dep_nodup : st.edge_state_pqsort.items.Nodup
  dep_mem : ∀ msg, msg ∈ st.edge_state_pqsort.items ↔
    (next_touch swaps k msg.edge_id msg.swap_id ∧
      msg.edge = (ref_state edges swaps k).getD msg.edge_id ⟨0, 0⟩)
  succ_sorted : st._depchain_successor_sorter.Sorted (· < ·)
  succ_mem : ∀ msg, msg ∈ st._depchain_successor_sorter ↔ (SuccSpec swaps msg ∧ k ≤ msg.swap_id)
  ex_asc : st.existence_info_pqsort.Ascending
  ex_mem : ∀ msg, msg ∈ st.existence_info_pqsort.items ↔
    (k ≤ msg.swap_id ∧ asks R msg.edge msg.swap_id ∧
      (∃ t, msg.swap_id ≤ t ∧ targets R msg.edge t) ∧
      (∀ r, k ≤ r → r < msg.swap_id → ¬ asks R msg.edge r) ∧
      msg.exists_bit = decide (msg.edge ∈ ref_state edges swaps k))
  exsucc_sorted : st._existence_successor_sorter.Sorted (· ≤ ·)
  exsucc_mem : ∀ msg, msg ∈ st._existence_successor_sorter ↔ (ExSuccSpec R msg ∧ k ≤ msg.swap_id)
  upd_nodup : st._edge_update_sorter.Nodup
  upd_mem : ∀ x, x ∈ st._edge_update_sorter ↔
    ∃ e, e < edges.length ∧ touched_before swaps k e ∧ no_touch_from swaps k e ∧
      (ref_state edges swaps k).getD e ⟨0, 0⟩ = x
  result : st._result = ref_results edges (swaps.take k)
  log : st.state_log = ref_log edges (swaps.take k)

/-- What Pass D has to produce: the results and logged states of the
sequential reference, and one update per touched edge id, holding the edge
the reference leaves there. -/
structure PassDSpec (edges : List edge_t) (swaps : List SwapDescriptor) (d : PerformResult) :
    Prop where
  result : d._result = ref_results edges swaps
  log : d.state_log = ref_log edges swaps
  upd_sorted : d._edge_update_sorter.Sorted (· < ·)
  upd_mem : ∀ x, x ∈ d._edge_update_sorter ↔
    ∃ e, e < edges.length ∧ (∃ s ∈ swaps, touches s e) ∧ (ref_run edges swaps).getD e ⟨0, 0⟩ = x

/-- The edge list the engine currently stands for: `_edges` with the pending
updates of the last iteration merged in. -/
def TFPState.current (st : TFPState) : List edge_t :=
  if st.first_iteration then st._edges
  else EdgeVectorUpdateStream st._edges st.last_update_mask st._edge_update_sorter

/-- Reference: every swap of a batch with the edge list, indexed by edge id,
it is applied to. -/
def ref_trace : List edge_t → List SwapDescriptor → List (List edge_t × SwapDescriptor)
  | _, [] => []
  | cur, s :: rest => (cur, s) :: ref_trace (ref_step cur s) rest

/-- Reference for `run`: the swaps are applied one after the other; after
every sub-batch of `swaps_per_iteration` swaps (all swaps when it is 0) the
edge list is sorted again, which renumbers the edge ids. Returns the final
edge list and, for every swap, the list it was applied to. -/
def ref_tfp (swaps_per_iteration : Nat) :
    Nat → List edge_t → List SwapDescriptor → List edge_t × List (List edge_t × SwapDescriptor)
  | _, L, [] => (L, [])
  | 0, L, _ :: _ => (L, [])
  | fuel + 1, L, swap :: swaps =>
    let n := if swaps_per_iteration ≠ 0 then min (swaps.length + 1) swaps_per_iteration
             else swaps.length + 1
    let r := ref_tfp swaps_per_iteration fuel
      (sorter_sort (ref_run L ((swap :: swaps).take n))) ((swap :: swaps).drop n)
    (r.1, ref_trace L ((swap :: swaps).take n) ++ r.2)

instance (edges : List edge_t) : Decidable (simple_list edges) := by
  unfold simple_list; infer_instance

instance (m : Nat) (swaps : List SwapDescriptor) : Decidable (valid_batch m swaps) := by
  unfold valid_batch; infer_instance

/-- The initial loop state of Pass D for the outputs `a` of Pass A and `c`
of Pass C, as `_perform_swaps` sets it up. -/
def perform_init (a : DepChainResult) (c : ExistenceResult) : PerformState :=
  { edge_state_pqsort := PQSorterMerger.init [] a._depchain_edge_sorter,
    _depchain_successor_sorter := a._depchain_successor_sorter,
    existence_info_pqsort := PQSorterMerger.init [] c._existence_info_sorter,
    _existence_successor_sorter := c._existence_successor_sorter,
    _edge_update_sorter := [],
    _result := [],
    state_log := [] }

/-- Two edges have a node in common. -/
def shares_node (e f : edge_t) : Prop :=
  e.first = f.first ∨ e.first = f.second ∨ e.second = f.first ∨ e.second = f.second

/-- Every edge is stored with its smaller node first (and is no loop). -/
def oriented (edges : List edge_t) : Prop := ∀ e ∈ edges, e.first < e.second

instance (edges : List edge_t) : Decidable (oriented edges) := by
  unfold oriented; infer_instance

/-- The number of times node `v` is an endpoint of an edge of the list (a
loop counts twice). -/
def degree (v : Nat) (edges : List edge_t) : Nat :=
  (edges.map (fun e => e.first)).count v + (edges.map (fun e => e.second)).count v

/-! ## Further definitions: descriptors and the merger as a stream -/

/-- `SwapDescriptor::operator==`: the tuples of the two edge ids and the
direction are equal. -/
def SwapDescriptor.op_eq (s o : SwapDescriptor) : Bool :=
  decide ((s.edges0, s.edges1, s.direction) = (o.edges0, o.edges1, o.direction))

namespace PQSorterMerger

variable {α : Type} [LinearOrder α]

/-- The caller's read loop `for (; !m.empty(); ++m) out.push_back(*m)` with
no push in between; the first argument bounds the trip count. -/
def drain : Nat → PQSorterMerger α → Option (List α)
  | 0, m => if m.empty then some [] else none
  | fuel + 1, m =>
    if m.empty then some []
    else
      match m.deref, m.incr with
      | some x, some m1 =>
        match drain fuel m1 with
        | some rest => some (x :: rest)
        | none => none
      | _, _ => none

end PQSorterMerger

namespace PQSorterMerger

variable {α : Type} [LinearOrder α]

/-- What `operator*` and `source()` have to return in a state whose cached
head is up to date: the sorter head if the queue is empty, the queue top if
the sorter is empty, otherwise the smaller of the two heads, taken from the
sorter exactly when the queue top is strictly larger (so from the queue when
the two are equal). -/
def yields_smaller_head (m : PQSorterMerger α) : Prop :=
  (∀ s ss, m._pq = [] → m._sorter = s :: ss →
    m.deref = some s ∧ m.source = some .SrcSorter) ∧
  (∀ p ps, m._pq = p :: ps → m._sorter = [] →
    m.deref = some p ∧ m.source = some .SrcPriorityQueue) ∧
  (∀ p ps s ss, m._pq = p :: ps → m._sorter = s :: ss →
    m.deref = some (min p s) ∧
    (s < p → m.deref = some s ∧ m.source = some .SrcSorter) ∧
    (¬ s < p → m.deref = some p ∧ m.source = some .SrcPriorityQueue) ∧
    (p = s → m.deref = some p ∧ m.source = some .SrcPriorityQueue))

/-- The priority queue after the items of `Q` have been pushed into the
empty queue. -/
def pq_of (Q : List α) : List α := Q.foldl (fun pq x => pq_push x pq) []

end PQSorterMerger

/-! ## The configuration model (`ConfigurationModel.h`)

Conventions of the embedding.

* `multinode_t` is `uint64_t`: a natural number, with `% 2^64` where the
  code can wrap.
* The random device is an input of the model: `dis64 i` is the `i`-th word
  drawn from `dis64` and `disShift j` the `j`-th shift drawn from
  `disShift`; the code never tests the range of a draw.
* `_mm_crc32_u32` is a hardware instruction; it is a parameter
  `crc32_u32` of the comparator.
* The counter `count_threshold` of the first loop is declared without an
  initial value; the value it happens to hold is the parameter
  `count_threshold` of the model.
* Reading an empty stream, like a failing `assert`, makes a pass return
  `none`. A reference `auto &` into a sorter is the value read at that time.
-/

/-- Constant `NODEMASK`: the 36 low bits. -/
def NODEMASK : Nat := 0x0000000FFFFFFFFF

/-- Function `reverse`: the bit reversal is commented out, the word is
returned as it is. -/
def reverse (a : Nat) : Nat := a

/-- Function `crc64`: two chained CRC32 steps, joined to 64 bits. -/
def crc64 (crc32_u32 : Nat → Nat → Nat) (seed msb lsb : Nat) : Nat :=
  let hash_msb_p := crc32_u32 seed msb % 2 ^ 32
  let hash_lsb_p := crc32_u32 hash_msb_p lsb % 2 ^ 32
  reverse (((hash_msb_p <<< 32) % 2 ^ 64) ||| hash_lsb_p)

/-- Class `MultiNodeMsg`: one 64-bit word `_eid_node`. -/
structure MultiNodeMsg where
  _eid_node : Nat
deriving DecidableEq, Repr

/-- Getter `lsb()`. -/
def MultiNodeMsg.lsb (m : MultiNodeMsg) : Nat := m._eid_node % 2 ^ 32

/-- Getter `msb()`. -/
def MultiNodeMsg.msb (m : MultiNodeMsg) : Nat := (m._eid_node >>> 32) % 2 ^ 32

/-- Getter `node()`: the word masked with `NODEMASK`. -/
def MultiNodeMsg.node (m : MultiNodeMsg) : Nat := m._eid_node &&& NODEMASK

/-- The key of a record, stored "in the 28 msb bits" (class comment of
`MultiNodeMsg`); the class has no getter for it. -/
def MultiNodeMsg.key (m : MultiNodeMsg) : Nat := m._eid_node >>> 36

/-- The hash `MultiNodeMsgComparator::operator()` compares by. -/
def MultiNodeMsg.hash (crc32_u32 : Nat → Nat → Nat) (seed : Nat) (m : MultiNodeMsg) : Nat :=
  crc64 crc32_u32 seed m.msb m.lsb

/-- `MultiNodeMsgComparator::operator()`: `a_hash < b_hash`. -/
def MultiNodeMsgComparator (crc32_u32 : Nat → Nat → Nat) (seed : Nat) (a b : MultiNodeMsg) :
    Bool :=
  decide (a.hash crc32_u32 seed < b.hash crc32_u32 seed)

/-- `_multinodemsg_sorter.sort()`: the records in ascending order of the
comparator (no record is placed before one the comparator puts first). -/
def multinode_sort (crc32_u32 : Nat → Nat → Nat) (seed : Nat) (xs : List MultiNodeMsg) :
    List MultiNodeMsg :=
  xs.insertionSort (fun a b => MultiNodeMsgComparator crc32_u32 seed b a = false)

/-- Constant `MAX_LSB`. -/
def MAX_LSB : Nat := 0x9BE09BAB

/-- Constant `MIN_LSB`. -/
def MIN_LSB : Nat := 0x00000000

/-- Constant `MAX_CRCFORWARD`. -/
def MAX_CRCFORWARD : Nat := 0x641F6454

/-- Method `MultiNodeMsgComparator::_setLimits`: the pair
`{max_inv_msb | MAX_LSB, min_inv_msb | MIN_LSB}` for the 32-bit seed. -/
def _setLimits (seed_ : Nat) : Nat × Nat :=
  let max_inv_msb := (((MAX_CRCFORWARD ^^^ (seed_ % 2 ^ 32)) % 2 ^ 32) <<< 32) % 2 ^ 64
  let min_inv_msb := ((seed_ % 2 ^ 32) <<< 32) % 2 ^ 64
  (max_inv_msb ||| MAX_LSB, min_inv_msb ||| MIN_LSB)

/-- Method `MultiNodeMsgComparator::max_value`. -/
def MultiNodeMsgComparator.max_value (seed : Nat) : MultiNodeMsg := ⟨(_setLimits seed).1⟩

/-- Method `MultiNodeMsgComparator::min_value`. -/
def MultiNodeMsgComparator.min_value (seed : Nat) : MultiNodeMsg := ⟨(_setLimits seed).2⟩

/-- Constructor arguments of `HavelHakimi_ConfigurationModel`, and the
value `count_threshold` holds when the first loop starts. -/
structure CMParams where
  seed : Nat
  node_upperbound : Nat
  threshold : Nat
  max_degree : Nat
  nodes_above_threshold : Nat
  count_threshold : Nat
deriving DecidableEq, Repr

/-- The draws of the two distributions, by position. -/
structure RandomDraws where
  dis64 : Nat → Nat
  disShift : Nat → Nat

/-- Reference, in the spec's words (4.3): the bound
`H = ⌊(2^36 − node_upperbound) / nodes_above_threshold⌋ − 1` of the shift. -/
def spec_shift_bound (node_upperbound nodes_above_threshold : Nat) : Int :=
  ((2 : Int) ^ 36 - (node_upperbound : Int)) / (nodes_above_threshold : Int) - 1

/-- Rounding of a rational to the nearest integer, ties to the even one. -/
def round_even (q : ℚ) : Int :=
  let f := ⌊q⌋
  if q - f < 1 / 2 then f
  else if 1 / 2 < q - f then f + 1
  else if f % 2 = 0 then f else f + 1

/-- The `double` a real value is rounded to (binary64, 53-bit significand,
round to nearest, ties to even). The exponent range is not modelled: every
value `_highDegreeShiftBound` handles lies in the normal range. -/
def round_double (q : ℚ) : ℚ :=
  if q = 0 then 0
  else (round_even (q * (2 : ℚ) ^ (52 - Int.log 2 |q|)) : ℚ) * (2 : ℚ) ^ (Int.log 2 |q| - 52)

/-- Method `_highDegreeShiftBound`:
`(pow(2, 36) - node_upperbound) / nodes_above_threshold - 1` in `double`
arithmetic, every operand converted to `double` and every operation rounded,
the result converted to `multinode_t` by truncation. The conversion is
undefined, here `none`, after a division by zero or when the truncated value
is not a `uint64_t`. -/
def _highDegreeShiftBound (node_upperbound nodes_above_threshold : Nat) : Option Nat :=
  if nodes_above_threshold = 0 then none
  else
    let diff := round_double ((2 : ℚ) ^ 36 - round_double (node_upperbound : ℚ))
    let quot := round_double (diff / round_double (nodes_above_threshold : ℚ))
    let res := round_double (quot - 1)
    if res ≤ -1 ∨ (2 : ℚ) ^ 64 ≤ res then none
    else some ⌊res⌋.toNat

/-- Loop state of `_generateMultiNodes`: the rest of the input stream, the
records pushed so far and the number of draws made. -/
structure MultiNodeState where
  _edges : List edge_t
  _multinodemsg_sorter : List MultiNodeMsg
  drawn64 : Nat
  drawnShift : Nat

/-- Body of the first loop of `_generateMultiNodes` ("do first problematic
nodes"). -/
def widen_step (p : CMParams) (rnd : RandomDraws) (st : MultiNodeState) :
    Option MultiNodeState :=
  match st._edges with
  | [] => none
  | e :: rest =>
    let random_noise := rnd.dis64 st.drawn64 % 2 ^ 64
    let fst_node := (p.node_upperbound +
      (rnd.disShift st.drawnShift % 2 ^ 64) * p.nodes_above_threshold + e.first % 2 ^ 64) % 2 ^ 64
    let m1 : MultiNodeMsg := ⟨(random_noise &&& 0xFFFFFFF000000000) ||| fst_node⟩
    if e.second < p.nodes_above_threshold then
      let snd_node := (p.node_upperbound +
        (rnd.disShift (st.drawnShift + 1) % 2 ^ 64) * p.nodes_above_threshold +
        e.second % 2 ^ 64) % 2 ^ 64
      some { _edges := rest,
             _multinodemsg_sorter := st._multinodemsg_sorter ++
               [m1, ⟨((random_noise <<< 36) % 2 ^ 64) ||| snd_node⟩],
             drawn64 := st.drawn64 + 1,
             drawnShift := st.drawnShift + 2 }
    else
      some { _edges := rest,
             _multinodemsg_sorter := st._multinodemsg_sorter ++
               [m1, ⟨((random_noise <<< 36) % 2 ^ 64) ||| (e.second % 2 ^ 64)⟩],
             drawn64 := st.drawn64 + 1,
             drawnShift := st.drawnShift + 1 }

/-- First loop of `_generateMultiNodes`; the first argument is the number
of trips left, `nodes_above_threshold - count_threshold`. -/
def widen_loop (p : CMParams) (rnd : RandomDraws) : Nat → MultiNodeState → Option MultiNodeState
  | 0, st => some st
  | n + 1, st =>
    match widen_step p rnd st with
    | none => none
    | some st1 => widen_loop p rnd n st1

/-- Second loop of `_generateMultiNodes` ("not so problematic"): two
records per edge. -/
def plain_loop (rnd : RandomDraws) : List edge_t → Nat → List MultiNodeMsg → List MultiNodeMsg
  | [], _, sorter => sorter
  | e :: rest, drawn64, sorter =>
    let random_noise := rnd.dis64 drawn64 % 2 ^ 64
    plain_loop rnd rest (drawn64 + 1)
      (sorter ++ [⟨(random_noise &&& 0xFFFFFFF000000000) ||| (e.first % 2 ^ 64)⟩,
        ⟨((random_noise <<< 36) % 2 ^ 64) ||| (e.second % 2 ^ 64)⟩])

/-- Method `_generateMultiNodes`: the sorted half-edge records. -/
def _generateMultiNodes (crc32_u32 : Nat → Nat → Nat) (p : CMParams) (rnd : RandomDraws)
    (_edges : List edge_t) : Option (List MultiNodeMsg) :=
  if _edges.isEmpty then none
  else
    match widen_loop p rnd (p.nodes_above_threshold - p.count_threshold)
        { _edges := _edges, _multinodemsg_sorter := [], drawn64 := 0, drawnShift := 0 } with
    | none => none
    | some st =>
      let sorter := multinode_sort crc32_u32 p.seed
        (plain_loop rnd st._edges st.drawn64 st._multinodemsg_sorter)
      if sorter.isEmpty then none else some sorter

/-- Loop of `_generateSortedEdgeList`: pairs adjacent records. -/
def pair_loop : List MultiNodeMsg → List edge_t → Option (List edge_t)
  | [], _edge_sorter => some _edge_sorter
  | [_], _ => none
  | fst_node :: snd_node :: rest, _edge_sorter =>
    pair_loop rest
      (_edge_sorter ++
        [if fst_node.node < snd_node.node then ⟨fst_node.node, snd_node.node⟩
         else ⟨snd_node.node, fst_node.node⟩])

/-- Method `_generateSortedEdgeList`. -/
def _generateSortedEdgeList (_multinodemsg_sorter : List MultiNodeMsg) : Option (List edge_t) :=
  if _multinodemsg_sorter.isEmpty then none
  else
    match pair_loop _multinodemsg_sorter [] with
    | none => none
    | some _edge_sorter => some (sorter_sort _edge_sorter)

/-- Method `HavelHakimi_ConfigurationModel::run`; the result is the content
of `_edge_sorter`, the output stream. -/
def HavelHakimi_ConfigurationModel.run (crc32_u32 : Nat → Nat → Nat) (p : CMParams)
    (rnd : RandomDraws) (_edges : List edge_t) : Option (List edge_t) :=
  if _edges.isEmpty then none
  else
    match _generateMultiNodes crc32_u32 p rnd _edges with
    | none => none
    | some _multinodemsg_sorter =>
      if _multinodemsg_sorter.isEmpty then none
      else
        match _generateSortedEdgeList _multinodemsg_sorter with
        | none => none
        | some _edge_sorter => if _edge_sorter.isEmpty then none else some _edge_sorter

/-! ### Notions used to state the properties of the configuration model -/

/-- The endpoint occurrences of an edge list, in order (a loop contributes
its node twice). -/
def endpoints : List edge_t → List Nat
  | [] => []
  | e :: es => e.first :: e.second :: endpoints es

/-- The real node id a (possibly virtual) id of the output stands for:
ids from `node_upperbound` on are virtual ids
`node_upperbound + shift * nodes_above_threshold + a` of node `a`. -/
def real_id (node_upperbound nodes_above_threshold v : Nat) : Nat :=
  if v < node_upperbound then v else (v - node_upperbound) % nodes_above_threshold

/-! ### A concrete hash step

The properties of the configuration model are proved for every function
`crc32_u32`. Where a run is evaluated on concrete data, the step is the one
the instruction `_mm_crc32_u32` computes: CRC-32C, bit-reflected, without
initial or final inversion. -/

/-- The `k` remaining shift steps of CRC-32C (reflected polynomial
`0x82F63B78`). -/
def crc32c_bits : Nat → Nat → Nat
  | 0, x => x
  | k + 1, x => crc32c_bits k (if x % 2 = 1 then (x >>> 1) ^^^ 0x82F63B78 else x >>> 1)

/-- The CRC-32C step of `_mm_crc32_u32(crc, v)` on 32-bit operands. -/
def crc32c_u32 (crc v : Nat) : Nat := crc32c_bits 32 ((crc % 2 ^ 32) ^^^ (v % 2 ^ 32))

/-! ## Undoing the performed swaps of a run -/

/-- The performed swaps of a finished run, last first: for each the two
pre-states and the two new edges, as Pass D logged them. -/
def performed_log (st : TFPState) : List SwapEdges :=
  (((st._result.zip st.state_log).filter (fun p => p.1.performed)).map (fun p => p.2)).reverse

/-- The inverse of a performed swap with log entry `l` on the ascending edge
list `cur`: it names the two edge ids the new edges of `l` have in `cur`,
with the direction bit that gives back the two pre-states of `l`. -/
def inverse_swap (cur : List edge_t) (l : SwapEdges) : SwapDescriptor :=
  let i := cur.indexOf l.new_edges0
  let j := cur.indexOf l.new_edges1
  let n := _swap_edges (cur.getD (min i j) ⟨0, 0⟩) (cur.getD (max i j) ⟨0, 0⟩) true
  ⟨min i j, max i j, decide (n = (l.edges0, l.edges1) ∨ n = (l.edges1, l.edges0))⟩

/-- The ascending edge list `cur` with the two new edges of `l` replaced by
its two pre-states. -/
def undo (cur : List edge_t) (l : SwapEdges) : List edge_t :=
  sorter_sort (l.edges0 :: l.edges1 :: (cur.erase l.new_edges0).erase l.new_edges1)

/-- The batch of inverse swaps for the log entries `log` (last performed
swap first), starting from the ascending edge list `cur`; every inverse
names edge ids of the list the earlier inverses leave. -/
def inverse_batch : List edge_t → List SwapEdges → List SwapDescriptor
  | _, [] => []
  | cur, l :: rest => inverse_swap cur l :: inverse_batch (undo cur l) rest

/-- The performed entries of a trace, last first. -/
def performed_rev (T : List (List edge_t × SwapDescriptor)) :
    List (List edge_t × SwapDescriptor) :=
  (T.filter (fun p => ref_perform p.1 p.2)).reverse

/-- A list `X` that stands at the end of a chain of performed swaps `Q`
(last first) leading back to `L`: `X` holds the edges left by the last swap
of `Q`, every swap of `Q` was applied to a simple oriented list holding the
edges left by the swap before it, and the first to the edges of `L`. -/
def UndoChain (L : List edge_t) : List edge_t → List (List edge_t × SwapDescriptor) → Prop
  | X, [] => X.Perm L
  | X, (cur, d) :: rest =>
    X.Perm (ref_step cur d) ∧ ref_perform cur d = true ∧ simple_state cur ∧ oriented cur ∧
      d.edges0 < d.edges1 ∧ d.edges1 < cur.length ∧ UndoChain L cur rest

/-! ## Notions used to state the properties of the single passes -/

/-- State of the merge scan of Pass A after the messages `done`, as far as
the reader and the mask go; the messages may repeat. -/
structure MaskInv (edges : List edge_t) (done : List (Nat ×ₗ Nat)) (st : DepChainState) :
    Prop where
  reader : st.edge_reader = edges.drop st.eid
  eid_le : st.eid ≤ edges.length
  done_lt : ∀ p ∈ done, (ofLex p).1 < st.eid
  last_mem : done ≠ [] → ∃ p ∈ done, (ofLex p).1 + 1 = st.eid
  eid_zero : done = [] → st.eid = 0
  mask_len : st.edge_remains_valid.length = st.eid
  mask_get : ∀ i, i < st.eid →
    st.edge_remains_valid[i]? = some (decide (∀ p ∈ done, (ofLex p).1 ≠ i))

/-- The edge ids named by some swap of the batch, each listed once. -/
def touched_ids (swaps : List SwapDescriptor) : List Nat :=
  (swaps.flatMap (fun s => [s.edges0, s.edges1])).dedup

/-- The positions of the swaps of the batch that name edge id `e`, in
ascending order: the swaps `s_1 < s_2 < ... < s_k` touching `e`. -/
def touching (swaps : List SwapDescriptor) (e : Nat) : List Nat :=
  (List.range swaps.length).filter (fun j =>
    match swaps[j]? with
    | some d => decide (touches d e)
    | none => false)

/-- The successor messages `{s_j, e, s_(j+1)}` linking the consecutive
members of the ascending list `T` of swaps touching edge id `e`. -/
def chain_links (e : Nat) (T : List Nat) : List DependencyChainSuccessorMsg :=
  List.zipWith (fun s next => ⟨s, e, next⟩) T T.tail

/-- The existence requests one iteration of Pass B pushes for swap `sid`
with state sets `E0`, `E1`, in the order of the pushes. -/
def pushed_requests (sid : Nat) (swap : SwapDescriptor) (E0 E1 : List edge_t) :
    List ExistenceRequestMsg :=
  E0.flatMap (fun e1 => E1.flatMap (fun e2 =>
    [⟨(_swap_edges e1 e2 swap.direction).1, sid, false⟩,
     ⟨(_swap_edges e1 e2 swap.direction).2, sid, false⟩])) ++
  E0.map (fun e => ⟨e, sid, true⟩) ++ E1.map (fun e => ⟨e, sid, true⟩)

/-- The messages one iteration of Pass B pushes into the dependency queue
for side 0 (edge id `swap.edges0`) when its successor is `succ`. -/
def pushed_states0 (succ : Nat) (swap : SwapDescriptor) (E0 E1 : List edge_t) :
    List DependencyChainEdgeMsg :=
  E0.flatMap (fun e1 => E1.map (fun e2 =>
    ⟨succ, swap.edges0, (_swap_edges e1 e2 swap.direction).1⟩)) ++
  E0.map (fun e => ⟨succ, swap.edges0, e⟩)

/-- The messages one iteration of Pass B pushes into the dependency queue
for side 1 (edge id `swap.edges1`) when its successor is `succ`. -/
def pushed_states1 (succ : Nat) (swap : SwapDescriptor) (E0 E1 : List edge_t) :
    List DependencyChainEdgeMsg :=
  E0.flatMap (fun e1 => E1.map (fun e2 =>
    ⟨succ, swap.edges1, (_swap_edges e1 e2 swap.direction).2⟩)) ++
  E1.map (fun e => ⟨succ, swap.edges1, e⟩)

/-- Effect of a sequence of pushes of Pass B on the loop state: the requests
`reqs` are appended to the request sorter and the messages `msgs` are added
to the dependency queue; the sorters that are read stay as they are. -/
structure PushEff (st st1 : ConflictState) (reqs : List ExistenceRequestMsg)
    (msgs : List DependencyChainEdgeMsg) : Prop where
  req : st1._existence_request_sorter = st._existence_request_sorter ++ reqs
  pq : st1.depchain_pqsort._pq.Perm (st.depchain_pqsort._pq ++ msgs)
  sorter : st1.depchain_pqsort._sorter = st.depchain_pqsort._sorter
  succ : st1._depchain_successor_sorter = st._depchain_successor_sorter

/-- The start state of the loop of Pass B on the output `a` of Pass A. -/
def conflicts_init (a : DepChainResult) : ConflictState :=
  { _depchain_successor_sorter := a._depchain_successor_sorter,
    depchain_pqsort := PQSorterMerger.init [] a._depchain_edge_sorter,
    _existence_request_sorter := [] }

/-- State of the outer loop of Pass C after the requests `P`, as far as the
reader and the emitted infos go; the requests need only be grouped by edge. -/
structure BitInv (edges : List edge_t) (P : List ExistenceRequestMsg) (st : ExistenceState) :
    Prop where
  consumed : ∃ consumed, edges = consumed ++ st.edge_reader ∧
    ∀ x ∈ consumed, ∃ q ∈ P, x ≤ q.edge
  bit : ∀ msg ∈ st._existence_info_sorter, msg.exists_bit = decide (msg.edge ∈ edges)
  asked : ∀ msg ∈ st._existence_info_sorter, ∃ q ∈ P, q.edge = msg.edge
  nodup : (st._existence_info_sorter.map (fun msg => msg.edge)).Nodup

/-! ## Pass D: the bit forwarded along an existence successor -/

/-- The bit the loop "forward existence information" of Pass D sends for the
edge `e`, by its three branches: `true` for a final edge of the swap (a new
edge when performed, an old edge when not), `false` for an old edge of a
performed swap, and otherwise whether `e` is among `existence_infos`. -/
def forwarded_bit (edges : SwapEdges) (perform_swap : Bool) (existence_infos : List edge_t)
    (e : edge_t) : Bool :=
  if (perform_swap = true ∧ (e = edges.new_edges0 ∨ e = edges.new_edges1)) ∨
      (perform_swap = false ∧ (e = edges.edges0 ∨ e = edges.edges1)) then true
  else if e = edges.edges0 ∨ e = edges.edges1 then false
  else binary_search existence_infos e

/-! ## `MonotonicUniformRandomStream` (`Utils/MonotonicUniformRandomStream.h`)

The stream computes on `double` with the arithmetic of the standard library
and `std::pow`; these operations are parameters of the model, as is the
sequence of values `_randDistr(_randomGen)` returns for the seed. A failing
`assert` makes the operation return `none`. -/

/-- The operations on the floating-point type `T = double` the stream uses. -/
structure DoubleOps (T : Type) where
  zero : T
  one : T
  sub : T → T → T
  mul : T → T → T
  div : T → T → T
  pow : T → T → T
  ofNat : Nat → T

/-- Class `MonotonicUniformRandomStream`: `_randomGen` is the number of
values drawn so far. -/
structure MonotonicUniformRandomStream (T : Type) where
  _randomGen : Nat
  _elements_left : Nat
  _empty : Bool
  _current : T

namespace MonotonicUniformRandomStream

variable {T : Type}

/-- The member initialisers of the constructor, before its body runs. -/
def start (ops : DoubleOps T) (Increasing : Bool) (elements : Nat) :
    MonotonicUniformRandomStream T :=
  { _randomGen := 0, _elements_left := elements, _empty := elements == 0,
    _current := if Increasing then ops.zero else ops.one }

/-- Method `operator++`, with its assertion `!_empty`. -/
def incr (ops : DoubleOps T) (rnd : Nat → T) (Increasing : Bool)
    (s : MonotonicUniformRandomStream T) : Option (MonotonicUniformRandomStream T) :=
  if s._empty then none
  else if s._elements_left = 0 then some { s with _empty := true }
  else
    let factor := ops.pow (ops.sub ops.one (rnd s._randomGen))
      (ops.div ops.one (ops.ofNat s._elements_left))
    some { s with
      _current :=
        if Increasing then ops.sub ops.one (ops.mul (ops.sub ops.one s._current) factor)
        else ops.mul s._current factor,
      _randomGen := s._randomGen + 1,
      _elements_left := s._elements_left - 1 }

/-- The constructor: the initialisers followed by `++(*this)`. -/
def init (ops : DoubleOps T) (rnd : Nat → T) (Increasing : Bool) (elements : Nat) :
    Option (MonotonicUniformRandomStream T) :=
  incr ops rnd Increasing (start ops Increasing elements)

/-- Method `operator*`. -/
def deref (s : MonotonicUniformRandomStream T) : T := s._current

/-- Method `empty()`. -/
def empty (s : MonotonicUniformRandomStream T) : Bool := s._empty

/-- `k` increments in a row. -/
def incr_n (ops : DoubleOps T) (rnd : Nat → T) (Increasing : Bool) :
    Nat → MonotonicUniformRandomStream T → Option (MonotonicUniformRandomStream T)
  | 0, s => some s
  | k + 1, s =>
    match incr ops rnd Increasing s with
    | none => none
    | some s1 => incr_n ops rnd Increasing k s1

end MonotonicUniformRandomStream

/-! ## `std::binary_search` on an ascending list -/

theorem lower_bound_spec (xs : List edge_t) (val : edge_t) (hs : xs.Sorted (· ≤ ·)) :
    ∀ (fuel first count : Nat), count ≤ fuel → first + count ≤ xs.length →
      (∀ i (h : i < xs.length), i < first → xs[i] < val) →
      (∀ i (h : i < xs.length), first + count ≤ i → ¬ xs[i] < val) →
      (∀ i (h : i < xs.length), i < lower_bound xs val fuel first count → xs[i] < val) ∧
      (∀ i (h : i < xs.length), lower_bound xs val fuel first count ≤ i → ¬ xs[i] < val) := by
  intro fuel
  induction fuel with
  | zero =>
    intro first count hc _ hlo hhi
    have : count = 0 := by omega
    subst this
    simp only [lower_bound]
    exact ⟨hlo, fun i h hi => hhi i h (by omega)⟩
  | succ fuel ih =>
    intro first count hc hlen hlo hhi
    simp only [lower_bound]
    by_cases h0 : count = 0
    · subst h0
      simp only [if_true]
      exact ⟨hlo, fun i h hi => hhi i h (by omega)⟩
    · simp only [h0, if_false]
      have hmid : first + count / 2 < xs.length := by
        have : count / 2 < count := Nat.div_lt_self (by omega) (by omega)
        omega
      rw [List.getElem?_eq_getElem hmid]
      simp only
      have hpw := List.pairwise_iff_getElem.mp hs
      by_cases hx : xs[first + count / 2] < val
      · simp only [hx, if_true]
        apply ih
        · have : count / 2 < count := Nat.div_lt_self (by omega) (by omega)
          omega
        · have : count / 2 < count := Nat.div_lt_self (by omega) (by omega)
          omega
        · intro i h hi
          by_cases hi2 : i = first + count / 2
          · subst hi2; exact hx
          · have hle := hpw i (first + count / 2) h hmid (by omega)
            exact lt_of_le_of_lt hle hx
        · intro i h hi
          apply hhi i h
          have : count / 2 < count := Nat.div_lt_self (by omega) (by omega)
          omega
      · simp only [hx, if_false]
        apply ih
        · have : count / 2 < count := Nat.div_lt_self (by omega) (by omega)
          omega
        · have : count / 2 < count := Nat.div_lt_self (by omega) (by omega)
          omega
        · exact hlo
        · intro i h hi
          by_cases hi2 : i = first + count / 2
          · subst hi2; exact hx
          · have hle := hpw (first + count / 2) i hmid h (by omega)
            intro hlt
            exact hx (lt_of_le_of_lt hle hlt)

theorem binary_search_eq_mem (xs : List edge_t) (val : edge_t) (hs : xs.Sorted (· ≤ ·)) :
    binary_search xs val = decide (val ∈ xs) := by
  have hspec := lower_bound_spec xs val hs xs.length 0 xs.length (le_refl _) (by omega)
    (fun i _ hi => absurd hi (by omega)) (fun i h hi => absurd h (by omega))
  obtain ⟨hlo, hhi⟩ := hspec
  unfold binary_search
  generalize lower_bound xs val xs.length 0 xs.length = r at hlo hhi
  by_cases hr : r < xs.length
  · rw [List.getElem?_eq_getElem hr]
    simp only
    have hnr := hhi r hr (le_refl _)
    by_cases hmem : val ∈ xs
    · obtain ⟨j, hj, hjv⟩ := List.getElem_of_mem hmem
      have hrj : r ≤ j := by
        by_contra hcon
        have := hlo j hj (by omega)
        rw [hjv] at this
        exact lt_irrefl _ this
      have hle : xs[r] ≤ val := by
        rcases Nat.eq_or_lt_of_le hrj with h | h
        · subst h; rw [hjv]
        · have := List.pairwise_iff_getElem.mp hs r j hr hj h
          rw [hjv] at this; exact this
      have : ¬ val < xs[r] := not_lt.mpr hle
      simp [this, hmem]
    · have hne : xs[r] ≠ val := fun h => hmem (h ▸ List.getElem_mem hr)
      have : val < xs[r] := lt_of_le_of_ne (not_lt.mp hnr) (Ne.symm hne)
      simp [this, hmem]
  · rw [List.getElem?_eq_none (by omega)]
    have hmem : val ∉ xs := by
      intro hmem
      obtain ⟨j, hj, hjv⟩ := List.getElem_of_mem hmem
      have := hlo j hj (by omega)
      rw [hjv] at this
      exact lt_irrefl _ this
    simp [hmem]

/-! ## The merger of a priority queue and a sorter -/

namespace PQSorterMerger

variable {α : Type} [LinearOrder α]

omit [LinearOrder α] in
theorem empty_iff (m : PQSorterMerger α) : m.empty = true ↔ m.items = [] := by
  cases m with
  | mk pq sorter src v =>
    cases pq <;> cases sorter <;> simp [empty, items]

omit [LinearOrder α] in
theorem empty_false_iff (m : PQSorterMerger α) : m.empty = false ↔ m.items ≠ [] := by
  have h := empty_iff m
  cases he : m.empty
  · simp only [true_iff]
    intro hi
    rw [h.mpr hi] at he
    exact Bool.noConfusion he
  · simp only [false_iff, ne_eq, not_not, Bool.true_eq_false]
    exact h.mp he

theorem fetch_pq (m m1 : PQSorterMerger α) (h : m._fetch = some m1) :
    m1._pq = m._pq ∧ m1._sorter = m._sorter := by
  cases m with
  | mk pq sorter src v =>
    cases pq with
    | nil =>
      cases sorter with
      | nil => simp [_fetch] at h
      | cons s ss => simp only [_fetch, Option.some.injEq] at h; subst h; exact ⟨rfl, rfl⟩
    | cons p ps =>
      cases sorter with
      | nil => simp only [_fetch, Option.some.injEq] at h; subst h; exact ⟨rfl, rfl⟩
      | cons s ss =>
        simp only [_fetch] at h
        split at h <;> (simp only [Option.some.injEq] at h; subst h; exact ⟨rfl, rfl⟩)

theorem fetch_isSome (m : PQSorterMerger α) (h : m.items ≠ []) : ∃ m1, m._fetch = some m1 := by
  cases m with
  | mk pq sorter src v =>
    cases pq with
    | nil =>
      cases sorter with
      | nil => simp [items] at h
      | cons s ss => exact ⟨_, rfl⟩
    | cons p ps =>
      cases sorter with
      | nil => exact ⟨_, rfl⟩
      | cons s ss =>
        simp only [_fetch]
        split <;> exact ⟨_, rfl⟩

theorem fetch_idem (m m1 : PQSorterMerger α) (h : m._fetch = some m1) : m1._fetch = some m1 := by
  cases m with
  | mk pq sorter src v =>
    cases pq with
    | nil =>
      cases sorter with
      | nil => simp [_fetch] at h
      | cons s ss => simp only [_fetch, Option.some.injEq] at h; subst h; rfl
    | cons p ps =>
      cases sorter with
      | nil => simp only [_fetch, Option.some.injEq] at h; subst h; rfl
      | cons s ss =>
        simp only [_fetch] at h
        split at h
        · rename_i hlt
          simp only [Option.some.injEq] at h; subst h
          simp [_fetch, hlt]
        · rename_i hlt
          simp only [Option.some.injEq] at h; subst h
          simp [_fetch, hlt]

theorem fetch_fresh (m m1 : PQSorterMerger α) (h : m._fetch = some m1) : m1.Fresh := by
  unfold Fresh update
  rw [fetch_idem m m1 h]
  split <;> rfl

theorem fresh_of_empty (m : PQSorterMerger α) (h : m.items = []) : m.Fresh := by
  unfold Fresh update
  rw [(empty_iff m).mpr h]; rfl

theorem update_pq (m : PQSorterMerger α) :
    m.update._pq = m._pq ∧ m.update._sorter = m._sorter := by
  unfold update
  split
  · exact ⟨rfl, rfl⟩
  · cases hf : m._fetch with
    | none => exact ⟨rfl, rfl⟩
    | some m1 => exact fetch_pq m m1 hf

theorem update_items (m : PQSorterMerger α) : m.update.items = m.items := by
  unfold items
  rw [(update_pq m).1, (update_pq m).2]

theorem update_fresh (m : PQSorterMerger α) : m.update.Fresh := by
  by_cases h : m.items = []
  · apply fresh_of_empty
    rw [update_items]; exact h
  · obtain ⟨m1, hm1⟩ := fetch_isSome m h
    have : m.update = m1 := by
      unfold update
      rw [(empty_false_iff m).mpr h, hm1]; rfl
    rw [this]
    exact fetch_fresh m m1 hm1

theorem update_ascending (m : PQSorterMerger α) (h : m.Ascending) : m.update.Ascending := by
  unfold Ascending
  rw [(update_pq m).1, (update_pq m).2]
  exact h

theorem init_items (pq sorter : List α) : (init pq sorter).items = pq ++ sorter := by
  unfold init
  rw [update_items]; rfl

theorem init_pq (pq sorter : List α) :
    (init pq sorter)._pq = pq ∧ (init pq sorter)._sorter = sorter := by
  unfold init
  exact update_pq _

theorem init_fresh (pq sorter : List α) : (init pq sorter).Fresh := update_fresh _

theorem pq_pushed_items_perm (m : PQSorterMerger α) (x : α) :
    (m.pq_pushed x).items.Perm (x :: m.items) := by
  unfold pq_pushed items pq_push
  simp only
  exact (List.perm_orderedInsert _ x m._pq).append_right m._sorter

theorem pq_pushed_ascending (m : PQSorterMerger α) (x : α) (h : m.Ascending) :
    (m.pq_pushed x).Ascending := by
  unfold pq_pushed Ascending pq_push
  exact ⟨List.Sorted.orderedInsert x _ h.1, h.2⟩

/-- The cached head of a fresh merger with ascending sources is a least
item, and `operator++` removes exactly that item. -/
theorem pop_spec (m : PQSorterMerger α) (hasc : m.Ascending) (hfresh : m.Fresh)
    (hne : m.items ≠ []) :
    ∃ x m1, m.deref = some x ∧ m.incr = some m1 ∧ m1.Ascending ∧ m1.Fresh ∧
      m.items.Perm (x :: m1.items) ∧ (∀ y ∈ m.items, x ≤ y) ∧
      (m1._pq = m._pq ∨ m1._pq = m._pq.tail) ∧
      (m1._sorter = m._sorter ∨ m1._sorter = m._sorter.tail) := by
  have hemp : m.empty = false := (empty_false_iff m).mpr hne
  have hfix : m._fetch = some m := by
    obtain ⟨m1, hm1⟩ := fetch_isSome m hne
    have h2 : m.update = m1 := by
      unfold update; rw [hemp, hm1]; rfl
    unfold Fresh at hfresh
    rw [hfresh] at h2
    rw [hm1, h2]
  -- finishing step shared by all cases
  have finish : ∀ (m0 : PQSorterMerger α), m0.Ascending →
      ∃ m1, (if m0.empty then some m0 else m0._fetch) = some m1 ∧ m1.Ascending ∧ m1.Fresh ∧
        m1._pq = m0._pq ∧ m1._sorter = m0._sorter := by
    intro m0 h0
    by_cases he : m0.items = []
    · refine ⟨m0, ?_, h0, fresh_of_empty m0 he, rfl, rfl⟩
      rw [(empty_iff m0).mpr he]; rfl
    · obtain ⟨m1, hm1⟩ := fetch_isSome m0 he
      have hp := fetch_pq m0 m1 hm1
      refine ⟨m1, ?_, ?_, fetch_fresh m0 m1 hm1, hp.1, hp.2⟩
      · rw [(empty_false_iff m0).mpr he, hm1]; rfl
      · unfold Ascending; rw [hp.1, hp.2]; exact h0
  cases m with
  | mk pq sorter src v =>
    cases pq with
    | nil =>
      cases sorter with
      | nil => simp [items] at hne
      | cons s ss =>
        simp only [_fetch, Option.some.injEq, mk.injEq, true_and] at hfix
        obtain ⟨hsrc, hv⟩ := hfix
        subst hsrc; subst hv
        have hasc' : (PQSorterMerger.mk ([] : List α) ss .SrcSorter (some s)).Ascending :=
          ⟨hasc.1, hasc.2.of_cons⟩
        obtain ⟨m1, h1, h2, h3, h4, h5⟩ := finish _ hasc'
        refine ⟨s, m1, ?_, ?_, h2, h3, ?_, ?_, Or.inl h4, Or.inr h5⟩
        · simp [deref, hemp]
        · simp only [incr, hemp]
          exact h1
        · simp only [items, h4, h5, List.nil_append]
          exact List.Perm.refl _
        · intro y hy
          simp only [items, List.nil_append, List.mem_cons] at hy
          rcases hy with rfl | hy
          · exact le_refl _
          · exact List.rel_of_sorted_cons hasc.2 y hy
    | cons p ps =>
      cases sorter with
      | nil =>
        simp only [_fetch, Option.some.injEq, mk.injEq, true_and] at hfix
        obtain ⟨hsrc, hv⟩ := hfix
        subst hsrc; subst hv
        have hasc' : (PQSorterMerger.mk ps ([] : List α) .SrcPriorityQueue (some p)).Ascending :=
          ⟨hasc.1.of_cons, hasc.2⟩
        obtain ⟨m1, h1, h2, h3, h4, h5⟩ := finish _ hasc'
        refine ⟨p, m1, ?_, ?_, h2, h3, ?_, ?_, Or.inr h4, Or.inl h5⟩
        · simp [deref, hemp]
        · simp only [incr, hemp]
          exact h1
        · simp only [items, h4, h5, List.append_nil]
          exact List.Perm.refl _
        · intro y hy
          simp only [items, List.append_nil, List.mem_cons] at hy
          rcases hy with rfl | hy
          · exact le_refl _
          · exact List.rel_of_sorted_cons hasc.1 y hy
      | cons s ss =>
        simp only [_fetch] at hfix
        by_cases hps : p > s
        · simp only [hps, if_true, Option.some.injEq, mk.injEq, true_and] at hfix
          obtain ⟨hsrc, hv⟩ := hfix
          subst hsrc; subst hv
          have hasc' : (PQSorterMerger.mk (p :: ps) ss .SrcSorter (some s)).Ascending :=
            ⟨hasc.1, hasc.2.of_cons⟩
          obtain ⟨m1, h1, h2, h3, h4, h5⟩ := finish _ hasc'
          refine ⟨s, m1, ?_, ?_, h2, h3, ?_, ?_, Or.inl h4, Or.inr h5⟩
          · simp [deref, hemp]
          · simp only [incr, hemp]
            exact h1
          · simp only [items, h4, h5]
            exact List.perm_middle
          · intro y hy
            simp only [items, List.mem_append, List.mem_cons] at hy
            rcases hy with (rfl | hy) | (rfl | hy)
            · exact le_of_lt hps
            · exact le_trans (le_of_lt hps) (List.rel_of_sorted_cons hasc.1 y hy)
            · exact le_refl _
            · exact List.rel_of_sorted_cons hasc.2 y hy
        · simp only [hps, if_false, Option.some.injEq, mk.injEq, true_and] at hfix
          obtain ⟨hsrc, hv⟩ := hfix
          subst hsrc; subst hv
          have hasc' : (PQSorterMerger.mk ps (s :: ss) .SrcPriorityQueue (some p)).Ascending :=
            ⟨hasc.1.of_cons, hasc.2⟩
          obtain ⟨m1, h1, h2, h3, h4, h5⟩ := finish _ hasc'
          refine ⟨p, m1, ?_, ?_, h2, h3, ?_, ?_, Or.inr h4, Or.inl h5⟩
          · simp [deref, hemp]
          · simp only [incr, hemp]
            exact h1
          · simp only [items, h4, h5, List.cons_append]
            exact List.Perm.refl _
          · have hle : p ≤ s := not_lt.mp hps
            intro y hy
            simp only [items, List.mem_append, List.mem_cons] at hy
            rcases hy with (rfl | hy) | (rfl | hy)
            · exact le_refl _
            · exact List.rel_of_sorted_cons hasc.1 y hy
            · exact hle
            · exact le_trans hle (List.rel_of_sorted_cons hasc.2 y hy)

omit [LinearOrder α] in
theorem deref_none_of_empty (m : PQSorterMerger α) (h : m.items = []) : m.deref = none := by
  unfold deref
  rw [(empty_iff m).mpr h]; rfl

omit [LinearOrder α] in
theorem size_eq (m : PQSorterMerger α) : m.size = m.items.length := by
  simp [size, items]

end PQSorterMerger

/-! ## The comparators, unfolded -/

theorem edge_le_iff (a b : edge_t) :
    a ≤ b ↔ a.first < b.first ∨ (a.first = b.first ∧ a.second ≤ b.second) :=
  Prod.Lex.le_iff (a.first, a.second) (b.first, b.second)

theorem edge_lt_iff (a b : edge_t) :
    a < b ↔ a.first < b.first ∨ (a.first = b.first ∧ a.second < b.second) :=
  Prod.Lex.lt_iff (a.first, a.second) (b.first, b.second)

theorem depchain_edge_le_iff (a b : DependencyChainEdgeMsg) :
    a ≤ b ↔ a.swap_id < b.swap_id ∨ (a.swap_id = b.swap_id ∧
      (a.edge_id < b.edge_id ∨ (a.edge_id = b.edge_id ∧ a.edge ≤ b.edge))) := by
  show toLex (a.swap_id, toLex (a.edge_id, a.edge)) ≤ toLex (b.swap_id, toLex (b.edge_id, b.edge)) ↔ _
  simp only [Prod.Lex.le_iff]

theorem depchain_succ_le_iff (a b : DependencyChainSuccessorMsg) :
    a ≤ b ↔ a.swap_id < b.swap_id ∨ (a.swap_id = b.swap_id ∧
      (a.edge_id < b.edge_id ∨ (a.edge_id = b.edge_id ∧ a.successor ≤ b.successor))) := by
  show toLex (a.swap_id, toLex (a.edge_id, a.successor)) ≤
    toLex (b.swap_id, toLex (b.edge_id, b.successor)) ↔ _
  simp only [Prod.Lex.le_iff]

theorem existence_info_le_iff (a b : ExistenceInfoMsg) :
    a ≤ b ↔ a.swap_id < b.swap_id ∨ (a.swap_id = b.swap_id ∧
      (a.edge < b.edge ∨ (a.edge = b.edge ∧ a.exists_bit ≤ b.exists_bit))) := by
  show toLex (a.swap_id, toLex (a.edge, a.exists_bit)) ≤
    toLex (b.swap_id, toLex (b.edge, b.exists_bit)) ↔ _
  simp only [Prod.Lex.le_iff]

theorem existence_succ_le_iff (a b : ExistenceSuccessorMsg) :
    a ≤ b ↔ a.swap_id < b.swap_id ∨ (a.swap_id = b.swap_id ∧
      (a.edge < b.edge ∨ (a.edge = b.edge ∧ a.successor ≤ b.successor))) := by
  show toLex (a.swap_id, toLex (a.edge, a.successor)) ≤
    toLex (b.swap_id, toLex (b.edge, b.successor)) ↔ _
  simp only [Prod.Lex.le_iff]

theorem existence_request_le_iff (a b : ExistenceRequestMsg) :
    a ≤ b ↔ a.edge < b.edge ∨ (a.edge = b.edge ∧
      (b.swap_id < a.swap_id ∨ (a.swap_id = b.swap_id ∧ a.forward_only ≤ b.forward_only))) := by
  show toLex (a.edge, toLex (OrderDual.toDual a.swap_id, a.forward_only)) ≤
    toLex (b.edge, toLex (OrderDual.toDual b.swap_id, b.forward_only)) ↔ _
  simp only [Prod.Lex.le_iff, OrderDual.toDual_lt_toDual, EmbeddingLike.apply_eq_iff_eq]

theorem lex_pair_le_iff (a b : Nat ×ₗ Nat) :
    a ≤ b ↔ (ofLex a).1 < (ofLex b).1 ∨ ((ofLex a).1 = (ofLex b).1 ∧ (ofLex a).2 ≤ (ofLex b).2) :=
  Prod.Lex.le_iff (ofLex a) (ofLex b)

/-- The head of an ascending list is its least member. -/
theorem head_of_least {α : Type} [LinearOrder α] (l : List α) (x : α)
    (hs : l.Sorted (· ≤ ·)) (hx : x ∈ l) (hmin : ∀ y ∈ l, x ≤ y) :
    ∃ rest, l = x :: rest := by
  cases l with
  | nil => simp at hx
  | cons a rest =>
    refine ⟨rest, ?_⟩
    have h1 : x ≤ a := hmin a (List.mem_cons_self _ _)
    have h2 : a ≤ x := by
      rcases List.mem_cons.mp hx with rfl | h
      · exact le_refl _
      · exact List.rel_of_sorted_cons hs x h
    rw [le_antisymm h1 h2]

/-! ## Pass A -/

theorem mem_edge_swap_msgs (swaps : List SwapDescriptor) (k : Nat) (p : Nat ×ₗ Nat) :
    p ∈ edge_swap_msgs swaps k ↔
      ∃ j d, swaps[j]? = some d ∧ (ofLex p).2 = k + j ∧ touches d (ofLex p).1 := by
  induction swaps generalizing k with
  | nil => simp [edge_swap_msgs]
  | cons d rest ih =>
    simp only [edge_swap_msgs, List.mem_cons, ih]
    constructor
    · rintro (h | h | ⟨j, d', hj, h2, h3⟩)
      · subst h
        exact ⟨0, d, by simp, rfl, Or.inl rfl⟩
      · subst h
        exact ⟨0, d, by simp, rfl, Or.inr rfl⟩
      · exact ⟨j + 1, d', by simpa using hj, by omega, h3⟩
    · rintro ⟨j, d', hj, h2, h3⟩
      cases j with
      | zero =>
        simp only [List.getElem?_cons_zero, Option.some.injEq] at hj
        subst hj
        rcases h3 with h3 | h3
        · left
          have : p = toLex ((ofLex p).1, (ofLex p).2) := rfl
          rw [this, h2, h3]; rfl
        · right; left
          have : p = toLex ((ofLex p).1, (ofLex p).2) := rfl
          rw [this, h2, h3]; rfl
      | succ j =>
        right; right
        exact ⟨j, d', by simpa using hj, by omega, h3⟩

theorem nodup_edge_swap_msgs (swaps : List SwapDescriptor) (k : Nat)
    (h : ∀ s ∈ swaps, s.edges0 ≠ s.edges1) : (edge_swap_msgs swaps k).Nodup := by
  induction swaps generalizing k with
  | nil => simp [edge_swap_msgs]
  | cons d rest ih =>
    simp only [edge_swap_msgs, List.nodup_cons, List.mem_cons, not_or]
    refine ⟨⟨?_, ?_⟩, ?_, ih (k + 1) (fun s hs => h s (List.mem_cons_of_mem _ hs))⟩
    · intro heq
      have := congrArg (fun p => (ofLex p).1) heq
      exact h d (List.mem_cons_self _ _) this
    · rw [mem_edge_swap_msgs]
      rintro ⟨j, d', _, h2, _⟩
      simp at h2
      omega
    · rw [mem_edge_swap_msgs]
      rintro ⟨j, d', _, h2, _⟩
      simp at h2
      omega

theorem skip_edges_spec (edges : List edge_t) :
    ∀ (k : Nat) (st : DepChainState), st.edge_reader = edges.drop st.eid →
      st.eid + k ≤ edges.length →
      skip_edges k st = some { st with
        eid := st.eid + k, edge_reader := edges.drop (st.eid + k),
        edge_remains_valid := st.edge_remains_valid ++ List.replicate k true } := by
  intro k
  induction k with
  | zero =>
    intro st hr _
    simp only [skip_edges, Nat.add_zero, List.replicate_zero, List.append_nil, ← hr]
  | succ k ih =>
    intro st hr hlen
    have hlt : st.eid < edges.length := by omega
    have hdrop : edges.drop st.eid = edges[st.eid] :: edges.drop (st.eid + 1) :=
      List.drop_eq_getElem_cons hlt
    simp only [skip_edges, hr, hdrop]
    rw [ih _ rfl (by simp only; omega)]
    simp only [List.append_assoc, List.singleton_append, Option.some.injEq]
    congr 1
    · omega
    · congr 1; omega

theorem lex_pair_lt_iff (a b : Nat ×ₗ Nat) :
    a < b ↔ (ofLex a).1 < (ofLex b).1 ∨ ((ofLex a).1 = (ofLex b).1 ∧ (ofLex a).2 < (ofLex b).2) :=
  Prod.Lex.lt_iff (ofLex a) (ofLex b)

theorem lex_pair_eq_iff (a b : Nat) (q : Nat ×ₗ Nat) :
    toLex (a, b) = q ↔ a = (ofLex q).1 ∧ b = (ofLex q).2 := by
  constructor
  · intro h; subst h; exact ⟨rfl, rfl⟩
  · rintro ⟨h1, h2⟩
    have : q = toLex ((ofLex q).1, (ofLex q).2) := rfl
    rw [this, h1, h2]

theorem depchain_step_new (edges : List edge_t) (done : List (Nat ×ₗ Nat)) (st : DepChainState)
    (e s : Nat) (hinv : ScanInv edges done st)
    (hlt : ∀ q ∈ done, (ofLex q).1 < e ∨ ((ofLex q).1 = e ∧ (ofLex q).2 < s))
    (hp : e < edges.length) (hcase : st.eid ≤ e) :
    ∃ st1, depchain_step st e s = some st1 ∧ ScanInv edges (done ++ [toLex (e, s)]) st1 := by
  have hskip := skip_edges_spec edges (e - st.eid) st hinv.reader (by omega)
  have heq : st.eid + (e - st.eid) = e := by omega
  rw [heq] at hskip
  have hdrop : edges.drop e = edges[e] :: edges.drop (e + 1) := List.drop_eq_getElem_cons hp
  have hdone_lt : ∀ q ∈ done, (ofLex q).1 < e := fun q hq => lt_of_lt_of_le (hinv.done_lt q hq) hcase
  have hstep : depchain_step st e s = some
      { eid := e + 1, edge_reader := edges.drop (e + 1), last_swap := s,
        edge_remains_valid := st.edge_remains_valid ++ List.replicate (e - st.eid) true ++ [false],
        _depchain_edge_sorter := st._depchain_edge_sorter ++ [⟨s, e, edges[e]⟩],
        _depchain_successor_sorter := st._depchain_successor_sorter } := by
    simp only [depchain_step, hskip, hdrop, if_true]
  refine ⟨_, hstep, ?_⟩
  · constructor
    · rfl
    · show e + 1 ≤ edges.length
      omega
    · intro q hq
      show (ofLex q).1 < e + 1
      rcases List.mem_append.mp hq with hq | hq
      · have := hdone_lt q hq; omega
      · simp only [List.mem_singleton] at hq; subst hq; simp
    · intro _
      refine ⟨?_, Nat.succ_pos _⟩
      show toLex (e + 1 - 1, s) ∈ done ++ [toLex (e, s)]
      simp
    · intro q hq hq1
      show (ofLex q).2 ≤ s
      rcases List.mem_append.mp hq with hq | hq
      · have := hdone_lt q hq
        have : (ofLex q).1 + 1 = e + 1 := hq1
        omega
      · simp only [List.mem_singleton] at hq; subst hq; simp
    · intro h; simp at h
    · show (st.edge_remains_valid ++ List.replicate (e - st.eid) true ++ [false]).length = e + 1
      simp only [List.length_append, List.length_replicate, List.length_singleton, hinv.mask_len]
      omega
    · intro i hi
      show (st.edge_remains_valid ++ List.replicate (e - st.eid) true ++ [false])[i]? = _
      have hi' : i < e + 1 := hi
      by_cases h1 : i < st.eid
      · rw [List.append_assoc, List.getElem?_append_left (by rw [hinv.mask_len]; exact h1),
          hinv.mask_get i h1]
        congr 1
        simp only [List.mem_append, List.mem_singleton, decide_eq_decide]
        constructor
        · intro h q hq
          rcases hq with hq | hq
          · exact h q hq
          · subst hq; simp; omega
        · intro h q hq
          exact h q (Or.inl hq)
      · by_cases h2 : i < e
        · rw [List.getElem?_append_left (by
            simp only [List.length_append, List.length_replicate, hinv.mask_len]; omega)]
          rw [List.getElem?_append_right (by rw [hinv.mask_len]; omega)]
          rw [List.getElem?_replicate]
          have : i - st.edge_remains_valid.length < e - st.eid := by rw [hinv.mask_len]; omega
          simp only [this, if_true, Option.some.injEq]
          symm
          simp only [decide_eq_true_eq, List.mem_append, List.mem_singleton]
          intro q hq
          rcases hq with hq | hq
          · have := hinv.done_lt q hq; omega
          · subst hq; simp; omega
        · have hie : i = e := by omega
          subst hie
          rw [List.getElem?_append_right (by
            simp only [List.length_append, List.length_replicate, hinv.mask_len]; omega)]
          have : i - (st.edge_remains_valid ++ List.replicate (i - st.eid) true).length = 0 := by
            simp only [List.length_append, List.length_replicate, hinv.mask_len]; omega
          rw [this]
          simp only [List.getElem?_cons_zero, Option.some.injEq]
          symm
          simp only [decide_eq_false_iff_not, not_forall, List.mem_append, List.mem_singleton]
          exact ⟨toLex (i, s), Or.inr rfl, by simp⟩
    · show (st._depchain_edge_sorter ++ [DependencyChainEdgeMsg.mk s e edges[e]]).Nodup
      rw [List.nodup_append]
      refine ⟨hinv.dep_nodup, List.nodup_singleton _, ?_⟩
      intro a ha hb
      simp only [List.mem_singleton] at hb
      subst hb
      have := ((hinv.dep_mem _).mp ha).1
      have := hdone_lt _ this
      simp at this
    · intro msg
      show msg ∈ st._depchain_edge_sorter ++ [DependencyChainEdgeMsg.mk s e edges[e]] ↔ _
      simp only [List.mem_append, List.mem_singleton]
      constructor
      · rintro (h | h)
        · obtain ⟨h1, h2, h3⟩ := (hinv.dep_mem msg).mp h
          refine ⟨Or.inl h1, ?_, h3⟩
          intro q hq hq1
          rcases hq with hq | hq
          · exact h2 q hq hq1
          · subst hq
            have := hdone_lt _ h1
            simp at this hq1
            omega
        · subst h
          refine ⟨Or.inr rfl, ?_, List.getElem?_eq_getElem hp⟩
          intro q hq hq1
          rcases hq with hq | hq
          · have := hdone_lt q hq
            simp at hq1; omega
          · subst hq; simp
      · rintro ⟨h1, h2, h3⟩
        rcases h1 with h1 | h1
        · left
          exact (hinv.dep_mem msg).mpr ⟨h1, fun q hq => h2 q (Or.inl hq), h3⟩
        · right
          have h4 := (lex_pair_eq_iff _ _ _).mp h1
          simp only [ofLex_toLex] at h4
          obtain ⟨h5, h6⟩ := h4
          cases msg with
          | mk sid eid edge =>
            simp only at h5 h6 h3
            subst h5; subst h6
            rw [List.getElem?_eq_getElem hp] at h3
            simp only [Option.some.injEq] at h3
            rw [h3]
    · exact hinv.succ_nodup
    · intro msg
      show msg ∈ st._depchain_successor_sorter ↔ _
      rw [hinv.succ_mem msg]
      simp only [List.mem_append, List.mem_singleton]
      constructor
      · rintro ⟨h1, h2, h3, h4⟩
        refine ⟨Or.inl h1, Or.inl h2, h3, ?_⟩
        intro q hq hq1
        rcases hq with hq | hq
        · exact h4 q hq hq1
        · subst hq
          have := hdone_lt _ h1
          simp at this hq1
          omega
      · rintro ⟨h1, h2, h3, h4⟩
        have h2' : toLex (msg.edge_id, msg.successor) ∈ done := by
          rcases h2 with h2 | h2
          · exact h2
          · exfalso
            have h5 := (lex_pair_eq_iff _ _ _).mp h2
            simp only [ofLex_toLex] at h5
            rcases h1 with h1 | h1
            · have := hdone_lt _ h1
              simp at this; omega
            · have h6 := (lex_pair_eq_iff _ _ _).mp h1
              simp only [ofLex_toLex] at h6
              omega
        have h1' : toLex (msg.edge_id, msg.swap_id) ∈ done := by
          rcases h1 with h1 | h1
          · exact h1
          · exfalso
            have h6 := (lex_pair_eq_iff _ _ _).mp h1
            simp only [ofLex_toLex] at h6
            have := hdone_lt _ h2'
            simp at this; omega
        exact ⟨h1', h2', h3, fun q hq => h4 q (Or.inl hq)⟩

theorem depchain_step_succ (edges : List edge_t) (done : List (Nat ×ₗ Nat)) (st : DepChainState)
    (e s : Nat) (hinv : ScanInv edges done st)
    (hlt : ∀ q ∈ done, (ofLex q).1 < e ∨ ((ofLex q).1 = e ∧ (ofLex q).2 < s))
    (hcase : e < st.eid) :
    ∃ st1, depchain_step st e s = some st1 ∧ ScanInv edges (done ++ [toLex (e, s)]) st1 := by
  have hne : done ≠ [] := fun h => by have := hinv.eid_zero h; omega
  obtain ⟨hl, hpos⟩ := hinv.last_mem hne
  have hl2 := hlt _ hl
  simp only [ofLex_toLex] at hl2
  have heid : st.eid = e + 1 := by omega
  have hlast : st.last_swap < s := by omega
  have hzero : e - st.eid = 0 := by omega
  have hl' : toLex (e, st.last_swap) ∈ done := by
    have : st.eid - 1 = e := by omega
    rw [this] at hl; exact hl
  have hmax : ∀ q ∈ done, (ofLex q).1 = e → (ofLex q).2 ≤ st.last_swap :=
    fun q hq h1 => hinv.last_max q hq (by omega)
  have hmaxs : ∀ q ∈ done, (ofLex q).1 = e → (ofLex q).2 < s :=
    fun q hq h1 => lt_of_le_of_lt (hmax q hq h1) hlast
  have hstep : depchain_step st e s = some
      { eid := st.eid, edge_reader := st.edge_reader, last_swap := s,
        edge_remains_valid := st.edge_remains_valid,
        _depchain_edge_sorter := st._depchain_edge_sorter,
        _depchain_successor_sorter :=
          st._depchain_successor_sorter ++ [⟨st.last_swap, e, s⟩] } := by
    have hne2 : ¬ st.eid = e := by omega
    simp only [depchain_step, hzero, skip_edges, hne2, if_false]
  refine ⟨_, hstep, ?_⟩
  constructor
  · exact hinv.reader
  · exact hinv.eid_le
  · intro q hq
    show (ofLex q).1 < st.eid
    rcases List.mem_append.mp hq with hq | hq
    · exact hinv.done_lt q hq
    · simp only [List.mem_singleton] at hq; subst hq; simp; omega
  · intro _
    refine ⟨?_, hpos⟩
    show toLex (st.eid - 1, s) ∈ done ++ [toLex (e, s)]
    have : st.eid - 1 = e := by omega
    rw [this]; simp
  · intro q hq hq1
    show (ofLex q).2 ≤ s
    rcases List.mem_append.mp hq with hq | hq
    · have h1 : (ofLex q).1 + 1 = st.eid := hq1
      exact le_of_lt (hmaxs q hq (by omega))
    · simp only [List.mem_singleton] at hq; subst hq; simp
  · intro h; simp at h
  · exact hinv.mask_len
  · intro i hi
    show st.edge_remains_valid[i]? = _
    rw [hinv.mask_get i hi]
    congr 1
    simp only [List.mem_append, List.mem_singleton, decide_eq_decide]
    constructor
    · intro h q hq
      rcases hq with hq | hq
      · exact h q hq
      · subst hq
        simp only [ofLex_toLex]
        intro hie
        exact h _ hl' (by simp [hie])
    · intro h q hq
      exact h q (Or.inl hq)
  · exact hinv.dep_nodup
  · intro msg
    show msg ∈ st._depchain_edge_sorter ↔ _
    rw [hinv.dep_mem msg]
    simp only [List.mem_append, List.mem_singleton]
    constructor
    · rintro ⟨h1, h2, h3⟩
      refine ⟨Or.inl h1, ?_, h3⟩
      intro q hq hq1
      rcases hq with hq | hq
      · exact h2 q hq hq1
      · subst hq
        simp only [ofLex_toLex] at hq1 ⊢
        have := h2 _ hl' (by simp [hq1])
        simp only [ofLex_toLex] at this
        omega
    · rintro ⟨h1, h2, h3⟩
      have h1' : toLex (msg.edge_id, msg.swap_id) ∈ done := by
        rcases h1 with h1 | h1
        · exact h1
        · exfalso
          have h6 := (lex_pair_eq_iff _ _ _).mp h1
          simp only [ofLex_toLex] at h6
          have := h2 _ (Or.inl hl') (by simp [h6.1])
          simp only [ofLex_toLex] at this
          omega
      exact ⟨h1', fun q hq => h2 q (Or.inl hq), h3⟩
  · show (st._depchain_successor_sorter ++ [DependencyChainSuccessorMsg.mk st.last_swap e s]).Nodup
    rw [List.nodup_append]
    refine ⟨hinv.succ_nodup, List.nodup_singleton _, ?_⟩
    intro a ha hb
    simp only [List.mem_singleton] at hb
    subst hb
    have := ((hinv.succ_mem _).mp ha).2.1
    have := hmaxs _ this (by simp)
    simp at this
  · intro msg
    show msg ∈ st._depchain_successor_sorter ++ [DependencyChainSuccessorMsg.mk st.last_swap e s] ↔ _
    simp only [List.mem_append, List.mem_singleton]
    constructor
    · rintro (h | h)
      · obtain ⟨h1, h2, h3, h4⟩ := (hinv.succ_mem msg).mp h
        refine ⟨Or.inl h1, Or.inl h2, h3, ?_⟩
        intro q hq hq1
        rcases hq with hq | hq
        · exact h4 q hq hq1
        · subst hq
          simp only [ofLex_toLex] at hq1 ⊢
          have := hmaxs _ h2 (by simp [hq1])
          simp only [ofLex_toLex] at this
          omega
      · subst h
        refine ⟨Or.inl hl', Or.inr rfl, hlast, ?_⟩
        intro q hq hq1
        simp only at hq1 ⊢
        rcases hq with hq | hq
        · have := hmax q hq hq1
          omega
        · subst hq
          simp
    · rintro ⟨h1, h2, h3, h4⟩
      rcases h2 with h2 | h2
      · left
        have h1' : toLex (msg.edge_id, msg.swap_id) ∈ done := by
          rcases h1 with h1 | h1
          · exact h1
          · exfalso
            have h6 := (lex_pair_eq_iff _ _ _).mp h1
            simp only [ofLex_toLex] at h6
            have := hmaxs _ h2 (by simp [h6.1])
            simp only [ofLex_toLex] at this
            omega
        exact (hinv.succ_mem msg).mpr ⟨h1', h2, h3, fun q hq => h4 q (Or.inl hq)⟩
      · right
        have h6 := (lex_pair_eq_iff _ _ _).mp h2
        simp only [ofLex_toLex] at h6
        have h1' : toLex (msg.edge_id, msg.swap_id) ∈ done := by
          rcases h1 with h1 | h1
          · exact h1
          · exfalso
            have h7 := (lex_pair_eq_iff _ _ _).mp h1
            simp only [ofLex_toLex] at h7
            omega
        have h8 := hmax _ h1' (by simp [h6.1])
        simp only [ofLex_toLex] at h8
        have h9 := h4 _ (Or.inl hl') (by simp [h6.1])
        simp only [ofLex_toLex] at h9
        cases msg with
        | mk sid eid succ =>
          simp only at h6 h8 h9 h3 ⊢
          obtain ⟨h61, h62⟩ := h6
          subst h61; subst h62
          have : sid = st.last_swap := by omega
          rw [this]

theorem depchain_scan_inv (edges : List edge_t) :
    ∀ (todo done : List (Nat ×ₗ Nat)) (st : DepChainState), ScanInv edges done st →
      (done ++ todo).Sorted (· < ·) → (∀ p ∈ todo, (ofLex p).1 < edges.length) →
      ∃ st1, depchain_scan todo st = some st1 ∧ ScanInv edges (done ++ todo) st1 := by
  intro todo
  induction todo with
  | nil =>
    intro done st hinv _ _
    exact ⟨st, rfl, by simpa using hinv⟩
  | cons p rest ih =>
    intro done st hinv hs hlen
    have hlt : ∀ q ∈ done, (ofLex q).1 < (ofLex p).1 ∨
        ((ofLex q).1 = (ofLex p).1 ∧ (ofLex q).2 < (ofLex p).2) := by
      intro q hq
      have := (List.pairwise_append.mp hs).2.2 q hq p (List.mem_cons_self _ _)
      exact (lex_pair_lt_iff q p).mp this
    have hp : (ofLex p).1 < edges.length := hlen p (List.mem_cons_self _ _)
    have hstep : ∃ st1, depchain_step st (ofLex p).1 (ofLex p).2 = some st1 ∧
        ScanInv edges (done ++ [p]) st1 := by
      by_cases hcase : st.eid ≤ (ofLex p).1
      · exact depchain_step_new edges done st _ _ hinv hlt hp hcase
      · exact depchain_step_succ edges done st _ _ hinv hlt (by omega)
    obtain ⟨st1, h1, h2⟩ := hstep
    have hs' : (done ++ [p] ++ rest).Sorted (· < ·) := by simpa using hs
    obtain ⟨st2, h3, h4⟩ := ih (done ++ [p]) st1 h2 hs'
      (fun q hq => hlen q (List.mem_cons_of_mem _ hq))
    refine ⟨st2, ?_, by simpa using h4⟩
    simp only [depchain_scan, h1, h3]

theorem sorter_sort_sorted {α : Type} [LinearOrder α] (xs : List α) :
    (sorter_sort xs).Sorted (· ≤ ·) :=
  List.sorted_insertionSort _ xs

theorem sorter_sort_perm {α : Type} [LinearOrder α] (xs : List α) :
    (sorter_sort xs).Perm xs :=
  List.perm_insertionSort _ xs

theorem mem_sorter_sort {α : Type} [LinearOrder α] (xs : List α) (x : α) :
    x ∈ sorter_sort xs ↔ x ∈ xs :=
  (sorter_sort_perm xs).mem_iff

theorem sorter_sort_strict {α : Type} [LinearOrder α] (xs : List α) (h : xs.Nodup) :
    (sorter_sort xs).Sorted (· < ·) :=
  (sorter_sort_sorted xs).lt_of_le ((sorter_sort_perm xs).nodup_iff.mpr h)

theorem mem_sorted_edge_swap_msgs (swaps : List SwapDescriptor) (p : Nat ×ₗ Nat) :
    p ∈ sorter_sort (edge_swap_msgs swaps 0) ↔
      ∃ d, swaps[(ofLex p).2]? = some d ∧ touches d (ofLex p).1 := by
  rw [mem_sorter_sort, mem_edge_swap_msgs]
  constructor
  · rintro ⟨j, d, h1, h2, h3⟩
    have : (ofLex p).2 = j := by omega
    exact ⟨d, this ▸ h1, h3⟩
  · rintro ⟨d, h1, h2⟩
    exact ⟨_, d, h1, by omega, h2⟩

theorem compute_dependency_chain_spec (edges : List edge_t) (swaps : List SwapDescriptor)
    (hv : valid_batch edges.length swaps) :
    ∃ a, _compute_dependency_chain edges.length edges swaps = some a ∧
      PassASpec edges swaps a := by
  have hnd : (edge_swap_msgs swaps 0).Nodup :=
    nodup_edge_swap_msgs swaps 0 (fun s hs => by have := (hv s hs).1; omega)
  have hsorted := sorter_sort_strict _ hnd
  have hmemP := mem_sorted_edge_swap_msgs swaps
  have hrange : ∀ p ∈ sorter_sort (edge_swap_msgs swaps 0), (ofLex p).1 < edges.length := by
    intro p hp
    obtain ⟨d, h1, h2⟩ := (hmemP p).mp hp
    have hd := hv d (List.getElem?_mem h1)
    rcases h2 with h2 | h2 <;> omega
  have hinit : ScanInv edges []
      { eid := 0, edge_reader := edges, last_swap := 0, edge_remains_valid := [],
        _depchain_edge_sorter := [], _depchain_successor_sorter := [] } := by
    constructor <;> simp
  obtain ⟨st, hscan, hinv⟩ := depchain_scan_inv edges _ [] _ hinit (by simpa using hsorted)
    (by simpa using hrange)
  simp only [List.nil_append] at hinv
  have hres : _compute_dependency_chain edges.length edges swaps = some
      { _depchain_edge_sorter := sorter_sort st._depchain_edge_sorter,
        _depchain_successor_sorter := sorter_sort st._depchain_successor_sorter,
        edge_remains_valid :=
          st.edge_remains_valid ++ List.replicate (edges.length - st.eid) true } := by
    simp only [_compute_dependency_chain, hscan]
  refine ⟨_, hres, ?_⟩
  have htouch : ∀ i, (∀ p ∈ sorter_sort (edge_swap_msgs swaps 0), (ofLex p).1 ≠ i) ↔
      (∀ s ∈ swaps, ¬ touches s i) := by
    intro i
    constructor
    · intro h s hs ht
      obtain ⟨j, hj, hjs⟩ := List.getElem_of_mem hs
      have hj' : swaps[j]? = some s := by rw [List.getElem?_eq_getElem hj, hjs]
      exact h (toLex (i, j)) ((hmemP _).mpr ⟨s, hj', ht⟩) rfl
    · intro h p hp hpi
      obtain ⟨d, h1, h2⟩ := (hmemP p).mp hp
      exact h d (List.getElem?_mem h1) (hpi ▸ h2)
  constructor
  · show st.edge_remains_valid ++ List.replicate (edges.length - st.eid) true = _
    apply List.ext_getElem?
    intro i
    unfold mask_spec
    by_cases h1 : i < st.eid
    · rw [List.getElem?_append_left (by rw [hinv.mask_len]; exact h1), hinv.mask_get i h1]
      have : i < edges.length := lt_of_lt_of_le h1 hinv.eid_le
      simp only [List.getElem?_map, List.getElem?_range this, Option.map_some']
      congr 1
      simp only [decide_eq_decide]
      exact htouch i
    · rw [List.getElem?_append_right (by rw [hinv.mask_len]; omega), List.getElem?_replicate]
      by_cases h2 : i < edges.length
      · have : i - st.edge_remains_valid.length < edges.length - st.eid := by
          rw [hinv.mask_len]; omega
        simp only [this, if_true, List.getElem?_map, List.getElem?_range h2, Option.map_some',
          Option.some.injEq]
        symm
        simp only [decide_eq_true_eq]
        apply (htouch i).mp
        intro p hp hpi
        have := hinv.done_lt p hp
        omega
      · have : ¬ i - st.edge_remains_valid.length < edges.length - st.eid := by
          rw [hinv.mask_len]; omega
        simp only [this, if_false]
        symm
        rw [List.getElem?_eq_none]
        simp only [List.length_map, List.length_range]
        omega
  · exact sorter_sort_strict _ hinv.dep_nodup
  · intro msg
    show msg ∈ sorter_sort st._depchain_edge_sorter ↔ _
    rw [mem_sorter_sort, hinv.dep_mem, DepSpec, next_touch, hmemP]
    simp only [ofLex_toLex]
    constructor
    · rintro ⟨h1, h2, h3⟩
      refine ⟨⟨Nat.zero_le _, h1, ?_⟩, h3⟩
      intro j d _ hj hd ht
      have := h2 (toLex (msg.edge_id, j)) ((hmemP _).mpr ⟨d, hd, ht⟩) rfl
      simp only [ofLex_toLex] at this
      omega
    · rintro ⟨⟨_, h1, h2⟩, h3⟩
      refine ⟨h1, ?_, h3⟩
      intro q hq hq1
      obtain ⟨d, hd, ht⟩ := (hmemP q).mp hq
      by_contra hcon
      exact h2 _ d (Nat.zero_le _) (by omega) hd (hq1 ▸ ht)
  · exact sorter_sort_strict _ hinv.succ_nodup
  · intro msg
    show msg ∈ sorter_sort st._depchain_successor_sorter ↔ _
    rw [mem_sorter_sort, hinv.succ_mem, SuccSpec, next_touch, hmemP, hmemP]
    simp only [ofLex_toLex]
    constructor
    · rintro ⟨h1, h2, h3, h4⟩
      refine ⟨h1, by omega, h2, ?_⟩
      intro j d hj1 hj2 hd ht
      exact h4 (toLex (msg.edge_id, j)) ((hmemP _).mpr ⟨d, hd, ht⟩) rfl
        ⟨by simp only [ofLex_toLex]; omega, by simp only [ofLex_toLex]; omega⟩
    · rintro ⟨h1, h2, h3, h4⟩
      refine ⟨h1, h3, by omega, ?_⟩
      intro q hq hq1 hq2
      obtain ⟨d, hd, ht⟩ := (hmemP q).mp hq
      exact h4 _ d (by omega) hq2.2 hd (hq1 ▸ ht)

/-! ## Facts on `next_touch` and the reference semantics -/

theorem next_touch_self (swaps : List SwapDescriptor) (k e : Nat) (d : SwapDescriptor)
    (hd : swaps[k]? = some d) (ht : touches d e) : next_touch swaps k e k :=
  ⟨le_refl _, ⟨d, hd, ht⟩, fun j _ h1 h2 => by omega⟩

theorem next_touch_unique (swaps : List SwapDescriptor) (k e s s' : Nat)
    (h : next_touch swaps k e s) (h' : next_touch swaps k e s') : s = s' := by
  obtain ⟨h1, ⟨d, hd, ht⟩, h3⟩ := h
  obtain ⟨h1', ⟨d', hd', ht'⟩, h3'⟩ := h'
  by_contra hne
  rcases Nat.lt_or_gt_of_ne hne with hlt | hlt
  · exact h3' s d h1 hlt hd ht
  · exact h3 s' d' h1' hlt hd' ht'

theorem next_touch_eq_of_touches (swaps : List SwapDescriptor) (k e s : Nat) (d : SwapDescriptor)
    (hd : swaps[k]? = some d) (ht : touches d e) (h : next_touch swaps k e s) : s = k :=
  next_touch_unique swaps k e s k h (next_touch_self swaps k e d hd ht)

theorem next_touch_succ_iff (swaps : List SwapDescriptor) (k e s : Nat) (d : SwapDescriptor)
    (hd : swaps[k]? = some d) (ht : ¬ touches d e) :
    next_touch swaps k e s ↔ next_touch swaps (k + 1) e s := by
  constructor
  · rintro ⟨h1, ⟨d', hd', ht'⟩, h3⟩
    have hne : s ≠ k := by
      rintro rfl
      rw [hd] at hd'
      exact ht ((Option.some.inj hd') ▸ ht')
    exact ⟨by omega, ⟨d', hd', ht'⟩, fun j dj hj1 hj2 => h3 j dj (by omega) hj2⟩
  · rintro ⟨h1, h2, h3⟩
    refine ⟨by omega, h2, ?_⟩
    intro j dj hj1 hj2 hdj
    by_cases hjk : j = k
    · subst hjk
      rw [hd] at hdj
      exact (Option.some.inj hdj) ▸ ht
    · exact h3 j dj (by omega) hj2 hdj

theorem next_touch_lt_length (swaps : List SwapDescriptor) (k e s : Nat)
    (h : next_touch swaps k e s) : s < swaps.length := by
  obtain ⟨_, ⟨d, hd, _⟩, _⟩ := h
  by_contra hcon
  rw [List.getElem?_eq_none (by omega)] at hd
  exact Option.noConfusion hd

theorem next_touch_ge (swaps : List SwapDescriptor) (k e s : Nat)
    (h : next_touch swaps k e s) : k ≤ s := h.1

theorem next_touch_touches (swaps : List SwapDescriptor) (k e : Nat) (d : SwapDescriptor)
    (hd : swaps[k]? = some d) (h : next_touch swaps k e k) : touches d e := by
  obtain ⟨_, ⟨d', hd', ht'⟩, _⟩ := h
  rw [hd] at hd'
  exact (Option.some.inj hd') ▸ ht'

/-! ## Pass B: reading the successor -/

theorem get_successor_spec (swaps : List SwapDescriptor) (k eid : Nat)
    (sorter : List DependencyChainSuccessorMsg) (hs : sorter.Sorted (· < ·))
    (hsound : ∀ msg ∈ sorter, SuccSpec swaps msg ∧ k ≤ msg.swap_id)
    (hcomplete : ∀ msg, SuccSpec swaps msg → msg.swap_id = k → msg.edge_id = eid → msg ∈ sorter)
    (hge : ∀ msg ∈ sorter, msg.swap_id = k → eid ≤ msg.edge_id)
    (d : SwapDescriptor) (hd : swaps[k]? = some d) (ht : touches d eid) :
    ∃ successor sorter1, get_successor k eid sorter = some (successor, sorter1) ∧
      ((successor = 0 ∧ ∀ s, ¬ next_touch swaps (k + 1) eid s) ∨
        next_touch swaps (k + 1) eid successor) ∧
      sorter1.Sorted (· < ·) ∧
      (∀ msg, msg ∈ sorter1 ↔ msg ∈ sorter ∧ ¬ (msg.swap_id = k ∧ msg.edge_id = eid)) := by
  by_cases hex : ∃ s, next_touch swaps (k + 1) eid s
  · obtain ⟨s, hs1⟩ := hex
    have hmsg : (⟨k, eid, s⟩ : DependencyChainSuccessorMsg) ∈ sorter :=
      hcomplete ⟨k, eid, s⟩ ⟨⟨d, hd, ht⟩, hs1⟩ rfl rfl
    have hleast : ∀ y ∈ sorter, (⟨k, eid, s⟩ : DependencyChainSuccessorMsg) ≤ y := by
      intro y hy
      rw [depchain_succ_le_iff]
      obtain ⟨hy1, hy2⟩ := hsound y hy
      by_cases hyk : y.swap_id = k
      · right
        refine ⟨hyk.symm, ?_⟩
        have := hge y hy hyk
        by_cases hye : y.edge_id = eid
        · right
          refine ⟨hye.symm, ?_⟩
          have h2 := hy1.2
          rw [hyk, hye] at h2
          exact le_of_eq (next_touch_unique _ _ _ _ _ hs1 h2)
        · left
          show eid < y.edge_id
          omega
      · left
        show k < y.swap_id
        omega
    obtain ⟨rest, hrest⟩ := head_of_least sorter _ hs.le_of_lt hmsg hleast
    subst hrest
    refine ⟨s, rest, ?_, Or.inr hs1, hs.of_cons, ?_⟩
    · simp [get_successor]
    · intro msg
      have hnd := hs.nodup
      rw [List.nodup_cons] at hnd
      constructor
      · intro hm
        refine ⟨List.mem_cons_of_mem _ hm, ?_⟩
        rintro ⟨h1, h2⟩
        have h3 := (hsound msg (List.mem_cons_of_mem _ hm)).1.2
        rw [h1, h2] at h3
        have h4 := next_touch_unique _ _ _ _ _ hs1 h3
        apply hnd.1
        cases msg with
        | mk a b c =>
          simp only at h1 h2 h4
          subst h1; subst h2; subst h4
          exact hm
      · rintro ⟨hm, hne⟩
        rcases List.mem_cons.mp hm with h | h
        · subst h
          exact absurd ⟨rfl, rfl⟩ hne
        · exact h
  · have hnone : ∀ msg ∈ sorter, ¬ (msg.swap_id = k ∧ msg.edge_id = eid) := by
      rintro msg hm ⟨h1, h2⟩
      have h3 := (hsound msg hm).1.2
      rw [h1, h2] at h3
      exact hex ⟨_, h3⟩
    refine ⟨0, sorter, ?_, Or.inl ⟨rfl, fun s hs1 => hex ⟨s, hs1⟩⟩, hs, ?_⟩
    · cases sorter with
      | nil => rfl
      | cons y rest =>
        have hy := hsound y (List.mem_cons_self _ _)
        have hy2 := hge y (List.mem_cons_self _ _)
        have hy3 := hnone y (List.mem_cons_self _ _)
        simp only [get_successor]
        have c1 : ¬ ¬ y.swap_id ≥ k := by
          have := hy.2
          simp only [not_not]; exact this
        have c2 : ¬ ¬ (y.swap_id > k ∨ y.edge_id ≥ eid) := by
          simp only [not_not]
          by_cases h : y.swap_id = k
          · exact Or.inr (hy2 h)
          · have := hy.2
            left; show k < y.swap_id; omega
        have c3 : y.swap_id ≠ k ∨ y.edge_id ≠ eid := by
          by_cases h : y.swap_id = k
          · right; intro h2; exact hy3 ⟨h, h2⟩
          · left; exact h
        rw [if_neg c1, if_neg c2, if_pos c3]
    · intro msg
      exact ⟨fun hm => ⟨hm, hnone msg hm⟩, fun h => h.1⟩

/-! ## Pass B: reading the state set -/

theorem fetch_states_spec (k eid : Nat) :
    ∀ (fuel : Nat) (m : PQSorterMerger DependencyChainEdgeMsg) (acc : List edge_t),
      m.Ascending → m.Fresh → m.items.length ≤ fuel →
      (∀ msg ∈ m.items, k ≤ msg.swap_id ∧ (msg.swap_id = k → eid ≤ msg.edge_id)) →
      ∃ m1 E, fetch_states k eid fuel m acc = some (m1, E) ∧ m1.Ascending ∧ m1.Fresh ∧
        (∀ x, x ∈ m1.items ↔ x ∈ m.items ∧ ¬ (x.swap_id = k ∧ x.edge_id = eid)) ∧
        (∀ e, e ∈ E ↔ e ∈ acc ∨ (⟨k, eid, e⟩ : DependencyChainEdgeMsg) ∈ m.items) ∧
        (m._pq = [] → m1._pq = []) := by
  intro fuel
  induction fuel with
  | zero =>
    intro m acc hasc hfresh hlen _
    have hnil : m.items = [] := List.length_eq_zero.mp (by omega)
    refine ⟨m, acc, rfl, hasc, hfresh, ?_, ?_, fun h => h⟩
    · intro x; simp [hnil]
    · intro e; simp [hnil]
  | succ fuel ih =>
    intro m acc hasc hfresh hlen hge
    by_cases hne : m.items = []
    · refine ⟨m, acc, ?_, hasc, hfresh, ?_, ?_, fun h => h⟩
      · simp only [fetch_states, (PQSorterMerger.empty_iff m).mpr hne, if_true]
      · intro x; simp [hne]
      · intro e; simp [hne]
    · obtain ⟨x, m1, hderef, hincr, hasc1, hfresh1, hperm, hleast, hpq, _⟩ :=
        PQSorterMerger.pop_spec m hasc hfresh hne
      have hemp : m.empty = false := (PQSorterMerger.empty_false_iff m).mpr hne
      have hxmem : x ∈ m.items := hperm.mem_iff.mpr (List.mem_cons_self _ _)
      by_cases hmatch : x.swap_id = k ∧ x.edge_id = eid
      · -- the head is a message for this edge: pop it and go on
        have hlen1 : m1.items.length ≤ fuel := by
          have := hperm.length_eq
          simp only [List.length_cons] at this
          omega
        have hge1 : ∀ msg ∈ m1.items, k ≤ msg.swap_id ∧ (msg.swap_id = k → eid ≤ msg.edge_id) :=
          fun msg hm => hge msg (hperm.mem_iff.mpr (List.mem_cons_of_mem _ hm))
        have hxeq : x = ⟨k, eid, x.edge⟩ := by
          cases x with
          | mk a b c =>
            simp only at hmatch
            rw [hmatch.1, hmatch.2]
        have hpq1 : m._pq = [] → m1._pq = [] := by
          intro h
          rcases hpq with h1 | h1
          · rw [h1, h]
          · rw [h1, h]; rfl
        have hcond : ¬ (x.swap_id ≠ k ∨ x.edge_id ≠ eid) := by
          simp only [not_or, not_not]; exact hmatch
        by_cases hdup : acc.isEmpty ∨ some x.edge ≠ acc.getLast?
        · obtain ⟨m2, E, h1, h2, h3, h4, h5, h6⟩ :=
            ih m1 (acc ++ [x.edge]) hasc1 hfresh1 hlen1 hge1
          refine ⟨m2, E, ?_, h2, h3, ?_, ?_, fun h => h6 (hpq1 h)⟩
          · simp only [fetch_states, hemp, hderef, hincr, if_neg hcond, if_pos hdup]
            exact h1
          · intro y
            rw [h4 y, hperm.mem_iff, List.mem_cons]
            constructor
            · rintro ⟨hy, hn⟩; exact ⟨Or.inr hy, hn⟩
            · rintro ⟨hy | hy, hn⟩
              · subst hy; exact absurd hmatch hn
              · exact ⟨hy, hn⟩
          · intro e
            rw [h5 e, hperm.mem_iff, List.mem_cons, List.mem_append, List.mem_singleton]
            constructor
            · rintro ((h | h) | h)
              · exact Or.inl h
              · subst h; exact Or.inr (Or.inl hxeq.symm)
              · exact Or.inr (Or.inr h)
            · rintro (h | h | h)
              · exact Or.inl (Or.inl h)
              · rw [hxeq] at h
                simp only [DependencyChainEdgeMsg.mk.injEq, true_and] at h
                exact Or.inl (Or.inr h)
              · exact Or.inr h
        · obtain ⟨m2, E, h1, h2, h3, h4, h5, h6⟩ := ih m1 acc hasc1 hfresh1 hlen1 hge1
          have hxacc : x.edge ∈ acc := by
            simp only [not_or, not_not, ne_eq] at hdup
            exact List.mem_of_getLast?_eq_some hdup.2.symm
          refine ⟨m2, E, ?_, h2, h3, ?_, ?_, fun h => h6 (hpq1 h)⟩
          · simp only [fetch_states, hemp, hderef, hincr, if_neg hcond, if_neg hdup]
            exact h1
          · intro y
            rw [h4 y, hperm.mem_iff, List.mem_cons]
            constructor
            · rintro ⟨hy, hn⟩; exact ⟨Or.inr hy, hn⟩
            · rintro ⟨hy | hy, hn⟩
              · subst hy; exact absurd hmatch hn
              · exact ⟨hy, hn⟩
          · intro e
            rw [h5 e, hperm.mem_iff, List.mem_cons]
            constructor
            · rintro (h | h)
              · exact Or.inl h
              · exact Or.inr (Or.inr h)
            · rintro (h | h | h)
              · exact Or.inl h
              · rw [hxeq] at h
                simp only [DependencyChainEdgeMsg.mk.injEq, true_and] at h
                subst h; exact Or.inl hxacc
              · exact Or.inr h
      · -- the head is for a later edge or swap: nothing for this edge is left
        have hnomatch : ∀ y ∈ m.items, ¬ (y.swap_id = k ∧ y.edge_id = eid) := by
          rintro y hy ⟨hy1, hy2⟩
          have hxy := hleast y hy
          rw [depchain_edge_le_iff] at hxy
          have hx := hge x hxmem
          apply hmatch
          rcases hxy with h | ⟨h1, h | ⟨h2, _⟩⟩
          · omega
          · have := hx.2 (by omega); omega
          · exact ⟨by omega, by omega⟩
        have hcond : x.swap_id ≠ k ∨ x.edge_id ≠ eid := by
          by_cases h : x.swap_id = k
          · right; intro h2; exact hmatch ⟨h, h2⟩
          · left; exact h
        refine ⟨m, acc, ?_, hasc, hfresh, ?_, ?_, fun h => h⟩
        · simp only [fetch_states, hemp, hderef, if_pos hcond]
          rfl
        · intro y
          exact ⟨fun hy => ⟨hy, hnomatch y hy⟩, fun h => h.1⟩
        · intro e
          constructor
          · exact fun h => Or.inl h
          · rintro (h | h)
            · exact h
            · exact absurd ⟨rfl, rfl⟩ (hnomatch _ h)

/-! ## The reference semantics -/

theorem ref_state_zero (edges : List edge_t) (swaps : List SwapDescriptor) :
    ref_state edges swaps 0 = edges := by
  simp [ref_state, ref_run]

theorem ref_state_succ (edges : List edge_t) (swaps : List SwapDescriptor) (k : Nat)
    (d : SwapDescriptor) (hd : swaps[k]? = some d) :
    ref_state edges swaps (k + 1) = ref_step (ref_state edges swaps k) d := by
  have hk : k < swaps.length := by
    by_contra hcon
    rw [List.getElem?_eq_none (by omega)] at hd
    exact Option.noConfusion hd
  have hdk : swaps[k] = d := by
    rw [List.getElem?_eq_getElem hk] at hd
    exact Option.some.inj hd
  simp only [ref_state, ref_run]
  rw [List.take_succ, List.foldl_append, List.getElem?_eq_getElem hk, hdk]
  rfl

theorem ref_step_length (cur : List edge_t) (d : SwapDescriptor) :
    (ref_step cur d).length = cur.length := by
  unfold ref_step
  split <;> simp

theorem ref_state_length (edges : List edge_t) (swaps : List SwapDescriptor) (k : Nat) :
    (ref_state edges swaps k).length = edges.length := by
  simp only [ref_state, ref_run]
  generalize swaps.take k = l
  induction l generalizing edges with
  | nil => rfl
  | cons d rest ih =>
    simp only [List.foldl_cons]
    rw [ih, ref_step_length]

theorem ref_step_getD_other (cur : List edge_t) (d : SwapDescriptor) (e : Nat) (x : edge_t)
    (h0 : e ≠ d.edges0) (h1 : e ≠ d.edges1) : (ref_step cur d).getD e x = cur.getD e x := by
  unfold ref_step
  split
  · simp only [List.getD_eq_getElem?_getD]
    rw [List.getElem?_set_ne (Ne.symm h1), List.getElem?_set_ne (Ne.symm h0)]
  · rfl

theorem ref_step_getD_edges0 (cur : List edge_t) (d : SwapDescriptor) (x : edge_t)
    (h0 : d.edges0 < d.edges1) (h1 : d.edges1 < cur.length) :
    (ref_step cur d).getD d.edges0 x =
      if ref_perform cur d then (ref_edges cur d).new_edges0 else (ref_edges cur d).edges0 := by
  unfold ref_step
  split
  · simp only [List.getD_eq_getElem?_getD]
    rw [List.getElem?_set_ne (by omega), List.getElem?_set_self (by omega)]
    rfl
  · simp only [ref_edges, List.getD_eq_getElem?_getD]
    rw [List.getElem?_eq_getElem (by omega)]
    rfl

theorem ref_step_getD_edges1 (cur : List edge_t) (d : SwapDescriptor) (x : edge_t)
    (h1 : d.edges1 < cur.length) :
    (ref_step cur d).getD d.edges1 x =
      if ref_perform cur d then (ref_edges cur d).new_edges1 else (ref_edges cur d).edges1 := by
  unfold ref_step
  split
  · simp only [List.getD_eq_getElem?_getD]
    rw [List.getElem?_set_self (by simp only [List.length_set]; omega)]
    rfl
  · simp only [ref_edges, List.getD_eq_getElem?_getD]
    rw [List.getElem?_eq_getElem (by omega)]
    rfl

/-! ## Folds -/

theorem foldl_rel {S A : Type} (R : S → S → Prop) (f : S → A → S)
    (hrefl : ∀ s, R s s) (htrans : ∀ s1 s2 s3, R s1 s2 → R s2 s3 → R s1 s3)
    (hstep : ∀ s x, R s (f s x)) : ∀ (l : List A) (s : S), R s (l.foldl f s) := by
  intro l
  induction l with
  | nil => intro s; exact hrefl s
  | cons x rest ih =>
    intro s
    exact htrans _ _ _ (hstep s x) (ih (f s x))

theorem foldl_keeps {S A : Type} (Q : S → Prop) (f : S → A → S)
    (hmono : ∀ s x, Q s → Q (f s x)) : ∀ (l : List A) (s : S), Q s → Q (l.foldl f s) := by
  intro l
  induction l with
  | nil => intro s h; exact h
  | cons x rest ih => intro s h; exact ih _ (hmono s x h)

theorem foldl_adds {S A : Type} (Q : S → Prop) (f : S → A → S) (x0 : A)
    (hmono : ∀ s x, Q s → Q (f s x)) (hadd : ∀ s, Q (f s x0)) :
    ∀ (l : List A) (s : S), x0 ∈ l → Q (l.foldl f s) := by
  intro l
  induction l with
  | nil => intro s h; simp at h
  | cons x rest ih =>
    intro s h
    rcases List.mem_cons.mp h with h1 | h1
    · subst h1
      exact foldl_keeps Q f hmono rest _ (hadd s)
    · exact ih _ h1

/-! ## Pass B: the pushes of one iteration -/

theorem PushRel.refl (k a b succ0 succ1 : Nat) (st : ConflictState) :
    PushRel k a b succ0 succ1 st st :=
  ⟨rfl, rfl, rfl, rfl, fun h => h, fun _ _ => rfl, fun _ h => h, fun _ h => Or.inl h,
    fun _ h => h, fun _ h => Or.inl h⟩

theorem PushRel.trans (k a b succ0 succ1 : Nat) (s1 s2 s3 : ConflictState)
    (h12 : PushRel k a b succ0 succ1 s1 s2) (h23 : PushRel k a b succ0 succ1 s2 s3) :
    PushRel k a b succ0 succ1 s1 s3 := by
  constructor
  · rw [h23.succ_eq, h12.succ_eq]
  · rw [h23.sorter_eq, h12.sorter_eq]
  · rw [h23.value_eq, h12.value_eq]
  · rw [h23.src_eq, h12.src_eq]
  · exact fun h => h23.pq_sorted (h12.pq_sorted h)
  · intro h0 h1; rw [h23.pq_same h0 h1, h12.pq_same h0 h1]
  · exact fun x h => h23.pq_mono x (h12.pq_mono x h)
  · intro x h
    rcases h23.pq_new x h with h | h
    · exact h12.pq_new x h
    · exact Or.inr h
  · exact fun r h => h23.req_mono r (h12.req_mono r h)
  · intro r h
    rcases h23.req_new r h with h | h
    · exact h12.req_new r h
    · exact Or.inr h

theorem mem_pq_push {α : Type} [LinearOrder α] (x y : α) (pq : List α) :
    y ∈ pq_push x pq ↔ y = x ∨ y ∈ pq := by
  unfold pq_push
  rw [(List.perm_orderedInsert _ x pq).mem_iff, List.mem_cons]

theorem pq_push_sorted {α : Type} [LinearOrder α] (x : α) (pq : List α)
    (h : pq.Sorted (· ≤ ·)) : (pq_push x pq).Sorted (· ≤ ·) :=
  List.Sorted.orderedInsert x pq h

theorem push_new_edge_rel0 (k a b succ0 succ1 : Nat) (e : edge_t) (st : ConflictState) :
    PushRel k a b succ0 succ1 st (push_new_edge k a succ0 e st) := by
  by_cases h : succ0 ≠ 0
  · simp only [push_new_edge, if_pos h, PQSorterMerger.pq_pushed]
    constructor
    · rfl
    · rfl
    · rfl
    · rfl
    · exact fun hs => pq_push_sorted _ _ hs
    · intro h0; exact absurd h0 h
    · intro x hx; exact (mem_pq_push _ _ _).mpr (Or.inr hx)
    · intro x hx
      rcases (mem_pq_push _ _ _).mp hx with hx | hx
      · subst hx; exact Or.inr (Or.inl ⟨h, rfl, rfl⟩)
      · exact Or.inl hx
    · intro r hr; exact List.mem_append_left _ hr
    · intro r hr
      rcases List.mem_append.mp hr with hr | hr
      · exact Or.inl hr
      · simp only [List.mem_singleton] at hr; subst hr; exact Or.inr rfl
  · simp only [push_new_edge, if_neg h]
    constructor
    · rfl
    · rfl
    · rfl
    · rfl
    · exact fun hs => hs
    · intro _ _; rfl
    · intro x hx; exact hx
    · intro x hx; exact Or.inl hx
    · intro r hr; exact List.mem_append_left _ hr
    · intro r hr
      rcases List.mem_append.mp hr with hr | hr
      · exact Or.inl hr
      · simp only [List.mem_singleton] at hr; subst hr; exact Or.inr rfl

theorem push_new_edge_rel1 (k a b succ0 succ1 : Nat) (e : edge_t) (st : ConflictState) :
    PushRel k a b succ0 succ1 st (push_new_edge k b succ1 e st) := by
  by_cases h : succ1 ≠ 0
  · simp only [push_new_edge, if_pos h, PQSorterMerger.pq_pushed]
    constructor
    · rfl
    · rfl
    · rfl
    · rfl
    · exact fun hs => pq_push_sorted _ _ hs
    · intro _ h1; exact absurd h1 h
    · intro x hx; exact (mem_pq_push _ _ _).mpr (Or.inr hx)
    · intro x hx
      rcases (mem_pq_push _ _ _).mp hx with hx | hx
      · subst hx; exact Or.inr (Or.inr ⟨h, rfl, rfl⟩)
      · exact Or.inl hx
    · intro r hr; exact List.mem_append_left _ hr
    · intro r hr
      rcases List.mem_append.mp hr with hr | hr
      · exact Or.inl hr
      · simp only [List.mem_singleton] at hr; subst hr; exact Or.inr rfl
  · simp only [push_new_edge, if_neg h]
    constructor
    · rfl
    · rfl
    · rfl
    · rfl
    · exact fun hs => hs
    · intro _ _; rfl
    · intro x hx; exact hx
    · intro x hx; exact Or.inl hx
    · intro r hr; exact List.mem_append_left _ hr
    · intro r hr
      rcases List.mem_append.mp hr with hr | hr
      · exact Or.inl hr
      · simp only [List.mem_singleton] at hr; subst hr; exact Or.inr rfl

theorem push_old_edge_rel0 (k a b succ0 succ1 : Nat) (st : ConflictState) (e : edge_t) :
    PushRel k a b succ0 succ1 st (push_old_edge k a succ0 st e) := by
  by_cases h : succ0 ≠ 0
  · simp only [push_old_edge, if_pos h, PQSorterMerger.pq_pushed]
    constructor
    · rfl
    · rfl
    · rfl
    · rfl
    · exact fun hs => pq_push_sorted _ _ hs
    · intro h0; exact absurd h0 h
    · intro x hx; exact (mem_pq_push _ _ _).mpr (Or.inr hx)
    · intro x hx
      rcases (mem_pq_push _ _ _).mp hx with hx | hx
      · subst hx; exact Or.inr (Or.inl ⟨h, rfl, rfl⟩)
      · exact Or.inl hx
    · intro r hr; exact List.mem_append_left _ hr
    · intro r hr
      rcases List.mem_append.mp hr with hr | hr
      · exact Or.inl hr
      · simp only [List.mem_singleton] at hr; subst hr; exact Or.inr rfl
  · simp only [push_old_edge, if_neg h]
    constructor
    · rfl
    · rfl
    · rfl
    · rfl
    · exact fun hs => hs
    · intro _ _; rfl
    · intro x hx; exact hx
    · intro x hx; exact Or.inl hx
    · intro r hr; exact List.mem_append_left _ hr
    · intro r hr
      rcases List.mem_append.mp hr with hr | hr
      · exact Or.inl hr
      · simp only [List.mem_singleton] at hr; subst hr; exact Or.inr rfl

theorem push_old_edge_rel1 (k a b succ0 succ1 : Nat) (st : ConflictState) (e : edge_t) :
    PushRel k a b succ0 succ1 st (push_old_edge k b succ1 st e) := by
  by_cases h : succ1 ≠ 0
  · simp only [push_old_edge, if_pos h, PQSorterMerger.pq_pushed]
    constructor
    · rfl
    · rfl
    · rfl
    · rfl
    · exact fun hs => pq_push_sorted _ _ hs
    · intro _ h1; exact absurd h1 h
    · intro x hx; exact (mem_pq_push _ _ _).mpr (Or.inr hx)
    · intro x hx
      rcases (mem_pq_push _ _ _).mp hx with hx | hx
      · subst hx; exact Or.inr (Or.inr ⟨h, rfl, rfl⟩)
      · exact Or.inl hx
    · intro r hr; exact List.mem_append_left _ hr
    · intro r hr
      rcases List.mem_append.mp hr with hr | hr
      · exact Or.inl hr
      · simp only [List.mem_singleton] at hr; subst hr; exact Or.inr rfl
  · simp only [push_old_edge, if_neg h]
    constructor
    · rfl
    · rfl
    · rfl
    · rfl
    · exact fun hs => hs
    · intro _ _; rfl
    · intro x hx; exact hx
    · intro x hx; exact Or.inl hx
    · intro r hr; exact List.mem_append_left _ hr
    · intro r hr
      rcases List.mem_append.mp hr with hr | hr
      · exact Or.inl hr
      · simp only [List.mem_singleton] at hr; subst hr; exact Or.inr rfl

theorem push_pair_rel (k : Nat) (swap : SwapDescriptor) (succ0 succ1 : Nat)
    (st : ConflictState) (e1 e2 : edge_t) :
    PushRel k swap.edges0 swap.edges1 succ0 succ1 st
      (push_pair k swap (succ0, succ1) st e1 e2) := by
  unfold push_pair
  exact PushRel.trans _ _ _ _ _ _ _ _ (push_new_edge_rel0 _ _ _ _ _ _ _)
    (push_new_edge_rel1 _ _ _ _ _ _ _)

theorem push_new_edge_req (k eid succ : Nat) (e : edge_t) (st : ConflictState) :
    (⟨e, k, false⟩ : ExistenceRequestMsg) ∈
      (push_new_edge k eid succ e st)._existence_request_sorter := by
  simp [push_new_edge]

theorem push_new_edge_pq (k eid succ : Nat) (e : edge_t) (st : ConflictState) (h : succ ≠ 0) :
    (⟨succ, eid, e⟩ : DependencyChainEdgeMsg) ∈
      (push_new_edge k eid succ e st).depchain_pqsort._pq := by
  simp only [push_new_edge, if_pos h, PQSorterMerger.pq_pushed]
  exact (mem_pq_push _ _ _).mpr (Or.inl rfl)

theorem push_old_edge_req (k eid succ : Nat) (e : edge_t) (st : ConflictState) :
    (⟨e, k, true⟩ : ExistenceRequestMsg) ∈
      (push_old_edge k eid succ st e)._existence_request_sorter := by
  simp [push_old_edge]

theorem push_old_edge_pq (k eid succ : Nat) (e : edge_t) (st : ConflictState) (h : succ ≠ 0) :
    (⟨succ, eid, e⟩ : DependencyChainEdgeMsg) ∈
      (push_old_edge k eid succ st e).depchain_pqsort._pq := by
  simp only [push_old_edge, if_pos h, PQSorterMerger.pq_pushed]
  exact (mem_pq_push _ _ _).mpr (Or.inl rfl)

/-- The pushes of one iteration of Pass B: what they keep and what they add. -/
theorem conflicts_pushes (k : Nat) (swap : SwapDescriptor) (succ0 succ1 : Nat)
    (E0 E1 : List edge_t) (st : ConflictState) :
    let st2 := E0.foldl
      (fun s e1 => E1.foldl (fun s2 e2 => push_pair k swap (succ0, succ1) s2 e1 e2) s) st
    let st3 := E0.foldl (push_old_edge k swap.edges0 succ0) st2
    let st4 := E1.foldl (push_old_edge k swap.edges1 succ1) st3
    PushRel k swap.edges0 swap.edges1 succ0 succ1 st st4 ∧
    (∀ e1 ∈ E0, ∀ e2 ∈ E1,
      (⟨(_swap_edges e1 e2 swap.direction).1, k, false⟩ : ExistenceRequestMsg) ∈
        st4._existence_request_sorter ∧
      (⟨(_swap_edges e1 e2 swap.direction).2, k, false⟩ : ExistenceRequestMsg) ∈
        st4._existence_request_sorter ∧
      (succ0 ≠ 0 → (⟨succ0, swap.edges0, (_swap_edges e1 e2 swap.direction).1⟩ :
        DependencyChainEdgeMsg) ∈ st4.depchain_pqsort._pq) ∧
      (succ1 ≠ 0 → (⟨succ1, swap.edges1, (_swap_edges e1 e2 swap.direction).2⟩ :
        DependencyChainEdgeMsg) ∈ st4.depchain_pqsort._pq)) ∧
    (∀ e1 ∈ E0, (⟨e1, k, true⟩ : ExistenceRequestMsg) ∈ st4._existence_request_sorter ∧
      (succ0 ≠ 0 → (⟨succ0, swap.edges0, e1⟩ : DependencyChainEdgeMsg) ∈
        st4.depchain_pqsort._pq)) ∧
    (∀ e2 ∈ E1, (⟨e2, k, true⟩ : ExistenceRequestMsg) ∈ st4._existence_request_sorter ∧
      (succ1 ≠ 0 → (⟨succ1, swap.edges1, e2⟩ : DependencyChainEdgeMsg) ∈
        st4.depchain_pqsort._pq)) := by
  intro st2 st3 st4
  have R := PushRel k swap.edges0 swap.edges1 succ0 succ1
  have hrefl := PushRel.refl k swap.edges0 swap.edges1 succ0 succ1
  have htrans := PushRel.trans k swap.edges0 swap.edges1 succ0 succ1
  have hinner : ∀ e1 s, PushRel k swap.edges0 swap.edges1 succ0 succ1 s
      (E1.foldl (fun s2 e2 => push_pair k swap (succ0, succ1) s2 e1 e2) s) :=
    fun e1 s => foldl_rel _ _ hrefl htrans (fun s2 e2 => push_pair_rel k swap succ0 succ1 s2 e1 e2) E1 s
  have h12 : PushRel k swap.edges0 swap.edges1 succ0 succ1 st st2 :=
    foldl_rel _ _ hrefl htrans (fun s e1 => hinner e1 s) E0 st
  have h23 : PushRel k swap.edges0 swap.edges1 succ0 succ1 st2 st3 :=
    foldl_rel _ _ hrefl htrans (fun s e => push_old_edge_rel0 k _ _ succ0 succ1 s e) E0 st2
  have h34 : PushRel k swap.edges0 swap.edges1 succ0 succ1 st3 st4 :=
    foldl_rel _ _ hrefl htrans (fun s e => push_old_edge_rel1 k _ _ succ0 succ1 s e) E1 st3
  have h24 := htrans _ _ _ h23 h34
  refine ⟨htrans _ _ _ h12 h24, ?_, ?_, ?_⟩
  · intro e1 he1 e2 he2
    -- a property of the state that the pair `(e1, e2)` establishes and later pushes keep
    have key : ∀ (Q : ConflictState → Prop),
        (∀ s s1, PushRel k swap.edges0 swap.edges1 succ0 succ1 s s1 → Q s → Q s1) →
        (∀ s, Q (push_pair k swap (succ0, succ1) s e1 e2)) → Q st4 := by
      intro Q hQ hadd
      have h2 : Q st2 := by
        apply foldl_adds Q _ e1 (fun s x hq => hQ _ _ (hinner x s) hq) _ E0 st he1
        intro s
        exact foldl_adds Q _ e2 (fun s2 x hq => hQ _ _ (push_pair_rel k swap succ0 succ1 s2 e1 x) hq)
          hadd E1 s he2
      exact hQ _ _ h24 h2
    refine ⟨?_, ?_, ?_, ?_⟩
    · apply key (fun s => _ ∈ s._existence_request_sorter)
      · intro s s1 hr hq; exact hr.req_mono _ hq
      · intro s
        exact (push_new_edge_rel1 k swap.edges0 swap.edges1 succ0 succ1 _ _).req_mono _
          (push_new_edge_req _ _ _ _ _)
    · apply key (fun s => _ ∈ s._existence_request_sorter)
      · intro s s1 hr hq; exact hr.req_mono _ hq
      · intro s
        exact push_new_edge_req _ _ _ _ _
    · intro hs0
      apply key (fun s => _ ∈ s.depchain_pqsort._pq)
      · intro s s1 hr hq; exact hr.pq_mono _ hq
      · intro s
        exact (push_new_edge_rel1 k swap.edges0 swap.edges1 succ0 succ1 _ _).pq_mono _
          (push_new_edge_pq _ _ _ _ _ hs0)
    · intro hs1
      apply key (fun s => _ ∈ s.depchain_pqsort._pq)
      · intro s s1 hr hq; exact hr.pq_mono _ hq
      · intro s
        exact push_new_edge_pq _ _ _ _ _ hs1
  · intro e1 he1
    refine ⟨?_, ?_⟩
    · apply h34.req_mono
      exact foldl_adds (fun s => _ ∈ s._existence_request_sorter) _ e1
        (fun s x hq => (push_old_edge_rel0 k swap.edges0 swap.edges1 succ0 succ1 s x).req_mono _ hq)
        (fun s => push_old_edge_req _ _ _ _ _) E0 st2 he1
    · intro hs0
      apply h34.pq_mono
      exact foldl_adds (fun s => _ ∈ s.depchain_pqsort._pq) _ e1
        (fun s x hq => (push_old_edge_rel0 k swap.edges0 swap.edges1 succ0 succ1 s x).pq_mono _ hq)
        (fun s => push_old_edge_pq _ _ _ _ _ hs0) E0 st2 he1
  · intro e2 he2
    refine ⟨?_, ?_⟩
    · exact foldl_adds (fun s => _ ∈ s._existence_request_sorter) _ e2
        (fun s x hq => (push_old_edge_rel1 k swap.edges0 swap.edges1 succ0 succ1 s x).req_mono _ hq)
        (fun s => push_old_edge_req _ _ _ _ _) E1 st3 he2
    · intro hs1
      exact foldl_adds (fun s => _ ∈ s.depchain_pqsort._pq) _ e2
        (fun s x hq => (push_old_edge_rel1 k swap.edges0 swap.edges1 succ0 succ1 s x).pq_mono _ hq)
        (fun s => push_old_edge_pq _ _ _ _ _ hs1) E1 st3 he2

/-! ## Pass B: one iteration -/

theorem fetch_messages_spec (swaps : List SwapDescriptor) (k eid : Nat) (d : SwapDescriptor)
    (hd : swaps[k]? = some d) (ht : touches d eid) (st : ConflictState)
    (hasc : st.depchain_pqsort.Ascending) (hfresh : st.depchain_pqsort.Fresh)
    (hs : st._depchain_successor_sorter.Sorted (· < ·))
    (hsound : ∀ msg ∈ st._depchain_successor_sorter, SuccSpec swaps msg ∧ k ≤ msg.swap_id)
    (hcomplete : ∀ msg, SuccSpec swaps msg → msg.swap_id = k → msg.edge_id = eid →
      msg ∈ st._depchain_successor_sorter)
    (hge : ∀ msg ∈ st._depchain_successor_sorter, msg.swap_id = k → eid ≤ msg.edge_id)
    (hdep : ∀ msg ∈ st.depchain_pqsort.items,
      k ≤ msg.swap_id ∧ (msg.swap_id = k → eid ≤ msg.edge_id))
    (cur_e : edge_t) (hcur : (⟨k, eid, cur_e⟩ : DependencyChainEdgeMsg) ∈ st.depchain_pqsort.items) :
    ∃ st1 successor E, fetch_messages k eid st = some (st1, successor, E) ∧
      st1._existence_request_sorter = st._existence_request_sorter ∧
      ((successor = 0 ∧ ∀ s, ¬ next_touch swaps (k + 1) eid s) ∨
        next_touch swaps (k + 1) eid successor) ∧
      st1._depchain_successor_sorter.Sorted (· < ·) ∧
      (∀ msg, msg ∈ st1._depchain_successor_sorter ↔
        msg ∈ st._depchain_successor_sorter ∧ ¬ (msg.swap_id = k ∧ msg.edge_id = eid)) ∧
      st1.depchain_pqsort.Ascending ∧ st1.depchain_pqsort.Fresh ∧
      (∀ x, x ∈ st1.depchain_pqsort.items ↔
        x ∈ st.depchain_pqsort.items ∧ ¬ (x.swap_id = k ∧ x.edge_id = eid)) ∧
      (∀ e, e ∈ E ↔ (⟨k, eid, e⟩ : DependencyChainEdgeMsg) ∈ st.depchain_pqsort.items) := by
  obtain ⟨successor, sorter1, h1, h2, h3, h4⟩ :=
    get_successor_spec swaps k eid _ hs hsound hcomplete hge d hd ht
  obtain ⟨m1, E, g1, g2, g3, g4, g5, _⟩ :=
    fetch_states_spec k eid st.depchain_pqsort.size st.depchain_pqsort [] hasc hfresh
      (by rw [PQSorterMerger.size_eq]) hdep
  have hE : ∀ e, e ∈ E ↔ (⟨k, eid, e⟩ : DependencyChainEdgeMsg) ∈ st.depchain_pqsort.items := by
    intro e; rw [g5 e]; simp
  have hne : E.isEmpty = false := by
    cases E with
    | nil => exact absurd ((hE cur_e).mpr hcur) (List.not_mem_nil _)
    | cons _ _ => rfl
  have hsuccok : successor = 0 ∨ successor > k := by
    rcases h2 with h | h
    · exact Or.inl h.1
    · right
      have := next_touch_ge _ _ _ _ h
      omega
  refine ⟨{ st with _depchain_successor_sorter := sorter1, depchain_pqsort := m1 },
    successor, E, ?_, rfl, h2, h3, h4, g2, g3, g4, hE⟩
  simp [fetch_messages, h1, g1, hne, hsuccok]

theorem touches_iff (d : SwapDescriptor) (e : Nat) :
    touches d e ↔ e = d.edges0 ∨ e = d.edges1 := Iff.rfl

theorem conflicts_step_inv (edges : List edge_t) (swaps : List SwapDescriptor) (k : Nat)
    (d : SwapDescriptor) (hd : swaps[k]? = some d) (hv0 : d.edges0 < d.edges1)
    (hv1 : d.edges1 < edges.length) (st : ConflictState)
    (hinv : ConflictInv edges swaps k st) :
    ∃ st1, conflicts_step k d st = some st1 ∧ ConflictInv edges swaps (k + 1) st1 := by
  have hcurlen : (ref_state edges swaps k).length = edges.length := ref_state_length _ _ _
  -- facts about the messages of swap `k`
  have htk : ∀ e, next_touch swaps k e k → e = d.edges0 ∨ e = d.edges1 :=
    fun e h => next_touch_touches swaps k e d hd h
  have hsuccT : ∀ msg, SuccSpec swaps msg → msg.swap_id = k →
      msg.edge_id = d.edges0 ∨ msg.edge_id = d.edges1 := by
    rintro msg ⟨⟨d1, hd1, ht1⟩, _⟩ hk
    rw [hk, hd] at hd1
    exact (Option.some.inj hd1) ▸ ht1
  -- first edge
  obtain ⟨st0, succ0, E0, f0, r0, s0, ss0, sm0, a0, fr0, i0, e0⟩ :=
    fetch_messages_spec swaps k d.edges0 d hd (Or.inl rfl) st hinv.pq_asc hinv.pq_fresh
      hinv.succ_sorted (fun msg hm => (hinv.succ_mem msg).mp hm)
      (fun msg h1 h2 _ => (hinv.succ_mem msg).mpr ⟨h1, by omega⟩)
      (fun msg hm hk => by
        rcases hsuccT msg ((hinv.succ_mem msg).mp hm).1 hk with h | h <;> omega)
      (fun msg hm => by
        have h := hinv.dep_sound msg hm
        refine ⟨h.1, fun hk => ?_⟩
        rcases htk _ (hk ▸ h) with h1 | h1 <;> omega)
      _ (hinv.dep_complete _ _ (next_touch_self swaps k _ d hd (Or.inl rfl)))
  -- second edge
  obtain ⟨st1, succ1, E1, f1, r1, s1, ss1, sm1, a1, fr1, i1, e1⟩ :=
    fetch_messages_spec swaps k d.edges1 d hd (Or.inr rfl) st0 a0 fr0 ss0
      (fun msg hm => (hinv.succ_mem msg).mp ((sm0 msg).mp hm).1)
      (fun msg h1 h2 h3 => (sm0 msg).mpr ⟨(hinv.succ_mem msg).mpr ⟨h1, by omega⟩,
        fun h => by omega⟩)
      (fun msg hm hk => by
        have h := (sm0 msg).mp hm
        rcases hsuccT msg ((hinv.succ_mem msg).mp h.1).1 hk with h1 | h1
        · exact absurd ⟨hk, h1⟩ h.2
        · omega)
      (fun msg hm => by
        have h := (i0 msg).mp hm
        have h2 := hinv.dep_sound msg h.1
        refine ⟨h2.1, fun hk => ?_⟩
        rcases htk _ (hk ▸ h2) with h1 | h1
        · exact absurd ⟨hk, h1⟩ h.2
        · omega)
      _ ((i0 _).mpr ⟨hinv.dep_complete _ _ (next_touch_self swaps k _ d hd (Or.inr rfl)),
        fun h => by have := h.2; simp only at this; omega⟩)
  -- all messages of swap `k` are consumed
  have hrest : ∀ x ∈ st1.depchain_pqsort.items, next_touch swaps (k + 1) x.edge_id x.swap_id := by
    intro x hx
    have h1 := (i1 x).mp hx
    have h0 := (i0 x).mp h1.1
    have hs := hinv.dep_sound x h0.1
    have hnt : ¬ touches d x.edge_id := by
      intro ht
      have := next_touch_eq_of_touches swaps k _ _ d hd ht hs
      rcases ht with ht | ht
      · exact h0.2 ⟨this, ht⟩
      · exact h1.2 ⟨this, ht⟩
    exact (next_touch_succ_iff swaps k _ _ d hd hnt).mp hs
  have hconsumed : (!(all_consumed k st1.depchain_pqsort)) = false := by
    unfold all_consumed
    by_cases hne : st1.depchain_pqsort.items = []
    · rw [(PQSorterMerger.empty_iff _).mpr hne]; rfl
    · obtain ⟨x, m2, hderef, _, _, _, hperm, _⟩ :=
        PQSorterMerger.pop_spec _ a1 fr1 hne
      have hx := hrest x (hperm.mem_iff.mpr (List.mem_cons_self _ _))
      have := next_touch_ge _ _ _ _ hx
      rw [hderef]
      have : x.swap_id > k := by omega
      simp [this]
  -- the pushes
  obtain ⟨hrel, hpairs, hold0, hold1⟩ := conflicts_pushes k d succ0 succ1 E0 E1 st1
  generalize hst4 : (E1.foldl (push_old_edge k d.edges1 succ1)
    (E0.foldl (push_old_edge k d.edges0 succ0)
      (E0.foldl (fun s e1 => E1.foldl
        (fun s2 e2 => push_pair k d (succ0, succ1) s2 e1 e2) s) st1))) = st4 at hrel hpairs hold0 hold1
  have hstep : conflicts_step k d st = some
      (if succ0 ≠ 0 ∨ succ1 ≠ 0 then
        { st4 with depchain_pqsort := st4.depchain_pqsort.update }
      else st4) := by
    simp only [conflicts_step, f0, f1, hconsumed, Bool.false_eq_true, if_false, hst4]
    split <;> rfl
  -- the new state
  have hitems4 : ∀ x, x ∈ st4.depchain_pqsort.items ↔
      x ∈ st4.depchain_pqsort._pq ∨ x ∈ st1.depchain_pqsort._sorter := by
    intro x
    simp only [PQSorterMerger.items, List.mem_append, hrel.sorter_eq]
  have hasc4 : st4.depchain_pqsort.Ascending := by
    refine ⟨hrel.pq_sorted a1.1, ?_⟩
    rw [hrel.sorter_eq]; exact a1.2
  have hE0 : (ref_state edges swaps k).getD d.edges0 ⟨0, 0⟩ ∈ E0 :=
    (e0 _).mpr (hinv.dep_complete _ _ (next_touch_self swaps k _ d hd (Or.inl rfl)))
  have hE1 : (ref_state edges swaps k).getD d.edges1 ⟨0, 0⟩ ∈ E1 :=
    (e1 _).mpr ((i0 _).mpr ⟨hinv.dep_complete _ _ (next_touch_self swaps k _ d hd (Or.inr rfl)),
      fun h => by have := h.2; simp only at this; omega⟩)
  have hfinal : ∀ (m : PQSorterMerger DependencyChainEdgeMsg),
      m.items = st4.depchain_pqsort.items → m.Ascending → m.Fresh →
      ConflictInv edges swaps (k + 1)
        { st4 with depchain_pqsort := m } := by
    intro m hitems hasc hfresh
    constructor
    · exact hasc
    · exact hfresh
    · show st4._depchain_successor_sorter.Sorted (· < ·)
      rw [hrel.succ_eq]; exact ss1
    · intro msg
      show msg ∈ st4._depchain_successor_sorter ↔ _
      rw [hrel.succ_eq, sm1, sm0, hinv.succ_mem]
      constructor
      · rintro ⟨⟨⟨h1, h2⟩, h3⟩, h4⟩
        refine ⟨h1, ?_⟩
        by_contra hcon
        have hk : msg.swap_id = k := by omega
        rcases hsuccT msg h1 hk with h | h
        · exact h3 ⟨hk, h⟩
        · exact h4 ⟨hk, h⟩
      · rintro ⟨h1, h2⟩
        exact ⟨⟨⟨h1, by omega⟩, fun h => by omega⟩, fun h => by omega⟩
    · intro msg hm
      change msg ∈ m.items at hm
      rw [hitems, hitems4] at hm
      have hold : msg ∈ st1.depchain_pqsort.items →
          next_touch swaps (k + 1) msg.edge_id msg.swap_id := hrest msg
      rcases hm with hm | hm
      · rcases hrel.pq_new msg hm with h | ⟨h1, h2, h3⟩ | ⟨h1, h2, h3⟩
        · exact hold (by simp only [PQSorterMerger.items, List.mem_append]; exact Or.inl h)
        · rcases s0 with s0 | s0
          · exact absurd s0.1 h1
          · rw [h2, h3]; exact s0
        · rcases s1 with s1 | s1
          · exact absurd s1.1 h1
          · rw [h2, h3]; exact s1
      · exact hold (by simp only [PQSorterMerger.items, List.mem_append]; exact Or.inr hm)
    · intro e s hnt
      show _ ∈ m.items
      rw [hitems, hitems4, ref_state_succ edges swaps k d hd]
      have hmono : ∀ x, x ∈ st1.depchain_pqsort.items →
          x ∈ st4.depchain_pqsort._pq ∨ x ∈ st1.depchain_pqsort._sorter := by
        intro x hx
        simp only [PQSorterMerger.items, List.mem_append] at hx
        rcases hx with hx | hx
        · exact Or.inl (hrel.pq_mono x hx)
        · exact Or.inr hx
      by_cases he0 : e = d.edges0
      · subst he0
        have hs : s = succ0 := by
          rcases s0 with s0 | s0
          · exact absurd hnt (s0.2 s)
          · exact next_touch_unique _ _ _ _ _ hnt s0
        have hs0 : succ0 ≠ 0 := by
          have := next_touch_ge _ _ _ _ hnt
          omega
        subst hs
        left
        rw [ref_step_getD_edges0 _ _ _ hv0 (by rw [hcurlen]; exact hv1)]
        split
        · exact (hpairs _ hE0 _ hE1).2.2.1 hs0
        · exact (hold0 _ hE0).2 hs0
      · by_cases he1 : e = d.edges1
        · subst he1
          have hs : s = succ1 := by
            rcases s1 with s1 | s1
            · exact absurd hnt (s1.2 s)
            · exact next_touch_unique _ _ _ _ _ hnt s1
          have hs1 : succ1 ≠ 0 := by
            have := next_touch_ge _ _ _ _ hnt
            omega
          subst hs
          left
          rw [ref_step_getD_edges1 _ _ _ (by rw [hcurlen]; exact hv1)]
          split
          · exact (hpairs _ hE0 _ hE1).2.2.2 hs1
          · exact (hold1 _ hE1).2 hs1
        · rw [ref_step_getD_other _ _ _ _ he0 he1]
          apply hmono
          have hnt' : ¬ touches d e := fun h => by rcases h with h | h <;> contradiction
          have hk := (next_touch_succ_iff swaps k e s d hd hnt').mpr hnt
          have hin := hinv.dep_complete e s hk
          exact (i1 _).mpr ⟨(i0 _).mpr ⟨hin, fun h => he0 h.2⟩, fun h => he1 h.2⟩
    · intro r hr
      change r ∈ st4._existence_request_sorter at hr
      rcases hrel.req_new r hr with h | h
      · rw [r1, r0] at h
        have := hinv.req_lt r h
        omega
      · omega
    · intro j dj hj hdj
      show _ ∈ st4._existence_request_sorter ∧ _ ∈ st4._existence_request_sorter
      by_cases hjk : j = k
      · subst hjk
        rw [hd] at hdj
        have hdd := Option.some.inj hdj
        subst hdd
        exact ⟨(hold0 _ hE0).1, (hold1 _ hE1).1⟩
      · have := hinv.req_src j dj (by omega) hdj
        exact ⟨hrel.req_mono _ (by rw [r1, r0]; exact this.1),
          hrel.req_mono _ (by rw [r1, r0]; exact this.2)⟩
    · intro j dj hj hdj
      show _ ∈ st4._existence_request_sorter ∧ _ ∈ st4._existence_request_sorter
      by_cases hjk : j = k
      · subst hjk
        rw [hd] at hdj
        have hdd := Option.some.inj hdj
        subst hdd
        exact ⟨(hpairs _ hE0 _ hE1).1, (hpairs _ hE0 _ hE1).2.1⟩
      · have := hinv.req_tgt j dj (by omega) hdj
        exact ⟨hrel.req_mono _ (by rw [r1, r0]; exact this.1),
          hrel.req_mono _ (by rw [r1, r0]; exact this.2)⟩
  refine ⟨_, hstep, ?_⟩
  by_cases hsucc : succ0 ≠ 0 ∨ succ1 ≠ 0
  · rw [if_pos hsucc]
    exact hfinal _ (PQSorterMerger.update_items _) (PQSorterMerger.update_ascending _ hasc4)
      (PQSorterMerger.update_fresh _)
  · rw [if_neg hsucc]
    simp only [not_or, not_not] at hsucc
    have hsame : st4.depchain_pqsort = st1.depchain_pqsort := by
      have h1 := hrel.pq_same hsucc.1 hsucc.2
      have h2 := hrel.sorter_eq
      have h3 := hrel.value_eq
      have h4 := hrel.src_eq
      cases hm4 : st4.depchain_pqsort with
      | mk p4 s4 c4 v4 =>
        cases hm1 : st1.depchain_pqsort with
        | mk p1 s1 c1 v1 =>
          rw [hm4, hm1] at h1 h2 h3 h4
          simp only at h1 h2 h3 h4
          rw [h1, h2, h3, h4]
    have := hfinal st4.depchain_pqsort rfl hasc4 (by rw [hsame]; exact fr1)
    exact this

theorem getElem?_of_drop_eq_cons {α : Type} (l : List α) (k : Nat) (x : α) (rest : List α)
    (h : l.drop k = x :: rest) : l[k]? = some x ∧ l.drop (k + 1) = rest ∧ k < l.length := by
  have hk : k < l.length := by
    by_contra hcon
    rw [List.drop_eq_nil_of_le (by omega)] at h
    exact List.noConfusion h
  rw [List.drop_eq_getElem_cons hk] at h
  simp only [List.cons.injEq] at h
  exact ⟨by rw [List.getElem?_eq_getElem hk, h.1], h.2, hk⟩

theorem conflicts_loop_inv (edges : List edge_t) (swaps : List SwapDescriptor)
    (hv : valid_batch edges.length swaps) :
    ∀ (rest : List SwapDescriptor) (k : Nat) (st : ConflictState),
      swaps.drop k = rest → k ≤ swaps.length → ConflictInv edges swaps k st →
      ∃ st1, conflicts_loop rest k st = some st1 ∧ ConflictInv edges swaps swaps.length st1 := by
  intro rest
  induction rest with
  | nil =>
    intro k st hdrop hk hinv
    have : k = swaps.length := by
      have := List.drop_eq_nil_iff.mp hdrop
      omega
    subst this
    exact ⟨st, rfl, hinv⟩
  | cons d rest ih =>
    intro k st hdrop hk hinv
    obtain ⟨hd, hdrop1, hlt⟩ := getElem?_of_drop_eq_cons swaps k d rest hdrop
    have hvd := hv d (List.getElem?_mem hd)
    obtain ⟨st1, h1, h2⟩ := conflicts_step_inv edges swaps k d hd hvd.1 hvd.2 st hinv
    obtain ⟨st2, h3, h4⟩ := ih (k + 1) st1 hdrop1 (by omega) h2
    exact ⟨st2, by simp only [conflicts_loop, h1, h3], h4⟩

theorem compute_conflicts_spec (edges : List edge_t) (swaps : List SwapDescriptor)
    (hv : valid_batch edges.length swaps) (a : DepChainResult) (ha : PassASpec edges swaps a) :
    ∃ requests, _compute_conflicts swaps a = some requests ∧ PassBSpec edges swaps requests := by
  have hinit : ConflictInv edges swaps 0
      { _depchain_successor_sorter := a._depchain_successor_sorter,
        depchain_pqsort := PQSorterMerger.init [] a._depchain_edge_sorter,
        _existence_request_sorter := [] } := by
    constructor
    · unfold PQSorterMerger.Ascending
      rw [(PQSorterMerger.init_pq _ _).1, (PQSorterMerger.init_pq _ _).2]
      exact ⟨List.sorted_nil, ha.dep_sorted.le_of_lt⟩
    · exact PQSorterMerger.init_fresh _ _
    · exact ha.succ_sorted
    · intro msg
      show msg ∈ a._depchain_successor_sorter ↔ _
      rw [ha.succ_mem]
      exact ⟨fun h => ⟨h, Nat.zero_le _⟩, fun h => h.1⟩
    · intro msg hm
      change msg ∈ (PQSorterMerger.init [] a._depchain_edge_sorter).items at hm
      rw [PQSorterMerger.init_items, List.nil_append, ha.dep_mem] at hm
      exact hm.1
    · intro e s hnt
      show _ ∈ (PQSorterMerger.init [] a._depchain_edge_sorter).items
      rw [PQSorterMerger.init_items, List.nil_append, ha.dep_mem, ref_state_zero]
      refine ⟨hnt, ?_⟩
      obtain ⟨_, ⟨d, hd, ht⟩, _⟩ := hnt
      have hvd := hv d (List.getElem?_mem hd)
      have he : e < edges.length := by rcases ht with h | h <;> omega
      show edges[e]? = some (edges.getD e ⟨0, 0⟩)
      rw [List.getD_eq_getElem?_getD, List.getElem?_eq_getElem he]
      rfl
    · intro r hr; simp at hr
    · intro j d hj; omega
    · intro j d hj; omega
  obtain ⟨st, h1, h2⟩ := conflicts_loop_inv edges swaps hv swaps 0 _ (by simp) (Nat.zero_le _) hinit
  refine ⟨sorter_sort st._existence_request_sorter, by simp only [_compute_conflicts, h1], ?_⟩
  constructor
  · exact sorter_sort_sorted _
  · intro r hr
    exact h2.req_lt r ((mem_sorter_sort _ _).mp hr)
  · intro j d hd
    have hj : j < swaps.length := by
      by_contra hcon
      rw [List.getElem?_eq_none (by omega)] at hd
      exact Option.noConfusion hd
    have := h2.req_src j d hj hd
    exact ⟨(mem_sorter_sort _ _).mpr this.1, (mem_sorter_sort _ _).mpr this.2⟩
  · intro j d hd
    have hj : j < swaps.length := by
      by_contra hcon
      rw [List.getElem?_eq_none (by omega)] at hd
      exact Option.noConfusion hd
    have := h2.req_tgt j d hj hd
    exact ⟨(mem_sorter_sort _ _).mpr this.1, (mem_sorter_sort _ _).mpr this.2⟩

/-! ## Pass C -/

theorem find_edge_spec (c : edge_t) :
    ∀ (reader : List edge_t), reader.Sorted (· < ·) →
      ∃ pre, reader = pre ++ (find_edge c reader false).1 ∧ (∀ x ∈ pre, x ≤ c) ∧
        (∀ x ∈ (find_edge c reader false).1, c < x) ∧
        (find_edge c reader false).2 = decide (c ∈ pre) := by
  have gen : ∀ (reader : List edge_t) (found : Bool), reader.Sorted (· < ·) →
      ∃ pre, reader = pre ++ (find_edge c reader found).1 ∧ (∀ x ∈ pre, x ≤ c) ∧
        (∀ x ∈ (find_edge c reader found).1, c < x) ∧
        (find_edge c reader found).2 = if pre = [] then found else decide (c ∈ pre) := by
    intro reader
    induction reader with
    | nil =>
      intro found _
      exact ⟨[], by simp [find_edge]⟩
    | cons x rest ih =>
      intro found hs
      by_cases hx : x > c
      · refine ⟨[], ?_⟩
        simp only [find_edge, if_pos hx, List.nil_append, List.not_mem_nil, false_implies,
          implies_true, true_and, if_true, and_true]
        intro y hy
        rcases List.mem_cons.mp hy with h | h
        · subst h; exact hx
        · exact lt_trans hx (List.rel_of_sorted_cons hs y h)
      · obtain ⟨pre, h1, h2, h3, h4⟩ := ih (x == c) hs.of_cons
        refine ⟨x :: pre, ?_, ?_, ?_, ?_⟩
        · simp only [find_edge, if_neg hx, List.cons_append]
          rw [← h1]
        · intro y hy
          rcases List.mem_cons.mp hy with h | h
          · subst h; exact not_lt.mp hx
          · exact h2 y h
        · simp only [find_edge, if_neg hx]
          exact h3
        · simp only [find_edge, if_neg hx, h4]
          by_cases hp : pre = []
          · subst hp
            simp only [if_true, List.mem_singleton]
            by_cases hxc : x = c
            · simp [hxc]
            · have : ¬ c = x := fun h => hxc h.symm
              simp [hxc, this]
          · simp only [hp, if_false, List.mem_cons, reduceCtorEq]
            have hcx : c ≠ x := by
              intro h
              obtain ⟨y, hy⟩ := List.exists_mem_of_ne_nil pre hp
              have h5 : x < y := by
                apply List.rel_of_sorted_cons hs y
                rw [h1]; exact List.mem_append_left _ hy
              have h6 := h2 y hy
              rw [h] at h6
              exact absurd h5 (not_lt.mpr h6)
            simp [hcx]
  intro reader hs
  obtain ⟨pre, h1, h2, h3, h4⟩ := gen reader false hs
  refine ⟨pre, h1, h2, h3, ?_⟩
  rw [h4]
  by_cases hp : pre = []
  · subst hp; simp
  · simp [hp]

theorem asks_append_singleton (P : List ExistenceRequestMsg) (r : ExistenceRequestMsg)
    (e : edge_t) (s : Nat) :
    asks (P ++ [r]) e s ↔ asks P e s ∨ (r.edge = e ∧ r.swap_id = s) := by
  unfold asks
  constructor
  · rintro ⟨f, hf⟩
    rcases List.mem_append.mp hf with h | h
    · exact Or.inl ⟨f, h⟩
    · simp only [List.mem_singleton] at h
      subst h
      exact Or.inr ⟨rfl, rfl⟩
  · rintro (⟨f, hf⟩ | ⟨h1, h2⟩)
    · exact ⟨f, List.mem_append_left _ hf⟩
    · refine ⟨r.forward_only, List.mem_append_right _ ?_⟩
      simp only [List.mem_singleton]
      cases r
      simp only at h1 h2
      rw [h1, h2]

theorem targets_append_singleton (P : List ExistenceRequestMsg) (r : ExistenceRequestMsg)
    (e : edge_t) (s : Nat) :
    targets (P ++ [r]) e s ↔
      targets P e s ∨ (r.edge = e ∧ r.swap_id = s ∧ r.forward_only = false) := by
  unfold targets
  constructor
  · intro hf
    rcases List.mem_append.mp hf with h | h
    · exact Or.inl h
    · simp only [List.mem_singleton] at h
      subst h
      exact Or.inr ⟨rfl, rfl, rfl⟩
  · rintro (hf | ⟨h1, h2, h3⟩)
    · exact List.mem_append_left _ hf
    · refine List.mem_append_right _ ?_
      simp only [List.mem_singleton]
      cases r
      simp only at h1 h2 h3
      rw [h1, h2, h3]

theorem asks_of_mem (P : List ExistenceRequestMsg) (q : ExistenceRequestMsg) (h : q ∈ P) :
    asks P q.edge q.swap_id := ⟨q.forward_only, h⟩

theorem asks_mem (P : List ExistenceRequestMsg) (e : edge_t) (s : Nat) (h : asks P e s) :
    ∃ q ∈ P, q.edge = e ∧ q.swap_id = s := by
  obtain ⟨f, hf⟩ := h
  exact ⟨_, hf, rfl, rfl⟩

theorem targets_mem (P : List ExistenceRequestMsg) (e : edge_t) (s : Nat) (h : targets P e s) :
    ∃ q ∈ P, q.edge = e ∧ q.swap_id = s ∧ q.forward_only = false :=
  ⟨_, h, rfl, rfl, rfl⟩

theorem targets_of_mem (P : List ExistenceRequestMsg) (q : ExistenceRequestMsg) (h : q ∈ P)
    (hf : q.forward_only = false) : targets P q.edge q.swap_id := by
  unfold targets
  cases q
  simp only at hf
  subst hf
  exact h

theorem chain_step (c : edge_t) (P todo : List ExistenceRequestMsg) (r : ExistenceRequestMsg)
    (last : Nat) (found : Bool) (succ : List ExistenceSuccessorMsg)
    (hinv : ChainInv c P (r :: todo) last found succ)
    (hsorted : (P ++ r :: todo).Sorted (· ≤ ·)) (hr : r.edge = c) :
    ∃ succ1, chain_requests c (r :: todo) last found succ =
        chain_requests c todo r.swap_id (found || !r.forward_only) succ1 ∧
      ChainInv c (P ++ [r]) todo r.swap_id (found || !r.forward_only) succ1 := by
  have hle : ∀ q ∈ P, q.edge = c → r.swap_id ≤ q.swap_id := by
    intro q hq hqc
    have h := (List.pairwise_append.mp hsorted).2.2 q hq r (List.mem_cons_self _ _)
    rw [existence_request_le_iff] at h
    rcases h with h | ⟨_, h | ⟨h, _⟩⟩
    · rw [hqc, hr] at h; exact absurd h (lt_irrefl _)
    · exact le_of_lt h
    · exact le_of_eq h.symm
  have hPc : (∃ q ∈ P, q.edge = c) → r.swap_id ≤ last := by
    intro h
    obtain ⟨q, hq, hq1, hq2⟩ := asks_mem P c last (hinv.last_asks h)
    have := hle q hq hq1
    omega
  have hasksP : ∀ t, asks P c t → last ≤ t := by
    intro t ht
    obtain ⟨q, hq, hq1, hq2⟩ := asks_mem P c t ht
    have := hinv.last_le q hq hq1
    omega
  have hasksPc : ∀ t, asks P c t → ∃ q ∈ P, q.edge = c := by
    intro t ht
    obtain ⟨q, hq, hq1, _⟩ := asks_mem P c t ht
    exact ⟨q, hq, hq1⟩
  -- the three fields that do not depend on the branch
  have hcommon : ∀ succ1, (∀ msg, msg ∈ succ1 ↔ ExSuccSpec (P ++ [r]) msg) →
      ChainInv c (P ++ [r]) todo r.swap_id (found || !r.forward_only) succ1 := by
    intro succ1 hsucc
    constructor
    · intro q hq hqc
      rcases List.mem_append.mp hq with h | h
      · exact hle q h hqc
      · simp only [List.mem_singleton] at h; subst h; exact le_refl _
    · intro _
      exact (asks_append_singleton P r c r.swap_id).mpr (Or.inr ⟨hr, rfl⟩)
    · intro h
      exact absurd ⟨r, List.mem_append_right _ (List.mem_singleton.mpr rfl), hr⟩ h
    · rw [Bool.or_eq_true, hinv.found_iff]
      constructor
      · rintro (⟨q, hq, h1, h2⟩ | h)
        · exact ⟨q, List.mem_append_left _ hq, h1, h2⟩
        · refine ⟨r, List.mem_append_right _ (List.mem_singleton.mpr rfl), hr, ?_⟩
          simpa using h
      · rintro ⟨q, hq, h1, h2⟩
        rcases List.mem_append.mp hq with h | h
        · exact Or.inl ⟨q, h, h1, h2⟩
        · simp only [List.mem_singleton] at h; subst h
          right; simp [h2]
    · exact hsucc
  -- an old link stays a link
  have hold : ∀ msg, ExSuccSpec P msg → ExSuccSpec (P ++ [r]) msg := by
    rintro msg ⟨h1, h2, h3, h4, t, h5, h6⟩
    refine ⟨(asks_append_singleton _ _ _ _).mpr (Or.inl h1),
      (asks_append_singleton _ _ _ _).mpr (Or.inl h2), h3, ?_,
      t, h5, (targets_append_singleton _ _ _ _).mpr (Or.inl h6)⟩
    intro u hu1 hu2 hu
    rcases (asks_append_singleton _ _ _ _).mp hu with h | ⟨h7, h8⟩
    · exact h4 u hu1 hu2 h
    · have hce : msg.edge = c := by rw [← h7, hr]
      rw [hce] at h1
      have := hasksP _ h1
      have := hPc (hasksPc _ h1)
      omega
  by_cases hpush : last ≠ r.swap_id ∧ found = true
  · -- a link from this asker to the previous one is emitted
    obtain ⟨q0, hq0, hq0c, hq0f⟩ := hinv.found_iff.mp hpush.2
    have hPne : ∃ q ∈ P, q.edge = c := ⟨q0, hq0, hq0c⟩
    have hlast : r.swap_id < last := by
      have := hPc hPne
      have := hpush.1
      omega
    refine ⟨succ ++ [⟨r.swap_id, c, last⟩], ?_, hcommon _ ?_⟩
    · have c1 : ¬ r.edge ≠ c := by simp [hr]
      have c2 : ¬ ¬ last > r.swap_id := by simp only [not_not]; exact hlast
      simp only [chain_requests, if_neg c1, if_pos hpush, if_neg c2]
    · intro msg
      rw [List.mem_append, List.mem_singleton, hinv.succ_mem]
      constructor
      · rintro (h | h)
        · exact hold msg h
        · subst h
          refine ⟨(asks_append_singleton _ _ _ _).mpr (Or.inr ⟨hr, rfl⟩),
            (asks_append_singleton _ _ _ _).mpr (Or.inl (hinv.last_asks hPne)), hlast, ?_,
            q0.swap_id, hinv.last_le q0 hq0 hq0c,
            (targets_append_singleton _ _ _ _).mpr (Or.inl ?_)⟩
          · intro u hu1 hu2 hu
            simp only at hu1 hu2 hu
            rcases (asks_append_singleton _ _ _ _).mp hu with h | ⟨_, h8⟩
            · have := hasksP u h; omega
            · omega
          · have := targets_of_mem P q0 hq0 hq0f
            rw [hq0c] at this; exact this
      · rintro ⟨h1, h2, h3, h4, t, h5, h6⟩
        by_cases hce : msg.edge = c
        · rw [hce] at h1 h2 h4 h6
          rcases (asks_append_singleton _ _ _ _).mp h1 with g1 | ⟨_, g1⟩
          · left
            have e1 := hasksP _ g1
            have g2 : asks P c msg.successor := by
              rcases (asks_append_singleton _ _ _ _).mp h2 with g | ⟨_, g⟩
              · exact g
              · omega
            have g6 : targets P c t := by
              rcases (targets_append_singleton _ _ _ _).mp h6 with g | ⟨_, g, _⟩
              · exact g
              · omega
            refine ⟨hce ▸ g1, hce ▸ g2, h3, ?_, t, h5, hce ▸ g6⟩
            intro u hu1 hu2 hu
            rw [hce] at hu
            exact h4 u hu1 hu2 ((asks_append_singleton _ _ _ _).mpr (Or.inl hu))
          · right
            have g2 : asks P c msg.successor := by
              rcases (asks_append_singleton _ _ _ _).mp h2 with g | ⟨_, g⟩
              · exact g
              · omega
            have e2 := hasksP _ g2
            have e3 : ¬ (msg.swap_id < last ∧ last < msg.successor) := by
              rintro ⟨e4, e5⟩
              exact h4 last e4 e5
                ((asks_append_singleton _ _ _ _).mpr (Or.inl (hinv.last_asks hPne)))
            have e6 : msg.successor = last := by omega
            cases msg with
            | mk a b c1 =>
              simp only at hce g1 e6
              rw [← g1, hce, e6]
        · left
          have hne : ¬ r.edge = msg.edge := by rw [hr]; exact fun h => hce h.symm
          refine ⟨?_, ?_, h3, ?_, t, h5, ?_⟩
          · rcases (asks_append_singleton _ _ _ _).mp h1 with g | ⟨g, _⟩
            · exact g
            · exact absurd g hne
          · rcases (asks_append_singleton _ _ _ _).mp h2 with g | ⟨g, _⟩
            · exact g
            · exact absurd g hne
          · intro u hu1 hu2 hu
            exact h4 u hu1 hu2 ((asks_append_singleton _ _ _ _).mpr (Or.inl hu))
          · rcases (targets_append_singleton _ _ _ _).mp h6 with g | ⟨g, _⟩
            · exact g
            · exact absurd g hne
  · -- no link is emitted
    refine ⟨succ, ?_, hcommon _ ?_⟩
    · have c1 : ¬ r.edge ≠ c := by simp [hr]
      simp only [chain_requests, if_neg c1, if_neg hpush]
    · intro msg
      rw [hinv.succ_mem]
      constructor
      · exact hold msg
      · rintro ⟨h1, h2, h3, h4, t, h5, h6⟩
        by_cases hce : msg.edge = c
        · rw [hce] at h1 h2 h4 h6
          by_cases hPne : ∃ q ∈ P, q.edge = c
          · have hsl := hPc hPne
            have hasksl := hinv.last_asks hPne
            -- every asker of `c` in the longer list is `r.swap_id` or at least `last`
            have hge : ∀ u, asks (P ++ [r]) c u → u = r.swap_id ∨ last ≤ u := by
              intro u hu
              rcases (asks_append_singleton _ _ _ _).mp hu with g | ⟨_, g⟩
              · exact Or.inr (hasksP u g)
              · exact Or.inl g.symm
            by_cases hls : last = r.swap_id
            · -- the request repeats the last asker
              have hasks_iff : ∀ u, asks (P ++ [r]) c u → asks P c u := by
                intro u hu
                rcases (asks_append_singleton _ _ _ _).mp hu with g | ⟨_, g⟩
                · exact g
                · rw [← g, ← hls]; exact hasksl
              have g1 := hasks_iff _ h1
              have e1 := hasksP _ g1
              have g6 : targets P c t := by
                rcases (targets_append_singleton _ _ _ _).mp h6 with g | ⟨_, g, _⟩
                · exact g
                · omega
              refine ⟨hce ▸ g1, hce ▸ hasks_iff _ h2, h3, ?_, t, h5, hce ▸ g6⟩
              intro u hu1 hu2 hu
              rw [hce] at hu
              exact h4 u hu1 hu2 ((asks_append_singleton _ _ _ _).mpr (Or.inl hu))
            · -- no target has been met so far
              have hnf : ¬ found = true := fun h => hpush ⟨hls, h⟩
              exfalso
              have e1 := hge _ h1
              rcases (targets_append_singleton _ _ _ _).mp h6 with g | ⟨_, g, _⟩
              · obtain ⟨q, hq, hq1, _, hq3⟩ := targets_mem P c t g
                exact hnf (hinv.found_iff.mpr ⟨q, hq, hq1, hq3⟩)
              · omega
          · exfalso
            have e1 : msg.swap_id = r.swap_id := by
              rcases (asks_append_singleton _ _ _ _).mp h1 with g | ⟨_, g⟩
              · exact absurd (hasksPc _ g) hPne
              · exact g.symm
            have e2 : msg.successor = r.swap_id := by
              rcases (asks_append_singleton _ _ _ _).mp h2 with g | ⟨_, g⟩
              · exact absurd (hasksPc _ g) hPne
              · exact g.symm
            omega
        · have hne : ¬ r.edge = msg.edge := by rw [hr]; exact fun h => hce h.symm
          refine ⟨?_, ?_, h3, ?_, t, h5, ?_⟩
          · rcases (asks_append_singleton _ _ _ _).mp h1 with g | ⟨g, _⟩
            · exact g
            · exact absurd g hne
          · rcases (asks_append_singleton _ _ _ _).mp h2 with g | ⟨g, _⟩
            · exact g
            · exact absurd g hne
          · intro u hu1 hu2 hu
            exact h4 u hu1 hu2 ((asks_append_singleton _ _ _ _).mpr (Or.inl hu))
          · rcases (targets_append_singleton _ _ _ _).mp h6 with g | ⟨g, _⟩
            · exact g
            · exact absurd g hne

theorem chain_loop (c : edge_t) :
    ∀ (todo P : List ExistenceRequestMsg) (last : Nat) (found : Bool)
      (succ : List ExistenceSuccessorMsg),
      ChainInv c P todo last found succ → (P ++ todo).Sorted (· ≤ ·) →
      ∃ run rest last1 found1 succ1, todo = run ++ rest ∧ (∀ r ∈ run, r.edge = c) ∧
        (∀ r, rest.head? = some r → r.edge ≠ c) ∧
        chain_requests c todo last found succ = some (rest, last1, found1, succ1) ∧
        ChainInv c (P ++ run) rest last1 found1 succ1 := by
  intro todo
  induction todo with
  | nil =>
    intro P last found succ hinv _
    refine ⟨[], [], last, found, succ, rfl, by simp, by simp, rfl, ?_⟩
    simpa using hinv
  | cons r todo ih =>
    intro P last found succ hinv hs
    by_cases hr : r.edge = c
    · obtain ⟨succ1, h1, h2⟩ := chain_step c P todo r last found succ hinv hs hr
      have hs' : (P ++ [r] ++ todo).Sorted (· ≤ ·) := by simpa using hs
      obtain ⟨run, rest, last1, found1, succ2, g1, g2, g3, g4, g5⟩ :=
        ih (P ++ [r]) r.swap_id (found || !r.forward_only) succ1 h2 hs'
      refine ⟨r :: run, rest, last1, found1, succ2, by rw [g1]; rfl, ?_, g3, ?_, ?_⟩
      · intro q hq
        rcases List.mem_cons.mp hq with h | h
        · subst h; exact hr
        · exact g2 q h
      · rw [h1, g4]
      · have : P ++ r :: run = P ++ [r] ++ run := by simp
        rw [this]; exact g5
    · refine ⟨[], r :: todo, last, found, succ, rfl, by simp, ?_, ?_, ?_⟩
      · intro q hq
        simp only [List.head?_cons, Option.some.injEq] at hq
        subst hq; exact hr
      · simp only [chain_requests, if_pos hr]
      · simpa using hinv

theorem asks_append (A B : List ExistenceRequestMsg) (e : edge_t) (s : Nat) :
    asks (A ++ B) e s ↔ asks A e s ∨ asks B e s := by
  unfold asks
  constructor
  · rintro ⟨f, hf⟩
    rcases List.mem_append.mp hf with h | h
    · exact Or.inl ⟨f, h⟩
    · exact Or.inr ⟨f, h⟩
  · rintro (⟨f, hf⟩ | ⟨f, hf⟩)
    · exact ⟨f, List.mem_append_left _ hf⟩
    · exact ⟨f, List.mem_append_right _ hf⟩

theorem targets_append (A B : List ExistenceRequestMsg) (e : edge_t) (s : Nat) :
    targets (A ++ B) e s ↔ targets A e s ∨ targets B e s := by
  unfold targets
  exact List.mem_append

theorem existence_loop_inv (edges : List edge_t) (hedges : edges.Sorted (· < ·)) :
    ∀ (fuel : Nat) (P : List ExistenceRequestMsg) (st : ExistenceState),
      ExistInv edges P st → (P ++ st._existence_request_sorter).Sorted (· ≤ ·) →
      (∀ q ∈ P, ∀ r ∈ st._existence_request_sorter, q.edge < r.edge) →
      st._existence_request_sorter.length ≤ fuel →
      ∃ st1, existence_loop fuel st = some st1 ∧
        ExistInv edges (P ++ st._existence_request_sorter) st1 := by
  intro fuel
  induction fuel with
  | zero =>
    intro P st hinv _ _ hlen
    have hnil : st._existence_request_sorter = [] := List.length_eq_zero.mp (by omega)
    refine ⟨st, ?_, ?_⟩
    · simp only [existence_loop, hnil]
    · rw [hnil, List.append_nil]; exact hinv
  | succ fuel ih =>
    intro P st hinv hs hPlt hlen
    cases htodo : st._existence_request_sorter with
    | nil =>
      refine ⟨st, ?_, ?_⟩
      · simp only [existence_loop, htodo]
      · rw [List.append_nil]; exact hinv
    | cons request todo =>
      rw [htodo] at hs hPlt hlen
      obtain ⟨consumed, hcons1, hcons2⟩ := hinv.consumed
      have hreader : st.edge_reader.Sorted (· < ·) := by
        rw [hcons1] at hedges
        exact (List.pairwise_append.mp hedges).2.1
      obtain ⟨pre, hp1, hp2, hp3, hp4⟩ := find_edge_spec request.edge st.edge_reader hreader
      have hnoc : ¬ ∃ q ∈ P, q.edge = request.edge := by
        rintro ⟨q, hq, hqc⟩
        have := hPlt q hq request (List.mem_cons_self _ _)
        rw [hqc] at this
        exact lt_irrefl _ this
      have hchain0 : ChainInv request.edge P (request :: todo) request.swap_id false
          st._existence_successor_sorter := by
        constructor
        · intro q hq hqc; exact absurd ⟨q, hq, hqc⟩ hnoc
        · intro h; exact absurd h hnoc
        · intro _ r hr
          simp only [List.head?_cons, Option.some.injEq] at hr
          rw [hr]
        · constructor
          · intro h; exact Bool.noConfusion h
          · rintro ⟨q, hq, hqc, _⟩; exact absurd ⟨q, hq, hqc⟩ hnoc
        · exact hinv.succ_mem
      obtain ⟨run, rest, last1, found1, succ1, g1, g2, g3, g4, g5⟩ :=
        chain_loop request.edge (request :: todo) P request.swap_id false
          st._existence_successor_sorter hchain0 hs
      -- the run is not empty: it starts with `request`
      have hrun : ∃ run', run = request :: run' := by
        cases run with
        | nil =>
          simp only [List.nil_append] at g1
          rw [← g1] at g3
          exact absurd rfl (g3 request rfl)
        | cons x run' =>
          simp only [List.cons_append, List.cons.injEq] at g1
          exact ⟨run', by rw [g1.1]⟩
      obtain ⟨run', hrun'⟩ := hrun
      have hreq_run : request ∈ run := by rw [hrun']; exact List.mem_cons_self _ _
      have hrest_gt : ∀ r ∈ rest, request.edge < r.edge := by
        intro r hr
        cases hrest : rest with
        | nil => rw [hrest] at hr; exact absurd hr (List.not_mem_nil _)
        | cons y rest' =>
          have hy := g3 y (by rw [hrest]; rfl)
          have hsr : (run ++ rest).Sorted (· ≤ ·) := by
            rw [← g1]; exact (List.pairwise_append.mp hs).2.1
          have h1 : request ≤ y :=
            (List.pairwise_append.mp hsr).2.2 request hreq_run y (by rw [hrest]; exact List.mem_cons_self _ _)
          have h2 : request.edge < y.edge := by
            rw [existence_request_le_iff] at h1
            rcases h1 with h | ⟨h, _⟩
            · exact h
            · exact absurd h.symm hy
          rw [hrest] at hr
          rcases List.mem_cons.mp hr with h | h
          · subst h; exact h2
          · have hsr2 : (y :: rest').Sorted (· ≤ ·) := by
              rw [← hrest]; exact (List.pairwise_append.mp hsr).2.1
            have h3 : y ≤ r := List.rel_of_sorted_cons hsr2 r h
            rw [existence_request_le_iff] at h3
            rcases h3 with h3 | ⟨h3, _⟩
            · exact lt_trans h2 h3
            · rw [← h3]; exact h2
      -- the next state
      have hexists : (find_edge request.edge st.edge_reader false).2 =
          decide (request.edge ∈ edges) := by
        rw [hp4]
        congr 1
        apply propext
        rw [hcons1, hp1, List.mem_append, List.mem_append]
        constructor
        · intro h; exact Or.inr (Or.inl h)
        · rintro (h | h | h)
          · obtain ⟨q, hq, hq1⟩ := hcons2 _ h
            have := hPlt q hq request (List.mem_cons_self _ _)
            exact absurd this (not_lt.mpr hq1)
          · exact h
          · exact absurd (hp3 _ h) (lt_irrefl _)
      have hinv1 : ExistInv edges (P ++ run)
          { edge_reader := (find_edge request.edge st.edge_reader false).1,
            _existence_request_sorter := rest,
            _existence_successor_sorter := succ1,
            _existence_info_sorter :=
              if found1 then
                st._existence_info_sorter ++
                  [⟨last1, request.edge, (find_edge request.edge st.edge_reader false).2⟩]
              else st._existence_info_sorter } := by
        have hPrun_c : ∃ q ∈ P ++ run, q.edge = request.edge :=
          ⟨request, List.mem_append_right _ hreq_run, rfl⟩
        have hasks_run : ∀ e s, asks run e s → e = request.edge := by
          intro e s h
          obtain ⟨q, hq, hq1, _⟩ := asks_mem run e s h
          rw [← hq1]; exact g2 q hq
        have hnew_spec : found1 = true → ExInfoSpec edges (P ++ run)
            ⟨last1, request.edge, (find_edge request.edge st.edge_reader false).2⟩ := by
          intro hf
          obtain ⟨q, hq, hqc, hqf⟩ := g5.found_iff.mp hf
          refine ⟨g5.last_asks hPrun_c, ?_, ⟨q.swap_id, ?_⟩, hexists⟩
          · intro t ht
            obtain ⟨q1, hq1, hq2, hq3⟩ := asks_mem _ _ _ ht
            have := g5.last_le q1 hq1 hq2
            show last1 ≤ t
            omega
          · have := targets_of_mem _ q hq hqf
            rw [hqc] at this; exact this
        constructor
        · refine ⟨consumed ++ pre, ?_, ?_⟩
          · show edges = consumed ++ pre ++ (find_edge request.edge st.edge_reader false).1
            rw [List.append_assoc, ← hp1]; exact hcons1
          · intro x hx
            rcases List.mem_append.mp hx with h | h
            · obtain ⟨q, hq, hq1⟩ := hcons2 x h
              exact ⟨q, List.mem_append_left _ hq, hq1⟩
            · exact ⟨request, List.mem_append_right _ hreq_run, hp2 x h⟩
        · exact g5.succ_mem
        · intro msg
          show msg ∈ (if found1 then _ else _) ↔ _
          have hold_iff : msg.edge ≠ request.edge →
              (ExInfoSpec edges (P ++ run) msg ↔ ExInfoSpec edges P msg) := by
            intro hne
            have ha : ∀ t, asks (P ++ run) msg.edge t ↔ asks P msg.edge t := by
              intro t
              rw [asks_append]
              exact ⟨fun h => h.elim id (fun h => absurd (hasks_run _ _ h) hne), Or.inl⟩
            have htg : ∀ t, targets (P ++ run) msg.edge t ↔ targets P msg.edge t := by
              intro t
              rw [targets_append]
              refine ⟨fun h => h.elim id (fun h => ?_), Or.inl⟩
              exact absurd (hasks_run _ _ ⟨false, h⟩) hne
            unfold ExInfoSpec
            simp only [ha, htg]
          have hold_edge : ExInfoSpec edges P msg → msg.edge ≠ request.edge := by
            rintro ⟨h1, _⟩ hce
            obtain ⟨q, hq, hq1, _⟩ := asks_mem _ _ _ h1
            exact hnoc ⟨q, hq, by rw [hq1, hce]⟩
          have hc_case : msg.edge = request.edge → ExInfoSpec edges (P ++ run) msg →
              found1 = true ∧
              msg = ⟨last1, request.edge, (find_edge request.edge st.edge_reader false).2⟩ := by
            rintro hce ⟨h1, h2, ⟨t, h3⟩, h4⟩
            rw [hce] at h1 h2 h3
            obtain ⟨q, hq, hq1, _, hq3⟩ := targets_mem _ _ _ h3
            have hf : found1 = true := g5.found_iff.mpr ⟨q, hq, hq1, hq3⟩
            refine ⟨hf, ?_⟩
            obtain ⟨q1, hq1m, hq1c, hq1s⟩ := asks_mem _ _ _ h1
            have e1 := g5.last_le q1 hq1m hq1c
            have e2 := h2 last1 (g5.last_asks hPrun_c)
            have e3 : msg.swap_id = last1 := by omega
            cases msg with
            | mk a b c1 =>
              simp only at hce e3 h4
              rw [e3, hce, h4, hce, hexists]
          by_cases hf : found1 = true
          · rw [if_pos hf, List.mem_append, List.mem_singleton, hinv.info_mem]
            constructor
            · rintro (h | h)
              · exact (hold_iff (hold_edge h)).mpr h
              · rw [h]; exact hnew_spec hf
            · intro h
              by_cases hce : msg.edge = request.edge
              · exact Or.inr (hc_case hce h).2
              · exact Or.inl ((hold_iff hce).mp h)
          · rw [if_neg hf, hinv.info_mem]
            constructor
            · intro h
              exact (hold_iff (hold_edge h)).mpr h
            · intro h
              by_cases hce : msg.edge = request.edge
              · exact absurd (hc_case hce h).1 hf
              · exact (hold_iff hce).mp h
      have hs1 : (P ++ run ++ rest).Sorted (· ≤ ·) := by
        rw [List.append_assoc, ← g1]; exact hs
      have hlt1 : ∀ q ∈ P ++ run, ∀ r ∈ rest, q.edge < r.edge := by
        intro q hq r hr
        rcases List.mem_append.mp hq with h | h
        · exact hPlt q h r (by rw [g1]; exact List.mem_append_right _ hr)
        · rw [g2 q h]; exact hrest_gt r hr
      have hlen1 : rest.length ≤ fuel := by
        have := congrArg List.length g1
        rw [hrun'] at this
        simp only [List.length_cons, List.length_append] at this hlen
        omega
      obtain ⟨st2, h1, h2⟩ := ih (P ++ run) _ hinv1 hs1 hlt1 hlen1
      refine ⟨st2, ?_, ?_⟩
      · simp only [existence_loop, htodo, g4]
        exact h1
      · rw [g1, ← List.append_assoc]
        exact h2

theorem process_existence_requests_spec (edges : List edge_t) (hedges : edges.Sorted (· < ·))
    (R : List ExistenceRequestMsg) (hR : R.Sorted (· ≤ ·)) :
    ∃ c, _process_existence_requests edges R = some c ∧ PassCSpec edges R c := by
  have hinit : ExistInv edges []
      { edge_reader := edges, _existence_request_sorter := R,
        _existence_successor_sorter := [], _existence_info_sorter := [] } := by
    constructor
    · exact ⟨[], rfl, by simp⟩
    · intro msg
      simp only [List.not_mem_nil, false_iff]
      rintro ⟨⟨f, hf⟩, _⟩
      exact absurd hf (List.not_mem_nil _)
    · intro msg
      simp only [List.not_mem_nil, false_iff]
      rintro ⟨⟨f, hf⟩, _⟩
      exact absurd hf (List.not_mem_nil _)
  obtain ⟨st, h1, h2⟩ := existence_loop_inv edges hedges R.length [] _ hinit
    (by simpa using hR) (by simp) (le_refl _)
  simp only [List.nil_append] at h2
  have hres : _process_existence_requests edges R = some
      { _existence_successor_sorter := sorter_sort st._existence_successor_sorter,
        _existence_info_sorter := sorter_sort st._existence_info_sorter } := by
    simp only [_process_existence_requests, h1]
  refine ⟨_, hres, ?_⟩
  constructor
  · exact sorter_sort_sorted _
  · intro msg
    show msg ∈ sorter_sort _ ↔ _
    rw [mem_sorter_sort]; exact h2.succ_mem msg
  · exact sorter_sort_sorted _
  · intro msg
    show msg ∈ sorter_sort _ ↔ _
    rw [mem_sorter_sort]; exact h2.info_mem msg

/-! ## The reference semantics keeps the graph simple -/

theorem normalize_eq_cases (x y u v : Nat)
    (h : (edge_t.mk x y).normalize = (edge_t.mk u v).normalize) :
    (x = u ∧ y = v) ∨ (x = v ∧ y = u) := by
  unfold edge_t.normalize at h
  simp only at h
  split at h <;> split at h <;> simp only [edge_t.mk.injEq] at h <;> omega

theorem normalize_mem_pair (x y : Nat) :
    (edge_t.mk x y).normalize = ⟨x, y⟩ ∨ (edge_t.mk x y).normalize = ⟨y, x⟩ := by
  unfold edge_t.normalize
  simp only
  split
  · right; rfl
  · left; rfl

theorem is_loop_normalize (x y : Nat) :
    (edge_t.mk x y).normalize.is_loop = decide (x = y) := by
  unfold edge_t.normalize edge_t.is_loop
  simp only
  split
  · rename_i h
    have : ¬ x = y := by omega
    have h2 : ¬ y = x := by omega
    simp [this, h2]
  · by_cases hxy : x = y <;> simp [hxy]

theorem is_loop_false_iff (e : edge_t) : e.is_loop = false ↔ e.first ≠ e.second := by
  unfold edge_t.is_loop
  simp

/-- The two new edges of a swap of two distinct loop-free edges differ,
unless one of them is one of the two old edges. -/
theorem swap_edges_ne (e0 e1 : edge_t) (dir : Bool) (hne : e0 ≠ e1)
    (h0 : e0.is_loop = false) (h1 : e1.is_loop = false)
    (heq : (_swap_edges e0 e1 dir).1 = (_swap_edges e0 e1 dir).2) :
    (_swap_edges e0 e1 dir).1 = e0 ∨ (_swap_edges e0 e1 dir).1 = e1 := by
  rw [is_loop_false_iff] at h0 h1
  cases e0 with
  | mk a b =>
    cases e1 with
    | mk c d =>
      simp only at h0 h1
      cases dir with
      | false =>
        simp only [_swap_edges, Bool.false_eq_true, if_false] at heq ⊢
        rcases normalize_eq_cases _ _ _ _ heq with ⟨g1, g2⟩ | ⟨g1, g2⟩
        · exact absurd g1 h0
        · subst g1; subst g2
          rcases normalize_mem_pair a c with h | h
          · left; rw [h]
          · right; rw [h]
      | true =>
        simp only [_swap_edges, if_true] at heq ⊢
        rcases normalize_eq_cases _ _ _ _ heq with ⟨g1, g2⟩ | ⟨g1, g2⟩
        · subst g1; subst g2
          exact absurd rfl hne
        · exact absurd g1 h0

theorem getD_eq_getElem_of_lt (cur : List edge_t) (i : Nat) (x : edge_t) (h : i < cur.length) :
    cur.getD i x = cur[i] := by
  rw [List.getD_eq_getElem?_getD, List.getElem?_eq_getElem h]; rfl

theorem getD_mem (cur : List edge_t) (i : Nat) (x : edge_t) (h : i < cur.length) :
    cur.getD i x ∈ cur := by
  rw [getD_eq_getElem_of_lt cur i x h]; exact List.getElem_mem h

theorem getD_inj_of_nodup (cur : List edge_t) (hnd : cur.Nodup) (i j : Nat) (x : edge_t)
    (hi : i < cur.length) (hj : j < cur.length) (h : cur.getD i x = cur.getD j x) : i = j := by
  rw [getD_eq_getElem_of_lt cur i x hi, getD_eq_getElem_of_lt cur j x hj] at h
  exact (List.Nodup.getElem_inj_iff hnd).mp h

theorem mem_iff_getD (cur : List edge_t) (y x : edge_t) :
    y ∈ cur ↔ ∃ i, i < cur.length ∧ cur.getD i x = y := by
  constructor
  · intro h
    obtain ⟨i, hi, h2⟩ := List.getElem_of_mem h
    exact ⟨i, hi, by rw [getD_eq_getElem_of_lt cur i x hi, h2]⟩
  · rintro ⟨i, hi, h2⟩
    rw [← h2]; exact getD_mem cur i x hi

/-- Membership in the list after a swap. -/
theorem mem_ref_step (cur : List edge_t) (d : SwapDescriptor) (hnd : cur.Nodup)
    (h0 : d.edges0 < d.edges1) (h1 : d.edges1 < cur.length) (y : edge_t) :
    y ∈ ref_step cur d ↔
      if ref_perform cur d then
        (y = (ref_edges cur d).new_edges0 ∨ y = (ref_edges cur d).new_edges1 ∨
          (y ∈ cur ∧ y ≠ (ref_edges cur d).edges0 ∧ y ≠ (ref_edges cur d).edges1))
      else y ∈ cur := by
  by_cases hp : ref_perform cur d = true
  · rw [if_pos hp]
    rw [mem_iff_getD (ref_step cur d) y ⟨0, 0⟩, ref_step_length]
    constructor
    · rintro ⟨i, hi, hy⟩
      by_cases hi0 : i = d.edges0
      · subst hi0
        rw [ref_step_getD_edges0 cur d _ h0 h1, if_pos hp] at hy
        exact Or.inl hy.symm
      · by_cases hi1 : i = d.edges1
        · subst hi1
          rw [ref_step_getD_edges1 cur d _ h1, if_pos hp] at hy
          exact Or.inr (Or.inl hy.symm)
        · rw [ref_step_getD_other cur d i _ hi0 hi1] at hy
          refine Or.inr (Or.inr ⟨hy ▸ getD_mem cur i _ hi, ?_, ?_⟩)
          · intro h
            apply hi0
            apply getD_inj_of_nodup cur hnd i d.edges0 ⟨0, 0⟩ hi (by omega)
            rw [hy, h]; rfl
          · intro h
            apply hi1
            apply getD_inj_of_nodup cur hnd i d.edges1 ⟨0, 0⟩ hi (by omega)
            rw [hy, h]; rfl
    · rintro (h | h | ⟨h, hn0, hn1⟩)
      · refine ⟨d.edges0, by omega, ?_⟩
        rw [ref_step_getD_edges0 cur d _ h0 h1, if_pos hp, h]
      · refine ⟨d.edges1, h1, ?_⟩
        rw [ref_step_getD_edges1 cur d _ h1, if_pos hp, h]
      · obtain ⟨i, hi, hy⟩ := (mem_iff_getD cur y ⟨0, 0⟩).mp h
        refine ⟨i, hi, ?_⟩
        rw [ref_step_getD_other cur d i _ ?_ ?_, hy]
        · intro hi0; subst hi0; exact hn0 hy.symm
        · intro hi1; subst hi1; exact hn1 hy.symm
  · rw [if_neg hp]
    unfold ref_step
    rw [if_neg hp]

theorem ref_perform_true_iff (cur : List edge_t) (d : SwapDescriptor) :
    ref_perform cur d = true ↔
      (ref_edges cur d).new_edges0 ∉ cur ∧ (ref_edges cur d).new_edges1 ∉ cur ∧
      (ref_edges cur d).new_edges0.is_loop = false ∧
      (ref_edges cur d).new_edges1.is_loop = false := by
  unfold ref_perform
  simp only [Bool.not_eq_true', Bool.or_eq_false_iff, decide_eq_false_iff_not]
  tauto

theorem nodup_set (l : List edge_t) (i : Nat) (x : edge_t) (hnd : l.Nodup) (hx : x ∉ l) :
    (l.set i x).Nodup := by
  induction l generalizing i with
  | nil => simp
  | cons y ys ih =>
    cases i with
    | zero =>
      simp only [List.set_cons_zero, List.nodup_cons]
      simp only [List.mem_cons, not_or, List.nodup_cons] at hx hnd
      exact ⟨hx.2, hnd.2⟩
    | succ j =>
      simp only [List.set_cons_succ, List.nodup_cons]
      simp only [List.mem_cons, not_or, List.nodup_cons] at hx hnd
      refine ⟨?_, ih j hnd.2 hx.2⟩
      intro hmem
      rcases List.mem_or_eq_of_mem_set hmem with h | h
      · exact hnd.1 h
      · exact hx.1 h.symm

theorem ref_step_simple (cur : List edge_t) (d : SwapDescriptor) (hs : simple_state cur)
    (h0 : d.edges0 < d.edges1) (h1 : d.edges1 < cur.length) : simple_state (ref_step cur d) := by
  by_cases hp : ref_perform cur d = true
  · obtain ⟨p1, p2, p3, p4⟩ := (ref_perform_true_iff cur d).mp hp
    have he0 : (ref_edges cur d).edges0 ∈ cur := getD_mem cur _ _ (by omega)
    have he1 : (ref_edges cur d).edges1 ∈ cur := getD_mem cur _ _ h1
    have hne01 : (ref_edges cur d).edges0 ≠ (ref_edges cur d).edges1 := by
      intro h
      have := getD_inj_of_nodup cur hs.1 d.edges0 d.edges1 ⟨0, 0⟩ (by omega) h1 h
      omega
    have hnn : (ref_edges cur d).new_edges0 ≠ (ref_edges cur d).new_edges1 := by
      intro h
      rcases swap_edges_ne _ _ d.direction hne01 (hs.2 _ he0) (hs.2 _ he1) h with g | g
      · exact p1 (by
          have : (ref_edges cur d).new_edges0 = (ref_edges cur d).edges0 := g
          rw [this]; exact he0)
      · exact p1 (by
          have : (ref_edges cur d).new_edges0 = (ref_edges cur d).edges1 := g
          rw [this]; exact he1)
    constructor
    · unfold ref_step
      rw [if_pos hp]
      apply nodup_set _ _ _ (nodup_set _ _ _ hs.1 p1)
      intro hmem
      rcases List.mem_or_eq_of_mem_set hmem with h | h
      · exact p2 h
      · exact hnn h.symm
    · intro y hy
      rw [mem_ref_step cur d hs.1 h0 h1, if_pos hp] at hy
      rcases hy with h | h | ⟨h, _, _⟩
      · rw [h]; exact p3
      · rw [h]; exact p4
      · exact hs.2 y h
  · unfold ref_step
    rw [if_neg hp]
    exact hs

theorem ref_state_simple (edges : List edge_t) (swaps : List SwapDescriptor)
    (hs : simple_state edges) (hv : valid_batch edges.length swaps) (k : Nat) :
    simple_state (ref_state edges swaps k) := by
  induction k with
  | zero => rw [ref_state_zero]; exact hs
  | succ k ih =>
    by_cases hk : k < swaps.length
    · have hd : swaps[k]? = some swaps[k] := List.getElem?_eq_getElem hk
      rw [ref_state_succ edges swaps k _ hd]
      have hvd := hv _ (List.getElem_mem hk)
      exact ref_step_simple _ _ ih hvd.1 (by rw [ref_state_length]; exact hvd.2)
    · have : ref_state edges swaps (k + 1) = ref_state edges swaps k := by
        unfold ref_state
        rw [List.take_of_length_le (by omega), List.take_of_length_le (by omega)]
      rw [this]; exact ih

theorem simple_state_of_simple_list (edges : List edge_t) (h : simple_list edges) :
    simple_state edges :=
  ⟨h.1.nodup, h.2⟩

/-! ## Pass D: the loops of one swap -/

theorem gather_infos_spec (k : Nat) :
    ∀ (fuel : Nat) (m : PQSorterMerger ExistenceInfoMsg) (I M : List edge_t),
      m.Ascending → m.Fresh → m.items.length ≤ fuel →
      (∀ msg ∈ m.items, k ≤ msg.swap_id) →
      I.Sorted (· ≤ ·) → M.Sorted (· ≤ ·) →
      (∀ e ∈ I, ∀ msg ∈ m.items, msg.swap_id = k → e ≤ msg.edge) →
      (∀ e ∈ M, ∀ msg ∈ m.items, msg.swap_id = k → e ≤ msg.edge) →
      ∃ m1 I1 M1, gather_infos k fuel m I M = some (m1, I1, M1) ∧ m1.Ascending ∧ m1.Fresh ∧
        (∀ x, x ∈ m1.items ↔ x ∈ m.items ∧ x.swap_id ≠ k) ∧
        I1.Sorted (· ≤ ·) ∧ M1.Sorted (· ≤ ·) ∧
        (∀ e, e ∈ I1 ↔ e ∈ I ∨ (⟨k, e, true⟩ : ExistenceInfoMsg) ∈ m.items) ∧
        (∀ e, e ∈ M1 ↔ e ∈ M ∨ (⟨k, e, false⟩ : ExistenceInfoMsg) ∈ m.items) := by
  intro fuel
  induction fuel with
  | zero =>
    intro m I M hasc hfresh hlen _ hI hM _ _
    have hnil : m.items = [] := List.length_eq_zero.mp (by omega)
    refine ⟨m, I, M, rfl, hasc, hfresh, ?_, hI, hM, ?_, ?_⟩
    · intro x; simp [hnil]
    · intro e; simp [hnil]
    · intro e; simp [hnil]
  | succ fuel ih =>
    intro m I M hasc hfresh hlen hge hI hM hIle hMle
    by_cases hne : m.items = []
    · refine ⟨m, I, M, ?_, hasc, hfresh, ?_, hI, hM, ?_, ?_⟩
      · simp only [gather_infos, (PQSorterMerger.empty_iff m).mpr hne, if_true]
      · intro x; simp [hne]
      · intro e; simp [hne]
      · intro e; simp [hne]
    · obtain ⟨x, m1, hderef, hincr, hasc1, hfresh1, hperm, hleast, _, _⟩ :=
        PQSorterMerger.pop_spec m hasc hfresh hne
      have hemp : m.empty = false := (PQSorterMerger.empty_false_iff m).mpr hne
      have hxmem : x ∈ m.items := hperm.mem_iff.mpr (List.mem_cons_self _ _)
      by_cases hmatch : x.swap_id = k
      · have hlen1 : m1.items.length ≤ fuel := by
          have := hperm.length_eq
          simp only [List.length_cons] at this
          omega
        have hsub : ∀ msg ∈ m1.items, msg ∈ m.items :=
          fun msg hm => hperm.mem_iff.mpr (List.mem_cons_of_mem _ hm)
        have hge1 : ∀ msg ∈ m1.items, k ≤ msg.swap_id := fun msg hm => hge msg (hsub msg hm)
        have hxle : ∀ msg ∈ m1.items, msg.swap_id = k → x.edge ≤ msg.edge := by
          intro msg hm hk
          have h1 := hleast msg (hsub msg hm)
          rw [existence_info_le_iff] at h1
          rcases h1 with h1 | ⟨_, h1 | ⟨h1, _⟩⟩
          · omega
          · exact le_of_lt h1
          · exact le_of_eq h1
        have hcond : ¬ (x.swap_id ≠ k) := by simp [hmatch]
        have hmem1 : ∀ y, (y ∈ m1.items ∧ y.swap_id ≠ k) ↔ (y ∈ m.items ∧ y.swap_id ≠ k) := by
          intro y
          rw [hperm.mem_iff, List.mem_cons]
          constructor
          · rintro ⟨hy, hn⟩; exact ⟨Or.inr hy, hn⟩
          · rintro ⟨hy | hy, hn⟩
            · subst hy; exact absurd hmatch hn
            · exact ⟨hy, hn⟩
        by_cases hbit : x.exists_bit = true
        · have hxeq : x = ⟨k, x.edge, true⟩ := by
            cases x with
            | mk a b c =>
              simp only at hmatch hbit
              rw [hmatch, hbit]
          have hI1 : (I ++ [x.edge]).Sorted (· ≤ ·) := by
            unfold List.Sorted
            rw [List.pairwise_append]
            refine ⟨hI, List.pairwise_singleton _ _, ?_⟩
            intro a ha b hb
            rw [List.mem_singleton] at hb
            subst hb
            exact hIle a ha x hxmem hmatch
          have hIle1 : ∀ e ∈ I ++ [x.edge], ∀ msg ∈ m1.items, msg.swap_id = k → e ≤ msg.edge := by
            intro e he msg hm hk
            rcases List.mem_append.mp he with h | h
            · exact hIle e h msg (hsub msg hm) hk
            · rw [List.mem_singleton] at h
              subst h
              exact hxle msg hm hk
          have hMle1 : ∀ e ∈ M, ∀ msg ∈ m1.items, msg.swap_id = k → e ≤ msg.edge :=
            fun e he msg hm hk => hMle e he msg (hsub msg hm) hk
          obtain ⟨m2, I2, M2, h1, h2, h3, h4, h5, h6, h7, h8⟩ :=
            ih m1 (I ++ [x.edge]) M hasc1 hfresh1 hlen1 hge1 hI1 hM hIle1 hMle1
          refine ⟨m2, I2, M2, ?_, h2, h3, ?_, h5, h6, ?_, ?_⟩
          · simp only [gather_infos, hemp, hderef, hincr, if_neg hcond, hbit, if_true]
            exact h1
          · intro y; rw [h4 y, hmem1 y]
          · intro e
            rw [h7 e, hperm.mem_iff, List.mem_cons, List.mem_append, List.mem_singleton]
            constructor
            · rintro ((h | h) | h)
              · exact Or.inl h
              · subst h; exact Or.inr (Or.inl hxeq.symm)
              · exact Or.inr (Or.inr h)
            · rintro (h | h | h)
              · exact Or.inl (Or.inl h)
              · rw [hxeq] at h
                simp only [ExistenceInfoMsg.mk.injEq, true_and, and_true] at h
                exact Or.inl (Or.inr h)
              · exact Or.inr h
          · intro e
            rw [h8 e, hperm.mem_iff, List.mem_cons]
            constructor
            · rintro (h | h)
              · exact Or.inl h
              · exact Or.inr (Or.inr h)
            · rintro (h | h | h)
              · exact Or.inl h
              · rw [hxeq] at h
                simp at h
              · exact Or.inr h
        · have hbit0 : x.exists_bit = false := by
            cases hb : x.exists_bit
            · rfl
            · exact absurd hb hbit
          have hxeq : x = ⟨k, x.edge, false⟩ := by
            cases x with
            | mk a b c =>
              simp only at hmatch hbit0
              rw [hmatch, hbit0]
          have hM1 : (M ++ [x.edge]).Sorted (· ≤ ·) := by
            unfold List.Sorted
            rw [List.pairwise_append]
            refine ⟨hM, List.pairwise_singleton _ _, ?_⟩
            intro a ha b hb
            rw [List.mem_singleton] at hb
            subst hb
            exact hMle a ha x hxmem hmatch
          have hMle1 : ∀ e ∈ M ++ [x.edge], ∀ msg ∈ m1.items, msg.swap_id = k → e ≤ msg.edge := by
            intro e he msg hm hk
            rcases List.mem_append.mp he with h | h
            · exact hMle e h msg (hsub msg hm) hk
            · rw [List.mem_singleton] at h
              subst h
              exact hxle msg hm hk
          have hIle1 : ∀ e ∈ I, ∀ msg ∈ m1.items, msg.swap_id = k → e ≤ msg.edge :=
            fun e he msg hm hk => hIle e he msg (hsub msg hm) hk
          obtain ⟨m2, I2, M2, h1, h2, h3, h4, h5, h6, h7, h8⟩ :=
            ih m1 I (M ++ [x.edge]) hasc1 hfresh1 hlen1 hge1 hI hM1 hIle1 hMle1
          refine ⟨m2, I2, M2, ?_, h2, h3, ?_, h5, h6, ?_, ?_⟩
          · simp only [gather_infos, hemp, hderef, hincr, if_neg hcond, hbit0]
            exact h1
          · intro y; rw [h4 y, hmem1 y]
          · intro e
            rw [h7 e, hperm.mem_iff, List.mem_cons]
            constructor
            · rintro (h | h)
              · exact Or.inl h
              · exact Or.inr (Or.inr h)
            · rintro (h | h | h)
              · exact Or.inl h
              · rw [hxeq] at h
                simp at h
              · exact Or.inr h
          · intro e
            rw [h8 e, hperm.mem_iff, List.mem_cons, List.mem_append, List.mem_singleton]
            constructor
            · rintro ((h | h) | h)
              · exact Or.inl h
              · subst h; exact Or.inr (Or.inl hxeq.symm)
              · exact Or.inr (Or.inr h)
            · rintro (h | h | h)
              · exact Or.inl (Or.inl h)
              · rw [hxeq] at h
                simp only [ExistenceInfoMsg.mk.injEq, true_and, and_true] at h
                exact Or.inl (Or.inr h)
              · exact Or.inr h
      · -- the head belongs to a later swap: nothing is addressed to this one
        have hgt : ∀ y ∈ m.items, y.swap_id ≠ k := by
          intro y hy
          have h1 := hleast y hy
          have h2 := hge x hxmem
          rw [existence_info_le_iff] at h1
          omega
        refine ⟨m, I, M, ?_, hasc, hfresh, ?_, hI, hM, ?_, ?_⟩
        · simp only [gather_infos, hemp, hderef, if_pos hmatch]
          simp
        · intro y
          exact ⟨fun h => ⟨h, hgt y h⟩, fun h => h.1⟩
        · intro e
          constructor
          · exact fun h => Or.inl h
          · rintro (h | h)
            · exact h
            · exact absurd rfl (hgt _ h)
        · intro e
          constructor
          · exact fun h => Or.inl h
          · rintro (h | h)
            · exact h
            · exact absurd rfl (hgt _ h)

/-- Popping the edge state of side `eid` when the least message of the
merger is the one for `(k, eid)`. -/
theorem pop_edge_state_spec (k eid : Nat) (e : edge_t)
    (m : PQSorterMerger DependencyChainEdgeMsg) (hasc : m.Ascending) (hfresh : m.Fresh)
    (hnd : m.items.Nodup) (hmem : (⟨k, eid, e⟩ : DependencyChainEdgeMsg) ∈ m.items)
    (hleast : ∀ y ∈ m.items, (⟨k, eid, e⟩ : DependencyChainEdgeMsg) ≤ y) :
    ∃ m1, pop_edge_state k eid m = some (e, m1) ∧ m1.Ascending ∧ m1.Fresh ∧ m1.items.Nodup ∧
      (∀ y, y ∈ m1.items ↔ y ∈ m.items ∧ y ≠ ⟨k, eid, e⟩) := by
  have hne : m.items ≠ [] := List.ne_nil_of_mem hmem
  obtain ⟨x, m1, hderef, hincr, hasc1, hfresh1, hperm, hl, _, _⟩ :=
    PQSorterMerger.pop_spec m hasc hfresh hne
  have hemp : m.empty = false := (PQSorterMerger.empty_false_iff m).mpr hne
  have hxmem : x ∈ m.items := hperm.mem_iff.mpr (List.mem_cons_self _ _)
  have hx : x = ⟨k, eid, e⟩ := le_antisymm (hl _ hmem) (hleast x hxmem)
  subst hx
  have hnd1 : (DependencyChainEdgeMsg.mk k eid e :: m1.items).Nodup := hperm.nodup_iff.mp hnd
  rw [List.nodup_cons] at hnd1
  refine ⟨m1, ?_, hasc1, hfresh1, hnd1.2, ?_⟩
  · simp [pop_edge_state, hemp, hderef, hincr]
  · intro y
    rw [hperm.mem_iff, List.mem_cons]
    constructor
    · intro hy
      refine ⟨Or.inr hy, ?_⟩
      intro h
      subst h
      exact hnd1.1 hy
    · rintro ⟨hy | hy, hn⟩
      · exact absurd hy hn
      · exact hy

/-! ## Pass D: forwarding to the successors -/

/-- A list ascending in a key splits into the items with the least key `k`
and the items with a greater key. -/
theorem split_by_key {α : Type} (key : α → Nat) (k : Nat) (l : List α)
    (hs : l.Pairwise (fun a b => key a ≤ key b)) (hge : ∀ x ∈ l, k ≤ key x) :
    ∃ pre rest, l = pre ++ rest ∧ (∀ x ∈ pre, key x = k) ∧ (∀ x ∈ rest, k < key x) := by
  induction l with
  | nil => exact ⟨[], [], rfl, by simp, by simp⟩
  | cons a t ih =>
    rw [List.pairwise_cons] at hs
    by_cases ha : key a = k
    · obtain ⟨pre, rest, h1, h2, h3⟩ := ih hs.2 (fun x hx => hge x (List.mem_cons_of_mem _ hx))
      refine ⟨a :: pre, rest, by rw [h1]; rfl, ?_, h3⟩
      intro x hx
      rcases List.mem_cons.mp hx with h | h
      · rw [h]; exact ha
      · exact h2 x h
    · refine ⟨[], a :: t, rfl, by simp, ?_⟩
      intro x hx
      have h0 := hge a (List.mem_cons_self _ _)
      rcases List.mem_cons.mp hx with h | h
      · rw [h]; omega
      · have := hs.1 x h
        omega

theorem forward_edge_state_spec (k : Nat) (swap : SwapDescriptor) (edges : SwapEdges)
    (perform : Bool) (rest : List DependencyChainSuccessorMsg)
    (hrest : ∀ x ∈ rest, k < x.swap_id) :
    ∀ (pre : List DependencyChainSuccessorMsg) (pq : List DependencyChainEdgeMsg)
      (found : Bool × Bool),
      (∀ x ∈ pre, x.swap_id = k ∧ (x.edge_id = swap.edges0 ∨ x.edge_id = swap.edges1) ∧
        k < x.successor) →
      ∃ pq1 found1, forward_edge_state k swap edges perform (pre ++ rest) pq found =
          some (rest, pq1, found1) ∧
        pq1.Perm (pre.map (forward_msg swap edges perform) ++ pq) ∧
        (pq.Sorted (· ≤ ·) → pq1.Sorted (· ≤ ·)) ∧
        (found1.1 = true ↔ found.1 = true ∨ ∃ x ∈ pre, x.edge_id = swap.edges0) ∧
        (found1.2 = true ↔ found.2 = true ∨ ∃ x ∈ pre, x.edge_id ≠ swap.edges0) := by
  intro pre
  induction pre with
  | nil =>
    intro pq found _
    refine ⟨pq, found, ?_, by simp, fun h => h, by simp, by simp⟩
    cases rest with
    | nil => rfl
    | cons s t =>
      have hs := hrest s (List.mem_cons_self _ _)
      have h1 : ¬ ¬ (s.swap_id ≥ k) := by simp; omega
      simp only [List.nil_append, forward_edge_state, if_neg h1]
      rw [if_pos (show s.swap_id > k from hs)]
  | cons s t ih =>
    intro pq found hpre
    obtain ⟨hs1, hs2, hs3⟩ := hpre s (List.mem_cons_self _ _)
    obtain ⟨pq1, found1, h1, h2, h3, h4, h5⟩ :=
      ih (pq_push (forward_msg swap edges perform s) pq)
        (if (if s.edge_id = swap.edges0 then 0 else 1) = 0 then (true, found.2)
          else (found.1, true))
        (fun x hx => hpre x (List.mem_cons_of_mem _ hx))
    refine ⟨pq1, found1, ?_, ?_, ?_, ?_, ?_⟩
    · have c1 : ¬ ¬ (s.swap_id ≥ k) := by simp; omega
      have c2 : ¬ (s.swap_id > k) := by omega
      have c3 : ¬ ¬ (s.edge_id = swap.edges0 ∨ s.edge_id = swap.edges1) := fun h => h hs2
      have c4 : ¬ ¬ (s.successor > k) := by simp; omega
      simp only [List.cons_append, forward_edge_state, if_neg c1, if_neg c2, if_neg c3, if_neg c4]
      exact h1
    · refine h2.trans ?_
      simp only [List.map_cons, List.cons_append]
      refine (List.perm_append_comm.trans ?_).trans List.perm_middle
      refine (List.Perm.append_right _ (List.perm_orderedInsert _ _ _)).trans ?_
      simp only [List.cons_append]
      exact (List.Perm.cons _ List.perm_append_comm).trans List.perm_middle.symm
    · intro hs
      exact h3 (pq_push_sorted _ _ hs)
    · rw [h4]
      by_cases he : s.edge_id = swap.edges0
      · simp [he]
      · simp [he]
    · rw [h5]
      by_cases he : s.edge_id = swap.edges0
      · simp [he]
      · simp [he]

theorem forward_existence_spec (k : Nat) (edges : SwapEdges) (perform : Bool)
    (I M : List edge_t) (bit : edge_t → Bool) (rest : List ExistenceSuccessorMsg)
    (hrest : ∀ x ∈ rest, k < x.swap_id) :
    ∀ (pre : List ExistenceSuccessorMsg) (pq : List ExistenceInfoMsg),
      (∀ x ∈ pre, x.swap_id = k ∧
        (((perform = true ∧ (x.edge = edges.new_edges0 ∨ x.edge = edges.new_edges1)) ∨
            (perform = false ∧ (x.edge = edges.edges0 ∨ x.edge = edges.edges1))) →
          bit x.edge = true) ∧
        (¬ ((perform = true ∧ (x.edge = edges.new_edges0 ∨ x.edge = edges.new_edges1)) ∨
            (perform = false ∧ (x.edge = edges.edges0 ∨ x.edge = edges.edges1))) →
          (x.edge = edges.edges0 ∨ x.edge = edges.edges1) → bit x.edge = false) ∧
        (¬ ((perform = true ∧ (x.edge = edges.new_edges0 ∨ x.edge = edges.new_edges1)) ∨
            (perform = false ∧ (x.edge = edges.edges0 ∨ x.edge = edges.edges1))) →
          ¬ (x.edge = edges.edges0 ∨ x.edge = edges.edges1) →
          binary_search I x.edge = bit x.edge ∧
            (bit x.edge = true ∨ binary_search M x.edge = true))) →
      ∃ pq1, forward_existence k edges perform I M (pre ++ rest) pq = some (rest, pq1) ∧
        (∀ y, y ∈ pq1 ↔ y ∈ pq ∨ ∃ x ∈ pre, y = ⟨x.successor, x.edge, bit x.edge⟩) ∧
        (pq.Sorted (· ≤ ·) → pq1.Sorted (· ≤ ·)) := by
  intro pre
  induction pre with
  | nil =>
    intro pq _
    refine ⟨pq, ?_, by simp, fun h => h⟩
    cases rest with
    | nil => rfl
    | cons s t =>
      have hs := hrest s (List.mem_cons_self _ _)
      have h1 : ¬ ¬ (s.swap_id ≥ k) := by simp; omega
      simp only [List.nil_append, forward_existence, if_neg h1]
      rw [if_pos (show s.swap_id > k from hs)]
  | cons s t ih =>
    intro pq hpre
    obtain ⟨hs1, hs2, hs3, hs4⟩ := hpre s (List.mem_cons_self _ _)
    obtain ⟨pq1, h1, h2, h3⟩ :=
      ih (pq_push ⟨s.successor, s.edge, bit s.edge⟩ pq)
        (fun x hx => hpre x (List.mem_cons_of_mem _ hx))
    refine ⟨pq1, ?_, ?_, ?_⟩
    · have c1 : ¬ ¬ (s.swap_id ≥ k) := by simp; omega
      have c2 : ¬ (s.swap_id > k) := by omega
      simp only [List.cons_append, forward_existence, if_neg c1, if_neg c2]
      by_cases hA : (perform = true ∧ (s.edge = edges.new_edges0 ∨ s.edge = edges.new_edges1)) ∨
            (perform = false ∧ (s.edge = edges.edges0 ∨ s.edge = edges.edges1))
      · rw [if_pos hA, ← hs2 hA]
        exact h1
      · rw [if_neg hA]
        by_cases hB : s.edge = edges.edges0 ∨ s.edge = edges.edges1
        · rw [if_pos hB, ← hs3 hA hB]
          exact h1
        · rw [if_neg hB]
          obtain ⟨g1, g2⟩ := hs4 hA hB
          have hc : ¬ ((!binary_search I s.edge && !binary_search M s.edge) = true) := by
            rw [g1]
            rcases g2 with g | g
            · simp [g]
            · simp [g]
          simp only [g1] at hc ⊢
          rw [if_neg hc]
          exact h1
    · intro y
      rw [h2 y, mem_pq_push]
      constructor
      · rintro ((h | h) | ⟨x, hx, h⟩)
        · exact Or.inr ⟨s, List.mem_cons_self _ _, h⟩
        · exact Or.inl h
        · exact Or.inr ⟨x, List.mem_cons_of_mem _ hx, h⟩
      · rintro (h | ⟨x, hx, h⟩)
        · exact Or.inl (Or.inr h)
        · rcases List.mem_cons.mp hx with g | g
          · subst g; exact Or.inl (Or.inl h)
          · exact Or.inr ⟨x, g, h⟩
    · intro hs
      exact h3 (pq_push_sorted _ _ hs)

/-! ## Pass D: what one swap does to the queues -/

theorem exists_next_touch (swaps : List SwapDescriptor) (k e : Nat)
    (h : ∃ j d, k ≤ j ∧ swaps[j]? = some d ∧ touches d e) : ∃ s, next_touch swaps k e s := by
  classical
  have hex : ∃ j, k ≤ j ∧ ∃ d, swaps[j]? = some d ∧ touches d e := by
    obtain ⟨j, d, h1, h2, h3⟩ := h
    exact ⟨j, h1, d, h2, h3⟩
  refine ⟨Nat.find hex, (Nat.find_spec hex).1, (Nat.find_spec hex).2, ?_⟩
  intro j d hkj hj hd ht
  exact Nat.find_min hex hj ⟨hkj, d, hd, ht⟩

theorem no_next_touch_iff (swaps : List SwapDescriptor) (k e : Nat) :
    (¬ ∃ s, next_touch swaps k e s) ↔ no_touch_from swaps k e := by
  constructor
  · intro h j d hkj hd ht
    exact h (exists_next_touch swaps k e ⟨j, d, hkj, hd, ht⟩)
  · rintro h ⟨s, hs1, ⟨d, hd, ht⟩, _⟩
    exact h s d hs1 hd ht

theorem final_get0 (E : SwapEdges) (p : Bool) :
    E.get (final_index 0 p) = if p then E.new_edges0 else E.edges0 := by
  cases p <;> rfl

theorem final_get1 (E : SwapEdges) (p : Bool) :
    E.get (final_index 1 p) = if p then E.new_edges1 else E.edges1 := by
  cases p <;> rfl

/-- The forwarded edge-state message carries the edge the reference leaves
at that edge id. -/
theorem forward_msg_eq (cur : List edge_t) (d : SwapDescriptor) (h0 : d.edges0 < d.edges1)
    (h1 : d.edges1 < cur.length) (x : DependencyChainSuccessorMsg) (ht : touches d x.edge_id) :
    forward_msg d (ref_edges cur d) (ref_perform cur d) x =
      ⟨x.successor, x.edge_id, (ref_step cur d).getD x.edge_id ⟨0, 0⟩⟩ := by
  unfold forward_msg
  by_cases he : x.edge_id = d.edges0
  · rw [if_pos he, final_get0, he, ref_step_getD_edges0 cur d _ h0 h1]
  · have hb : x.edge_id = d.edges1 := by
      rcases ht with h | h
      · exact absurd h he
      · exact h
    rw [if_neg he, final_get1, hb, ref_step_getD_edges1 cur d _ h1]

theorem dep_items_next (edges : List edge_t) (swaps : List SwapDescriptor) (k : Nat)
    (d : SwapDescriptor) (hd : swaps[k]? = some d) (h0 : d.edges0 < d.edges1)
    (h1 : d.edges1 < edges.length)
    (items items1 newitems : List DependencyChainEdgeMsg)
    (pre : List DependencyChainSuccessorMsg)
    (hmem : ∀ msg, msg ∈ items ↔ (next_touch swaps k msg.edge_id msg.swap_id ∧
      msg.edge = (ref_state edges swaps k).getD msg.edge_id ⟨0, 0⟩))
    (hmem1 : ∀ y, y ∈ items1 ↔ y ∈ items ∧ ¬ touches d y.edge_id)
    (hnd1 : items1.Nodup)
    (hpre : ∀ x, x ∈ pre ↔ SuccSpec swaps x ∧ x.swap_id = k) (hprend : pre.Nodup)
    (hperm : newitems.Perm (pre.map (forward_msg d (ref_edges (ref_state edges swaps k) d)
      (ref_perform (ref_state edges swaps k) d)) ++ items1)) :
    newitems.Nodup ∧ ∀ msg, msg ∈ newitems ↔
      (next_touch swaps (k + 1) msg.edge_id msg.swap_id ∧
        msg.edge = (ref_state edges swaps (k + 1)).getD msg.edge_id ⟨0, 0⟩) := by
  have hlen : d.edges1 < (ref_state edges swaps k).length := by
    rw [ref_state_length]; exact h1
  have hpre_t : ∀ x ∈ pre, touches d x.edge_id ∧ next_touch swaps (k + 1) x.edge_id x.successor := by
    intro x hx
    obtain ⟨⟨⟨d1, hd1, ht⟩, hnt⟩, hk⟩ := (hpre x).mp hx
    rw [hk] at hd1 hnt
    rw [hd] at hd1
    cases hd1
    exact ⟨ht, hnt⟩
  have hf : ∀ x ∈ pre, forward_msg d (ref_edges (ref_state edges swaps k) d)
      (ref_perform (ref_state edges swaps k) d) x =
      ⟨x.successor, x.edge_id, (ref_state edges swaps (k + 1)).getD x.edge_id ⟨0, 0⟩⟩ := by
    intro x hx
    rw [ref_state_succ edges swaps k d hd]
    exact forward_msg_eq _ d h0 hlen x (hpre_t x hx).1
  constructor
  · rw [hperm.nodup_iff, List.nodup_append]
    refine ⟨?_, hnd1, ?_⟩
    · apply List.Nodup.map_on _ hprend
      intro x hx y hy hxy
      rw [hf x hx, hf y hy] at hxy
      have hkx := ((hpre x).mp hx).2
      have hky := ((hpre y).mp hy).2
      cases x with
      | mk xs xe xsucc =>
        cases y with
        | mk ys ye ysucc =>
          simp only [DependencyChainEdgeMsg.mk.injEq] at hxy
          simp only at hkx hky
          rw [hkx, hky, hxy.1, hxy.2.1]
    · intro y hy1 hy2
      obtain ⟨x, hx, hxy⟩ := List.mem_map.mp hy1
      rw [hf x hx] at hxy
      have := ((hmem1 y).mp hy2).2
      rw [← hxy] at this
      exact this (hpre_t x hx).1
  · intro msg
    rw [hperm.mem_iff, List.mem_append, List.mem_map]
    constructor
    · rintro (⟨x, hx, hxy⟩ | h)
      · rw [hf x hx] at hxy
        rw [← hxy]
        exact ⟨(hpre_t x hx).2, rfl⟩
      · obtain ⟨hm, hnt⟩ := (hmem1 msg).mp h
        obtain ⟨g1, g2⟩ := (hmem msg).mp hm
        refine ⟨(next_touch_succ_iff swaps k _ _ d hd hnt).mp g1, ?_⟩
        rw [ref_state_succ edges swaps k d hd, g2]
        rw [touches_iff, not_or] at hnt
        exact (ref_step_getD_other _ d _ _ hnt.1 hnt.2).symm
    · rintro ⟨g1, g2⟩
      by_cases ht : touches d msg.edge_id
      · left
        have hx : (⟨k, msg.edge_id, msg.swap_id⟩ : DependencyChainSuccessorMsg) ∈ pre :=
          (hpre _).mpr ⟨⟨⟨d, hd, ht⟩, g1⟩, rfl⟩
        refine ⟨_, hx, ?_⟩
        rw [hf _ hx]
        cases msg with
        | mk ms me medge =>
          simp only at g2
          simp only [DependencyChainEdgeMsg.mk.injEq, true_and]
          exact g2.symm
      · right
        rw [hmem1, hmem]
        refine ⟨⟨(next_touch_succ_iff swaps k _ _ d hd ht).mpr g1, ?_⟩, ht⟩
        rw [g2, ref_state_succ edges swaps k d hd]
        rw [touches_iff, not_or] at ht
        exact ref_step_getD_other _ d _ _ ht.1 ht.2

theorem touched_before_succ (swaps : List SwapDescriptor) (k e : Nat) (d : SwapDescriptor)
    (hd : swaps[k]? = some d) :
    touched_before swaps (k + 1) e ↔ touched_before swaps k e ∨ touches d e := by
  constructor
  · rintro ⟨j, d1, hj, hd1, ht⟩
    by_cases hjk : j = k
    · subst hjk
      rw [hd] at hd1
      cases hd1
      exact Or.inr ht
    · exact Or.inl ⟨j, d1, by omega, hd1, ht⟩
  · rintro (⟨j, d1, hj, hd1, ht⟩ | ht)
    · exact ⟨j, d1, by omega, hd1, ht⟩
    · exact ⟨k, d, by omega, hd, ht⟩

theorem no_touch_from_succ (swaps : List SwapDescriptor) (k e : Nat) (d : SwapDescriptor)
    (hd : swaps[k]? = some d) :
    no_touch_from swaps k e ↔ no_touch_from swaps (k + 1) e ∧ ¬ touches d e := by
  constructor
  · intro h
    exact ⟨fun j d1 hj hd1 => h j d1 (by omega) hd1, h k d (le_refl _) hd⟩
  · rintro ⟨h, hn⟩ j d1 hj hd1
    by_cases hjk : j = k
    · subst hjk
      rw [hd] at hd1
      cases hd1
      exact hn
    · exact h j d1 (by omega) hd1

theorem upd_next (edges : List edge_t) (swaps : List SwapDescriptor) (k : Nat)
    (d : SwapDescriptor) (hd : swaps[k]? = some d) (h0 : d.edges0 < d.edges1)
    (h1 : d.edges1 < edges.length) (hnd' : (ref_state edges swaps (k + 1)).Nodup)
    (upd : List edge_t) (hnd : upd.Nodup)
    (hmem : ∀ x, x ∈ upd ↔ ∃ e, e < edges.length ∧ touched_before swaps k e ∧
      no_touch_from swaps k e ∧ (ref_state edges swaps k).getD e ⟨0, 0⟩ = x)
    (f1 f2 : Bool) (hf1 : f1 = true ↔ ∃ s, next_touch swaps (k + 1) d.edges0 s)
    (hf2 : f2 = true ↔ ∃ s, next_touch swaps (k + 1) d.edges1 s) (x0 x1 : edge_t)
    (hx0 : x0 = (ref_state edges swaps (k + 1)).getD d.edges0 ⟨0, 0⟩)
    (hx1 : x1 = (ref_state edges swaps (k + 1)).getD d.edges1 ⟨0, 0⟩) :
    (if f2 then (if f1 then upd else upd ++ [x0])
      else (if f1 then upd else upd ++ [x0]) ++ [x1]).Nodup ∧
    ∀ x, x ∈ (if f2 then (if f1 then upd else upd ++ [x0])
        else (if f1 then upd else upd ++ [x0]) ++ [x1]) ↔
      ∃ e, e < edges.length ∧ touched_before swaps (k + 1) e ∧
        no_touch_from swaps (k + 1) e ∧ (ref_state edges swaps (k + 1)).getD e ⟨0, 0⟩ = x := by
  have hlen' : (ref_state edges swaps (k + 1)).length = edges.length := ref_state_length _ _ _
  have hother : ∀ e, ¬ touches d e →
      (ref_state edges swaps (k + 1)).getD e ⟨0, 0⟩ = (ref_state edges swaps k).getD e ⟨0, 0⟩ := by
    intro e ht
    rw [ref_state_succ edges swaps k d hd]
    rw [touches_iff, not_or] at ht
    exact ref_step_getD_other _ d _ _ ht.1 ht.2
  have hold : ∀ x, x ∈ upd ↔ ∃ e, e < edges.length ∧ ¬ touches d e ∧
      touched_before swaps (k + 1) e ∧ no_touch_from swaps (k + 1) e ∧
      (ref_state edges swaps (k + 1)).getD e ⟨0, 0⟩ = x := by
    intro x
    rw [hmem]
    constructor
    · rintro ⟨e, he, g1, g2, g3⟩
      obtain ⟨g4, g5⟩ := (no_touch_from_succ swaps k e d hd).mp g2
      exact ⟨e, he, g5, (touched_before_succ swaps k e d hd).mpr (Or.inl g1), g4,
        by rw [hother e g5]; exact g3⟩
    · rintro ⟨e, he, g5, g1, g4, g3⟩
      refine ⟨e, he, ?_, (no_touch_from_succ swaps k e d hd).mpr ⟨g4, g5⟩,
        by rw [← hother e g5]; exact g3⟩
      rcases (touched_before_succ swaps k e d hd).mp g1 with h | h
      · exact h
      · exact absurd h g5
  have hx0n : x0 ∉ upd := by
    intro h
    obtain ⟨e, he, g5, _, _, g3⟩ := (hold x0).mp h
    rw [hx0] at g3
    have := getD_inj_of_nodup _ hnd' e d.edges0 _ (by omega) (by omega) g3
    exact g5 (Or.inl this)
  have hx1n : x1 ∉ upd := by
    intro h
    obtain ⟨e, he, g5, _, _, g3⟩ := (hold x1).mp h
    rw [hx1] at g3
    have := getD_inj_of_nodup _ hnd' e d.edges1 _ (by omega) (by omega) g3
    exact g5 (Or.inr this)
  have hx01 : x0 ≠ x1 := by
    intro h
    rw [hx0, hx1] at h
    have := getD_inj_of_nodup _ hnd' d.edges0 d.edges1 _ (by omega) (by omega) h
    omega
  have hchar : ∀ x, x ∈ (if f2 then (if f1 then upd else upd ++ [x0])
        else (if f1 then upd else upd ++ [x0]) ++ [x1]) ↔
      x ∈ upd ∨ (f1 = false ∧ x = x0) ∨ (f2 = false ∧ x = x1) := by
    intro x
    cases f1 <;> cases f2 <;> simp [or_assoc]
  constructor
  · cases f1 <;> cases f2
    · simp only [Bool.false_eq_true, if_false]
      rw [List.nodup_append]
      refine ⟨?_, List.nodup_singleton _, ?_⟩
      · rw [List.nodup_append]
        refine ⟨hnd, List.nodup_singleton _, ?_⟩
        intro y hy hy2
        rw [List.mem_singleton] at hy2
        subst hy2
        exact hx0n hy
      · intro y hy hy2
        rw [List.mem_singleton] at hy2
        subst hy2
        rcases List.mem_append.mp hy with h | h
        · exact hx1n h
        · rw [List.mem_singleton] at h
          exact hx01 h.symm
    · simp only [Bool.false_eq_true, if_false, if_true]
      rw [List.nodup_append]
      refine ⟨hnd, List.nodup_singleton _, ?_⟩
      intro y hy hy2
      rw [List.mem_singleton] at hy2
      subst hy2
      exact hx0n hy
    · simp only [Bool.false_eq_true, if_false, if_true]
      rw [List.nodup_append]
      refine ⟨hnd, List.nodup_singleton _, ?_⟩
      intro y hy hy2
      rw [List.mem_singleton] at hy2
      subst hy2
      exact hx1n hy
    · simp only [if_true]
      exact hnd
  · intro x
    rw [hchar x, hold x]
    have hn0 : f1 = false ↔ no_touch_from swaps (k + 1) d.edges0 := by
      rw [← no_next_touch_iff, ← hf1]; simp
    have hn1 : f2 = false ↔ no_touch_from swaps (k + 1) d.edges1 := by
      rw [← no_next_touch_iff, ← hf2]; simp
    constructor
    · rintro (⟨e, he, _, g1, g4, g3⟩ | ⟨hf, hx⟩ | ⟨hf, hx⟩)
      · exact ⟨e, he, g1, g4, g3⟩
      · exact ⟨d.edges0, by omega, (touched_before_succ swaps k _ d hd).mpr (Or.inr (Or.inl rfl)),
          hn0.mp hf, by rw [hx, hx0]⟩
      · exact ⟨d.edges1, by omega, (touched_before_succ swaps k _ d hd).mpr (Or.inr (Or.inr rfl)),
          hn1.mp hf, by rw [hx, hx1]⟩
    · rintro ⟨e, he, g1, g4, g3⟩
      by_cases ht : touches d e
      · rcases ht with h | h
        · subst h
          exact Or.inr (Or.inl ⟨hn0.mpr g4, by rw [hx0]; exact g3.symm⟩)
        · subst h
          exact Or.inr (Or.inr ⟨hn1.mpr g4, by rw [hx1]; exact g3.symm⟩)
      · exact Or.inl ⟨e, he, ht, g1, g4, g3⟩

/-! ## Pass D: existence information of one swap -/

theorem asks_of_swap (edges : List edge_t) (swaps : List SwapDescriptor)
    (R : List ExistenceRequestMsg) (hR : PassBSpec edges swaps R) (k : Nat) (d : SwapDescriptor)
    (hd : swaps[k]? = some d) :
    asks R (ref_edges (ref_state edges swaps k) d).edges0 k ∧
    asks R (ref_edges (ref_state edges swaps k) d).edges1 k ∧
    targets R (ref_edges (ref_state edges swaps k) d).new_edges0 k ∧
    targets R (ref_edges (ref_state edges swaps k) d).new_edges1 k :=
  ⟨⟨true, (hR.src k d hd).1⟩, ⟨true, (hR.src k d hd).2⟩, (hR.tgt k d hd).1, (hR.tgt k d hd).2⟩

/-- A swap changes the membership only of edges it has asked about. -/
theorem mem_next_of_not_asks (edges : List edge_t) (swaps : List SwapDescriptor)
    (R : List ExistenceRequestMsg) (hR : PassBSpec edges swaps R) (k : Nat) (d : SwapDescriptor)
    (hd : swaps[k]? = some d) (h0 : d.edges0 < d.edges1) (h1 : d.edges1 < edges.length)
    (hnd : (ref_state edges swaps k).Nodup) (e : edge_t) (hn : ¬ asks R e k) :
    e ∈ ref_state edges swaps (k + 1) ↔ e ∈ ref_state edges swaps k := by
  obtain ⟨a0, a1, t0, t1⟩ := asks_of_swap edges swaps R hR k d hd
  have n0 : e ≠ (ref_edges (ref_state edges swaps k) d).edges0 := fun h => hn (h ▸ a0)
  have n1 : e ≠ (ref_edges (ref_state edges swaps k) d).edges1 := fun h => hn (h ▸ a1)
  have n2 : e ≠ (ref_edges (ref_state edges swaps k) d).new_edges0 := fun h => hn (h ▸ ⟨false, t0⟩)
  have n3 : e ≠ (ref_edges (ref_state edges swaps k) d).new_edges1 := fun h => hn (h ▸ ⟨false, t1⟩)
  rw [ref_state_succ edges swaps k d hd,
    mem_ref_step _ d hnd h0 (by rw [ref_state_length]; exact h1)]
  split
  · constructor
    · rintro (h | h | h)
      · exact absurd h n2
      · exact absurd h n3
      · exact h.1
    · intro h
      exact Or.inr (Or.inr ⟨h, n0, n1⟩)
  · exact Iff.rfl

theorem info_lookup (edges : List edge_t) (swaps : List SwapDescriptor)
    (R : List ExistenceRequestMsg) (k : Nat) (items : List ExistenceInfoMsg)
    (hmem : ∀ msg, msg ∈ items ↔
      (k ≤ msg.swap_id ∧ asks R msg.edge msg.swap_id ∧
        (∃ t, msg.swap_id ≤ t ∧ targets R msg.edge t) ∧
        (∀ r, k ≤ r → r < msg.swap_id → ¬ asks R msg.edge r) ∧
        msg.exists_bit = decide (msg.edge ∈ ref_state edges swaps k)))
    (e : edge_t) (ha : asks R e k) (ht : ∃ t, k ≤ t ∧ targets R e t) :
    ((⟨k, e, true⟩ : ExistenceInfoMsg) ∈ items ↔ e ∈ ref_state edges swaps k) ∧
    ((⟨k, e, false⟩ : ExistenceInfoMsg) ∈ items ↔ e ∉ ref_state edges swaps k) := by
  constructor
  · rw [hmem]
    constructor
    · rintro ⟨_, _, _, _, h⟩
      simp only at h
      exact of_decide_eq_true h.symm
    · intro h
      exact ⟨le_refl _, ha, ht, fun r h1 h2 => by simp only at h2; omega, (decide_eq_true h).symm⟩
  · rw [hmem]
    constructor
    · rintro ⟨_, _, _, _, h⟩
      simp only at h
      exact of_decide_eq_false h.symm
    · intro h
      exact ⟨le_refl _, ha, ht, fun r h1 h2 => by simp only at h2; omega, (decide_eq_false h).symm⟩

theorem binary_search_infos (edges : List edge_t) (swaps : List SwapDescriptor)
    (R : List ExistenceRequestMsg) (k : Nat) (items : List ExistenceInfoMsg)
    (hmem : ∀ msg, msg ∈ items ↔
      (k ≤ msg.swap_id ∧ asks R msg.edge msg.swap_id ∧
        (∃ t, msg.swap_id ≤ t ∧ targets R msg.edge t) ∧
        (∀ r, k ≤ r → r < msg.swap_id → ¬ asks R msg.edge r) ∧
        msg.exists_bit = decide (msg.edge ∈ ref_state edges swaps k)))
    (I M : List edge_t) (hI : I.Sorted (· ≤ ·)) (hM : M.Sorted (· ≤ ·))
    (hIm : ∀ e, e ∈ I ↔ (⟨k, e, true⟩ : ExistenceInfoMsg) ∈ items)
    (hMm : ∀ e, e ∈ M ↔ (⟨k, e, false⟩ : ExistenceInfoMsg) ∈ items)
    (e : edge_t) (ha : asks R e k) (ht : ∃ t, k ≤ t ∧ targets R e t) :
    binary_search I e = decide (e ∈ ref_state edges swaps k) ∧
    (decide (e ∈ ref_state edges swaps k) = true ∨ binary_search M e = true) := by
  obtain ⟨g1, g2⟩ := info_lookup edges swaps R k items hmem e ha ht
  rw [binary_search_eq_mem I e hI, binary_search_eq_mem M e hM]
  constructor
  · rw [decide_eq_decide, hIm, g1]
  · by_cases h : e ∈ ref_state edges swaps k
    · exact Or.inl (decide_eq_true h)
    · exact Or.inr (decide_eq_true ((hMm e).mpr (g2.mpr h)))

theorem check_conflict_spec (edges : List edge_t) (swaps : List SwapDescriptor)
    (R : List ExistenceRequestMsg) (k : Nat) (items : List ExistenceInfoMsg)
    (hmem : ∀ msg, msg ∈ items ↔
      (k ≤ msg.swap_id ∧ asks R msg.edge msg.swap_id ∧
        (∃ t, msg.swap_id ≤ t ∧ targets R msg.edge t) ∧
        (∀ r, k ≤ r → r < msg.swap_id → ¬ asks R msg.edge r) ∧
        msg.exists_bit = decide (msg.edge ∈ ref_state edges swaps k)))
    (I M : List edge_t) (hI : I.Sorted (· ≤ ·)) (hM : M.Sorted (· ≤ ·))
    (hIm : ∀ e, e ∈ I ↔ (⟨k, e, true⟩ : ExistenceInfoMsg) ∈ items)
    (hMm : ∀ e, e ∈ M ↔ (⟨k, e, false⟩ : ExistenceInfoMsg) ∈ items)
    (e : edge_t) (ht : targets R e k) :
    check_conflict I M e = some (decide (e ∈ ref_state edges swaps k)) := by
  obtain ⟨g1, g2⟩ := binary_search_infos edges swaps R k items hmem I M hI hM hIm hMm e
    ⟨false, ht⟩ ⟨k, le_refl _, ht⟩
  unfold check_conflict
  simp only [g1]
  rcases g2 with g | g
  · simp [g]
  · simp [g]

theorem ex_items_next (edges : List edge_t) (swaps : List SwapDescriptor)
    (R : List ExistenceRequestMsg) (hR : PassBSpec edges swaps R) (k : Nat) (d : SwapDescriptor)
    (hd : swaps[k]? = some d) (h0 : d.edges0 < d.edges1) (h1 : d.edges1 < edges.length)
    (hnd : (ref_state edges swaps k).Nodup)
    (items items1 newitems : List ExistenceInfoMsg) (pre : List ExistenceSuccessorMsg)
    (hmem : ∀ msg, msg ∈ items ↔
      (k ≤ msg.swap_id ∧ asks R msg.edge msg.swap_id ∧
        (∃ t, msg.swap_id ≤ t ∧ targets R msg.edge t) ∧
        (∀ r, k ≤ r → r < msg.swap_id → ¬ asks R msg.edge r) ∧
        msg.exists_bit = decide (msg.edge ∈ ref_state edges swaps k)))
    (hmem1 : ∀ y, y ∈ items1 ↔ y ∈ items ∧ y.swap_id ≠ k)
    (hpre : ∀ x, x ∈ pre ↔ ExSuccSpec R x ∧ x.swap_id = k)
    (hnew : ∀ y, y ∈ newitems ↔ y ∈ items1 ∨
      ∃ x ∈ pre, y = ⟨x.successor, x.edge, decide (x.edge ∈ ref_state edges swaps (k + 1))⟩) :
    ∀ msg, msg ∈ newitems ↔
      (k + 1 ≤ msg.swap_id ∧ asks R msg.edge msg.swap_id ∧
        (∃ t, msg.swap_id ≤ t ∧ targets R msg.edge t) ∧
        (∀ r, k + 1 ≤ r → r < msg.swap_id → ¬ asks R msg.edge r) ∧
        msg.exists_bit = decide (msg.edge ∈ ref_state edges swaps (k + 1))) := by
  intro msg
  rw [hnew]
  constructor
  · rintro (h | ⟨x, hx, hxy⟩)
    · obtain ⟨hm, hk⟩ := (hmem1 msg).mp h
      obtain ⟨g1, g2, g3, g4, g5⟩ := (hmem msg).mp hm
      have hlt : k < msg.swap_id := by omega
      refine ⟨hlt, g2, g3, fun r hr1 hr2 => g4 r (by omega) hr2, ?_⟩
      rw [g5, decide_eq_decide]
      exact (mem_next_of_not_asks edges swaps R hR k d hd h0 h1 hnd _ (g4 k (le_refl _) hlt)).symm
    · obtain ⟨⟨e1, e2, e3, e4, e5⟩, hk⟩ := (hpre x).mp hx
      rw [hxy]
      simp only
      refine ⟨by omega, e2, e5, fun r hr1 hr2 => e4 r (by omega) hr2, trivial⟩
  · rintro ⟨g1, g2, g3, g4, g5⟩
    by_cases ha : asks R msg.edge k
    · right
      refine ⟨⟨k, msg.edge, msg.swap_id⟩, (hpre _).mpr ⟨⟨ha, g2, by simp only; omega, ?_, g3⟩, rfl⟩, ?_⟩
      · intro t ht1 ht2
        exact g4 t (by simp only at ht1; omega) ht2
      · cases msg with
        | mk ms me mb =>
          simp only at g5
          simp only [ExistenceInfoMsg.mk.injEq, true_and]
          exact g5
    · left
      rw [hmem1, hmem]
      refine ⟨⟨by omega, g2, g3, ?_, ?_⟩, by omega⟩
      · intro r hr1 hr2
        by_cases hrk : r = k
        · rw [hrk]; exact ha
        · exact g4 r (by omega) hr2
      · rw [g5, decide_eq_decide]
        exact mem_next_of_not_asks edges swaps R hR k d hd h0 h1 hnd _ ha

/-- The bit Pass D forwards for an edge that swap `k` has asked about is
the membership of the edge in the reference state after the swap. -/
theorem ex_bits (edges : List edge_t) (swaps : List SwapDescriptor)
    (R : List ExistenceRequestMsg) (k : Nat) (d : SwapDescriptor)
    (hd : swaps[k]? = some d) (h0 : d.edges0 < d.edges1) (h1 : d.edges1 < edges.length)
    (hnd : (ref_state edges swaps k).Nodup)
    (items : List ExistenceInfoMsg)
    (hmem : ∀ msg, msg ∈ items ↔
      (k ≤ msg.swap_id ∧ asks R msg.edge msg.swap_id ∧
        (∃ t, msg.swap_id ≤ t ∧ targets R msg.edge t) ∧
        (∀ r, k ≤ r → r < msg.swap_id → ¬ asks R msg.edge r) ∧
        msg.exists_bit = decide (msg.edge ∈ ref_state edges swaps k)))
    (I M : List edge_t) (hI : I.Sorted (· ≤ ·)) (hM : M.Sorted (· ≤ ·))
    (hIm : ∀ e, e ∈ I ↔ (⟨k, e, true⟩ : ExistenceInfoMsg) ∈ items)
    (hMm : ∀ e, e ∈ M ↔ (⟨k, e, false⟩ : ExistenceInfoMsg) ∈ items)
    (e : edge_t) (ha : asks R e k) (ht : ∃ t, k ≤ t ∧ targets R e t) :
    (((ref_perform (ref_state edges swaps k) d = true ∧
          (e = (ref_edges (ref_state edges swaps k) d).new_edges0 ∨
            e = (ref_edges (ref_state edges swaps k) d).new_edges1)) ∨
        (ref_perform (ref_state edges swaps k) d = false ∧
          (e = (ref_edges (ref_state edges swaps k) d).edges0 ∨
            e = (ref_edges (ref_state edges swaps k) d).edges1))) →
      decide (e ∈ ref_state edges swaps (k + 1)) = true) ∧
    (¬ ((ref_perform (ref_state edges swaps k) d = true ∧
          (e = (ref_edges (ref_state edges swaps k) d).new_edges0 ∨
            e = (ref_edges (ref_state edges swaps k) d).new_edges1)) ∨
        (ref_perform (ref_state edges swaps k) d = false ∧
          (e = (ref_edges (ref_state edges swaps k) d).edges0 ∨
            e = (ref_edges (ref_state edges swaps k) d).edges1))) →
      (e = (ref_edges (ref_state edges swaps k) d).edges0 ∨
        e = (ref_edges (ref_state edges swaps k) d).edges1) →
      decide (e ∈ ref_state edges swaps (k + 1)) = false) ∧
    (¬ ((ref_perform (ref_state edges swaps k) d = true ∧
          (e = (ref_edges (ref_state edges swaps k) d).new_edges0 ∨
            e = (ref_edges (ref_state edges swaps k) d).new_edges1)) ∨
        (ref_perform (ref_state edges swaps k) d = false ∧
          (e = (ref_edges (ref_state edges swaps k) d).edges0 ∨
            e = (ref_edges (ref_state edges swaps k) d).edges1))) →
      ¬ (e = (ref_edges (ref_state edges swaps k) d).edges0 ∨
        e = (ref_edges (ref_state edges swaps k) d).edges1) →
      binary_search I e = decide (e ∈ ref_state edges swaps (k + 1)) ∧
        (decide (e ∈ ref_state edges swaps (k + 1)) = true ∨ binary_search M e = true)) := by
  have hlen : d.edges1 < (ref_state edges swaps k).length := by
    rw [ref_state_length]; exact h1
  have hm := mem_ref_step (ref_state edges swaps k) d hnd h0 hlen e
  rw [← ref_state_succ edges swaps k d hd] at hm
  have he0 : (ref_edges (ref_state edges swaps k) d).edges0 ∈ ref_state edges swaps k :=
    getD_mem _ _ _ (by omega)
  have he1 : (ref_edges (ref_state edges swaps k) d).edges1 ∈ ref_state edges swaps k :=
    getD_mem _ _ _ hlen
  refine ⟨?_, ?_, ?_⟩
  · rintro (⟨hp, h⟩ | ⟨hp, h⟩)
    · rw [if_pos hp] at hm
      apply decide_eq_true
      rw [hm]
      rcases h with h | h
      · exact Or.inl h
      · exact Or.inr (Or.inl h)
    · rw [if_neg (by simp [hp])] at hm
      apply decide_eq_true
      rw [hm]
      rcases h with h | h
      · rw [h]; exact he0
      · rw [h]; exact he1
  · intro hA hB
    have hp : ref_perform (ref_state edges swaps k) d = true := by
      by_contra hcon
      have : ref_perform (ref_state edges swaps k) d = false := by
        cases hq : ref_perform (ref_state edges swaps k) d
        · rfl
        · exact absurd hq hcon
      exact hA (Or.inr ⟨this, hB⟩)
    rw [if_pos hp] at hm
    apply decide_eq_false
    rw [hm]
    rintro (h | h | ⟨_, n0, n1⟩)
    · exact hA (Or.inl ⟨hp, Or.inl h⟩)
    · exact hA (Or.inl ⟨hp, Or.inr h⟩)
    · rcases hB with h | h
      · exact n0 h
      · exact n1 h
  · intro hA hB
    have heq : e ∈ ref_state edges swaps (k + 1) ↔ e ∈ ref_state edges swaps k := by
      rw [hm]
      split
      · rename_i hp
        constructor
        · rintro (h | h | h)
          · exact absurd (Or.inl ⟨hp, Or.inl h⟩) hA
          · exact absurd (Or.inl ⟨hp, Or.inr h⟩) hA
          · exact h.1
        · intro h
          exact Or.inr (Or.inr ⟨h, fun g => hB (Or.inl g), fun g => hB (Or.inr g)⟩)
      · exact Iff.rfl
    obtain ⟨g1, g2⟩ := binary_search_infos edges swaps R k items hmem I M hI hM hIm hMm e ha ht
    have hdec : decide (e ∈ ref_state edges swaps (k + 1)) = decide (e ∈ ref_state edges swaps k) := by
      rw [decide_eq_decide]; exact heq
    rw [hdec]
    exact ⟨g1, g2⟩

/-! ## Pass D: one iteration of the loop -/

theorem ref_results_append (cur : List edge_t) (l : List SwapDescriptor) (d : SwapDescriptor) :
    ref_results cur (l ++ [d]) = ref_results cur l ++ [ref_result (ref_run cur l) d] := by
  induction l generalizing cur with
  | nil => rfl
  | cons s rest ih =>
    show ref_result cur s :: ref_results (ref_step cur s) (rest ++ [d]) = _
    rw [ih]
    rfl

theorem ref_log_append (cur : List edge_t) (l : List SwapDescriptor) (d : SwapDescriptor) :
    ref_log cur (l ++ [d]) = ref_log cur l ++ [ref_edges (ref_run cur l) d] := by
  induction l generalizing cur with
  | nil => rfl
  | cons s rest ih =>
    show ref_edges cur s :: ref_log (ref_step cur s) (rest ++ [d]) = _
    rw [ih]
    rfl

theorem take_succ_of_getElem? (swaps : List SwapDescriptor) (k : Nat) (d : SwapDescriptor)
    (hd : swaps[k]? = some d) : swaps.take (k + 1) = swaps.take k ++ [d] := by
  rw [List.take_succ, hd]
  rfl

/-- The value of one iteration of Pass D from the values of its loops. -/
theorem perform_step_eval (k : Nat) (d : SwapDescriptor) (st : PerformState)
    (e0 e1 : edge_t) (m0 m1 : PQSorterMerger DependencyChainEdgeMsg)
    (x1 : PQSorterMerger ExistenceInfoMsg) (I M : List edge_t) (c0 c1 : Bool)
    (succ1 : List DependencyChainSuccessorMsg) (pq1 : List DependencyChainEdgeMsg)
    (found1 : Bool × Bool) (exsucc1 : List ExistenceSuccessorMsg)
    (expq1 : List ExistenceInfoMsg) (E : SwapEdges) (p : Bool)
    (hE : E = ⟨e0, e1, (_swap_edges e0 e1 d.direction).1, (_swap_edges e0 e1 d.direction).2⟩)
    (hp : p = !(c0 || c1 || (E.new_edges0.is_loop || E.new_edges1.is_loop)))
    (h0 : d.edges0 < d.edges1)
    (hp0 : pop_edge_state k d.edges0 st.edge_state_pqsort.update = some (e0, m0))
    (hp1 : pop_edge_state k d.edges1 m0 = some (e1, m1))
    (hg : gather_infos k st.existence_info_pqsort.update.size st.existence_info_pqsort.update
      [] [] = some (x1, I, M))
    (hc0 : check_conflict I M E.new_edges0 = some c0)
    (hc1 : check_conflict I M E.new_edges1 = some c1)
    (hfw : forward_edge_state k d E p st._depchain_successor_sorter m1._pq (false, false) =
      some (succ1, pq1, found1))
    (hfx : forward_existence k E p I M st._existence_successor_sorter x1._pq =
      some (exsucc1, expq1)) :
    perform_step k d st = some
      { edge_state_pqsort := { m1 with _pq := pq1 },
        _depchain_successor_sorter := succ1,
        existence_info_pqsort := { x1 with _pq := expq1 },
        _existence_successor_sorter := exsucc1,
        _edge_update_sorter :=
          if found1.2 then
            (if found1.1 then st._edge_update_sorter
              else st._edge_update_sorter ++ [E.get (final_index 0 p)])
          else
            (if found1.1 then st._edge_update_sorter
              else st._edge_update_sorter ++ [E.get (final_index 0 p)]) ++
              [E.get (final_index 1 p)],
        _result := st._result ++
          [(SwapResult.mk p (E.new_edges0.is_loop || E.new_edges1.is_loop)
            E.new_edges0 E.new_edges1 c0 c1).normalize],
        state_log := st.state_log ++ [E] } := by
  subst hE
  subst hp
  simp only at hc0 hc1 hfw hfx
  have hn : ¬ ¬ (d.edges0 < d.edges1) := fun h => h h0
  simp only [perform_step, if_neg hn, hp0, hp1, hg, hc0, hc1, hfw, hfx]

/-! ## Pass D: the loop invariant -/

theorem perform_step_inv (edges : List edge_t) (swaps : List SwapDescriptor)
    (R : List ExistenceRequestMsg) (hs : simple_state edges)
    (hv : valid_batch edges.length swaps) (hR : PassBSpec edges swaps R) (k : Nat)
    (d : SwapDescriptor) (hd : swaps[k]? = some d) (st : PerformState)
    (inv : PerformInv edges swaps R k st) :
    ∃ st1, perform_step k d st = some st1 ∧ PerformInv edges swaps R (k + 1) st1 := by
  obtain ⟨h0, h1⟩ := hv d (List.getElem?_mem hd)
  have hsim := ref_state_simple edges swaps hs hv k
  have hsim' := ref_state_simple edges swaps hs hv (k + 1)
  have hlen : (ref_state edges swaps k).length = edges.length := ref_state_length _ _ _
  -- the two edge states
  have hitm : st.edge_state_pqsort.update.items = st.edge_state_pqsort.items :=
    PQSorterMerger.update_items _
  have hmem0 : (⟨k, d.edges0, (ref_state edges swaps k).getD d.edges0 ⟨0, 0⟩⟩ :
      DependencyChainEdgeMsg) ∈ st.edge_state_pqsort.update.items := by
    rw [hitm, inv.dep_mem]
    exact ⟨next_touch_self swaps k _ d hd (Or.inl rfl), rfl⟩
  have hmemb : (⟨k, d.edges1, (ref_state edges swaps k).getD d.edges1 ⟨0, 0⟩⟩ :
      DependencyChainEdgeMsg) ∈ st.edge_state_pqsort.update.items := by
    rw [hitm, inv.dep_mem]
    exact ⟨next_touch_self swaps k _ d hd (Or.inr rfl), rfl⟩
  have hcases : ∀ y ∈ st.edge_state_pqsort.update.items, k < y.swap_id ∨
      (y = ⟨k, d.edges0, (ref_state edges swaps k).getD d.edges0 ⟨0, 0⟩⟩) ∨
      (y = ⟨k, d.edges1, (ref_state edges swaps k).getD d.edges1 ⟨0, 0⟩⟩) := by
    intro y hy
    rw [hitm, inv.dep_mem] at hy
    obtain ⟨g1, g2⟩ := hy
    have hge := next_touch_ge swaps k _ _ g1
    by_cases hk : y.swap_id = k
    · right
      rw [hk] at g1
      have ht := next_touch_touches swaps k _ d hd g1
      cases y with
      | mk ys ye yedge =>
        simp only at hk g2 ht
        rcases ht with h | h
        · left; rw [hk, g2, h]
        · right; rw [hk, g2, h]
    · left; omega
  have hleast0 : ∀ y ∈ st.edge_state_pqsort.update.items,
      (⟨k, d.edges0, (ref_state edges swaps k).getD d.edges0 ⟨0, 0⟩⟩ :
        DependencyChainEdgeMsg) ≤ y := by
    intro y hy
    rcases hcases y hy with h | h | h
    · rw [depchain_edge_le_iff]; exact Or.inl h
    · rw [h]
    · rw [h, depchain_edge_le_iff]; exact Or.inr ⟨rfl, Or.inl h0⟩
  obtain ⟨m0, hp0, asc0, fresh0, nd0, mem0⟩ :=
    pop_edge_state_spec k d.edges0 _ st.edge_state_pqsort.update
      (PQSorterMerger.update_ascending _ inv.dep_asc) (PQSorterMerger.update_fresh _)
      (by rw [hitm]; exact inv.dep_nodup) hmem0 hleast0
  have hne01 : (⟨k, d.edges1, (ref_state edges swaps k).getD d.edges1 ⟨0, 0⟩⟩ :
      DependencyChainEdgeMsg) ≠ ⟨k, d.edges0, (ref_state edges swaps k).getD d.edges0 ⟨0, 0⟩⟩ := by
    intro h
    simp only [DependencyChainEdgeMsg.mk.injEq, true_and] at h
    omega
  have hleast1 : ∀ y ∈ m0.items,
      (⟨k, d.edges1, (ref_state edges swaps k).getD d.edges1 ⟨0, 0⟩⟩ :
        DependencyChainEdgeMsg) ≤ y := by
    intro y hy
    obtain ⟨hy1, hy2⟩ := (mem0 y).mp hy
    rcases hcases y hy1 with h | h | h
    · rw [depchain_edge_le_iff]; exact Or.inl h
    · exact absurd h hy2
    · rw [h]
  obtain ⟨m1, hp1, asc1, fresh1, nd1, mem1⟩ :=
    pop_edge_state_spec k d.edges1 _ m0 asc0 fresh0 nd0 ((mem0 _).mpr ⟨hmemb, hne01⟩) hleast1
  have hmem1 : ∀ y, y ∈ m1.items ↔ y ∈ st.edge_state_pqsort.items ∧ ¬ touches d y.edge_id := by
    intro y
    rw [mem1, mem0, hitm]
    constructor
    · rintro ⟨⟨hy, n0⟩, n1⟩
      refine ⟨hy, ?_⟩
      intro ht
      obtain ⟨g1, g2⟩ := (inv.dep_mem y).mp hy
      have hk := next_touch_eq_of_touches swaps k _ _ d hd ht g1
      cases y with
      | mk ys ye yedge =>
        simp only at hk g2 ht
        rcases ht with h | h
        · exact n0 (by rw [hk, g2, h])
        · exact n1 (by rw [hk, g2, h])
    · rintro ⟨hy, ht⟩
      refine ⟨⟨hy, ?_⟩, ?_⟩
      · intro h; rw [h] at ht; exact ht (Or.inl rfl)
      · intro h; rw [h] at ht; exact ht (Or.inr rfl)
  -- the existence information
  have hxitm : st.existence_info_pqsort.update.items = st.existence_info_pqsort.items :=
    PQSorterMerger.update_items _
  obtain ⟨x1, I, M, hg, x1asc, _, x1mem, hI, hM, hIm, hMm⟩ :=
    gather_infos_spec k st.existence_info_pqsort.update.size st.existence_info_pqsort.update
      [] [] (PQSorterMerger.update_ascending _ inv.ex_asc) (PQSorterMerger.update_fresh _)
      (by rw [PQSorterMerger.size_eq])
      (by intro msg hm; rw [hxitm, inv.ex_mem] at hm; exact hm.1)
      List.sorted_nil List.sorted_nil (by simp) (by simp)
  simp only [List.not_mem_nil, false_or, hxitm] at hIm hMm
  rw [hxitm] at x1mem
  obtain ⟨a0, a1, t0, t1⟩ := asks_of_swap edges swaps R hR k d hd
  have hc0 := check_conflict_spec edges swaps R k _ inv.ex_mem I M hI hM hIm hMm _ t0
  have hc1 := check_conflict_spec edges swaps R k _ inv.ex_mem I M hI hM hIm hMm _ t1
  -- forwarding the edge states
  have hspw : st._depchain_successor_sorter.Pairwise (fun x y => x.swap_id ≤ y.swap_id) := by
    refine List.Pairwise.imp ?_ inv.succ_sorted
    intro x y hxy
    have := le_of_lt hxy
    rw [depchain_succ_le_iff] at this
    omega
  obtain ⟨pre, rest, hsplit, hpre, hrest⟩ := split_by_key (fun x => x.swap_id) k
    st._depchain_successor_sorter hspw (fun x hx => ((inv.succ_mem x).mp hx).2)
  have hsm : ∀ x, x ∈ pre ∨ x ∈ rest ↔ (SuccSpec swaps x ∧ k ≤ x.swap_id) := by
    intro x
    rw [← inv.succ_mem, hsplit, List.mem_append]
  have hpre_iff : ∀ x, x ∈ pre ↔ SuccSpec swaps x ∧ x.swap_id = k := by
    intro x
    constructor
    · intro hx
      exact ⟨((hsm x).mp (Or.inl hx)).1, hpre x hx⟩
    · rintro ⟨g1, g2⟩
      rcases (hsm x).mpr ⟨g1, by omega⟩ with h | h
      · exact h
      · have := hrest x h
        omega
  have hrest_iff : ∀ x, x ∈ rest ↔ SuccSpec swaps x ∧ k + 1 ≤ x.swap_id := by
    intro x
    constructor
    · intro hx
      exact ⟨((hsm x).mp (Or.inr hx)).1, hrest x hx⟩
    · rintro ⟨g1, g2⟩
      rcases (hsm x).mpr ⟨g1, by omega⟩ with h | h
      · have := hpre x h
        omega
      · exact h
  have hsnd : (pre ++ rest).Nodup := by rw [← hsplit]; exact inv.succ_sorted.nodup
  have hrest_sorted : rest.Sorted (· < ·) := by
    have := inv.succ_sorted
    rw [hsplit] at this
    exact (List.pairwise_append.mp this).2.1
  have hpre_t : ∀ x ∈ pre, touches d x.edge_id ∧ next_touch swaps (k + 1) x.edge_id x.successor := by
    intro x hx
    obtain ⟨⟨⟨d1, hd1, ht⟩, hnt⟩, hk⟩ := (hpre_iff x).mp hx
    rw [hk] at hd1 hnt
    rw [hd] at hd1
    cases hd1
    exact ⟨ht, hnt⟩
  obtain ⟨pq1, found1, hfw, hperm, hsorted, hf1, hf2⟩ :=
    forward_edge_state_spec k d (ref_edges (ref_state edges swaps k) d)
      (ref_perform (ref_state edges swaps k) d) rest hrest pre m1._pq (false, false)
      (fun x hx => ⟨hpre x hx, (hpre_t x hx).1,
        next_touch_ge swaps (k + 1) _ _ (hpre_t x hx).2⟩)
  rw [← hsplit] at hfw
  have hf1' : found1.1 = true ↔ ∃ s, next_touch swaps (k + 1) d.edges0 s := by
    rw [hf1]
    constructor
    · rintro (h | ⟨x, hx, he⟩)
      · exact absurd h (by simp)
      · exact ⟨x.successor, he ▸ (hpre_t x hx).2⟩
    · rintro ⟨s, hs⟩
      exact Or.inr ⟨⟨k, d.edges0, s⟩, (hpre_iff _).mpr ⟨⟨⟨d, hd, Or.inl rfl⟩, hs⟩, rfl⟩, rfl⟩
  have hf2' : found1.2 = true ↔ ∃ s, next_touch swaps (k + 1) d.edges1 s := by
    rw [hf2]
    constructor
    · rintro (h | ⟨x, hx, he⟩)
      · exact absurd h (by simp)
      · have hb : x.edge_id = d.edges1 := by
          rcases (hpre_t x hx).1 with h | h
          · exact absurd h he
          · exact h
        exact ⟨x.successor, hb ▸ (hpre_t x hx).2⟩
    · rintro ⟨s, hs⟩
      refine Or.inr ⟨⟨k, d.edges1, s⟩, (hpre_iff _).mpr ⟨⟨⟨d, hd, Or.inr rfl⟩, hs⟩, rfl⟩, ?_⟩
      simp only
      omega
  -- forwarding the existence information
  have hxpw : st._existence_successor_sorter.Pairwise (fun x y => x.swap_id ≤ y.swap_id) := by
    refine List.Pairwise.imp ?_ inv.exsucc_sorted
    intro x y hxy
    rw [existence_succ_le_iff] at hxy
    omega
  obtain ⟨xpre, xrest, hxsplit, hxpre, hxrest⟩ := split_by_key (fun x => x.swap_id) k
    st._existence_successor_sorter hxpw (fun x hx => ((inv.exsucc_mem x).mp hx).2)
  have hxsm : ∀ x, x ∈ xpre ∨ x ∈ xrest ↔ (ExSuccSpec R x ∧ k ≤ x.swap_id) := by
    intro x
    rw [← inv.exsucc_mem, hxsplit, List.mem_append]
  have hxpre_iff : ∀ x, x ∈ xpre ↔ ExSuccSpec R x ∧ x.swap_id = k := by
    intro x
    constructor
    · intro hx
      exact ⟨((hxsm x).mp (Or.inl hx)).1, hxpre x hx⟩
    · rintro ⟨g1, g2⟩
      rcases (hxsm x).mpr ⟨g1, by omega⟩ with h | h
      · exact h
      · have := hxrest x h
        omega
  have hxrest_iff : ∀ x, x ∈ xrest ↔ ExSuccSpec R x ∧ k + 1 ≤ x.swap_id := by
    intro x
    constructor
    · intro hx
      exact ⟨((hxsm x).mp (Or.inr hx)).1, hxrest x hx⟩
    · rintro ⟨g1, g2⟩
      rcases (hxsm x).mpr ⟨g1, by omega⟩ with h | h
      · have := hxpre x h
        omega
      · exact h
  have hxrest_sorted : xrest.Sorted (· ≤ ·) := by
    have := inv.exsucc_sorted
    rw [hxsplit] at this
    exact (List.pairwise_append.mp this).2.1
  obtain ⟨expq1, hfx, hxnew, hxsorted⟩ :=
    forward_existence_spec k (ref_edges (ref_state edges swaps k) d)
      (ref_perform (ref_state edges swaps k) d) I M
      (fun e => decide (e ∈ ref_state edges swaps (k + 1))) xrest hxrest xpre x1._pq
      (by
        intro x hx
        obtain ⟨⟨e1, e2, e3, e4, t, ht1, ht2⟩, hk⟩ := (hxpre_iff x).mp hx
        rw [hk] at e1 e3
        exact ⟨hk, ex_bits edges swaps R k d hd h0 h1 hsim.1 _ inv.ex_mem I M hI hM hIm hMm
          x.edge e1 ⟨t, by omega, ht2⟩⟩)
  rw [← hxsplit] at hfx
  -- the new state
  have hstep := perform_step_eval k d st _ _ m0 m1 x1 I M _ _ rest pq1 found1 xrest expq1
    (ref_edges (ref_state edges swaps k) d) (ref_perform (ref_state edges swaps k) d)
    rfl rfl h0 hp0 hp1 hg hc0 hc1 hfw hfx
  refine ⟨_, hstep, ?_⟩
  have hdep := dep_items_next edges swaps k d hd h0 h1 st.edge_state_pqsort.items m1.items
    (pq1 ++ m1._sorter) pre inv.dep_mem hmem1 nd1 hpre_iff hsnd.of_append_left
    (by
      have := List.Perm.append_right m1._sorter hperm
      rw [List.append_assoc] at this
      exact this)
  have hupd := upd_next edges swaps k d hd h0 h1 hsim'.1 st._edge_update_sorter inv.upd_nodup
    inv.upd_mem found1.1 found1.2 hf1' hf2'
    ((ref_edges (ref_state edges swaps k) d).get
      (final_index 0 (ref_perform (ref_state edges swaps k) d)))
    ((ref_edges (ref_state edges swaps k) d).get
      (final_index 1 (ref_perform (ref_state edges swaps k) d)))
    (by rw [final_get0, ref_state_succ edges swaps k d hd,
          ref_step_getD_edges0 _ d _ h0 (by omega)])
    (by rw [final_get1, ref_state_succ edges swaps k d hd,
          ref_step_getD_edges1 _ d _ (by omega)])
  refine ⟨?_, ?_, ?_, ?_, ?_, ?_, ?_, ?_, ?_, ?_, ?_, ?_, ?_⟩
  · exact ⟨hsorted asc1.1, asc1.2⟩
  · exact hdep.1
  · exact hdep.2
  · exact hrest_sorted
  · exact hrest_iff
  · exact ⟨hxsorted x1asc.1, x1asc.2⟩
  · apply ex_items_next edges swaps R hR k d hd h0 h1 hsim.1
      st.existence_info_pqsort.items x1.items (expq1 ++ x1._sorter) xpre inv.ex_mem x1mem
      hxpre_iff
    intro y
    rw [List.mem_append, hxnew]
    show _ ↔ y ∈ x1._pq ++ x1._sorter ∨ _
    rw [List.mem_append]
    constructor
    · rintro ((h | h) | h)
      · exact Or.inl (Or.inl h)
      · exact Or.inr h
      · exact Or.inl (Or.inr h)
    · rintro ((h | h) | h)
      · exact Or.inl (Or.inl h)
      · exact Or.inr h
      · exact Or.inl (Or.inr h)
  · exact hxrest_sorted
  · exact hxrest_iff
  · exact hupd.1
  · exact hupd.2
  · show st._result ++ [ref_result (ref_state edges swaps k) d] = _
    rw [take_succ_of_getElem? swaps k d hd, ref_results_append, inv.result]
    rfl
  · show st.state_log ++ [ref_edges (ref_state edges swaps k) d] = _
    rw [take_succ_of_getElem? swaps k d hd, ref_log_append, inv.log]
    rfl

/-! ## Pass D: `_perform_swaps` -/

theorem perform_loop_inv (edges : List edge_t) (swaps : List SwapDescriptor)
    (R : List ExistenceRequestMsg) (hs : simple_state edges)
    (hv : valid_batch edges.length swaps) (hR : PassBSpec edges swaps R) :
    ∀ (rest : List SwapDescriptor) (k : Nat) (st : PerformState),
      swaps.drop k = rest → k ≤ swaps.length → PerformInv edges swaps R k st →
      ∃ st1, perform_loop rest k st = some st1 ∧ PerformInv edges swaps R swaps.length st1 := by
  intro rest
  induction rest with
  | nil =>
    intro k st hdrop hk hinv
    have : k = swaps.length := by
      have := List.drop_eq_nil_iff.mp hdrop
      omega
    subst this
    exact ⟨st, rfl, hinv⟩
  | cons d rest ih =>
    intro k st hdrop hk hinv
    obtain ⟨hd, hdrop1, hlt⟩ := getElem?_of_drop_eq_cons swaps k d rest hdrop
    obtain ⟨st1, h1, h2⟩ := perform_step_inv edges swaps R hs hv hR k d hd st hinv
    obtain ⟨st2, h3, h4⟩ := ih (k + 1) st1 hdrop1 (by omega) h2
    exact ⟨st2, by simp only [perform_loop, h1, h3], h4⟩

theorem lt_length_of_getElem? (swaps : List SwapDescriptor) (j : Nat) (d : SwapDescriptor)
    (hd : swaps[j]? = some d) : j < swaps.length := by
  by_contra hcon
  rw [List.getElem?_eq_none (by omega)] at hd
  exact Option.noConfusion hd

theorem perform_init_inv (edges : List edge_t) (swaps : List SwapDescriptor)
    (hv : valid_batch edges.length swaps) (a : DepChainResult) (ha : PassASpec edges swaps a)
    (R : List ExistenceRequestMsg) (c : ExistenceResult) (hc : PassCSpec edges R c) :
    PerformInv edges swaps R 0
      { edge_state_pqsort := PQSorterMerger.init [] a._depchain_edge_sorter,
        _depchain_successor_sorter := a._depchain_successor_sorter,
        existence_info_pqsort := PQSorterMerger.init [] c._existence_info_sorter,
        _existence_successor_sorter := c._existence_successor_sorter,
        _edge_update_sorter := [],
        _result := [],
        state_log := [] } := by
  refine ⟨?_, ?_, ?_, ?_, ?_, ?_, ?_, ?_, ?_, ?_, ?_, ?_, ?_⟩
  · unfold PQSorterMerger.Ascending
    rw [(PQSorterMerger.init_pq _ _).1, (PQSorterMerger.init_pq _ _).2]
    exact ⟨List.sorted_nil, ha.dep_sorted.le_of_lt⟩
  · show (PQSorterMerger.init [] a._depchain_edge_sorter).items.Nodup
    rw [PQSorterMerger.init_items, List.nil_append]
    exact ha.dep_sorted.nodup
  · intro msg
    show msg ∈ (PQSorterMerger.init [] a._depchain_edge_sorter).items ↔ _
    rw [PQSorterMerger.init_items, List.nil_append, ha.dep_mem, ref_state_zero]
    unfold DepSpec
    constructor
    · rintro ⟨hnt, he⟩
      refine ⟨hnt, ?_⟩
      rw [List.getD_eq_getElem?_getD, he]
      rfl
    · rintro ⟨hnt, he⟩
      refine ⟨hnt, ?_⟩
      obtain ⟨_, ⟨d, hd, ht⟩, _⟩ := hnt
      have hvd := hv d (List.getElem?_mem hd)
      have hlt : msg.edge_id < edges.length := by rcases ht with h | h <;> omega
      rw [he, List.getD_eq_getElem?_getD, List.getElem?_eq_getElem hlt]
      rfl
  · exact ha.succ_sorted
  · intro msg
    show msg ∈ a._depchain_successor_sorter ↔ _
    rw [ha.succ_mem]
    exact ⟨fun h => ⟨h, Nat.zero_le _⟩, fun h => h.1⟩
  · unfold PQSorterMerger.Ascending
    rw [(PQSorterMerger.init_pq _ _).1, (PQSorterMerger.init_pq _ _).2]
    exact ⟨List.sorted_nil, hc.info_sorted⟩
  · intro msg
    show msg ∈ (PQSorterMerger.init [] c._existence_info_sorter).items ↔ _
    rw [PQSorterMerger.init_items, List.nil_append, hc.info_mem, ref_state_zero]
    unfold ExInfoSpec
    constructor
    · rintro ⟨g1, g2, ⟨t, g3⟩, g4⟩
      refine ⟨Nat.zero_le _, g1, ⟨t, g2 t ⟨false, g3⟩, g3⟩, ?_, g4⟩
      intro r _ hr har
      have := g2 r har
      omega
    · rintro ⟨_, g1, ⟨t, _, g3⟩, g2, g4⟩
      refine ⟨g1, ?_, ⟨t, g3⟩, g4⟩
      intro t1 ht1
      by_contra hcon
      exact g2 t1 (Nat.zero_le _) (by omega) ht1
  · exact hc.succ_sorted
  · intro msg
    show msg ∈ c._existence_successor_sorter ↔ _
    rw [hc.succ_mem]
    exact ⟨fun h => ⟨h, Nat.zero_le _⟩, fun h => h.1⟩
  · exact List.nodup_nil
  · intro x
    constructor
    · intro h
      exact absurd h (List.not_mem_nil _)
    · rintro ⟨e, _, ⟨j, d, hj, _⟩, _⟩
      omega
  · rfl
  · rfl

theorem perform_swaps_spec (edges : List edge_t) (swaps : List SwapDescriptor)
    (hs : simple_state edges) (hv : valid_batch edges.length swaps)
    (a : DepChainResult) (ha : PassASpec edges swaps a)
    (R : List ExistenceRequestMsg) (hR : PassBSpec edges swaps R)
    (c : ExistenceResult) (hc : PassCSpec edges R c) :
    ∃ d, _perform_swaps swaps a c = some d ∧ PassDSpec edges swaps d := by
  obtain ⟨st, h1, inv⟩ := perform_loop_inv edges swaps R hs hv hR swaps 0 _ (by simp)
    (Nat.zero_le _) (perform_init_inv edges swaps hv a ha R c hc)
  have e1 : st._depchain_successor_sorter = [] := by
    rw [List.eq_nil_iff_forall_not_mem]
    intro msg hm
    obtain ⟨⟨⟨d, hd, _⟩, _⟩, hk⟩ := (inv.succ_mem msg).mp hm
    have := lt_length_of_getElem? swaps _ d hd
    omega
  have e2 : st._existence_successor_sorter = [] := by
    rw [List.eq_nil_iff_forall_not_mem]
    intro msg hm
    obtain ⟨⟨⟨f, hf⟩, _⟩, hk⟩ := (inv.exsucc_mem msg).mp hm
    have := hR.lt _ hf
    simp only at this
    omega
  have e3 : st.existence_info_pqsort._pq = [] := by
    rw [List.eq_nil_iff_forall_not_mem]
    intro msg hm
    have hm' : msg ∈ st.existence_info_pqsort.items := List.mem_append_left _ hm
    obtain ⟨hk, ⟨f, hf⟩, _⟩ := (inv.ex_mem msg).mp hm'
    have := hR.lt _ hf
    simp only at this
    omega
  refine ⟨{ _edge_update_sorter := sorter_sort st._edge_update_sorter,
            _result := st._result, state_log := st.state_log }, ?_, ?_⟩
  · simp [_perform_swaps, h1, e1, e2, e3]
  · have htake : swaps.take swaps.length = swaps := List.take_length swaps
    refine ⟨?_, ?_, sorter_sort_strict _ inv.upd_nodup, ?_⟩
    · show st._result = _
      rw [inv.result, htake]
    · show st.state_log = _
      rw [inv.log, htake]
    · intro x
      show x ∈ sorter_sort st._edge_update_sorter ↔ _
      rw [mem_sorter_sort, inv.upd_mem]
      have hrun : ref_state edges swaps swaps.length = ref_run edges swaps := by
        unfold ref_state
        rw [htake]
      rw [hrun]
      constructor
      · rintro ⟨e, he, ⟨j, d, _, hd, ht⟩, _, hx⟩
        exact ⟨e, he, ⟨d, List.getElem?_mem hd, ht⟩, hx⟩
      · rintro ⟨e, he, ⟨d, hd, ht⟩, hx⟩
        obtain ⟨j, hj, hjd⟩ := List.getElem_of_mem hd
        refine ⟨e, he, ⟨j, d, hj, by rw [List.getElem?_eq_getElem hj, hjd], ht⟩, ?_, hx⟩
        intro j1 d1 hj1 hd1
        have := lt_length_of_getElem? swaps _ d1 hd1
        omega

/-! ## The update stream -/

theorem valid_edges_mem (x : edge_t) :
    ∀ (es : List edge_t) (mask : List Bool), es.length ≤ mask.length →
      (x ∈ valid_edges es mask ↔ ∃ i : Nat, es[i]? = some x ∧ mask[i]? = some true) := by
  intro es
  induction es with
  | nil =>
    intro mask _
    simp [valid_edges]
  | cons e es ih =>
    intro mask hlen
    cases mask with
    | nil => simp at hlen
    | cons b mask =>
      simp only [List.length_cons, Nat.add_le_add_iff_right] at hlen
      cases b with
      | true =>
        simp only [valid_edges, List.mem_cons, ih mask hlen]
        constructor
        · rintro (h | ⟨i, h1, h2⟩)
          · exact ⟨0, by simp [h], by simp⟩
          · exact ⟨i + 1, by simpa using h1, by simpa using h2⟩
        · rintro ⟨i, h1, h2⟩
          cases i with
          | zero =>
            left
            simpa using h1.symm
          | succ i => exact Or.inr ⟨i, by simpa using h1, by simpa using h2⟩
      | false =>
        simp only [valid_edges, ih mask hlen]
        constructor
        · rintro ⟨i, h1, h2⟩
          exact ⟨i + 1, by simpa using h1, by simpa using h2⟩
        · rintro ⟨i, h1, h2⟩
          cases i with
          | zero => simp at h2
          | succ i => exact ⟨i, by simpa using h1, by simpa using h2⟩

theorem valid_edges_sublist :
    ∀ (es : List edge_t) (mask : List Bool), (valid_edges es mask).Sublist es := by
  intro es
  induction es with
  | nil =>
    intro mask
    simp [valid_edges]
  | cons e es ih =>
    intro mask
    cases mask with
    | nil =>
      simp only [valid_edges]
      exact (ih []).cons₂ e
    | cons b mask =>
      cases b with
      | true =>
        simp only [valid_edges]
        exact (ih mask).cons₂ e
      | false =>
        simp only [valid_edges]
        exact (ih mask).cons e

theorem valid_edges_nil_mask : ∀ (es : List edge_t), valid_edges es [] = es := by
  intro es
  induction es with
  | nil => rfl
  | cons e es ih => simp only [valid_edges, ih]

theorem valid_edges_length :
    ∀ (es : List edge_t) (mask : List Bool), es.length = mask.length →
      (valid_edges es mask).length = mask.count true := by
  intro es
  induction es with
  | nil =>
    intro mask h
    cases mask with
    | nil => rfl
    | cons b mask => simp at h
  | cons e es ih =>
    intro mask h
    cases mask with
    | nil => simp at h
    | cons b mask =>
      simp only [List.length_cons, Nat.add_right_cancel_iff] at h
      cases b with
      | true => simp [valid_edges, ih mask h]
      | false => simp [valid_edges, ih mask h]

theorem mask_spec_length (m : Nat) (swaps : List SwapDescriptor) :
    (mask_spec m swaps).length = m := by
  simp [mask_spec]

theorem mask_spec_get (m : Nat) (swaps : List SwapDescriptor) (i : Nat) (hi : i < m) :
    (mask_spec m swaps)[i]? = some (decide (∀ s ∈ swaps, ¬ touches s i)) := by
  simp [mask_spec, List.getElem?_range hi]

theorem ref_run_length (L : List edge_t) (swaps : List SwapDescriptor) :
    (ref_run L swaps).length = L.length := by
  have := ref_state_length L swaps swaps.length
  unfold ref_state at this
  rw [List.take_length] at this
  exact this

theorem ref_run_simple (L : List edge_t) (swaps : List SwapDescriptor)
    (hs : simple_state L) (hv : valid_batch L.length swaps) : simple_state (ref_run L swaps) := by
  have := ref_state_simple L swaps hs hv swaps.length
  unfold ref_state at this
  rw [List.take_length] at this
  exact this

theorem ref_run_getD_untouched (e : Nat) (x : edge_t) :
    ∀ (swaps : List SwapDescriptor) (L : List edge_t), (∀ s ∈ swaps, ¬ touches s e) →
      (ref_run L swaps).getD e x = L.getD e x := by
  intro swaps
  induction swaps with
  | nil => intro L _; rfl
  | cons s rest ih =>
    intro L h
    show (ref_run (ref_step L s) rest).getD e x = _
    rw [ih (ref_step L s) (fun t ht => h t (List.mem_cons_of_mem _ ht))]
    have := h s (List.mem_cons_self _ _)
    rw [touches_iff, not_or] at this
    exact ref_step_getD_other L s e x this.1 this.2

/-- The sorted reference result is a simple edge list. -/
theorem simple_list_sorter_sort (F : List edge_t) (h : simple_state F) :
    simple_list (sorter_sort F) :=
  ⟨sorter_sort_strict F h.1, fun e he => h.2 e ((mem_sorter_sort F e).mp he)⟩

/-- Merging the edges the mask keeps with the updates of Pass D gives the
sorted edge list of the sequential reference. -/
theorem update_stream_eq (L : List edge_t) (batch : List SwapDescriptor)
    (hs : simple_list L) (hv : valid_batch L.length batch) (U : List edge_t)
    (hU : U.Sorted (· < ·))
    (hUm : ∀ x, x ∈ U ↔ ∃ e, e < L.length ∧ (∃ s ∈ batch, touches s e) ∧
      (ref_run L batch).getD e ⟨0, 0⟩ = x) :
    EdgeVectorUpdateStream L (mask_spec L.length batch) U = sorter_sort (ref_run L batch) := by
  have hF := ref_run_simple L batch (simple_state_of_simple_list L hs) hv
  have hFlen := ref_run_length L batch
  have hVm : ∀ x, x ∈ valid_edges L (mask_spec L.length batch) ↔
      ∃ e, e < L.length ∧ (∀ s ∈ batch, ¬ touches s e) ∧ (ref_run L batch).getD e ⟨0, 0⟩ = x := by
    intro x
    rw [valid_edges_mem x L _ (by rw [mask_spec_length])]
    constructor
    · rintro ⟨i, h1, h2⟩
      have hi : i < L.length := by
        by_contra hcon
        rw [List.getElem?_eq_none (by omega)] at h1
        exact Option.noConfusion h1
      rw [mask_spec_get _ _ i hi] at h2
      have hu : ∀ s ∈ batch, ¬ touches s i := of_decide_eq_true (Option.some.inj h2)
      refine ⟨i, hi, hu, ?_⟩
      rw [ref_run_getD_untouched i _ batch L hu, List.getD_eq_getElem?_getD, h1]
      rfl
    · rintro ⟨e, he, hu, hx⟩
      refine ⟨e, ?_, ?_⟩
      · rw [ref_run_getD_untouched e _ batch L hu, List.getD_eq_getElem?_getD,
          List.getElem?_eq_getElem he] at hx
        rw [List.getElem?_eq_getElem he]
        exact congrArg some hx
      · rw [mask_spec_get _ _ e he]
        exact congrArg some (decide_eq_true hu)
  have hVs : (valid_edges L (mask_spec L.length batch)).Sorted (· < ·) :=
    hs.1.sublist (valid_edges_sublist L _)
  have hperm : (valid_edges L (mask_spec L.length batch) ++ U).Perm (ref_run L batch) := by
    rw [List.perm_ext_iff_of_nodup ?_ hF.1]
    · intro x
      rw [List.mem_append, hVm, hUm, mem_iff_getD (ref_run L batch) x ⟨0, 0⟩, hFlen]
      constructor
      · rintro (⟨e, he, _, hx⟩ | ⟨e, he, _, hx⟩)
        · exact ⟨e, he, hx⟩
        · exact ⟨e, he, hx⟩
      · rintro ⟨e, he, hx⟩
        by_cases ht : ∃ s ∈ batch, touches s e
        · exact Or.inr ⟨e, he, ht, hx⟩
        · refine Or.inl ⟨e, he, ?_, hx⟩
          intro s hsb hts
          exact ht ⟨s, hsb, hts⟩
    · rw [List.nodup_append]
      refine ⟨hVs.nodup, hU.nodup, ?_⟩
      intro x hx1 hx2
      obtain ⟨e, he, hu, hxe⟩ := (hVm x).mp hx1
      obtain ⟨e', he', ⟨s, hsb, hts⟩, hxe'⟩ := (hUm x).mp hx2
      have := getD_inj_of_nodup _ hF.1 e e' ⟨0, 0⟩ (by omega) (by omega) (hxe.trans hxe'.symm)
      subst this
      exact hu s hsb hts
  unfold EdgeVectorUpdateStream
  apply List.eq_of_perm_of_sorted (r := (· ≤ ·))
  · exact ((List.merge_perm_append _).trans hperm).trans (sorter_sort_perm _).symm
  · exact List.Sorted.merge hVs.le_of_lt hU.le_of_lt
  · exact sorter_sort_sorted _

theorem update_stream_empty (L : List edge_t) : EdgeVectorUpdateStream L [] [] = L := by
  unfold EdgeVectorUpdateStream
  rw [valid_edges_nil_mask, List.merge_right]

theorem check_ascending_of_sorted :
    ∀ (rest : List edge_t) (last : edge_t), (last :: rest).Sorted (· < ·) →
      (∀ e ∈ rest, e.is_loop = false) → check_ascending last rest = true := by
  intro rest
  induction rest with
  | nil => intro last _ _; rfl
  | cons e rest ih =>
    intro last hs hl
    have h1 : last < e := List.rel_of_sorted_cons hs e (List.mem_cons_self _ _)
    have h2 : (e :: rest).Sorted (· < ·) := hs.of_cons
    simp only [check_ascending, hl e (List.mem_cons_self _ _), Bool.not_false, decide_eq_true h1,
      Bool.true_and, Bool.and_self]
    exact ih e h2 (fun x hx => hl x (List.mem_cons_of_mem _ hx))

theorem check_edges_of_simple (L : List edge_t) (hs : simple_list L) (hne : L ≠ []) :
    check_edges L = true := by
  cases L with
  | nil => exact absurd rfl hne
  | cons e rest =>
    simp only [check_edges, hs.2 e (List.mem_cons_self _ _), Bool.not_false, Bool.true_and]
    exact check_ascending_of_sorted rest e hs.1 (fun x hx => hs.2 x (List.mem_cons_of_mem _ hx))

/-! ## One iteration of `run` -/

theorem ref_results_eq_map (L : List edge_t) (swaps : List SwapDescriptor) :
    ref_results L swaps = (ref_trace L swaps).map (fun p => ref_result p.1 p.2) := by
  induction swaps generalizing L with
  | nil => rfl
  | cons s rest ih =>
    show ref_result L s :: ref_results (ref_step L s) rest = _
    rw [ih]
    rfl

theorem ref_log_eq_map (L : List edge_t) (swaps : List SwapDescriptor) :
    ref_log L swaps = (ref_trace L swaps).map (fun p => ref_edges p.1 p.2) := by
  induction swaps generalizing L with
  | nil => rfl
  | cons s rest ih =>
    show ref_edges L s :: ref_log (ref_step L s) rest = _
    rw [ih]
    rfl

/-- The value of one iteration of `run` from the values of the four passes. -/
theorem run_iteration_eval (m : Nat) (st : TFPState) (batch : List SwapDescriptor)
    (a : DepChainResult) (R : List ExistenceRequestMsg) (c : ExistenceResult)
    (d : PerformResult)
    (h1 : _compute_dependency_chain st._edges.length st.current batch = some a)
    (h2 : st.current.length = m) (h3 : check_edges st.current = true)
    (h4 : _compute_conflicts batch a = some R)
    (h5 : _process_existence_requests st.current R = some c)
    (h6 : _perform_swaps batch a c = some d) :
    run_iteration m st batch = some
      { _edges := st.current,
        _edge_update_sorter := d._edge_update_sorter,
        last_update_mask := a.edge_remains_valid,
        first_iteration := false,
        _result := st._result ++ d._result,
        state_log := st.state_log ++ d.state_log } := by
  unfold TFPState.current at h1 h2 h3 h5 ⊢
  have hn : ¬ ((if st.first_iteration = true then st._edges
      else EdgeVectorUpdateStream st._edges st.last_update_mask st._edge_update_sorter).length
        ≠ m) := fun h => h h2
  simp only [run_iteration, h1, if_neg hn, h3, h4, h5, h6, Bool.not_true, Bool.false_eq_true,
    if_false]

theorem run_iteration_spec (m : Nat) (st : TFPState) (batch : List SwapDescriptor)
    (hs : simple_list st.current) (hlen : st.current.length = m) (hE : st._edges.length = m)
    (hv : valid_batch m batch) (hne : batch ≠ []) :
    ∃ st1, run_iteration m st batch = some st1 ∧
      st1.current = sorter_sort (ref_run st.current batch) ∧ st1._edges.length = m ∧
      st1.first_iteration = false ∧
      st1._result = st._result ++ ref_results st.current batch ∧
      st1.state_log = st.state_log ++ ref_log st.current batch := by
  have hv' : valid_batch st.current.length batch := by rw [hlen]; exact hv
  have hsim := simple_state_of_simple_list _ hs
  obtain ⟨a, ha1, ha2⟩ := compute_dependency_chain_spec st.current batch hv'
  obtain ⟨R, hR1, hR2⟩ := compute_conflicts_spec st.current batch hv' a ha2
  obtain ⟨c, hc1, hc2⟩ := process_existence_requests_spec st.current hs.1 R hR2.sorted
  obtain ⟨d, hd1, hd2⟩ := perform_swaps_spec st.current batch hsim hv' a ha2 R hR2 c hc2
  have hne' : st.current ≠ [] := by
    intro h
    cases batch with
    | nil => exact hne rfl
    | cons s rest =>
      have := hv s (List.mem_cons_self _ _)
      rw [h] at hlen
      simp only [List.length_nil] at hlen
      omega
  rw [hlen, ← hE] at ha1
  have hstep := run_iteration_eval m st batch a R c d ha1 hlen
    (check_edges_of_simple _ hs hne') hR1 hc1 hd1
  refine ⟨_, hstep, ?_, hlen, rfl, ?_, ?_⟩
  · show EdgeVectorUpdateStream st.current a.edge_remains_valid d._edge_update_sorter = _
    rw [ha2.mask]
    exact update_stream_eq st.current batch hs hv' _ hd2.upd_sorted hd2.upd_mem
  · show st._result ++ d._result = _
    rw [hd2.result]
  · show st.state_log ++ d.state_log = _
    rw [hd2.log]

/-! ## The loop of `run` -/

theorem valid_batch_take (m : Nat) (swaps : List SwapDescriptor) (n : Nat)
    (hv : valid_batch m swaps) : valid_batch m (swaps.take n) :=
  fun s hs => hv s (List.mem_of_mem_take hs)

theorem valid_batch_drop (m : Nat) (swaps : List SwapDescriptor) (n : Nat)
    (hv : valid_batch m swaps) : valid_batch m (swaps.drop n) :=
  fun s hs => hv s (List.mem_of_mem_drop hs)

theorem chunk_pos (spi len : Nat) :
    0 < (if spi ≠ 0 then min (len + 1) spi else len + 1) := by
  split
  · omega
  · omega

theorem run_loop_spec (spi m : Nat) :
    ∀ (fuel : Nat) (swaps : List SwapDescriptor) (st : TFPState),
      swaps.length ≤ fuel → simple_list st.current → st.current.length = m →
      st._edges.length = m → valid_batch m swaps →
      ∃ st1, run_loop spi m fuel swaps st = some st1 ∧
        st1.current = (ref_tfp spi fuel st.current swaps).1 ∧
        st1._result = st._result ++
          (ref_tfp spi fuel st.current swaps).2.map (fun p => ref_result p.1 p.2) ∧
        st1.state_log = st.state_log ++
          (ref_tfp spi fuel st.current swaps).2.map (fun p => ref_edges p.1 p.2) ∧
        (swaps ≠ [] → st1.first_iteration = false) ∧ (swaps = [] → st1 = st) := by
  intro fuel
  induction fuel with
  | zero =>
    intro swaps st hlen _ _ _ _
    have : swaps = [] := List.length_eq_zero.mp (by omega)
    subst this
    exact ⟨st, rfl, rfl, by simp [ref_tfp], by simp [ref_tfp], fun h => absurd rfl h,
      fun _ => rfl⟩
  | succ fuel ih =>
    intro swaps st hlen hs hcl hE hv
    cases swaps with
    | nil =>
      exact ⟨st, rfl, rfl, by simp [ref_tfp], by simp [ref_tfp], fun h => absurd rfl h,
        fun _ => rfl⟩
    | cons swap swaps =>
      have hpos := chunk_pos spi swaps.length
      have hbne : (swap :: swaps).take
          (if spi ≠ 0 then min (swaps.length + 1) spi else swaps.length + 1) ≠ [] := by
        intro h
        have := congrArg List.length h
        simp only [List.length_take, List.length_cons, List.length_nil] at this
        omega
      obtain ⟨st1, h1, h2, h3, h4, h5, h6⟩ := run_iteration_spec m st _ hs hcl hE
        (valid_batch_take m _ _ hv) hbne
      have hs1 : simple_list st1.current := by
        rw [h2]
        exact simple_list_sorter_sort _ (ref_run_simple _ _ (simple_state_of_simple_list _ hs)
          (by rw [hcl]; exact valid_batch_take m _ _ hv))
      have hcl1 : st1.current.length = m := by
        rw [h2, (sorter_sort_perm _).length_eq, ref_run_length, hcl]
      have hlen1 : ((swap :: swaps).drop
          (if spi ≠ 0 then min (swaps.length + 1) spi else swaps.length + 1)).length ≤ fuel := by
        simp only [List.length_drop, List.length_cons] at hlen ⊢
        omega
      obtain ⟨st2, g1, g2, g3, g4, _, _⟩ := ih _ st1 hlen1 hs1 hcl1 h3
        (valid_batch_drop m _ _ hv)
      refine ⟨st2, ?_, ?_, ?_, ?_, ?_, ?_⟩
      · simp only [run_loop, h1]
        exact g1
      · rw [g2, h2]
        rfl
      · rw [g3, h5, h2, ref_results_eq_map, List.append_assoc]
        simp only [ref_tfp, List.map_append]
      · rw [g4, h6, h2, ref_log_eq_map, List.append_assoc]
        simp only [ref_tfp, List.map_append]
      · intro _
        by_cases hd : (swap :: swaps).drop
            (if spi ≠ 0 then min (swaps.length + 1) spi else swaps.length + 1) = []
        · obtain ⟨st3, k1, _, _, _, _, k6⟩ := ih _ st1 hlen1 hs1 hcl1 h3
            (valid_batch_drop m _ _ hv)
          rw [g1] at k1
          cases k1
          rw [k6 hd]
          exact h4
        · obtain ⟨st3, k1, _, _, _, k5, _⟩ := ih _ st1 hlen1 hs1 hcl1 h3
            (valid_batch_drop m _ _ hv)
          rw [g1] at k1
          cases k1
          exact k5 hd
      · intro h
        exact absurd h (List.cons_ne_nil _ _)

/-- The engine computes the sequential reference: on a simple edge list and
a valid batch `run` returns, its edge list is the reference list, and the
results and logged states are those of the reference. -/
theorem run_spec (edges : List edge_t) (swaps : List SwapDescriptor) (spi : Nat)
    (hs : simple_list edges) (hv : valid_batch edges.length swaps) :
    ∃ st, run edges swaps spi = some st ∧
      st._edges = (ref_tfp spi swaps.length edges swaps).1 ∧
      st._result = (ref_tfp spi swaps.length edges swaps).2.map (fun p => ref_result p.1 p.2) ∧
      st.state_log =
        (ref_tfp spi swaps.length edges swaps).2.map (fun p => ref_edges p.1 p.2) := by
  obtain ⟨st1, h1, h2, h3, h4, h5, h6⟩ := run_loop_spec spi edges.length swaps.length swaps
    { _edges := edges, _edge_update_sorter := [], last_update_mask := [],
      first_iteration := true, _result := [], state_log := [] }
    (le_refl _) hs rfl rfl hv
  have hinit : TFPState.current
      { _edges := edges, _edge_update_sorter := [], last_update_mask := [],
        first_iteration := true, _result := [], state_log := [] } = edges := rfl
  rw [hinit] at h2 h3 h4
  have hcur : EdgeVectorUpdateStream st1._edges st1.last_update_mask st1._edge_update_sorter =
      (ref_tfp spi swaps.length edges swaps).1 := by
    by_cases hne : swaps = []
    · rw [h6 hne]
      subst hne
      show EdgeVectorUpdateStream edges [] [] = _
      rw [update_stream_empty]
      cases spi <;> rfl
    · have hf := h5 hne
      rw [← h2]
      unfold TFPState.current
      rw [hf]
      rfl
  refine ⟨TFPState.mk
    (EdgeVectorUpdateStream st1._edges st1.last_update_mask st1._edge_update_sorter)
    st1._edge_update_sorter st1.last_update_mask st1.first_iteration st1._result st1.state_log,
    ?_, hcur, ?_, ?_⟩
  · simp only [run, h1]
  · show st1._result = _
    rw [h3]
    rfl
  · show st1.state_log = _
    rw [h4]
    rfl

/-! ## Facts on the reference semantics of `run` -/

theorem ref_trace_map_snd (L : List edge_t) (batch : List SwapDescriptor) :
    (ref_trace L batch).map (fun p => p.2) = batch := by
  induction batch generalizing L with
  | nil => rfl
  | cons s rest ih =>
    show s :: (ref_trace (ref_step L s) rest).map (fun p => p.2) = _
    rw [ih]

theorem ref_trace_length (L : List edge_t) (batch : List SwapDescriptor) :
    (ref_trace L batch).length = batch.length := by
  have := congrArg List.length (ref_trace_map_snd L batch)
  simpa using this

/-- An invariant of the edge list that every valid swap keeps holds for
every list a swap of the batch is applied to, and for the list after the
batch. -/
theorem ref_trace_inv (m : Nat) (P : List edge_t → Prop)
    (hstep : ∀ cur d, P cur → cur.length = m → d.edges0 < d.edges1 → d.edges1 < m →
      P (ref_step cur d)) :
    ∀ (batch : List SwapDescriptor) (L : List edge_t), P L → L.length = m →
      valid_batch m batch →
      P (ref_run L batch) ∧
      ∀ p ∈ ref_trace L batch, P p.1 ∧ p.1.length = m ∧ p.2.edges0 < p.2.edges1 ∧
        p.2.edges1 < m := by
  intro batch
  induction batch with
  | nil =>
    intro L hP _ _
    exact ⟨hP, fun p hp => absurd hp (List.not_mem_nil _)⟩
  | cons s rest ih =>
    intro L hP hlen hv
    obtain ⟨v0, v1⟩ := hv s (List.mem_cons_self _ _)
    obtain ⟨h1, h2⟩ := ih (ref_step L s) (hstep L s hP hlen v0 v1)
      (by rw [ref_step_length]; exact hlen) (fun t ht => hv t (List.mem_cons_of_mem _ ht))
    refine ⟨h1, ?_⟩
    intro p hp
    rcases List.mem_cons.mp hp with h | h
    · rw [h]
      exact ⟨hP, hlen, v0, v1⟩
    · exact h2 p h

theorem ref_tfp_inv (spi m : Nat) (P : List edge_t → Prop)
    (hstep : ∀ cur d, P cur → cur.length = m → d.edges0 < d.edges1 → d.edges1 < m →
      P (ref_step cur d))
    (hperm : ∀ l l1 : List edge_t, l.Perm l1 → P l → P l1) :
    ∀ (fuel : Nat) (swaps : List SwapDescriptor) (L : List edge_t), P L → L.length = m →
      valid_batch m swaps →
      P (ref_tfp spi fuel L swaps).1 ∧ (ref_tfp spi fuel L swaps).1.length = m ∧
      ∀ p ∈ (ref_tfp spi fuel L swaps).2, P p.1 ∧ p.1.length = m ∧ p.2.edges0 < p.2.edges1 ∧
        p.2.edges1 < m := by
  intro fuel
  induction fuel with
  | zero =>
    intro swaps L hP hlen _
    cases swaps with
    | nil => exact ⟨hP, hlen, fun p hp => absurd hp (List.not_mem_nil _)⟩
    | cons s rest => exact ⟨hP, hlen, fun p hp => absurd hp (List.not_mem_nil _)⟩
  | succ fuel ih =>
    intro swaps L hP hlen hv
    cases swaps with
    | nil => exact ⟨hP, hlen, fun p hp => absurd hp (List.not_mem_nil _)⟩
    | cons s rest =>
      obtain ⟨h1, h2⟩ := ref_trace_inv m P hstep
        ((s :: rest).take (if spi ≠ 0 then min (rest.length + 1) spi else rest.length + 1)) L hP
        hlen (valid_batch_take m _ _ hv)
      obtain ⟨g1, g2, g3⟩ := ih
        ((s :: rest).drop (if spi ≠ 0 then min (rest.length + 1) spi else rest.length + 1))
        (sorter_sort (ref_run L
          ((s :: rest).take (if spi ≠ 0 then min (rest.length + 1) spi else rest.length + 1))))
        (hperm _ _ (sorter_sort_perm _).symm h1)
        (by rw [(sorter_sort_perm _).length_eq, ref_run_length]; exact hlen)
        (valid_batch_drop m _ _ hv)
      refine ⟨g1, g2, ?_⟩
      intro p hp
      have hp' : p ∈ ref_trace L
          ((s :: rest).take (if spi ≠ 0 then min (rest.length + 1) spi else rest.length + 1)) ++
          (ref_tfp spi fuel (sorter_sort (ref_run L ((s :: rest).take
            (if spi ≠ 0 then min (rest.length + 1) spi else rest.length + 1))))
            ((s :: rest).drop
              (if spi ≠ 0 then min (rest.length + 1) spi else rest.length + 1))).2 := hp
      rcases List.mem_append.mp hp' with h | h
      · exact h2 p h
      · exact g3 p h

/-- The reference handles every swap, in order. -/
theorem ref_tfp_map_snd (spi : Nat) :
    ∀ (fuel : Nat) (swaps : List SwapDescriptor) (L : List edge_t), swaps.length ≤ fuel →
      (ref_tfp spi fuel L swaps).2.map (fun p => p.2) = swaps := by
  intro fuel
  induction fuel with
  | zero =>
    intro swaps L hlen
    have : swaps = [] := List.length_eq_zero.mp (by omega)
    subst this
    rfl
  | succ fuel ih =>
    intro swaps L hlen
    cases swaps with
    | nil => rfl
    | cons s rest =>
      have hpos := chunk_pos spi rest.length
      have hlen1 : ((s :: rest).drop
          (if spi ≠ 0 then min (rest.length + 1) spi else rest.length + 1)).length ≤ fuel := by
        simp only [List.length_drop, List.length_cons] at hlen ⊢
        omega
      show (ref_trace L ((s :: rest).take _) ++ (ref_tfp spi fuel _ ((s :: rest).drop _)).2).map
        (fun p => p.2) = _
      rw [List.map_append, ref_trace_map_snd, ih _ _ hlen1, List.take_append_drop]

/-- The edge list the reference leaves is simple again. -/
theorem ref_tfp_simple (spi : Nat) :
    ∀ (fuel : Nat) (swaps : List SwapDescriptor) (L : List edge_t), simple_list L →
      valid_batch L.length swaps → simple_list (ref_tfp spi fuel L swaps).1 := by
  intro fuel
  induction fuel with
  | zero =>
    intro swaps L hs _
    cases swaps with
    | nil => exact hs
    | cons s rest => exact hs
  | succ fuel ih =>
    intro swaps L hs hv
    cases swaps with
    | nil => exact hs
    | cons s rest =>
      have h1 := ref_run_simple L
        ((s :: rest).take (if spi ≠ 0 then min (rest.length + 1) spi else rest.length + 1))
        (simple_state_of_simple_list L hs) (valid_batch_take _ _ _ hv)
      exact ih _ _ (simple_list_sorter_sort _ h1)
        (by
          rw [(sorter_sort_perm _).length_eq, ref_run_length]
          exact valid_batch_drop _ _ _ hv)

theorem simple_state_perm (l l1 : List edge_t) (h : l.Perm l1) (hs : simple_state l) :
    simple_state l1 :=
  ⟨h.nodup_iff.mp hs.1, fun e he => hs.2 e (h.mem_iff.mpr he)⟩

/-- Every list a swap of the run is applied to is a simple graph of the
input size, and the swap names two ascending edge ids of it. -/
theorem ref_tfp_trace_simple (spi : Nat) (fuel : Nat) (swaps : List SwapDescriptor)
    (L : List edge_t) (hs : simple_list L) (hv : valid_batch L.length swaps) :
    ∀ p ∈ (ref_tfp spi fuel L swaps).2, simple_state p.1 ∧ p.1.length = L.length ∧
      p.2.edges0 < p.2.edges1 ∧ p.2.edges1 < L.length :=
  (ref_tfp_inv spi L.length simple_state
    (fun cur d hP hlen h0 h1 => ref_step_simple cur d hP h0 (by rw [hlen]; exact h1))
    simple_state_perm fuel swaps L (simple_state_of_simple_list L hs) rfl hv).2.2

/-! ## Runs with a single swap, and facts on results -/

theorem ref_tfp_single (spi : Nat) (L : List edge_t) (s : SwapDescriptor) :
    ref_tfp spi 1 L [s] = (sorter_sort (ref_step L s), [(L, s)]) := by
  have hn : (if spi ≠ 0 then min (([] : List SwapDescriptor).length + 1) spi
      else ([] : List SwapDescriptor).length + 1) = 1 := by
    simp only [List.length_nil, Nat.zero_add]
    split
    · omega
    · rfl
  simp only [ref_tfp, hn]
  rfl

theorem run_single (L : List edge_t) (s : SwapDescriptor) (spi : Nat) (hs : simple_list L)
    (hv : valid_batch L.length [s]) :
    ∃ st, run L [s] spi = some st ∧ st._edges = sorter_sort (ref_step L s) ∧
      st._result = [ref_result L s] ∧ st.state_log = [ref_edges L s] := by
  obtain ⟨st, h1, h2, h3, h4⟩ := run_spec L [s] spi hs hv
  simp only [List.length_singleton, ref_tfp_single] at h2 h3 h4
  exact ⟨st, h1, h2, h3, h4⟩

theorem normalize_performed (r : SwapResult) : r.normalize.performed = r.performed := by
  unfold SwapResult.normalize
  simp only
  split <;> rfl

theorem normalize_loop (r : SwapResult) : r.normalize.loop = r.loop := by
  unfold SwapResult.normalize
  simp only
  split <;> rfl

theorem edge_normalize_idem (e : edge_t) : e.normalize.normalize = e.normalize := by
  unfold edge_t.normalize
  split
  · simp only
    rw [if_neg (by omega)]
  · rfl

theorem swap_edges_normalized (e0 e1 : edge_t) (dir : Bool) :
    (_swap_edges e0 e1 dir).1.normalize = (_swap_edges e0 e1 dir).1 ∧
    (_swap_edges e0 e1 dir).2.normalize = (_swap_edges e0 e1 dir).2 := by
  cases dir <;> exact ⟨edge_normalize_idem _, edge_normalize_idem _⟩

/-- The result record holds the two new edges, in one order or the other,
each with its own conflict flag. -/
theorem ref_result_edges (cur : List edge_t) (d : SwapDescriptor) :
    ((ref_result cur d).edges0 = (ref_edges cur d).new_edges0 ∧
      (ref_result cur d).edges1 = (ref_edges cur d).new_edges1 ∧
      (ref_result cur d).conflictDetected0 = decide ((ref_edges cur d).new_edges0 ∈ cur) ∧
      (ref_result cur d).conflictDetected1 = decide ((ref_edges cur d).new_edges1 ∈ cur)) ∨
    ((ref_result cur d).edges0 = (ref_edges cur d).new_edges1 ∧
      (ref_result cur d).edges1 = (ref_edges cur d).new_edges0 ∧
      (ref_result cur d).conflictDetected0 = decide ((ref_edges cur d).new_edges1 ∈ cur) ∧
      (ref_result cur d).conflictDetected1 = decide ((ref_edges cur d).new_edges0 ∈ cur)) := by
  have hn := swap_edges_normalized (cur.getD d.edges0 ⟨0, 0⟩) (cur.getD d.edges1 ⟨0, 0⟩)
    d.direction
  have h0 : (ref_edges cur d).new_edges0.normalize = (ref_edges cur d).new_edges0 := hn.1
  have h1 : (ref_edges cur d).new_edges1.normalize = (ref_edges cur d).new_edges1 := hn.2
  unfold ref_result SwapResult.normalize
  simp only [h0, h1]
  split
  · right
    exact ⟨rfl, rfl, rfl, rfl⟩
  · left
    exact ⟨rfl, rfl, rfl, rfl⟩

theorem ref_result_performed (cur : List edge_t) (d : SwapDescriptor) :
    (ref_result cur d).performed = ref_perform cur d := by
  unfold ref_result
  rw [normalize_performed]

theorem ref_result_loop (cur : List edge_t) (d : SwapDescriptor) :
    (ref_result cur d).loop =
      ((ref_edges cur d).new_edges0.is_loop || (ref_edges cur d).new_edges1.is_loop) := by
  unfold ref_result
  rw [normalize_loop]

/-! ## Facts used for the claims on single swaps of a run -/

theorem normalize_le (x y : Nat) : (edge_t.mk x y).normalize.first ≤ (edge_t.mk x y).normalize.second := by
  unfold edge_t.normalize
  simp only
  split
  · simp only; omega
  · simp only; omega

theorem swap_edges_le (e0 e1 : edge_t) (dir : Bool) :
    (_swap_edges e0 e1 dir).1.first ≤ (_swap_edges e0 e1 dir).1.second ∧
    (_swap_edges e0 e1 dir).2.first ≤ (_swap_edges e0 e1 dir).2.second := by
  cases dir <;> exact ⟨normalize_le _ _, normalize_le _ _⟩

theorem oriented_perm (l l1 : List edge_t) (h : l.Perm l1) (ho : oriented l) : oriented l1 :=
  fun e he => ho e (h.mem_iff.mpr he)

theorem ref_step_oriented (cur : List edge_t) (d : SwapDescriptor) (hs : simple_state cur)
    (ho : oriented cur) (h0 : d.edges0 < d.edges1) (h1 : d.edges1 < cur.length) :
    oriented (ref_step cur d) := by
  intro y hy
  rw [mem_ref_step cur d hs.1 h0 h1] at hy
  split at hy
  · rename_i hp
    obtain ⟨_, _, p3, p4⟩ := (ref_perform_true_iff cur d).mp hp
    have hle := swap_edges_le (cur.getD d.edges0 ⟨0, 0⟩) (cur.getD d.edges1 ⟨0, 0⟩) d.direction
    rw [is_loop_false_iff] at p3 p4
    rcases hy with h | h | h
    · rw [h]
      have : (ref_edges cur d).new_edges0.first ≤ (ref_edges cur d).new_edges0.second := hle.1
      omega
    · rw [h]
      have : (ref_edges cur d).new_edges1.first ≤ (ref_edges cur d).new_edges1.second := hle.2
      omega
    · exact ho y h.1
  · exact ho y hy

/-- Every list a swap of the run is applied to is a simple graph with all
edges stored smaller node first, when the input is. -/
theorem ref_tfp_trace_oriented (spi : Nat) (fuel : Nat) (swaps : List SwapDescriptor)
    (L : List edge_t) (hs : simple_list L) (ho : oriented L)
    (hv : valid_batch L.length swaps) :
    ∀ p ∈ (ref_tfp spi fuel L swaps).2, (simple_state p.1 ∧ oriented p.1) ∧
      p.1.length = L.length ∧ p.2.edges0 < p.2.edges1 ∧ p.2.edges1 < L.length :=
  (ref_tfp_inv spi L.length (fun l => simple_state l ∧ oriented l)
    (fun cur d hP hlen h0 h1 =>
      ⟨ref_step_simple cur d hP.1 h0 (by rw [hlen]; exact h1),
        ref_step_oriented cur d hP.1 hP.2 h0 (by rw [hlen]; exact h1)⟩)
    (fun l l1 hp hP => ⟨simple_state_perm l l1 hp hP.1, oriented_perm l l1 hp hP.2⟩)
    fuel swaps L ⟨simple_state_of_simple_list L hs, ho⟩ rfl hv).2.2

/-- A swap of two edges with a common node yields a loop or one of the two
edges again. -/
theorem shared_node_swap (e0 e1 : edge_t) (dir : Bool) (h0 : e0.first < e0.second)
    (h1 : e1.first < e1.second) (hsh : shares_node e0 e1) :
    (_swap_edges e0 e1 dir).1.is_loop = true ∨ (_swap_edges e0 e1 dir).2.is_loop = true ∨
    (_swap_edges e0 e1 dir).1 = e0 ∨ (_swap_edges e0 e1 dir).1 = e1 ∨
    (_swap_edges e0 e1 dir).2 = e0 ∨ (_swap_edges e0 e1 dir).2 = e1 := by
  cases e0 with
  | mk a b =>
    cases e1 with
    | mk c d =>
      simp only at h0 h1
      simp only [shares_node] at hsh
      cases dir with
      | false =>
        simp only [_swap_edges, Bool.false_eq_true, if_false, is_loop_normalize,
          decide_eq_true_eq]
        rcases hsh with h | h | h | h
        · exact Or.inl h
        · right; right; right; left
          subst h
          unfold edge_t.normalize
          simp only
          rw [if_pos h1]
        · right; right; left
          subst h
          unfold edge_t.normalize
          simp only
          rw [if_neg (by omega)]
        · exact Or.inr (Or.inl h)
      | true =>
        simp only [_swap_edges, if_true, is_loop_normalize, decide_eq_true_eq]
        rcases hsh with h | h | h | h
        · right; right; right; right; left
          subst h
          unfold edge_t.normalize
          simp only
          rw [if_neg (by omega)]
        · exact Or.inl h
        · exact Or.inr (Or.inl h.symm)
        · right; right; left
          subst h
          unfold edge_t.normalize
          simp only
          rw [if_neg (by omega)]

theorem swap_edges_loop_iff (e0 e1 : edge_t) (dir : Bool) :
    ((_swap_edges e0 e1 dir).1.is_loop || (_swap_edges e0 e1 dir).2.is_loop) = true ↔
      (dir = false ∧ (e0.first = e1.first ∨ e0.second = e1.second)) ∨
      (dir = true ∧ (e0.first = e1.second ∨ e1.first = e0.second)) := by
  cases dir <;>
    simp [_swap_edges, is_loop_normalize]

theorem getElem?_of_map_eq {α β : Type} (f : α → β) (l : List α) (l1 : List β)
    (h : l1 = l.map f) (k : Nat) (y : β) (hy : l1[k]? = some y) :
    ∃ x, l[k]? = some x ∧ f x = y := by
  rw [h, List.getElem?_map] at hy
  cases hx : l[k]? with
  | none => rw [hx] at hy; exact Option.noConfusion hy
  | some x =>
    rw [hx] at hy
    exact ⟨x, rfl, Option.some.inj hy⟩

theorem map_getElem?_of_eq {α β : Type} (f : α → β) (l : List α) (l1 : List β)
    (h : l1 = l.map f) (k : Nat) (x : α) (hx : l[k]? = some x) : l1[k]? = some (f x) := by
  rw [h, List.getElem?_map, hx]
  rfl

/-! ## The state of Pass D before swap `k` -/

theorem perform_loop_append (l : List SwapDescriptor) (d : SwapDescriptor) :
    ∀ (sid : Nat) (st : PerformState),
      perform_loop (l ++ [d]) sid st =
        match perform_loop l sid st with
        | none => none
        | some st1 => perform_step (sid + l.length) d st1 := by
  induction l with
  | nil =>
    intro sid st
    simp only [List.nil_append, perform_loop, List.length_nil, Nat.add_zero]
    cases perform_step sid d st <;> rfl
  | cons s rest ih =>
    intro sid st
    simp only [List.cons_append, perform_loop, List.length_cons]
    cases h : perform_step sid s st with
    | none => rfl
    | some st1 =>
      simp only
      have := ih (sid + 1) st1
      have h2 : sid + 1 + rest.length = sid + (rest.length + 1) := by omega
      rw [h2] at this
      exact this

/-- Pass D reaches swap `k` of a valid batch, in a state that holds what
the sequential reference prescribes. -/
theorem perform_prefix_inv (edges : List edge_t) (swaps : List SwapDescriptor)
    (hs : simple_state edges) (hv : valid_batch edges.length swaps)
    (a : DepChainResult) (ha : PassASpec edges swaps a)
    (R : List ExistenceRequestMsg) (hR : PassBSpec edges swaps R)
    (c : ExistenceResult) (hc : PassCSpec edges R c) :
    ∀ k, k ≤ swaps.length →
      ∃ st, perform_loop (swaps.take k) 0 (perform_init a c) = some st ∧
        PerformInv edges swaps R k st := by
  intro k
  induction k with
  | zero =>
    intro _
    exact ⟨perform_init a c, rfl, perform_init_inv edges swaps hv a ha R c hc⟩
  | succ k ih =>
    intro hk
    obtain ⟨st, h1, h2⟩ := ih (by omega)
    have hd : swaps[k]? = some swaps[k] := List.getElem?_eq_getElem (by omega)
    obtain ⟨st1, g1, g2⟩ := perform_step_inv edges swaps R hs hv hR k _ hd st h2
    refine ⟨st1, ?_, g2⟩
    rw [take_succ_of_getElem? swaps k _ hd, perform_loop_append, h1]
    simp only [List.length_take, Nat.zero_add]
    rw [Nat.min_eq_left (by omega)]
    exact g1

theorem ref_state_getD_stable (edges : List edge_t) (swaps : List SwapDescriptor) (e j : Nat)
    (x : edge_t) :
    ∀ k, j ≤ k → (∀ i di, j ≤ i → i < k → swaps[i]? = some di → ¬ touches di e) →
      (ref_state edges swaps k).getD e x = (ref_state edges swaps j).getD e x := by
  intro k
  induction k with
  | zero =>
    intro hj _
    have : j = 0 := by omega
    rw [this]
  | succ k ih =>
    intro hj hn
    by_cases hjk : j = k + 1
    · rw [hjk]
    · have h1 := ih (by omega) (fun i di h1 h2 h3 => hn i di h1 (by omega) h3)
      by_cases hk : k < swaps.length
      · have hd : swaps[k]? = some swaps[k] := List.getElem?_eq_getElem hk
        rw [ref_state_succ edges swaps k _ hd, ← h1]
        have ht := hn k _ (by omega) (by omega) hd
        rw [touches_iff, not_or] at ht
        exact ref_step_getD_other _ _ _ _ ht.1 ht.2
      · have : ref_state edges swaps (k + 1) = ref_state edges swaps k := by
          unfold ref_state
          rw [List.take_of_length_le (by omega), List.take_of_length_le (by omega)]
        rw [this, h1]

theorem ref_trace_getElem? (l : List SwapDescriptor) :
    ∀ (L : List edge_t) (j : Nat) (d : SwapDescriptor), l[j]? = some d →
      (ref_trace L l)[j]? = some (ref_run L (l.take j), d) := by
  induction l with
  | nil =>
    intro L j d h
    simp at h
  | cons s rest ih =>
    intro L j d h
    cases j with
    | zero =>
      simp only [List.getElem?_cons_zero, Option.some.injEq] at h
      rw [h]
      simp [ref_trace, ref_run]
    | succ j =>
      simp only [List.getElem?_cons_succ] at h
      have := ih (ref_step L s) j d h
      simp only [ref_trace, List.getElem?_cons_succ, List.take_succ_cons]
      rw [this]
      rfl

theorem ref_log_getElem? (edges : List edge_t) (swaps : List SwapDescriptor) (k j : Nat)
    (d : SwapDescriptor) (hj : j < k) (hd : swaps[j]? = some d) :
    (ref_log edges (swaps.take k))[j]? = some (ref_edges (ref_state edges swaps j) d) := by
  have h1 : (swaps.take k)[j]? = some d := by
    rw [List.getElem?_take_of_lt hj]; exact hd
  rw [ref_log_eq_map, List.getElem?_map, ref_trace_getElem? _ edges j d h1]
  have : (swaps.take k).take j = swaps.take j := by
    rw [List.take_take, Nat.min_eq_left (by omega)]
  rw [this]
  rfl

theorem ref_results_getElem? (edges : List edge_t) (swaps : List SwapDescriptor) (k j : Nat)
    (d : SwapDescriptor) (hj : j < k) (hd : swaps[j]? = some d) :
    (ref_results edges (swaps.take k))[j]? = some (ref_result (ref_state edges swaps j) d) := by
  have h1 : (swaps.take k)[j]? = some d := by
    rw [List.getElem?_take_of_lt hj]; exact hd
  rw [ref_results_eq_map, List.getElem?_map, ref_trace_getElem? _ edges j d h1]
  have : (swaps.take k).take j = swaps.take j := by
    rw [List.take_take, Nat.min_eq_left (by omega)]
  rw [this]
  rfl

theorem count_false_map (g : Nat → Bool) (l : List Nat) :
    (l.map g).count false = (l.filter (fun e => !g e)).length := by
  induction l with
  | nil => rfl
  | cons x rest ih =>
    cases h : g x <;> simp [List.filter, h, ih]

theorem count_true_add_false (l : List Bool) : l.count true + l.count false = l.length := by
  induction l with
  | nil => rfl
  | cons b rest ih =>
    cases b <;> simp <;> omega

/-- In a state of Pass D before swap `k` the two least edge-state messages
are the ones for the two edge ids of the swap, and they carry the edges the
reference holds there. -/
theorem pop_both_spec (edges : List edge_t) (swaps : List SwapDescriptor)
    (R : List ExistenceRequestMsg) (k : Nat) (d : SwapDescriptor) (hd : swaps[k]? = some d)
    (h0 : d.edges0 < d.edges1) (st : PerformState) (inv : PerformInv edges swaps R k st) :
    ∃ m0 m1,
      pop_edge_state k d.edges0 st.edge_state_pqsort.update =
        some ((ref_state edges swaps k).getD d.edges0 ⟨0, 0⟩, m0) ∧
      pop_edge_state k d.edges1 m0 = some ((ref_state edges swaps k).getD d.edges1 ⟨0, 0⟩, m1) ∧
      (∀ y, y ∈ m1.items ↔ y ∈ st.edge_state_pqsort.items ∧ ¬ touches d y.edge_id) ∧
      (∀ y ∈ st.edge_state_pqsort.items, y.swap_id = k →
        y = ⟨k, d.edges0, (ref_state edges swaps k).getD d.edges0 ⟨0, 0⟩⟩ ∨
        y = ⟨k, d.edges1, (ref_state edges swaps k).getD d.edges1 ⟨0, 0⟩⟩) := by
  have hitm : st.edge_state_pqsort.update.items = st.edge_state_pqsort.items :=
    PQSorterMerger.update_items _
  have hmem0 : (⟨k, d.edges0, (ref_state edges swaps k).getD d.edges0 ⟨0, 0⟩⟩ :
      DependencyChainEdgeMsg) ∈ st.edge_state_pqsort.update.items := by
    rw [hitm, inv.dep_mem]
    exact ⟨next_touch_self swaps k _ d hd (Or.inl rfl), rfl⟩
  have hmemb : (⟨k, d.edges1, (ref_state edges swaps k).getD d.edges1 ⟨0, 0⟩⟩ :
      DependencyChainEdgeMsg) ∈ st.edge_state_pqsort.update.items := by
    rw [hitm, inv.dep_mem]
    exact ⟨next_touch_self swaps k _ d hd (Or.inr rfl), rfl⟩
  have hcases : ∀ y ∈ st.edge_state_pqsort.update.items, k < y.swap_id ∨
      (y = ⟨k, d.edges0, (ref_state edges swaps k).getD d.edges0 ⟨0, 0⟩⟩) ∨
      (y = ⟨k, d.edges1, (ref_state edges swaps k).getD d.edges1 ⟨0, 0⟩⟩) := by
    intro y hy
    rw [hitm, inv.dep_mem] at hy
    obtain ⟨g1, g2⟩ := hy
    have hge := next_touch_ge swaps k _ _ g1
    by_cases hk : y.swap_id = k
    · right
      rw [hk] at g1
      have ht := next_touch_touches swaps k _ d hd g1
      cases y with
      | mk ys ye yedge =>
        simp only at hk g2 ht
        rcases ht with h | h
        · left; rw [hk, g2, h]
        · right; rw [hk, g2, h]
    · left; omega
  have hleast0 : ∀ y ∈ st.edge_state_pqsort.update.items,
      (⟨k, d.edges0, (ref_state edges swaps k).getD d.edges0 ⟨0, 0⟩⟩ :
        DependencyChainEdgeMsg) ≤ y := by
    intro y hy
    rcases hcases y hy with h | h | h
    · rw [depchain_edge_le_iff]; exact Or.inl h
    · rw [h]
    · rw [h, depchain_edge_le_iff]; exact Or.inr ⟨rfl, Or.inl h0⟩
  obtain ⟨m0, hp0, asc0, fresh0, nd0, mem0⟩ :=
    pop_edge_state_spec k d.edges0 _ st.edge_state_pqsort.update
      (PQSorterMerger.update_ascending _ inv.dep_asc) (PQSorterMerger.update_fresh _)
      (by rw [hitm]; exact inv.dep_nodup) hmem0 hleast0
  have hne01 : (⟨k, d.edges1, (ref_state edges swaps k).getD d.edges1 ⟨0, 0⟩⟩ :
      DependencyChainEdgeMsg) ≠ ⟨k, d.edges0, (ref_state edges swaps k).getD d.edges0 ⟨0, 0⟩⟩ := by
    intro h
    simp only [DependencyChainEdgeMsg.mk.injEq, true_and] at h
    omega
  have hleast1 : ∀ y ∈ m0.items,
      (⟨k, d.edges1, (ref_state edges swaps k).getD d.edges1 ⟨0, 0⟩⟩ :
        DependencyChainEdgeMsg) ≤ y := by
    intro y hy
    obtain ⟨hy1, hy2⟩ := (mem0 y).mp hy
    rcases hcases y hy1 with h | h | h
    · rw [depchain_edge_le_iff]; exact Or.inl h
    · exact absurd h hy2
    · rw [h]
  obtain ⟨m1, hp1, asc1, fresh1, nd1, mem1⟩ :=
    pop_edge_state_spec k d.edges1 _ m0 asc0 fresh0 nd0 ((mem0 _).mpr ⟨hmemb, hne01⟩) hleast1
  refine ⟨m0, m1, hp0, hp1, ?_, ?_⟩
  · intro y
    rw [mem1, mem0, hitm]
    constructor
    · rintro ⟨⟨hy, n0⟩, n1⟩
      refine ⟨hy, ?_⟩
      intro ht
      obtain ⟨g1, g2⟩ := (inv.dep_mem y).mp hy
      have hk := next_touch_eq_of_touches swaps k _ _ d hd ht g1
      cases y with
      | mk ys ye yedge =>
        simp only at hk g2 ht
        rcases ht with h | h
        · exact n0 (by rw [hk, g2, h])
        · exact n1 (by rw [hk, g2, h])
    · rintro ⟨hy, ht⟩
      refine ⟨⟨hy, ?_⟩, ?_⟩
      · intro h; rw [h] at ht; exact ht (Or.inl rfl)
      · intro h; rw [h] at ht; exact ht (Or.inr rfl)
  · intro y hy hk
    rw [← hitm] at hy
    rcases hcases y hy with h | h | h
    · omega
    · exact Or.inl h
    · exact Or.inr h

/-- The edge the reference holds at edge id `e` before swap `k` is the
final edge of the last swap before `k` that names `e`. -/
theorem ref_state_getD_last (edges : List edge_t) (swaps : List SwapDescriptor)
    (hv : valid_batch edges.length swaps) (k j e : Nat) (dj : SwapDescriptor) (hj : j < k)
    (hdj : swaps[j]? = some dj) (ht : touches dj e)
    (hn : ∀ i di, j < i → i < k → swaps[i]? = some di → ¬ touches di e) :
    (ref_state edges swaps k).getD e ⟨0, 0⟩ =
      (ref_edges (ref_state edges swaps j) dj).get
        (final_index (if e = dj.edges0 then 0 else 1)
          (ref_result (ref_state edges swaps j) dj).performed) := by
  obtain ⟨v0, v1⟩ := hv dj (List.getElem?_mem hdj)
  have hlen : dj.edges1 < (ref_state edges swaps j).length := by
    rw [ref_state_length]; exact v1
  rw [ref_state_getD_stable edges swaps e (j + 1) _ k (by omega)
    (fun i di h1 h2 h3 => hn i di (by omega) h2 h3), ref_state_succ edges swaps j dj hdj,
    ref_result_performed]
  by_cases he : e = dj.edges0
  · rw [if_pos he, final_get0, he, ref_step_getD_edges0 _ dj _ v0 hlen]
  · have hb : e = dj.edges1 := by
      rcases ht with h | h
      · exact absurd h he
      · exact h
    rw [if_neg he, final_get1, hb, ref_step_getD_edges1 _ dj _ hlen]

/-! ## Pass D: the decision of one swap, without assumptions on the batch -/

theorem gather_infos_sorted (k : Nat) :
    ∀ (fuel : Nat) (m : PQSorterMerger ExistenceInfoMsg) (I M : List edge_t),
      m.Ascending → m.Fresh → I.Sorted (· ≤ ·) → M.Sorted (· ≤ ·) →
      (∀ e ∈ I, ∀ msg ∈ m.items, msg.swap_id = k → e ≤ msg.edge) →
      (∀ e ∈ M, ∀ msg ∈ m.items, msg.swap_id = k → e ≤ msg.edge) →
      ∀ m1 I1 M1, gather_infos k fuel m I M = some (m1, I1, M1) →
        I1.Sorted (· ≤ ·) ∧ M1.Sorted (· ≤ ·) := by
  intro fuel
  induction fuel with
  | zero =>
    intro m I M _ _ hI hM _ _ m1 I1 M1 h
    simp only [gather_infos, Option.some.injEq, Prod.mk.injEq] at h
    rw [← h.2.1, ← h.2.2]
    exact ⟨hI, hM⟩
  | succ fuel ih =>
    intro m I M hasc hfresh hI hM hIle hMle m1 I1 M1 h
    by_cases hne : m.items = []
    · simp only [gather_infos, (PQSorterMerger.empty_iff m).mpr hne, if_true, Option.some.injEq,
        Prod.mk.injEq] at h
      rw [← h.2.1, ← h.2.2]
      exact ⟨hI, hM⟩
    · obtain ⟨x, m2, hderef, hincr, hasc2, hfresh2, hperm, hleast, _, _⟩ :=
        PQSorterMerger.pop_spec m hasc hfresh hne
      have hemp : m.empty = false := (PQSorterMerger.empty_false_iff m).mpr hne
      have hxmem : x ∈ m.items := hperm.mem_iff.mpr (List.mem_cons_self _ _)
      by_cases hmatch : x.swap_id = k
      · have hsub : ∀ msg ∈ m2.items, msg ∈ m.items :=
          fun msg hm => hperm.mem_iff.mpr (List.mem_cons_of_mem _ hm)
        have hxle : ∀ msg ∈ m2.items, msg.swap_id = k → x.edge ≤ msg.edge := by
          intro msg hm hk
          have h1 := hleast msg (hsub msg hm)
          rw [existence_info_le_iff] at h1
          rcases h1 with h1 | ⟨_, h1 | ⟨h1, _⟩⟩
          · omega
          · exact le_of_lt h1
          · exact le_of_eq h1
        have hcond : ¬ (x.swap_id ≠ k) := by simp [hmatch]
        by_cases hbit : x.exists_bit = true
        · have hI1 : (I ++ [x.edge]).Sorted (· ≤ ·) := by
            unfold List.Sorted
            rw [List.pairwise_append]
            refine ⟨hI, List.pairwise_singleton _ _, ?_⟩
            intro a ha b hb
            rw [List.mem_singleton] at hb
            subst hb
            exact hIle a ha x hxmem hmatch
          have hIle1 : ∀ e ∈ I ++ [x.edge], ∀ msg ∈ m2.items, msg.swap_id = k →
              e ≤ msg.edge := by
            intro e he msg hm hk
            rcases List.mem_append.mp he with h | h
            · exact hIle e h msg (hsub msg hm) hk
            · rw [List.mem_singleton] at h
              subst h
              exact hxle msg hm hk
          simp only [gather_infos, hemp, hderef, hincr, if_neg hcond, hbit, if_true] at h
          exact ih m2 (I ++ [x.edge]) M hasc2 hfresh2 hI1 hM hIle1
            (fun e he msg hm hk => hMle e he msg (hsub msg hm) hk) m1 I1 M1 h
        · have hbit0 : x.exists_bit = false := by
            cases hb : x.exists_bit
            · rfl
            · exact absurd hb hbit
          have hM1 : (M ++ [x.edge]).Sorted (· ≤ ·) := by
            unfold List.Sorted
            rw [List.pairwise_append]
            refine ⟨hM, List.pairwise_singleton _ _, ?_⟩
            intro a ha b hb
            rw [List.mem_singleton] at hb
            subst hb
            exact hMle a ha x hxmem hmatch
          have hMle1 : ∀ e ∈ M ++ [x.edge], ∀ msg ∈ m2.items, msg.swap_id = k →
              e ≤ msg.edge := by
            intro e he msg hm hk
            rcases List.mem_append.mp he with h | h
            · exact hMle e h msg (hsub msg hm) hk
            · rw [List.mem_singleton] at h
              subst h
              exact hxle msg hm hk
          simp only [gather_infos, hemp, hderef, hincr, if_neg hcond, hbit0] at h
          exact ih m2 I (M ++ [x.edge]) hasc2 hfresh2 hI hM1
            (fun e he msg hm hk => hIle e he msg (hsub msg hm) hk) hMle1 m1 I1 M1 h
      · simp only [gather_infos, hemp, hderef, if_pos hmatch] at h
        simp only [Bool.false_eq_true, if_false, Option.some.injEq, Prod.mk.injEq] at h
        rw [← h.2.1, ← h.2.2]
        exact ⟨hI, hM⟩

theorem forward_edge_state_pushes (sid : Nat) (swap : SwapDescriptor) (E : SwapEdges)
    (p : Bool) :
    ∀ (l : List DependencyChainSuccessorMsg) (pq : List DependencyChainEdgeMsg)
      (found : Bool × Bool) (l1 : List DependencyChainSuccessorMsg)
      (pq1 : List DependencyChainEdgeMsg) (found1 : Bool × Bool),
      forward_edge_state sid swap E p l pq found = some (l1, pq1, found1) →
      ∀ msg ∈ pq1, msg ∈ pq ∨
        (msg.edge_id = swap.edges0 ∧ msg.edge = E.get (final_index 0 p)) ∨
        (msg.edge_id = swap.edges1 ∧ msg.edge = E.get (final_index 1 p)) := by
  intro l
  induction l with
  | nil =>
    intro pq found l1 pq1 found1 h msg hm
    simp only [forward_edge_state, Option.some.injEq, Prod.mk.injEq] at h
    rw [← h.2.1] at hm
    exact Or.inl hm
  | cons s rest ih =>
    intro pq found l1 pq1 found1 h msg hm
    simp only [forward_edge_state] at h
    split at h
    · exact Option.noConfusion h
    · split at h
      · simp only [Option.some.injEq, Prod.mk.injEq] at h
        rw [← h.2.1] at hm
        exact Or.inl hm
      · split at h
        · exact Option.noConfusion h
        · split at h
          · exact Option.noConfusion h
          · rename_i _ _ hid _
            have hid' : s.edge_id = swap.edges0 ∨ s.edge_id = swap.edges1 := by
              by_contra hcon
              exact hid hcon
            rcases ih _ _ l1 pq1 found1 h msg hm with g | g | g
            · rcases (mem_pq_push _ _ _).mp g with g1 | g1
              · rw [g1]
                by_cases he : s.edge_id = swap.edges0
                · exact Or.inr (Or.inl ⟨he, by simp only [if_pos he]⟩)
                · have hb : s.edge_id = swap.edges1 := by
                    rcases hid' with h1 | h1
                    · exact absurd h1 he
                    · exact h1
                  exact Or.inr (Or.inr ⟨hb, by simp only [if_neg he]⟩)
              · exact Or.inl g1
            · exact Or.inr (Or.inl g)
            · exact Or.inr (Or.inr g)

theorem check_conflict_eq (I M : List edge_t) (hI : I.Sorted (· ≤ ·)) (e : edge_t) (c : Bool)
    (h : check_conflict I M e = some c) : c = decide (e ∈ I) := by
  unfold check_conflict at h
  simp only at h
  split at h
  · exact Option.noConfusion h
  · rw [← Option.some.inj h, binary_search_eq_mem I e hI]

/-! ## Claims on whole runs -/

/-- C1: for every edge list that is sorted, loop-free and duplicate-free
(`simple_list`) and every batch of swap descriptors whose two stored edge ids
are distinct (so ascending) and below the number of edges (`valid_batch`),
`run` returns for every `swaps_per_iteration`, and the edge list it leaves
is strictly ascending (hence sorted ascending), has no loop, has no edge
twice and has the length of the input. -/
theorem run_keeps_simple (edges : List edge_t) (swaps : List SwapDescriptor)
    (swaps_per_iteration : Nat) (hs : simple_list edges)
    (hv : valid_batch edges.length swaps) :
    ∃ st, run edges swaps swaps_per_iteration = some st ∧
      st._edges.Sorted (· < ·) ∧ st._edges.Sorted (· ≤ ·) ∧
      (∀ e ∈ st._edges, e.is_loop = false) ∧ st._edges.Nodup ∧
      st._edges.length = edges.length := by
  obtain ⟨st, h1, h2, _, _⟩ := run_spec edges swaps swaps_per_iteration hs hv
  have hsim := ref_tfp_simple swaps_per_iteration swaps.length swaps edges hs hv
  have hlen := (ref_tfp_inv swaps_per_iteration edges.length (fun _ => True)
    (fun _ _ _ _ _ _ => trivial) (fun _ _ _ _ => trivial) swaps.length swaps edges trivial rfl
    hv).2.1
  rw [← h2] at hsim hlen
  exact ⟨st, h1, hsim.1, hsim.1.le_of_lt, hsim.2, hsim.1.nodup, hlen⟩

theorem run_keeps_simple_witness :
    simple_list [⟨0, 1⟩, ⟨2, 3⟩, ⟨4, 5⟩] ∧
    valid_batch 3 [⟨0, 1, false⟩, ⟨0, 2, false⟩] ∧
    ∃ st, run [⟨0, 1⟩, ⟨2, 3⟩, ⟨4, 5⟩] [⟨0, 1, false⟩, ⟨0, 2, false⟩] 1 = some st ∧
      st._edges.Sorted (· < ·) ∧ st._edges.Sorted (· ≤ ·) ∧
      (∀ e ∈ st._edges, e.is_loop = false) ∧ st._edges.Nodup ∧
      st._edges.length = 3 :=
  ⟨by decide, by decide,
    run_keeps_simple [⟨0, 1⟩, ⟨2, 3⟩, ⟨4, 5⟩] [⟨0, 1, false⟩, ⟨0, 2, false⟩] 1
      (by decide) (by decide)⟩

/-- C5: for every two-edge list `[(a,b),(c,d)]` with `a<b`, `c<d`,
`(a,b)<(c,d)` and `a,b,c,d` pairwise distinct, `run` with the single swap
`{0,1,dir}` returns, reports one result with `performed = true`,
`loop = false` and both conflict flags `false`, and leaves the sorted list of
the two normalized edges `(a,c),(b,d)` for `dir = false` and `(a,d),(c,b)`
for `dir = true`. -/
theorem run_two_edges (a b c d : Nat) (dir : Bool) (swaps_per_iteration : Nat)
    (hab : a < b) (hcd : c < d) (hlt : (⟨a, b⟩ : edge_t) < ⟨c, d⟩)
    (hac : a ≠ c) (had : a ≠ d) (hbc : b ≠ c) (hbd : b ≠ d) :
    ∃ st r, run [⟨a, b⟩, ⟨c, d⟩] [⟨0, 1, dir⟩] swaps_per_iteration = some st ∧
      st._result = [r] ∧ r.performed = true ∧ r.loop = false ∧
      r.conflictDetected0 = false ∧ r.conflictDetected1 = false ∧
      st._edges = sorter_sort
        (if dir then [(edge_t.mk a d).normalize, (edge_t.mk c b).normalize]
          else [(edge_t.mk a c).normalize, (edge_t.mk b d).normalize]) := by
  have hs : simple_list [(⟨a, b⟩ : edge_t), ⟨c, d⟩] := by
    refine ⟨?_, ?_⟩
    · simp only [List.Sorted, List.pairwise_cons, List.mem_cons, List.mem_singleton,
        List.not_mem_nil, forall_eq_or_imp, forall_eq, IsEmpty.forall_iff, implies_true,
        List.Pairwise.nil, and_true]
      exact hlt
    · intro e he
      simp only [List.mem_cons, List.mem_singleton, List.not_mem_nil, or_false] at he
      rcases he with h | h <;> rw [h, is_loop_false_iff] <;> simp only <;> omega
  have hv : valid_batch [(⟨a, b⟩ : edge_t), ⟨c, d⟩].length [⟨0, 1, dir⟩] := by
    intro s hs
    simp only [List.mem_singleton] at hs
    rw [hs]
    simp
  obtain ⟨st, h1, h2, h3, _⟩ := run_single _ _ swaps_per_iteration hs hv
  have hE : ref_edges [(⟨a, b⟩ : edge_t), ⟨c, d⟩] ⟨0, 1, dir⟩ =
      ⟨⟨a, b⟩, ⟨c, d⟩, (_swap_edges ⟨a, b⟩ ⟨c, d⟩ dir).1, (_swap_edges ⟨a, b⟩ ⟨c, d⟩ dir).2⟩ := rfl
  have hn0 : (_swap_edges ⟨a, b⟩ ⟨c, d⟩ dir).1 =
      if dir then (edge_t.mk a d).normalize else (edge_t.mk a c).normalize := by
    cases dir <;> rfl
  have hn1 : (_swap_edges ⟨a, b⟩ ⟨c, d⟩ dir).2 =
      if dir then (edge_t.mk c b).normalize else (edge_t.mk b d).normalize := by
    cases dir <;> rfl
  have hnot0 : (_swap_edges ⟨a, b⟩ ⟨c, d⟩ dir).1 ∉ [(⟨a, b⟩ : edge_t), ⟨c, d⟩] := by
    rw [hn0]
    simp only [List.mem_cons, List.mem_singleton, List.not_mem_nil, or_false]
    cases dir
    · rcases normalize_mem_pair a c with h | h <;>
        simp only [Bool.false_eq_true, if_false, h, edge_t.mk.injEq] <;> omega
    · rcases normalize_mem_pair a d with h | h <;>
        simp only [if_true, h, edge_t.mk.injEq] <;> omega
  have hnot1 : (_swap_edges ⟨a, b⟩ ⟨c, d⟩ dir).2 ∉ [(⟨a, b⟩ : edge_t), ⟨c, d⟩] := by
    rw [hn1]
    simp only [List.mem_cons, List.mem_singleton, List.not_mem_nil, or_false]
    cases dir
    · rcases normalize_mem_pair b d with h | h <;>
        simp only [Bool.false_eq_true, if_false, h, edge_t.mk.injEq] <;> omega
    · rcases normalize_mem_pair c b with h | h <;>
        simp only [if_true, h, edge_t.mk.injEq] <;> omega
  have hl0 : (_swap_edges ⟨a, b⟩ ⟨c, d⟩ dir).1.is_loop = false := by
    rw [hn0]
    cases dir
    · simp only [Bool.false_eq_true, if_false, is_loop_normalize, decide_eq_false_iff_not]
      exact hac
    · simp only [if_true, is_loop_normalize, decide_eq_false_iff_not]
      exact had
  have hl1 : (_swap_edges ⟨a, b⟩ ⟨c, d⟩ dir).2.is_loop = false := by
    rw [hn1]
    cases dir
    · simp only [Bool.false_eq_true, if_false, is_loop_normalize, decide_eq_false_iff_not]
      exact hbd
    · simp only [if_true, is_loop_normalize, decide_eq_false_iff_not]
      exact fun h => hbc h.symm
  have hp : ref_perform [(⟨a, b⟩ : edge_t), ⟨c, d⟩] ⟨0, 1, dir⟩ = true := by
    rw [ref_perform_true_iff, hE]
    exact ⟨hnot0, hnot1, hl0, hl1⟩
  refine ⟨st, ref_result [(⟨a, b⟩ : edge_t), ⟨c, d⟩] ⟨0, 1, dir⟩, h1, h3, ?_, ?_, ?_, ?_, ?_⟩
  · rw [ref_result_performed, hp]
  · rw [ref_result_loop, hE]
    simp only [hl0, hl1, Bool.or_self]
  · rcases ref_result_edges [(⟨a, b⟩ : edge_t), ⟨c, d⟩] ⟨0, 1, dir⟩ with h | h
    · rw [h.2.2.1, hE]
      exact decide_eq_false hnot0
    · rw [h.2.2.1, hE]
      exact decide_eq_false hnot1
  · rcases ref_result_edges [(⟨a, b⟩ : edge_t), ⟨c, d⟩] ⟨0, 1, dir⟩ with h | h
    · rw [h.2.2.2, hE]
      exact decide_eq_false hnot1
    · rw [h.2.2.2, hE]
      exact decide_eq_false hnot0
  · rw [h2]
    unfold ref_step
    rw [if_pos hp, hE]
    simp only [hn0, hn1]
    cases dir <;> rfl

theorem run_two_edges_witness :
    (0 < 1 ∧ 2 < 3 ∧ (⟨0, 1⟩ : edge_t) < ⟨2, 3⟩) ∧
    ∃ st r, run [⟨0, 1⟩, ⟨2, 3⟩] [⟨0, 1, false⟩] 0 = some st ∧
      st._result = [r] ∧ r.performed = true ∧ r.loop = false ∧
      r.conflictDetected0 = false ∧ r.conflictDetected1 = false ∧
      st._edges = sorter_sort
        (if false then [(edge_t.mk 0 3).normalize, (edge_t.mk 2 1).normalize]
          else [(edge_t.mk 0 2).normalize, (edge_t.mk 1 3).normalize]) :=
  ⟨by decide,
    run_two_edges 0 1 2 3 false 0 (by decide) (by decide) (by decide) (by decide) (by decide)
      (by decide) (by decide)⟩

/-- C6, counterexample: on `[(0,1),(0,2)]`, whose two edges share node 0,
the swap `{0,1,true}` is rejected with `loop = false`: both would-be new
edges `(0,2)` and `(0,1)` exist already, none is a loop. -/
theorem shared_node_without_loop :
    (run [⟨0, 1⟩, ⟨0, 2⟩] [⟨0, 1, true⟩] 0).map (fun st => st._result) =
      some [⟨false, false, ⟨0, 2⟩, ⟨0, 1⟩, true, true⟩] := by
  decide

/-- C7, the run at the failing input: on `[(0,1),(0,2),(2,3)]` with the
single swap `{0,2,false}` the first new edge `(0,2)` is no loop and exists
already; the result has `performed = false`, but `normalize` has moved the
edge `(0,2)` and its conflict flag to entry 1, so `conflictDetected[0]` is
`false`. -/
theorem existing_new_edge_flag :
    (run [⟨0, 1⟩, ⟨0, 2⟩, ⟨2, 3⟩] [⟨0, 2, false⟩] 0).map (fun st => st._result) =
        some [⟨false, false, ⟨1, 3⟩, ⟨0, 2⟩, false, true⟩] ∧
      (_swap_edges ⟨0, 1⟩ ⟨2, 3⟩ false).1 = ⟨0, 2⟩ := by
  decide

/-- With an empty batch the loop of `run` takes no trip: no pass runs, no
result is reported, and the edge list of the result is what the final
`EdgeVectorUpdateStream` makes of the input list, of a mask that was never
written and of an update sorter that was never filled. Whether that is the
input list is a property of the stream, not of `run`. -/
theorem run_without_swaps (edges : List edge_t) (swaps_per_iteration : Nat) :
    run edges [] swaps_per_iteration =
      some ⟨EdgeVectorUpdateStream edges [] [], [], [], true, [], []⟩ := by
  cases edges <;> rfl

/-! ## Claims on the single swaps of a run -/

/-- C3: for every simple edge list and valid batch `run` returns, and for
every swap `k` it reports with `performed = true`: with `cur` the edge list
that results from applying the earlier swaps in sid order (the pre-state of
the reference `ref_tfp`), the two edges of the result are the two new
edges, neither is in `cur`, they differ from each other, and right after the
swap the two old edges are not in the edge list (while the new ones are). -/
theorem performed_swap_is_legal (edges : List edge_t) (swaps : List SwapDescriptor)
    (swaps_per_iteration : Nat) (hs : simple_list edges)
    (hv : valid_batch edges.length swaps) :
    ∃ st, run edges swaps swaps_per_iteration = some st ∧
      st._result.length = swaps.length ∧
      ∀ (k : Nat) (r : SwapResult), st._result[k]? = some r → r.performed = true →
        ∃ (cur : List edge_t) (d : SwapDescriptor), (ref_tfp swaps_per_iteration swaps.length edges swaps).2[k]? = some (cur, d) ∧
          swaps[k]? = some d ∧ st.state_log[k]? = some (ref_edges cur d) ∧
          ((r.edges0 = (ref_edges cur d).new_edges0 ∧ r.edges1 = (ref_edges cur d).new_edges1) ∨
            (r.edges0 = (ref_edges cur d).new_edges1 ∧
              r.edges1 = (ref_edges cur d).new_edges0)) ∧
          r.edges0 ∉ cur ∧ r.edges1 ∉ cur ∧ r.edges0 ≠ r.edges1 ∧
          (ref_edges cur d).edges0 ∉ ref_step cur d ∧
          (ref_edges cur d).edges1 ∉ ref_step cur d ∧
          r.edges0 ∈ ref_step cur d ∧ r.edges1 ∈ ref_step cur d := by
  obtain ⟨st, h1, _, h3, h4⟩ := run_spec edges swaps swaps_per_iteration hs hv
  have hsnd := ref_tfp_map_snd swaps_per_iteration swaps.length swaps edges (le_refl _)
  have htr := ref_tfp_trace_simple swaps_per_iteration swaps.length swaps edges hs hv
  refine ⟨st, h1, ?_, ?_⟩
  · rw [h3, List.length_map]
    have := congrArg List.length hsnd
    rw [List.length_map] at this
    exact this
  · intro k r hr hperf
    obtain ⟨p, hp, hpr⟩ := getElem?_of_map_eq _ _ _ h3 k r hr
    obtain ⟨cur, d⟩ := p
    simp only at hpr
    obtain ⟨hsim, hlen, v0, v1⟩ := htr (cur, d) (List.getElem?_mem hp)
    simp only at hsim hlen v0 v1
    have v1' : d.edges1 < cur.length := by rw [hlen]; exact v1
    have hperf' : ref_perform cur d = true := by
      rw [← ref_result_performed, hpr]; exact hperf
    obtain ⟨p1, p2, p3, p4⟩ := (ref_perform_true_iff cur d).mp hperf'
    have he0 : (ref_edges cur d).edges0 ∈ cur := getD_mem cur _ _ (by omega)
    have he1 : (ref_edges cur d).edges1 ∈ cur := getD_mem cur _ _ v1'
    have hne01 : (ref_edges cur d).edges0 ≠ (ref_edges cur d).edges1 := by
      intro h
      have := getD_inj_of_nodup cur hsim.1 d.edges0 d.edges1 ⟨0, 0⟩ (by omega) v1' h
      omega
    have hnn : (ref_edges cur d).new_edges0 ≠ (ref_edges cur d).new_edges1 := by
      intro h
      rcases swap_edges_ne _ _ d.direction hne01 (hsim.2 _ he0) (hsim.2 _ he1) h with g | g
      · exact p1 (by
          have : (ref_edges cur d).new_edges0 = (ref_edges cur d).edges0 := g
          rw [this]; exact he0)
      · exact p1 (by
          have : (ref_edges cur d).new_edges0 = (ref_edges cur d).edges1 := g
          rw [this]; exact he1)
    have hm := fun y => mem_ref_step cur d hsim.1 v0 v1' y
    simp only [hperf', if_true] at hm
    have hold0 : (ref_edges cur d).edges0 ∉ ref_step cur d := by
      rw [hm]
      rintro (h | h | h)
      · exact p1 (h ▸ he0)
      · exact p2 (h ▸ he0)
      · exact h.2.1 rfl
    have hold1 : (ref_edges cur d).edges1 ∉ ref_step cur d := by
      rw [hm]
      rintro (h | h | h)
      · exact p1 (h ▸ he1)
      · exact p2 (h ▸ he1)
      · exact h.2.2 rfl
    have hnew0 : (ref_edges cur d).new_edges0 ∈ ref_step cur d := (hm _).mpr (Or.inl rfl)
    have hnew1 : (ref_edges cur d).new_edges1 ∈ ref_step cur d :=
      (hm _).mpr (Or.inr (Or.inl rfl))
    have hd : swaps[k]? = some d := by
      have := map_getElem?_of_eq (fun p => p.2) _ _ hsnd.symm k (cur, d) hp
      exact this
    refine ⟨cur, d, hp, hd, map_getElem?_of_eq _ _ _ h4 k (cur, d) hp, ?_⟩
    rw [← hpr]
    rcases ref_result_edges cur d with g | g
    · rw [g.1, g.2.1]
      exact ⟨Or.inl ⟨rfl, rfl⟩, p1, p2, hnn, hold0, hold1, hnew0, hnew1⟩
    · rw [g.1, g.2.1]
      exact ⟨Or.inr ⟨rfl, rfl⟩, p2, p1, fun h => hnn h.symm, hold0, hold1, hnew1, hnew0⟩

theorem performed_swap_is_legal_witness :
    simple_list [⟨0, 1⟩, ⟨2, 3⟩, ⟨4, 5⟩] ∧
    valid_batch 3 [⟨0, 1, false⟩, ⟨0, 2, false⟩] ∧
    ∃ st, run [⟨0, 1⟩, ⟨2, 3⟩, ⟨4, 5⟩] [⟨0, 1, false⟩, ⟨0, 2, false⟩] 0 = some st ∧
      st._result.length = 2 ∧
      ∀ (k : Nat) (r : SwapResult), st._result[k]? = some r → r.performed = true →
        ∃ (cur : List edge_t) (d : SwapDescriptor), (ref_tfp 0 2 [⟨0, 1⟩, ⟨2, 3⟩, ⟨4, 5⟩]
            [⟨0, 1, false⟩, ⟨0, 2, false⟩]).2[k]? = some (cur, d) ∧
          [(⟨0, 1, false⟩ : SwapDescriptor), ⟨0, 2, false⟩][k]? = some d ∧
          st.state_log[k]? = some (ref_edges cur d) ∧
          ((r.edges0 = (ref_edges cur d).new_edges0 ∧ r.edges1 = (ref_edges cur d).new_edges1) ∨
            (r.edges0 = (ref_edges cur d).new_edges1 ∧
              r.edges1 = (ref_edges cur d).new_edges0)) ∧
          r.edges0 ∉ cur ∧ r.edges1 ∉ cur ∧ r.edges0 ≠ r.edges1 ∧
          (ref_edges cur d).edges0 ∉ ref_step cur d ∧
          (ref_edges cur d).edges1 ∉ ref_step cur d ∧
          r.edges0 ∈ ref_step cur d ∧ r.edges1 ∈ ref_step cur d :=
  ⟨by decide, by decide,
    performed_swap_is_legal [⟨0, 1⟩, ⟨2, 3⟩, ⟨4, 5⟩] [⟨0, 1, false⟩, ⟨0, 2, false⟩] 0
      (by decide) (by decide)⟩

/-- C6, amended: for every simple edge list whose edges are stored smaller
node first and every valid batch `run` returns, and every swap `k` (either
direction) whose two current edges share a node is rejected: its result has
`performed = false` and the edge list stays as it is; `loop = true` holds
exactly when a would-be new edge is a loop, that is for direction `false`
when the first nodes or the second nodes are equal and for direction `true`
when the first node of one edge is the second node of the other. -/
theorem shared_node_rejected (edges : List edge_t) (swaps : List SwapDescriptor)
    (swaps_per_iteration : Nat) (hs : simple_list edges) (ho : oriented edges)
    (hv : valid_batch edges.length swaps) :
    ∃ st, run edges swaps swaps_per_iteration = some st ∧
      ∀ (k : Nat) (cur : List edge_t) (d : SwapDescriptor), (ref_tfp swaps_per_iteration swaps.length edges swaps).2[k]? = some (cur, d) →
        shares_node (ref_edges cur d).edges0 (ref_edges cur d).edges1 →
        ∃ r : SwapResult, st._result[k]? = some r ∧ st.state_log[k]? = some (ref_edges cur d) ∧
          r.performed = false ∧ ref_step cur d = cur ∧
          (r.loop = true ↔
            (d.direction = false ∧
              ((ref_edges cur d).edges0.first = (ref_edges cur d).edges1.first ∨
                (ref_edges cur d).edges0.second = (ref_edges cur d).edges1.second)) ∨
            (d.direction = true ∧
              ((ref_edges cur d).edges0.first = (ref_edges cur d).edges1.second ∨
                (ref_edges cur d).edges1.first = (ref_edges cur d).edges0.second))) := by
  obtain ⟨st, h1, _, h3, h4⟩ := run_spec edges swaps swaps_per_iteration hs hv
  have htr := ref_tfp_trace_oriented swaps_per_iteration swaps.length swaps edges hs ho hv
  refine ⟨st, h1, ?_⟩
  intro k cur d hp hsh
  obtain ⟨⟨hsim, hor⟩, hlen, v0, v1⟩ := htr (cur, d) (List.getElem?_mem hp)
  simp only at hsim hor hlen v0 v1
  have v1' : d.edges1 < cur.length := by rw [hlen]; exact v1
  have he0 : (ref_edges cur d).edges0 ∈ cur := getD_mem cur _ _ (by omega)
  have he1 : (ref_edges cur d).edges1 ∈ cur := getD_mem cur _ _ v1'
  have hnp : ref_perform cur d = false := by
    cases hq : ref_perform cur d
    · rfl
    · obtain ⟨p1, p2, p3, p4⟩ := (ref_perform_true_iff cur d).mp hq
      have hcase := shared_node_swap (ref_edges cur d).edges0 (ref_edges cur d).edges1
        d.direction (hor _ he0) (hor _ he1) hsh
      have q1 : (ref_edges cur d).new_edges0 =
        (_swap_edges (ref_edges cur d).edges0 (ref_edges cur d).edges1 d.direction).1 := rfl
      have q2 : (ref_edges cur d).new_edges1 =
        (_swap_edges (ref_edges cur d).edges0 (ref_edges cur d).edges1 d.direction).2 := rfl
      rw [← q1, ← q2] at hcase
      rcases hcase with h | h | h | h | h | h
      · rw [p3] at h; exact Bool.noConfusion h
      · rw [p4] at h; exact Bool.noConfusion h
      · exact absurd (h ▸ he0) p1
      · exact absurd (h ▸ he1) p1
      · exact absurd (h ▸ he0) p2
      · exact absurd (h ▸ he1) p2
  refine ⟨ref_result cur d, map_getElem?_of_eq _ _ _ h3 k (cur, d) hp,
    map_getElem?_of_eq _ _ _ h4 k (cur, d) hp, ?_, ?_, ?_⟩
  · rw [ref_result_performed, hnp]
  · unfold ref_step
    rw [hnp]
    rfl
  · rw [ref_result_loop]
    exact swap_edges_loop_iff _ _ _

theorem shared_node_rejected_witness :
    simple_list [⟨0, 1⟩, ⟨0, 2⟩] ∧ oriented [⟨0, 1⟩, ⟨0, 2⟩] ∧
    valid_batch 2 [⟨0, 1, false⟩] ∧
    ∃ st, run [⟨0, 1⟩, ⟨0, 2⟩] [⟨0, 1, false⟩] 0 = some st ∧
      ∀ (k : Nat) (cur : List edge_t) (d : SwapDescriptor), (ref_tfp 0 1 [⟨0, 1⟩, ⟨0, 2⟩] [⟨0, 1, false⟩]).2[k]? = some (cur, d) →
        shares_node (ref_edges cur d).edges0 (ref_edges cur d).edges1 →
        ∃ r : SwapResult, st._result[k]? = some r ∧ st.state_log[k]? = some (ref_edges cur d) ∧
          r.performed = false ∧ ref_step cur d = cur ∧
          (r.loop = true ↔
            (d.direction = false ∧
              ((ref_edges cur d).edges0.first = (ref_edges cur d).edges1.first ∨
                (ref_edges cur d).edges0.second = (ref_edges cur d).edges1.second)) ∨
            (d.direction = true ∧
              ((ref_edges cur d).edges0.first = (ref_edges cur d).edges1.second ∨
                (ref_edges cur d).edges1.first = (ref_edges cur d).edges0.second))) :=
  ⟨by decide, by decide, by decide,
    shared_node_rejected [⟨0, 1⟩, ⟨0, 2⟩] [⟨0, 1, false⟩] 0 (by decide) (by decide) (by decide)⟩

/-! ## Claims on Pass D -/

/-- C4: on a simple edge list and a valid batch the passes A to C return
and Pass D reaches every swap `k`; there it pops exactly two edge-state
messages, the first for edge id `edges()[0]` and the second for
`edges()[1]` (afterwards no message for swap `k` is left, and the merger
held no other message for `k`). The edge carried for an edge id is the input
list's edge at that id when no earlier swap names the id, and otherwise the
final edge `edges[i + 2*performed]` of the last earlier swap naming it, as
Pass D logged and reported it for that swap. -/
theorem edge_state_delivery (edges : List edge_t) (swaps : List SwapDescriptor)
    (k : Nat) (d : SwapDescriptor) (hs : simple_list edges)
    (hv : valid_batch edges.length swaps) (hd : swaps[k]? = some d) :
    ∃ (a : DepChainResult) (R : List ExistenceRequestMsg) (c : ExistenceResult)
      (st : PerformState) (e0 e1 : edge_t) (m0 m1 : PQSorterMerger DependencyChainEdgeMsg),
      _compute_dependency_chain edges.length edges swaps = some a ∧
      _compute_conflicts swaps a = some R ∧
      _process_existence_requests edges R = some c ∧
      perform_loop (swaps.take k) 0 (perform_init a c) = some st ∧
      pop_edge_state k d.edges0 st.edge_state_pqsort.update = some (e0, m0) ∧
      pop_edge_state k d.edges1 m0 = some (e1, m1) ∧
      (∀ msg ∈ m1.items, msg.swap_id ≠ k) ∧
      st.edge_state_pqsort.items.Nodup ∧
      (∀ msg ∈ st.edge_state_pqsort.items, msg.swap_id = k →
        msg = ⟨k, d.edges0, e0⟩ ∨ msg = ⟨k, d.edges1, e1⟩) ∧
      ((∀ (j : Nat) (dj : SwapDescriptor), j < k → swaps[j]? = some dj →
          ¬ touches dj d.edges0) → e0 = edges.getD d.edges0 ⟨0, 0⟩) ∧
      ((∀ (j : Nat) (dj : SwapDescriptor), j < k → swaps[j]? = some dj →
          ¬ touches dj d.edges1) → e1 = edges.getD d.edges1 ⟨0, 0⟩) ∧
      (∀ (j : Nat) (dj : SwapDescriptor), j < k → swaps[j]? = some dj → touches dj d.edges0 →
        (∀ (i : Nat) (di : SwapDescriptor), j < i → i < k → swaps[i]? = some di →
          ¬ touches di d.edges0) →
        ∃ (Ej : SwapEdges) (rj : SwapResult), st.state_log[j]? = some Ej ∧
          st._result[j]? = some rj ∧
          e0 = Ej.get (final_index (if d.edges0 = dj.edges0 then 0 else 1) rj.performed)) ∧
      (∀ (j : Nat) (dj : SwapDescriptor), j < k → swaps[j]? = some dj → touches dj d.edges1 →
        (∀ (i : Nat) (di : SwapDescriptor), j < i → i < k → swaps[i]? = some di →
          ¬ touches di d.edges1) →
        ∃ (Ej : SwapEdges) (rj : SwapResult), st.state_log[j]? = some Ej ∧
          st._result[j]? = some rj ∧
          e1 = Ej.get (final_index (if d.edges1 = dj.edges0 then 0 else 1) rj.performed)) := by
  have hsim := simple_state_of_simple_list _ hs
  obtain ⟨a, ha1, ha2⟩ := compute_dependency_chain_spec edges swaps hv
  obtain ⟨R, hR1, hR2⟩ := compute_conflicts_spec edges swaps hv a ha2
  obtain ⟨c, hc1, hc2⟩ := process_existence_requests_spec edges hs.1 R hR2.sorted
  have hk := lt_length_of_getElem? swaps k d hd
  obtain ⟨st, hst, inv⟩ := perform_prefix_inv edges swaps hsim hv a ha2 R hR2 c hc2 k (by omega)
  obtain ⟨v0, v1⟩ := hv d (List.getElem?_mem hd)
  obtain ⟨m0, m1, hp0, hp1, hm1, hk2⟩ := pop_both_spec edges swaps R k d hd v0 st inv
  refine ⟨a, R, c, st, _, _, m0, m1, ha1, hR1, hc1, hst, hp0, hp1, ?_, inv.dep_nodup, hk2,
    ?_, ?_, ?_, ?_⟩
  · intro msg hm hmk
    obtain ⟨hmi, hnt⟩ := (hm1 msg).mp hm
    obtain ⟨g1, _⟩ := (inv.dep_mem msg).mp hmi
    rw [hmk] at g1
    exact hnt (next_touch_touches swaps k _ d hd g1)
  · intro hn
    rw [ref_state_getD_stable edges swaps d.edges0 0 _ k (Nat.zero_le _)
      (fun i di _ h2 h3 => hn i di h2 h3), ref_state_zero]
  · intro hn
    rw [ref_state_getD_stable edges swaps d.edges1 0 _ k (Nat.zero_le _)
      (fun i di _ h2 h3 => hn i di h2 h3), ref_state_zero]
  · intro j dj hj hdj ht hn
    refine ⟨_, _, ?_, ?_, ref_state_getD_last edges swaps hv k j _ dj hj hdj ht hn⟩
    · rw [inv.log]; exact ref_log_getElem? edges swaps k j dj hj hdj
    · rw [inv.result]; exact ref_results_getElem? edges swaps k j dj hj hdj
  · intro j dj hj hdj ht hn
    refine ⟨_, _, ?_, ?_, ref_state_getD_last edges swaps hv k j _ dj hj hdj ht hn⟩
    · rw [inv.log]; exact ref_log_getElem? edges swaps k j dj hj hdj
    · rw [inv.result]; exact ref_results_getElem? edges swaps k j dj hj hdj

theorem edge_state_delivery_witness :
    simple_list ([⟨0, 1⟩, ⟨2, 3⟩, ⟨4, 5⟩] : List edge_t) ∧
    valid_batch 3 ([⟨0, 1, false⟩, ⟨0, 2, false⟩] : List SwapDescriptor) ∧
    ([⟨0, 1, false⟩, ⟨0, 2, false⟩] : List SwapDescriptor)[1]? = some (⟨0, 2, false⟩ : SwapDescriptor) ∧
    ∃ (a : DepChainResult) (R : List ExistenceRequestMsg) (c : ExistenceResult)
      (st : PerformState) (e0 e1 : edge_t) (m0 m1 : PQSorterMerger DependencyChainEdgeMsg),
      _compute_dependency_chain ([⟨0, 1⟩, ⟨2, 3⟩, ⟨4, 5⟩] : List edge_t).length ([⟨0, 1⟩, ⟨2, 3⟩, ⟨4, 5⟩] : List edge_t) ([⟨0, 1, false⟩, ⟨0, 2, false⟩] : List SwapDescriptor) = some a ∧
      _compute_conflicts ([⟨0, 1, false⟩, ⟨0, 2, false⟩] : List SwapDescriptor) a = some R ∧
      _process_existence_requests ([⟨0, 1⟩, ⟨2, 3⟩, ⟨4, 5⟩] : List edge_t) R = some c ∧
      perform_loop (([⟨0, 1, false⟩, ⟨0, 2, false⟩] : List SwapDescriptor).take 1) 0 (perform_init a c) = some st ∧
      pop_edge_state 1 (⟨0, 2, false⟩ : SwapDescriptor).edges0 st.edge_state_pqsort.update = some (e0, m0) ∧
      pop_edge_state 1 (⟨0, 2, false⟩ : SwapDescriptor).edges1 m0 = some (e1, m1) ∧
      (∀ msg ∈ m1.items, msg.swap_id ≠ 1) ∧
      st.edge_state_pqsort.items.Nodup ∧
      (∀ msg ∈ st.edge_state_pqsort.items, msg.swap_id = 1 →
        msg = ⟨1, (⟨0, 2, false⟩ : SwapDescriptor).edges0, e0⟩ ∨ msg = ⟨1, (⟨0, 2, false⟩ : SwapDescriptor).edges1, e1⟩) ∧
      ((∀ (j : Nat) (dj : SwapDescriptor), j < 1 → ([⟨0, 1, false⟩, ⟨0, 2, false⟩] : List SwapDescriptor)[j]? = some dj →
          ¬ touches dj (⟨0, 2, false⟩ : SwapDescriptor).edges0) → e0 = ([⟨0, 1⟩, ⟨2, 3⟩, ⟨4, 5⟩] : List edge_t).getD (⟨0, 2, false⟩ : SwapDescriptor).edges0 ⟨0, 0⟩) ∧
      ((∀ (j : Nat) (dj : SwapDescriptor), j < 1 → ([⟨0, 1, false⟩, ⟨0, 2, false⟩] : List SwapDescriptor)[j]? = some dj →
          ¬ touches dj (⟨0, 2, false⟩ : SwapDescriptor).edges1) → e1 = ([⟨0, 1⟩, ⟨2, 3⟩, ⟨4, 5⟩] : List edge_t).getD (⟨0, 2, false⟩ : SwapDescriptor).edges1 ⟨0, 0⟩) ∧
      (∀ (j : Nat) (dj : SwapDescriptor), j < 1 → ([⟨0, 1, false⟩, ⟨0, 2, false⟩] : List SwapDescriptor)[j]? = some dj → touches dj (⟨0, 2, false⟩ : SwapDescriptor).edges0 →
        (∀ (i : Nat) (di : SwapDescriptor), j < i → i < 1 → ([⟨0, 1, false⟩, ⟨0, 2, false⟩] : List SwapDescriptor)[i]? = some di →
          ¬ touches di (⟨0, 2, false⟩ : SwapDescriptor).edges0) →
        ∃ (Ej : SwapEdges) (rj : SwapResult), st.state_log[j]? = some Ej ∧
          st._result[j]? = some rj ∧
          e0 = Ej.get (final_index (if (⟨0, 2, false⟩ : SwapDescriptor).edges0 = dj.edges0 then 0 else 1) rj.performed)) ∧
      (∀ (j : Nat) (dj : SwapDescriptor), j < 1 → ([⟨0, 1, false⟩, ⟨0, 2, false⟩] : List SwapDescriptor)[j]? = some dj → touches dj (⟨0, 2, false⟩ : SwapDescriptor).edges1 →
        (∀ (i : Nat) (di : SwapDescriptor), j < i → i < 1 → ([⟨0, 1, false⟩, ⟨0, 2, false⟩] : List SwapDescriptor)[i]? = some di →
          ¬ touches di (⟨0, 2, false⟩ : SwapDescriptor).edges1) →
        ∃ (Ej : SwapEdges) (rj : SwapResult), st.state_log[j]? = some Ej ∧
          st._result[j]? = some rj ∧
          e1 = Ej.get (final_index (if (⟨0, 2, false⟩ : SwapDescriptor).edges1 = dj.edges0 then 0 else 1) rj.performed)) :=
  ⟨by decide, by decide, rfl,
    edge_state_delivery [⟨0, 1⟩, ⟨2, 3⟩, ⟨4, 5⟩] [⟨0, 1, false⟩, ⟨0, 2, false⟩] 1
      ⟨0, 2, false⟩ (by decide) (by decide) rfl⟩

/-- C10: on a simple edge list and a valid batch the four passes return;
the number of edges Pass D pushes into the edge-update sorter equals the
number of `false` bits of the mask of Pass A, which is the number of
distinct edge ids the batch names; after the first `k` swaps the update
sorter holds, without repetition, exactly one update for every edge id
whose last naming swap is among them (so the update of an edge id is pushed
by the last swap naming it); and the merged output list has the length of
the input. -/
theorem update_count (edges : List edge_t) (swaps : List SwapDescriptor)
    (hs : simple_list edges) (hv : valid_batch edges.length swaps) :
    ∃ (a : DepChainResult) (R : List ExistenceRequestMsg) (c : ExistenceResult)
      (d : PerformResult),
      _compute_dependency_chain edges.length edges swaps = some a ∧
      _compute_conflicts swaps a = some R ∧
      _process_existence_requests edges R = some c ∧
      _perform_swaps swaps a c = some d ∧
      d._edge_update_sorter.length = a.edge_remains_valid.count false ∧
      a.edge_remains_valid.count false =
        ((List.range edges.length).filter
          (fun e => decide (∃ s ∈ swaps, touches s e))).length ∧
      (EdgeVectorUpdateStream edges a.edge_remains_valid d._edge_update_sorter).length =
        edges.length ∧
      ∀ k, k ≤ swaps.length →
        ∃ st, perform_loop (swaps.take k) 0 (perform_init a c) = some st ∧
          st._edge_update_sorter.Nodup ∧
          ∀ x, x ∈ st._edge_update_sorter ↔
            ∃ e, e < edges.length ∧ touched_before swaps k e ∧ no_touch_from swaps k e ∧
              (ref_state edges swaps k).getD e ⟨0, 0⟩ = x := by
  have hsim := simple_state_of_simple_list _ hs
  obtain ⟨a, ha1, ha2⟩ := compute_dependency_chain_spec edges swaps hv
  obtain ⟨R, hR1, hR2⟩ := compute_conflicts_spec edges swaps hv a ha2
  obtain ⟨c, hc1, hc2⟩ := process_existence_requests_spec edges hs.1 R hR2.sorted
  obtain ⟨d, hd1, hd2⟩ := perform_swaps_spec edges swaps hsim hv a ha2 R hR2 c hc2
  have hF := ref_run_simple edges swaps hsim hv
  have hFlen := ref_run_length edges swaps
  have hcount : a.edge_remains_valid.count false =
      ((List.range edges.length).filter
        (fun e => decide (∃ s ∈ swaps, touches s e))).length := by
    rw [ha2.mask]
    unfold mask_spec
    rw [count_false_map]
    congr 1
    apply List.filter_congr
    intro e _
    show (!decide (∀ s ∈ swaps, ¬ touches s e)) = decide (∃ s ∈ swaps, touches s e)
    by_cases h : ∃ s ∈ swaps, touches s e
    · have h2 : ¬ ∀ s ∈ swaps, ¬ touches s e := by
        intro hall
        obtain ⟨s, hs1, ht⟩ := h
        exact hall s hs1 ht
      rw [decide_eq_true h, decide_eq_false h2]
      rfl
    · have h2 : ∀ s ∈ swaps, ¬ touches s e := fun s hs1 ht => h ⟨s, hs1, ht⟩
      rw [decide_eq_false h, decide_eq_true h2]
      rfl
  have hupd : d._edge_update_sorter.length =
      ((List.range edges.length).filter
        (fun e => decide (∃ s ∈ swaps, touches s e))).length := by
    have hperm : d._edge_update_sorter.Perm
        (((List.range edges.length).filter
          (fun e => decide (∃ s ∈ swaps, touches s e))).map
          (fun e => (ref_run edges swaps).getD e ⟨0, 0⟩)) := by
      rw [List.perm_ext_iff_of_nodup hd2.upd_sorted.nodup]
      · intro x
        rw [hd2.upd_mem, List.mem_map]
        constructor
        · rintro ⟨e, he, ht, hx⟩
          exact ⟨e, List.mem_filter.mpr ⟨List.mem_range.mpr he, decide_eq_true ht⟩, hx⟩
        · rintro ⟨e, he, hx⟩
          obtain ⟨g1, g2⟩ := List.mem_filter.mp he
          exact ⟨e, List.mem_range.mp g1, of_decide_eq_true g2, hx⟩
      · apply List.Nodup.map_on _ ((List.nodup_range _).filter _)
        intro x hx y hy hxy
        have gx := List.mem_range.mp (List.mem_filter.mp hx).1
        have gy := List.mem_range.mp (List.mem_filter.mp hy).1
        exact getD_inj_of_nodup _ hF.1 x y _ (by omega) (by omega) hxy
    rw [hperm.length_eq, List.length_map]
  refine ⟨a, R, c, d, ha1, hR1, hc1, hd1, ?_, hcount, ?_, ?_⟩
  · rw [hupd, hcount]
  · unfold EdgeVectorUpdateStream
    rw [List.length_merge, valid_edges_length edges _ (by rw [ha2.mask, mask_spec_length]),
      hupd, ← hcount, count_true_add_false, ha2.mask, mask_spec_length]
  · intro k hk
    obtain ⟨st, hst, inv⟩ := perform_prefix_inv edges swaps hsim hv a ha2 R hR2 c hc2 k hk
    exact ⟨st, hst, inv.upd_nodup, inv.upd_mem⟩

theorem update_count_witness :
    simple_list ([⟨0, 1⟩, ⟨2, 3⟩, ⟨4, 5⟩] : List edge_t) ∧
    valid_batch 3 ([⟨0, 1, false⟩, ⟨0, 2, false⟩] : List SwapDescriptor) ∧
    ∃ (a : DepChainResult) (R : List ExistenceRequestMsg) (c : ExistenceResult)
      (d : PerformResult),
      _compute_dependency_chain ([⟨0, 1⟩, ⟨2, 3⟩, ⟨4, 5⟩] : List edge_t).length ([⟨0, 1⟩, ⟨2, 3⟩, ⟨4, 5⟩] : List edge_t) ([⟨0, 1, false⟩, ⟨0, 2, false⟩] : List SwapDescriptor) = some a ∧
      _compute_conflicts ([⟨0, 1, false⟩, ⟨0, 2, false⟩] : List SwapDescriptor) a = some R ∧
      _process_existence_requests ([⟨0, 1⟩, ⟨2, 3⟩, ⟨4, 5⟩] : List edge_t) R = some c ∧
      _perform_swaps ([⟨0, 1, false⟩, ⟨0, 2, false⟩] : List SwapDescriptor) a c = some d ∧
      d._edge_update_sorter.length = a.edge_remains_valid.count false ∧
      a.edge_remains_valid.count false =
        ((List.range ([⟨0, 1⟩, ⟨2, 3⟩, ⟨4, 5⟩] : List edge_t).length).filter
          (fun e => decide (∃ s ∈ ([⟨0, 1, false⟩, ⟨0, 2, false⟩] : List SwapDescriptor), touches s e))).length ∧
      (EdgeVectorUpdateStream ([⟨0, 1⟩, ⟨2, 3⟩, ⟨4, 5⟩] : List edge_t) a.edge_remains_valid d._edge_update_sorter).length =
        ([⟨0, 1⟩, ⟨2, 3⟩, ⟨4, 5⟩] : List edge_t).length ∧
      ∀ k, k ≤ ([⟨0, 1, false⟩, ⟨0, 2, false⟩] : List SwapDescriptor).length →
        ∃ st, perform_loop (([⟨0, 1, false⟩, ⟨0, 2, false⟩] : List SwapDescriptor).take k) 0 (perform_init a c) = some st ∧
          st._edge_update_sorter.Nodup ∧
          ∀ x, x ∈ st._edge_update_sorter ↔
            ∃ e, e < ([⟨0, 1⟩, ⟨2, 3⟩, ⟨4, 5⟩] : List edge_t).length ∧ touched_before ([⟨0, 1, false⟩, ⟨0, 2, false⟩] : List SwapDescriptor) k e ∧ no_touch_from ([⟨0, 1, false⟩, ⟨0, 2, false⟩] : List SwapDescriptor) k e ∧
              (ref_state ([⟨0, 1⟩, ⟨2, 3⟩, ⟨4, 5⟩] : List edge_t) ([⟨0, 1, false⟩, ⟨0, 2, false⟩] : List SwapDescriptor) k).getD e ⟨0, 0⟩ = x :=
  ⟨by decide, by decide,
    update_count [⟨0, 1⟩, ⟨2, 3⟩, ⟨4, 5⟩] [⟨0, 1, false⟩, ⟨0, 2, false⟩]
      (by decide) (by decide)⟩

/-! ## Claim on the decision of Pass D -/

/-- C2: whenever one iteration of the loop of Pass D returns (from a state
whose existence-info merger is ascending), it has popped the two pre-states
`e0`, `e1`, gathered the existence infos `I` for this swap id, and with
`(new0, new1) = _swap_edges e0 e1 dir` it reports `performed = true` if and
only if neither `new0` nor `new1` is a loop and neither is among `I`; the
final edge of side `i`, `edges[i + 2*performed]`, is `new_i` when performed
and `e_i` otherwise, and only these final edges are pushed as updates or
forwarded to successor swaps. -/
theorem perform_step_decision (sid : Nat) (swap : SwapDescriptor) (st st1 : PerformState)
    (hasc : st.existence_info_pqsort.Ascending)
    (h : perform_step sid swap st = some st1) :
    ∃ (e0 e1 : edge_t) (m0 m1 : PQSorterMerger DependencyChainEdgeMsg)
      (x1 : PQSorterMerger ExistenceInfoMsg) (I M : List edge_t) (r : SwapResult),
      pop_edge_state sid swap.edges0 st.edge_state_pqsort.update = some (e0, m0) ∧
      pop_edge_state sid swap.edges1 m0 = some (e1, m1) ∧
      gather_infos sid st.existence_info_pqsort.update.size st.existence_info_pqsort.update
        [] [] = some (x1, I, M) ∧
      st1._result = st._result ++ [r] ∧
      st1.state_log = st.state_log ++
        [⟨e0, e1, (_swap_edges e0 e1 swap.direction).1, (_swap_edges e0 e1 swap.direction).2⟩] ∧
      (r.performed = true ↔
        ((_swap_edges e0 e1 swap.direction).1.is_loop = false ∧
          (_swap_edges e0 e1 swap.direction).2.is_loop = false ∧
          (_swap_edges e0 e1 swap.direction).1 ∉ I ∧
          (_swap_edges e0 e1 swap.direction).2 ∉ I)) ∧
      (SwapEdges.mk e0 e1 (_swap_edges e0 e1 swap.direction).1
          (_swap_edges e0 e1 swap.direction).2).get (final_index 0 r.performed) =
        (if r.performed then (_swap_edges e0 e1 swap.direction).1 else e0) ∧
      (SwapEdges.mk e0 e1 (_swap_edges e0 e1 swap.direction).1
          (_swap_edges e0 e1 swap.direction).2).get (final_index 1 r.performed) =
        (if r.performed then (_swap_edges e0 e1 swap.direction).2 else e1) ∧
      (∀ x ∈ st1._edge_update_sorter, x ∈ st._edge_update_sorter ∨
        x = (if r.performed then (_swap_edges e0 e1 swap.direction).1 else e0) ∨
        x = (if r.performed then (_swap_edges e0 e1 swap.direction).2 else e1)) ∧
      (∀ msg ∈ st1.edge_state_pqsort._pq, msg ∈ m1._pq ∨
        (msg.edge_id = swap.edges0 ∧
          msg.edge = (if r.performed then (_swap_edges e0 e1 swap.direction).1 else e0)) ∨
        (msg.edge_id = swap.edges1 ∧
          msg.edge = (if r.performed then (_swap_edges e0 e1 swap.direction).2 else e1))) := by
  unfold perform_step at h
  split at h
  · exact Option.noConfusion h
  · split at h
    · exact Option.noConfusion h
    · rename_i e0 m0 hp0
      split at h
      · exact Option.noConfusion h
      · rename_i e1 m1 hp1
        simp only at h
        split at h
        · exact Option.noConfusion h
        · rename_i x1 I M hg
          split at h
          · rename_i c0 c1 hc0 hc1
            split at h
            · exact Option.noConfusion h
            · rename_i succ1 pq1 found1 hfw
              split at h
              · exact Option.noConfusion h
              · rename_i exsucc1 expq1 hfx
                have hsorted := gather_infos_sorted sid _ _ [] []
                  (PQSorterMerger.update_ascending _ hasc) (PQSorterMerger.update_fresh _)
                  List.sorted_nil List.sorted_nil (by simp) (by simp) x1 I M hg
                have g0 := check_conflict_eq I M hsorted.1 _ c0 hc0
                have g1 := check_conflict_eq I M hsorted.1 _ c1 hc1
                have hst := (Option.some.inj h).symm
                have hperf : ((SwapResult.mk
                    (!(c0 || c1 || ((_swap_edges e0 e1 swap.direction).1.is_loop ||
                      (_swap_edges e0 e1 swap.direction).2.is_loop)))
                    ((_swap_edges e0 e1 swap.direction).1.is_loop ||
                      (_swap_edges e0 e1 swap.direction).2.is_loop)
                    (_swap_edges e0 e1 swap.direction).1 (_swap_edges e0 e1 swap.direction).2
                    c0 c1).normalize).performed =
                    !(c0 || c1 || ((_swap_edges e0 e1 swap.direction).1.is_loop ||
                      (_swap_edges e0 e1 swap.direction).2.is_loop)) :=
                  normalize_performed _
                refine ⟨e0, e1, m0, m1, x1, I, M,
                  (SwapResult.mk
                    (!(c0 || c1 || ((_swap_edges e0 e1 swap.direction).1.is_loop ||
                      (_swap_edges e0 e1 swap.direction).2.is_loop)))
                    ((_swap_edges e0 e1 swap.direction).1.is_loop ||
                      (_swap_edges e0 e1 swap.direction).2.is_loop)
                    (_swap_edges e0 e1 swap.direction).1 (_swap_edges e0 e1 swap.direction).2
                    c0 c1).normalize, hp0, hp1, hg, ?_, ?_, ?_, ?_, ?_, ?_, ?_⟩
                · rw [hst]
                · rw [hst]
                · rw [hperf, g0, g1]
                  simp only [Bool.not_eq_true', Bool.or_eq_false_iff, decide_eq_false_iff_not]
                  tauto
                · exact final_get0 _ _
                · exact final_get1 _ _
                · intro x hx
                  rw [hst] at hx
                  simp only at hx
                  rw [hperf]
                  rw [← final_get0 ⟨e0, e1, _, _⟩, ← final_get1 ⟨e0, e1, _, _⟩]
                  cases hf1 : found1.1 <;> cases hf2 : found1.2 <;>
                    simp only [hf1, hf2, Bool.false_eq_true, if_false, if_true, List.mem_append,
                      List.mem_singleton] at hx
                  · rcases hx with (hx | hx) | hx
                    · exact Or.inl hx
                    · exact Or.inr (Or.inl hx)
                    · exact Or.inr (Or.inr hx)
                  · rcases hx with hx | hx
                    · exact Or.inl hx
                    · exact Or.inr (Or.inl hx)
                  · rcases hx with hx | hx
                    · exact Or.inl hx
                    · exact Or.inr (Or.inr hx)
                  · exact Or.inl hx
                · intro msg hm
                  rw [hst] at hm
                  simp only at hm
                  rw [hperf]
                  rw [← final_get0 ⟨e0, e1, _, _⟩, ← final_get1 ⟨e0, e1, _, _⟩]
                  exact forward_edge_state_pushes sid swap _ _ _ _ _ _ _ _ hfw msg hm
          · exact Option.noConfusion h

theorem perform_step_decision_witness :
    (perform_init ⟨[⟨0, 0, ⟨0, 1⟩⟩, ⟨0, 1, ⟨2, 3⟩⟩], [], [false, false]⟩ ⟨[], [⟨0, ⟨0, 2⟩, false⟩, ⟨0, ⟨1, 3⟩, false⟩]⟩).existence_info_pqsort.Ascending ∧
    perform_step 0 (⟨0, 1, false⟩ : SwapDescriptor) (perform_init ⟨[⟨0, 0, ⟨0, 1⟩⟩, ⟨0, 1, ⟨2, 3⟩⟩], [], [false, false]⟩ ⟨[], [⟨0, ⟨0, 2⟩, false⟩, ⟨0, ⟨1, 3⟩, false⟩]⟩) = some (PerformState.mk ⟨[], [], PQSorterMergerSourceType.SrcSorter, some ⟨0, 1, ⟨2, 3⟩⟩⟩ [] ⟨[], [], PQSorterMergerSourceType.SrcSorter, some ⟨0, ⟨1, 3⟩, false⟩⟩ [] [⟨0, 2⟩, ⟨1, 3⟩] [⟨true, false, ⟨1, 3⟩, ⟨0, 2⟩, false, false⟩] [⟨⟨0, 1⟩, ⟨2, 3⟩, ⟨0, 2⟩, ⟨1, 3⟩⟩]) ∧
    ∃ (e0 e1 : edge_t) (m0 m1 : PQSorterMerger DependencyChainEdgeMsg)
      (x1 : PQSorterMerger ExistenceInfoMsg) (I M : List edge_t) (r : SwapResult),
      pop_edge_state 0 (⟨0, 1, false⟩ : SwapDescriptor).edges0 (perform_init ⟨[⟨0, 0, ⟨0, 1⟩⟩, ⟨0, 1, ⟨2, 3⟩⟩], [], [false, false]⟩ ⟨[], [⟨0, ⟨0, 2⟩, false⟩, ⟨0, ⟨1, 3⟩, false⟩]⟩).edge_state_pqsort.update = some (e0, m0) ∧
      pop_edge_state 0 (⟨0, 1, false⟩ : SwapDescriptor).edges1 m0 = some (e1, m1) ∧
      gather_infos 0 (perform_init ⟨[⟨0, 0, ⟨0, 1⟩⟩, ⟨0, 1, ⟨2, 3⟩⟩], [], [false, false]⟩ ⟨[], [⟨0, ⟨0, 2⟩, false⟩, ⟨0, ⟨1, 3⟩, false⟩]⟩).existence_info_pqsort.update.size (perform_init ⟨[⟨0, 0, ⟨0, 1⟩⟩, ⟨0, 1, ⟨2, 3⟩⟩], [], [false, false]⟩ ⟨[], [⟨0, ⟨0, 2⟩, false⟩, ⟨0, ⟨1, 3⟩, false⟩]⟩).existence_info_pqsort.update
        [] [] = some (x1, I, M) ∧
      (PerformState.mk ⟨[], [], PQSorterMergerSourceType.SrcSorter, some ⟨0, 1, ⟨2, 3⟩⟩⟩ [] ⟨[], [], PQSorterMergerSourceType.SrcSorter, some ⟨0, ⟨1, 3⟩, false⟩⟩ [] [⟨0, 2⟩, ⟨1, 3⟩] [⟨true, false, ⟨1, 3⟩, ⟨0, 2⟩, false, false⟩] [⟨⟨0, 1⟩, ⟨2, 3⟩, ⟨0, 2⟩, ⟨1, 3⟩⟩])._result = (perform_init ⟨[⟨0, 0, ⟨0, 1⟩⟩, ⟨0, 1, ⟨2, 3⟩⟩], [], [false, false]⟩ ⟨[], [⟨0, ⟨0, 2⟩, false⟩, ⟨0, ⟨1, 3⟩, false⟩]⟩)._result ++ [r] ∧
      (PerformState.mk ⟨[], [], PQSorterMergerSourceType.SrcSorter, some ⟨0, 1, ⟨2, 3⟩⟩⟩ [] ⟨[], [], PQSorterMergerSourceType.SrcSorter, some ⟨0, ⟨1, 3⟩, false⟩⟩ [] [⟨0, 2⟩, ⟨1, 3⟩] [⟨true, false, ⟨1, 3⟩, ⟨0, 2⟩, false, false⟩] [⟨⟨0, 1⟩, ⟨2, 3⟩, ⟨0, 2⟩, ⟨1, 3⟩⟩]).state_log = (perform_init ⟨[⟨0, 0, ⟨0, 1⟩⟩, ⟨0, 1, ⟨2, 3⟩⟩], [], [false, false]⟩ ⟨[], [⟨0, ⟨0, 2⟩, false⟩, ⟨0, ⟨1, 3⟩, false⟩]⟩).state_log ++
        [⟨e0, e1, (_swap_edges e0 e1 (⟨0, 1, false⟩ : SwapDescriptor).direction).1, (_swap_edges e0 e1 (⟨0, 1, false⟩ : SwapDescriptor).direction).2⟩] ∧
      (r.performed = true ↔
        ((_swap_edges e0 e1 (⟨0, 1, false⟩ : SwapDescriptor).direction).1.is_loop = false ∧
          (_swap_edges e0 e1 (⟨0, 1, false⟩ : SwapDescriptor).direction).2.is_loop = false ∧
          (_swap_edges e0 e1 (⟨0, 1, false⟩ : SwapDescriptor).direction).1 ∉ I ∧
          (_swap_edges e0 e1 (⟨0, 1, false⟩ : SwapDescriptor).direction).2 ∉ I)) ∧
      (SwapEdges.mk e0 e1 (_swap_edges e0 e1 (⟨0, 1, false⟩ : SwapDescriptor).direction).1
          (_swap_edges e0 e1 (⟨0, 1, false⟩ : SwapDescriptor).direction).2).get (final_index 0 r.performed) =
        (if r.performed then (_swap_edges e0 e1 (⟨0, 1, false⟩ : SwapDescriptor).direction).1 else e0) ∧
      (SwapEdges.mk e0 e1 (_swap_edges e0 e1 (⟨0, 1, false⟩ : SwapDescriptor).direction).1
          (_swap_edges e0 e1 (⟨0, 1, false⟩ : SwapDescriptor).direction).2).get (final_index 1 r.performed) =
        (if r.performed then (_swap_edges e0 e1 (⟨0, 1, false⟩ : SwapDescriptor).direction).2 else e1) ∧
      (∀ x ∈ (PerformState.mk ⟨[], [], PQSorterMergerSourceType.SrcSorter, some ⟨0, 1, ⟨2, 3⟩⟩⟩ [] ⟨[], [], PQSorterMergerSourceType.SrcSorter, some ⟨0, ⟨1, 3⟩, false⟩⟩ [] [⟨0, 2⟩, ⟨1, 3⟩] [⟨true, false, ⟨1, 3⟩, ⟨0, 2⟩, false, false⟩] [⟨⟨0, 1⟩, ⟨2, 3⟩, ⟨0, 2⟩, ⟨1, 3⟩⟩])._edge_update_sorter, x ∈ (perform_init ⟨[⟨0, 0, ⟨0, 1⟩⟩, ⟨0, 1, ⟨2, 3⟩⟩], [], [false, false]⟩ ⟨[], [⟨0, ⟨0, 2⟩, false⟩, ⟨0, ⟨1, 3⟩, false⟩]⟩)._edge_update_sorter ∨
        x = (if r.performed then (_swap_edges e0 e1 (⟨0, 1, false⟩ : SwapDescriptor).direction).1 else e0) ∨
        x = (if r.performed then (_swap_edges e0 e1 (⟨0, 1, false⟩ : SwapDescriptor).direction).2 else e1)) ∧
      (∀ msg ∈ (PerformState.mk ⟨[], [], PQSorterMergerSourceType.SrcSorter, some ⟨0, 1, ⟨2, 3⟩⟩⟩ [] ⟨[], [], PQSorterMergerSourceType.SrcSorter, some ⟨0, ⟨1, 3⟩, false⟩⟩ [] [⟨0, 2⟩, ⟨1, 3⟩] [⟨true, false, ⟨1, 3⟩, ⟨0, 2⟩, false, false⟩] [⟨⟨0, 1⟩, ⟨2, 3⟩, ⟨0, 2⟩, ⟨1, 3⟩⟩]).edge_state_pqsort._pq, msg ∈ m1._pq ∨
        (msg.edge_id = (⟨0, 1, false⟩ : SwapDescriptor).edges0 ∧
          msg.edge = (if r.performed then (_swap_edges e0 e1 (⟨0, 1, false⟩ : SwapDescriptor).direction).1 else e0)) ∨
        (msg.edge_id = (⟨0, 1, false⟩ : SwapDescriptor).edges1 ∧
          msg.edge = (if r.performed then (_swap_edges e0 e1 (⟨0, 1, false⟩ : SwapDescriptor).direction).2 else e1))) :=
  ⟨by unfold PQSorterMerger.Ascending; decide, by rfl,
    perform_step_decision 0 ⟨0, 1, false⟩ _ _ (by unfold PQSorterMerger.Ascending; decide)
      (by rfl)⟩

/-! ## Claims on swaps, descriptors and results -/

theorem degree_cons (v : Nat) (e : edge_t) (l : List edge_t) :
    degree v (e :: l) =
      (if e.first = v then 1 else 0) + (if e.second = v then 1 else 0) + degree v l := by
  unfold degree
  simp only [List.map_cons, List.count_cons, beq_iff_eq]
  omega

theorem degree_set (v : Nat) (x : edge_t) :
    ∀ (l : List edge_t) (i : Nat), i < l.length →
      degree v (l.set i x) + ((if (l.getD i ⟨0, 0⟩).first = v then 1 else 0) +
          (if (l.getD i ⟨0, 0⟩).second = v then 1 else 0)) =
        degree v l + ((if x.first = v then 1 else 0) + (if x.second = v then 1 else 0)) := by
  intro l
  induction l with
  | nil => intro i hi; simp at hi
  | cons e rest ih =>
    intro i hi
    cases i with
    | zero =>
      simp only [List.set_cons_zero, degree_cons, List.getD_cons_zero]
      omega
    | succ j =>
      simp only [List.length_cons, Nat.add_lt_add_iff_right] at hi
      have := ih j hi
      simp only [List.set_cons_succ, degree_cons, List.getD_cons_succ]
      omega

theorem degree_perm (v : Nat) (l l1 : List edge_t) (h : l.Perm l1) :
    degree v l = degree v l1 := by
  unfold degree
  rw [(h.map _).count_eq, (h.map _).count_eq]

theorem endpoint_count_normalize (v x y : Nat) :
    ((if (edge_t.mk x y).normalize.first = v then 1 else 0) +
      (if (edge_t.mk x y).normalize.second = v then 1 else 0) : Nat) =
      (if x = v then 1 else 0) + (if y = v then 1 else 0) := by
  rcases normalize_mem_pair x y with h | h
  · rw [h]
  · rw [h]
    simp only
    omega

theorem endpoint_count_swap (v : Nat) (e0 e1 : edge_t) (dir : Bool) :
    ((if (_swap_edges e0 e1 dir).1.first = v then 1 else 0) +
        (if (_swap_edges e0 e1 dir).1.second = v then 1 else 0) +
      ((if (_swap_edges e0 e1 dir).2.first = v then 1 else 0) +
        (if (_swap_edges e0 e1 dir).2.second = v then 1 else 0)) : Nat) =
      (if e0.first = v then 1 else 0) + (if e0.second = v then 1 else 0) +
        ((if e1.first = v then 1 else 0) + (if e1.second = v then 1 else 0)) := by
  cases dir
  · simp only [_swap_edges, Bool.false_eq_true, if_false]
    rw [endpoint_count_normalize, endpoint_count_normalize]
    omega
  · simp only [_swap_edges, if_true]
    rw [endpoint_count_normalize, endpoint_count_normalize]
    omega

theorem ref_step_degree (v : Nat) (cur : List edge_t) (d : SwapDescriptor)
    (h0 : d.edges0 < d.edges1) (h1 : d.edges1 < cur.length) :
    degree v (ref_step cur d) = degree v cur := by
  unfold ref_step
  split
  · have g1 := degree_set v (ref_edges cur d).new_edges0 cur d.edges0 (by omega)
    have g2 := degree_set v (ref_edges cur d).new_edges1
      (cur.set d.edges0 (ref_edges cur d).new_edges0) d.edges1
      (by rw [List.length_set]; exact h1)
    have g3 : (cur.set d.edges0 (ref_edges cur d).new_edges0).getD d.edges1 ⟨0, 0⟩ =
        cur.getD d.edges1 ⟨0, 0⟩ := by
      simp only [List.getD_eq_getElem?_getD]
      rw [List.getElem?_set_ne (by omega)]
    rw [g3] at g2
    have g4 := endpoint_count_swap v (cur.getD d.edges0 ⟨0, 0⟩) (cur.getD d.edges1 ⟨0, 0⟩)
      d.direction
    have e1 : (ref_edges cur d).new_edges0 =
      (_swap_edges (cur.getD d.edges0 ⟨0, 0⟩) (cur.getD d.edges1 ⟨0, 0⟩) d.direction).1 := rfl
    have e2 : (ref_edges cur d).new_edges1 =
      (_swap_edges (cur.getD d.edges0 ⟨0, 0⟩) (cur.getD d.edges1 ⟨0, 0⟩) d.direction).2 := rfl
    rw [e1] at g1
    rw [e1, e2] at g2
    rw [e1, e2]
    omega
  · rfl

/-- C11: for all edges `(a,b)`, `(c,d)` and both directions the two edges
the swap returns are `(a,c),(b,d)` for `dir = false` and `(a,d),(c,b)` for
`dir = true`, each normalized, and their four endpoints are a permutation of
`a,b,c,d`; consequently, on every simple edge list and valid batch `run`
returns and every node has in the final edge list the degree it had in the
input. -/
theorem swap_keeps_degrees (edges : List edge_t) (swaps : List SwapDescriptor)
    (swaps_per_iteration : Nat) (hs : simple_list edges)
    (hv : valid_batch edges.length swaps) :
    (∀ (a b c d : Nat) (dir : Bool),
      (_swap_edges ⟨a, b⟩ ⟨c, d⟩ dir).1 =
        (if dir then (edge_t.mk a d).normalize else (edge_t.mk a c).normalize) ∧
      (_swap_edges ⟨a, b⟩ ⟨c, d⟩ dir).2 =
        (if dir then (edge_t.mk c b).normalize else (edge_t.mk b d).normalize) ∧
      [(_swap_edges ⟨a, b⟩ ⟨c, d⟩ dir).1.first, (_swap_edges ⟨a, b⟩ ⟨c, d⟩ dir).1.second,
        (_swap_edges ⟨a, b⟩ ⟨c, d⟩ dir).2.first, (_swap_edges ⟨a, b⟩ ⟨c, d⟩ dir).2.second].Perm
        [a, b, c, d]) ∧
    ∃ st, run edges swaps swaps_per_iteration = some st ∧
      ∀ v, degree v st._edges = degree v edges := by
  constructor
  · intro a b c d dir
    refine ⟨by cases dir <;> rfl, by cases dir <;> rfl, ?_⟩
    cases dir
    · simp only [_swap_edges, Bool.false_eq_true, if_false]
      rcases normalize_mem_pair a c with h | h <;> rcases normalize_mem_pair b d with g | g <;>
        rw [h, g] <;> simp only <;> rw [List.perm_iff_count] <;> intro x <;>
        simp only [List.count_cons, List.count_nil, beq_iff_eq] <;> omega
    · simp only [_swap_edges, if_true]
      rcases normalize_mem_pair a d with h | h <;> rcases normalize_mem_pair c b with g | g <;>
        rw [h, g] <;> simp only <;> rw [List.perm_iff_count] <;> intro x <;>
        simp only [List.count_cons, List.count_nil, beq_iff_eq] <;> omega
  · obtain ⟨st, h1, h2, _, _⟩ := run_spec edges swaps swaps_per_iteration hs hv
    refine ⟨st, h1, ?_⟩
    rw [h2]
    exact (ref_tfp_inv swaps_per_iteration edges.length
      (fun l => ∀ v, degree v l = degree v edges)
      (fun cur d hP hlen h0 h1 v => by
        rw [ref_step_degree v cur d h0 (by rw [hlen]; exact h1)]; exact hP v)
      (fun l l1 hp hP v => by rw [← degree_perm v l l1 hp]; exact hP v)
      swaps.length swaps edges (fun _ => rfl) rfl hv).1

theorem swap_keeps_degrees_witness :
    simple_list ([⟨0, 1⟩, ⟨2, 3⟩, ⟨4, 5⟩] : List edge_t) ∧
    valid_batch 3 ([⟨0, 1, false⟩, ⟨0, 2, true⟩] : List SwapDescriptor) ∧
    (∀ (a b c d : Nat) (dir : Bool),
      (_swap_edges ⟨a, b⟩ ⟨c, d⟩ dir).1 =
        (if dir then (edge_t.mk a d).normalize else (edge_t.mk a c).normalize) ∧
      (_swap_edges ⟨a, b⟩ ⟨c, d⟩ dir).2 =
        (if dir then (edge_t.mk c b).normalize else (edge_t.mk b d).normalize) ∧
      [(_swap_edges ⟨a, b⟩ ⟨c, d⟩ dir).1.first, (_swap_edges ⟨a, b⟩ ⟨c, d⟩ dir).1.second,
        (_swap_edges ⟨a, b⟩ ⟨c, d⟩ dir).2.first, (_swap_edges ⟨a, b⟩ ⟨c, d⟩ dir).2.second].Perm
        [a, b, c, d]) ∧
    ∃ st, run ([⟨0, 1⟩, ⟨2, 3⟩, ⟨4, 5⟩] : List edge_t) ([⟨0, 1, false⟩, ⟨0, 2, true⟩] : List SwapDescriptor) 1 = some st ∧
      ∀ v, degree v st._edges = degree v ([⟨0, 1⟩, ⟨2, 3⟩, ⟨4, 5⟩] : List edge_t) :=
  ⟨by decide, by decide,
    swap_keeps_degrees [⟨0, 1⟩, ⟨2, 3⟩, ⟨4, 5⟩] [⟨0, 1, false⟩, ⟨0, 2, true⟩] 1
      (by decide) (by decide)⟩

/-- C12: for all edge ids `e1 ≠ e2` and every direction bit `d` the
constructor `SwapDescriptor(e1, e2, d)` returns a descriptor with
`edges()[0] = min(e1,e2)`, `edges()[1] = max(e1,e2)`, hence
`edges()[0] < edges()[1]`, and `direction() = d`; and `operator==` holds for
two descriptors iff both stored ids and the direction are equal. -/
theorem descriptor_constructor (e1 e2 : Nat) (d : Bool) (hne : e1 ≠ e2) :
    (∃ s, SwapDescriptor.make e1 e2 d = some s ∧ s.edges0 = min e1 e2 ∧
      s.edges1 = max e1 e2 ∧ s.edges0 < s.edges1 ∧ s.direction = d) ∧
    ∀ s o : SwapDescriptor, s.op_eq o = true ↔
      (s.edges0 = o.edges0 ∧ s.edges1 = o.edges1 ∧ s.direction = o.direction) := by
  constructor
  · unfold SwapDescriptor.make
    rw [if_neg hne]
    by_cases h : e1 > e2
    · rw [if_pos h]
      refine ⟨_, rfl, ?_, ?_, ?_, rfl⟩
      · simp only; omega
      · simp only; omega
      · simp only; omega
    · rw [if_neg h]
      refine ⟨_, rfl, ?_, ?_, ?_, rfl⟩
      · simp only; omega
      · simp only; omega
      · simp only; omega
  · intro s o
    unfold SwapDescriptor.op_eq
    simp only [decide_eq_true_eq, Prod.mk.injEq]

theorem descriptor_constructor_witness :
    (3 : Nat) ≠ 1 ∧
    ((∃ s, SwapDescriptor.make 3 1 true = some s ∧ s.edges0 = min 3 1 ∧
      s.edges1 = max 3 1 ∧ s.edges0 < s.edges1 ∧ s.direction = true) ∧
    ∀ s o : SwapDescriptor, s.op_eq o = true ↔
      (s.edges0 = o.edges0 ∧ s.edges1 = o.edges1 ∧ s.direction = o.direction)) :=
  ⟨by decide, descriptor_constructor 3 1 true (by decide)⟩

/-- C13, counterexample: on `[(0,1),(0,2)]` the swap `{0,1,false}` is not
performed; its result stores the two would-be new edges `(1,2)` and `(0,0)`,
not the two original edges `(0,1)` and `(0,2)` that Pass D logged as
pre-states. -/
theorem rejected_result_holds_new_edges :
    (run [⟨0, 1⟩, ⟨0, 2⟩] [⟨0, 1, false⟩] 0).map (fun st => (st._result, st.state_log)) =
      some ([⟨false, true, ⟨1, 2⟩, ⟨0, 0⟩, false, false⟩],
        [⟨⟨0, 1⟩, ⟨0, 2⟩, ⟨0, 0⟩, ⟨1, 2⟩⟩]) := by
  decide

/-- C13, amended: whenever one iteration of the loop of Pass D returns, the
`SwapResult` it emits stores in `edges[0..1]` the two new edges
`_swap_edges e0 e1 dir` of the popped pre-states, each normalized, in one
order or the other, whether or not the swap was performed. -/
theorem result_stores_new_edges (sid : Nat) (swap : SwapDescriptor) (st st1 : PerformState)
    (h : perform_step sid swap st = some st1) :
    ∃ (e0 e1 : edge_t) (m0 m1 : PQSorterMerger DependencyChainEdgeMsg) (r : SwapResult),
      pop_edge_state sid swap.edges0 st.edge_state_pqsort.update = some (e0, m0) ∧
      pop_edge_state sid swap.edges1 m0 = some (e1, m1) ∧
      st1._result = st._result ++ [r] ∧
      ((r.edges0 = (_swap_edges e0 e1 swap.direction).1.normalize ∧
          r.edges1 = (_swap_edges e0 e1 swap.direction).2.normalize) ∨
        (r.edges0 = (_swap_edges e0 e1 swap.direction).2.normalize ∧
          r.edges1 = (_swap_edges e0 e1 swap.direction).1.normalize)) := by
  unfold perform_step at h
  split at h
  · exact Option.noConfusion h
  · split at h
    · exact Option.noConfusion h
    · rename_i e0 m0 hp0
      split at h
      · exact Option.noConfusion h
      · rename_i e1 m1 hp1
        simp only at h
        split at h
        · exact Option.noConfusion h
        · split at h
          · rename_i c0 c1 _ _
            split at h
            · exact Option.noConfusion h
            · split at h
              · exact Option.noConfusion h
              · have hst := (Option.some.inj h).symm
                refine ⟨e0, e1, m0, m1,
                  (SwapResult.mk
                    (!(c0 || c1 || ((_swap_edges e0 e1 swap.direction).1.is_loop ||
                      (_swap_edges e0 e1 swap.direction).2.is_loop)))
                    ((_swap_edges e0 e1 swap.direction).1.is_loop ||
                      (_swap_edges e0 e1 swap.direction).2.is_loop)
                    (_swap_edges e0 e1 swap.direction).1 (_swap_edges e0 e1 swap.direction).2
                    c0 c1).normalize, hp0, hp1, ?_, ?_⟩
                · rw [hst]
                · unfold SwapResult.normalize
                  simp only
                  split
                  · exact Or.inr ⟨rfl, rfl⟩
                  · exact Or.inl ⟨rfl, rfl⟩
          · exact Option.noConfusion h

theorem result_stores_new_edges_witness :
    perform_step 0 (⟨0, 1, false⟩ : SwapDescriptor) (perform_init ⟨[⟨0, 0, ⟨0, 1⟩⟩, ⟨0, 1, ⟨2, 3⟩⟩], [], [false, false]⟩ ⟨[], [⟨0, ⟨0, 2⟩, false⟩, ⟨0, ⟨1, 3⟩, false⟩]⟩) = some (PerformState.mk ⟨[], [], PQSorterMergerSourceType.SrcSorter, some ⟨0, 1, ⟨2, 3⟩⟩⟩ [] ⟨[], [], PQSorterMergerSourceType.SrcSorter, some ⟨0, ⟨1, 3⟩, false⟩⟩ [] [⟨0, 2⟩, ⟨1, 3⟩] [⟨true, false, ⟨1, 3⟩, ⟨0, 2⟩, false, false⟩] [⟨⟨0, 1⟩, ⟨2, 3⟩, ⟨0, 2⟩, ⟨1, 3⟩⟩]) ∧
    ∃ (e0 e1 : edge_t) (m0 m1 : PQSorterMerger DependencyChainEdgeMsg) (r : SwapResult),
      pop_edge_state 0 (⟨0, 1, false⟩ : SwapDescriptor).edges0 (perform_init ⟨[⟨0, 0, ⟨0, 1⟩⟩, ⟨0, 1, ⟨2, 3⟩⟩], [], [false, false]⟩ ⟨[], [⟨0, ⟨0, 2⟩, false⟩, ⟨0, ⟨1, 3⟩, false⟩]⟩).edge_state_pqsort.update = some (e0, m0) ∧
      pop_edge_state 0 (⟨0, 1, false⟩ : SwapDescriptor).edges1 m0 = some (e1, m1) ∧
      (PerformState.mk ⟨[], [], PQSorterMergerSourceType.SrcSorter, some ⟨0, 1, ⟨2, 3⟩⟩⟩ [] ⟨[], [], PQSorterMergerSourceType.SrcSorter, some ⟨0, ⟨1, 3⟩, false⟩⟩ [] [⟨0, 2⟩, ⟨1, 3⟩] [⟨true, false, ⟨1, 3⟩, ⟨0, 2⟩, false, false⟩] [⟨⟨0, 1⟩, ⟨2, 3⟩, ⟨0, 2⟩, ⟨1, 3⟩⟩])._result = (perform_init ⟨[⟨0, 0, ⟨0, 1⟩⟩, ⟨0, 1, ⟨2, 3⟩⟩], [], [false, false]⟩ ⟨[], [⟨0, ⟨0, 2⟩, false⟩, ⟨0, ⟨1, 3⟩, false⟩]⟩)._result ++ [r] ∧
      ((r.edges0 = (_swap_edges e0 e1 (⟨0, 1, false⟩ : SwapDescriptor).direction).1.normalize ∧
          r.edges1 = (_swap_edges e0 e1 (⟨0, 1, false⟩ : SwapDescriptor).direction).2.normalize) ∨
        (r.edges0 = (_swap_edges e0 e1 (⟨0, 1, false⟩ : SwapDescriptor).direction).2.normalize ∧
          r.edges1 = (_swap_edges e0 e1 (⟨0, 1, false⟩ : SwapDescriptor).direction).1.normalize)) :=
  ⟨by rfl, result_stores_new_edges 0 ⟨0, 1, false⟩ _ _ (by rfl)⟩

/-- C14, evaluated at the failing inputs: `normalize()` stores every edge
smaller node first, but it orders the two entries by edge, descending. With
only the flag of `(0,2)` set, the pair `(0,2),(1,3)` is swapped and the flag
ends in entry 1; the pair `(5,6),(1,2)` with no flag set stays as it is, so
`v0 = 5 > v3 = 2`. -/
theorem normalize_orders_by_edge :
    (∀ r : SwapResult, r.normalize.edges0.first ≤ r.normalize.edges0.second ∧
      r.normalize.edges1.first ≤ r.normalize.edges1.second ∧
      r.normalize.edges1 ≤ r.normalize.edges0) ∧
    (SwapResult.mk false false ⟨0, 2⟩ ⟨1, 3⟩ true false).normalize =
      ⟨false, false, ⟨1, 3⟩, ⟨0, 2⟩, false, true⟩ ∧
    (SwapResult.mk false false ⟨5, 6⟩ ⟨1, 2⟩ false false).normalize =
      ⟨false, false, ⟨5, 6⟩, ⟨1, 2⟩, false, false⟩ := by
  refine ⟨?_, by decide, by decide⟩
  intro r
  have h0 : r.edges0.normalize.first ≤ r.edges0.normalize.second := normalize_le _ _
  have h1 : r.edges1.normalize.first ≤ r.edges1.normalize.second := normalize_le _ _
  unfold SwapResult.normalize
  simp only
  split
  · rename_i h
    exact ⟨h1, h0, le_of_lt h⟩
  · rename_i h
    exact ⟨h0, h1, not_lt.mp h⟩

/-! ## Claims on `PQSorterMerger` -/

theorem fetch_yields_smaller_head {α : Type} [LinearOrder α] (m m1 : PQSorterMerger α)
    (h : m._fetch = some m1) : m1.yields_smaller_head := by
  unfold PQSorterMerger._fetch at h
  split at h
  · exact Option.noConfusion h
  · rename_i s ss hpq hso
    have := (Option.some.inj h).symm
    subst this
    refine ⟨?_, ?_, ?_⟩
    · intro s1 ss1 _ h2
      simp only at h2
      rw [hso] at h2
      cases h2
      simp [PQSorterMerger.deref, PQSorterMerger.source, PQSorterMerger.empty, hpq, hso]
    · intro p ps h1 _
      simp only at h1
      rw [hpq] at h1
      exact List.noConfusion h1
    · intro p ps s1 ss1 h1 _
      simp only at h1
      rw [hpq] at h1
      exact List.noConfusion h1
  · rename_i p ps hpq hso
    have := (Option.some.inj h).symm
    subst this
    refine ⟨?_, ?_, ?_⟩
    · intro s1 ss1 h1 _
      simp only at h1
      rw [hpq] at h1
      exact List.noConfusion h1
    · intro p1 ps1 h1 _
      simp only at h1
      rw [hpq] at h1
      cases h1
      simp [PQSorterMerger.deref, PQSorterMerger.source, PQSorterMerger.empty, hpq, hso]
    · intro p1 ps1 s1 ss1 _ h2
      simp only at h2
      rw [hso] at h2
      exact List.noConfusion h2
  · rename_i p ps s ss hpq hso
    split at h
    · rename_i hgt
      have := (Option.some.inj h).symm
      subst this
      refine ⟨?_, ?_, ?_⟩
      · intro s1 ss1 h1 _
        simp only at h1
        rw [hpq] at h1
        exact List.noConfusion h1
      · intro p1 ps1 _ h2
        simp only at h2
        rw [hso] at h2
        exact List.noConfusion h2
      · intro p1 ps1 s1 ss1 h1 h2
        simp only at h1 h2
        rw [hpq] at h1
        rw [hso] at h2
        cases h1
        cases h2
        have hlt : s < p := hgt
        have hd : PQSorterMerger.deref
            ({ m with _value := some s, _value_src := .SrcSorter } : PQSorterMerger α) =
            some s := by
          simp [PQSorterMerger.deref, PQSorterMerger.empty, hpq, hso]
        have hsrc : PQSorterMerger.source
            ({ m with _value := some s, _value_src := .SrcSorter } : PQSorterMerger α) =
            some .SrcSorter := by
          simp [PQSorterMerger.source, PQSorterMerger.empty, hpq, hso]
        refine ⟨?_, fun _ => ⟨hd, hsrc⟩, fun hn => absurd hlt hn, ?_⟩
        · rw [hd, min_eq_right (le_of_lt hlt)]
        · intro he
          rw [he] at hlt
          exact absurd hlt (lt_irrefl _)
    · rename_i hgt
      have := (Option.some.inj h).symm
      subst this
      refine ⟨?_, ?_, ?_⟩
      · intro s1 ss1 h1 _
        simp only at h1
        rw [hpq] at h1
        exact List.noConfusion h1
      · intro p1 ps1 _ h2
        simp only at h2
        rw [hso] at h2
        exact List.noConfusion h2
      · intro p1 ps1 s1 ss1 h1 h2
        simp only at h1 h2
        rw [hpq] at h1
        rw [hso] at h2
        cases h1
        cases h2
        have hle : p ≤ s := not_lt.mp hgt
        have hd : PQSorterMerger.deref
            ({ m with _value := some p, _value_src := .SrcPriorityQueue } : PQSorterMerger α) =
            some p := by
          simp [PQSorterMerger.deref, PQSorterMerger.empty, hpq, hso]
        have hsrc : PQSorterMerger.source
            ({ m with _value := some p, _value_src := .SrcPriorityQueue } : PQSorterMerger α) =
            some .SrcPriorityQueue := by
          simp [PQSorterMerger.source, PQSorterMerger.empty, hpq, hso]
        refine ⟨?_, fun hlt => absurd hlt hgt, fun _ => ⟨hd, hsrc⟩, fun _ => ⟨hd, hsrc⟩⟩
        rw [hd, min_eq_left hle]

theorem empty_yields_smaller_head {α : Type} [LinearOrder α] (m : PQSorterMerger α)
    (h : m.empty = true) : m.yields_smaller_head := by
  have hitems := (PQSorterMerger.empty_iff m).mp h
  unfold PQSorterMerger.items at hitems
  obtain ⟨h1, h2⟩ := List.append_eq_nil.mp hitems
  refine ⟨?_, ?_, ?_⟩
  · intro s ss _ g
    rw [h2] at g
    exact List.noConfusion g
  · intro p ps g _
    rw [h1] at g
    exact List.noConfusion g
  · intro p ps s ss g _
    rw [h1] at g
    exact List.noConfusion g

/-- C15: right after `update()` and right after `operator++` the merger
yields the smaller head: `operator*` returns the sorter head if the queue is
empty, the queue top if the sorter is empty, and otherwise the smaller of
the two, the sorter head exactly when the queue top is strictly larger; when
the two heads are equal the queue element is yielded and `source()` is
`SrcPriorityQueue`. -/
theorem merger_yields_smaller_head {α : Type} [LinearOrder α] (m : PQSorterMerger α) :
    m.update.yields_smaller_head ∧
    ∀ m1, m.incr = some m1 → m1.yields_smaller_head := by
  constructor
  · unfold PQSorterMerger.update
    by_cases he : m.empty = true
    · rw [if_pos he]
      exact empty_yields_smaller_head m he
    · rw [if_neg he]
      have hne : m.items ≠ [] := by
        intro h
        exact he ((PQSorterMerger.empty_iff m).mpr h)
      obtain ⟨m1, h1⟩ := PQSorterMerger.fetch_isSome m hne
      rw [h1]
      exact fetch_yields_smaller_head m m1 h1
  · intro m1 h
    unfold PQSorterMerger.incr at h
    split at h
    · exact Option.noConfusion h
    · simp only at h
      split at h
      · exact Option.noConfusion h
      · rename_i m2 _
        split at h
        · rename_i he
          rw [← Option.some.inj h]
          exact empty_yields_smaller_head m2 he
        · exact fetch_yields_smaller_head m2 m1 h

theorem drain_spec {α : Type} [LinearOrder α] :
    ∀ (fuel : Nat) (m : PQSorterMerger α), m.Ascending → m.Fresh → m.items.length ≤ fuel →
      ∃ out, m.drain fuel = some out ∧ out.Perm m.items ∧ out.Sorted (· ≤ ·) := by
  intro fuel
  induction fuel with
  | zero =>
    intro m _ _ hlen
    have hnil : m.items = [] := List.length_eq_zero.mp (by omega)
    refine ⟨[], ?_, by rw [hnil], List.sorted_nil⟩
    simp only [PQSorterMerger.drain, (PQSorterMerger.empty_iff m).mpr hnil, if_true]
  | succ fuel ih =>
    intro m hasc hfresh hlen
    by_cases hne : m.items = []
    · refine ⟨[], ?_, by rw [hne], List.sorted_nil⟩
      simp only [PQSorterMerger.drain, (PQSorterMerger.empty_iff m).mpr hne, if_true]
    · obtain ⟨x, m1, hderef, hincr, hasc1, hfresh1, hperm, hleast, _, _⟩ :=
        PQSorterMerger.pop_spec m hasc hfresh hne
      have hemp : m.empty = false := (PQSorterMerger.empty_false_iff m).mpr hne
      have hlen1 : m1.items.length ≤ fuel := by
        have := hperm.length_eq
        simp only [List.length_cons] at this
        omega
      obtain ⟨rest, h1, h2, h3⟩ := ih m1 hasc1 hfresh1 hlen1
      refine ⟨x :: rest, ?_, ?_, ?_⟩
      · simp only [PQSorterMerger.drain, hemp, Bool.false_eq_true, if_false, hderef, hincr, h1]
      · exact (List.Perm.cons x h2).trans hperm.symm
      · refine List.sorted_cons.mpr ⟨?_, h3⟩
        intro y hy
        exact hleast y (hperm.mem_iff.mpr (List.mem_cons_of_mem _ (h2.mem_iff.mp hy)))

theorem pq_of_spec {α : Type} [LinearOrder α] (Q : List α) :
    (PQSorterMerger.pq_of Q).Sorted (· ≤ ·) ∧ (PQSorterMerger.pq_of Q).Perm Q := by
  unfold PQSorterMerger.pq_of
  have key : ∀ (l acc : List α), acc.Sorted (· ≤ ·) →
      (l.foldl (fun pq x => pq_push x pq) acc).Sorted (· ≤ ·) ∧
      (l.foldl (fun pq x => pq_push x pq) acc).Perm (acc ++ l) := by
    intro l
    induction l with
    | nil =>
      intro acc h
      exact ⟨h, by simp⟩
    | cons x rest ih =>
      intro acc h
      obtain ⟨g1, g2⟩ := ih (pq_push x acc) (pq_push_sorted x acc h)
      refine ⟨g1, g2.trans ?_⟩
      have hp : (pq_push x acc).Perm (x :: acc) := List.perm_orderedInsert _ _ _
      refine (List.Perm.append_right rest hp).trans ?_
      simp only [List.cons_append]
      exact List.perm_middle.symm
  have := key Q [] List.sorted_nil
  simpa using this

/-- C16: for every ascending sorter content `S` and every queue content `Q`
(the items pushed into the queue), with no push in between, reading
`operator*` and applying `operator++` until `empty()` returns, yields
exactly `|S| + |Q|` elements, and they are the non-decreasing permutation of
`S + Q` (the sorted merge); `empty()` is true iff both the queue and the
sorter are empty. -/
theorem merger_drains_sorted {α : Type} [LinearOrder α] (S Q : List α)
    (hS : S.Sorted (· ≤ ·)) :
    (∃ out, (PQSorterMerger.init (PQSorterMerger.pq_of Q) S).drain (S.length + Q.length) =
        some out ∧
      out.length = S.length + Q.length ∧ out.Sorted (· ≤ ·) ∧ out.Perm (S ++ Q) ∧
      out = sorter_sort (S ++ Q)) ∧
    (∀ m : PQSorterMerger α, m.empty = true ↔ (m._pq = [] ∧ m._sorter = [])) := by
  obtain ⟨q1, q2⟩ := pq_of_spec Q
  constructor
  · have hitems : (PQSorterMerger.init (PQSorterMerger.pq_of Q) S).items =
        PQSorterMerger.pq_of Q ++ S := PQSorterMerger.init_items _ _
    have hasc : (PQSorterMerger.init (PQSorterMerger.pq_of Q) S).Ascending := by
      unfold PQSorterMerger.Ascending
      rw [(PQSorterMerger.init_pq _ _).1, (PQSorterMerger.init_pq _ _).2]
      exact ⟨q1, hS⟩
    obtain ⟨out, h1, h2, h3⟩ := drain_spec (S.length + Q.length) _ hasc
      (PQSorterMerger.init_fresh _ _)
      (by rw [hitems, List.length_append, q2.length_eq]; omega)
    have hperm : out.Perm (S ++ Q) := by
      rw [hitems] at h2
      exact h2.trans ((List.Perm.append_right S q2).trans List.perm_append_comm)
    refine ⟨out, h1, ?_, h3, hperm, ?_⟩
    · rw [hperm.length_eq, List.length_append]
    · exact List.eq_of_perm_of_sorted (hperm.trans (sorter_sort_perm _).symm) h3
        (sorter_sort_sorted _)
  · intro m
    rw [PQSorterMerger.empty_iff]
    unfold PQSorterMerger.items
    exact List.append_eq_nil

theorem merger_drains_sorted_witness :
    ([1, 3, 3] : List Nat).Sorted (· ≤ ·) ∧
    ((∃ out, (PQSorterMerger.init (PQSorterMerger.pq_of [4, 2, 3]) [1, 3, 3]).drain
          (([1, 3, 3] : List Nat).length + ([4, 2, 3] : List Nat).length) = some out ∧
      out.length = ([1, 3, 3] : List Nat).length + ([4, 2, 3] : List Nat).length ∧
      out.Sorted (· ≤ ·) ∧ out.Perm ([1, 3, 3] ++ [4, 2, 3]) ∧
      out = sorter_sort ([1, 3, 3] ++ [4, 2, 3])) ∧
    (∀ m : PQSorterMerger Nat, m.empty = true ↔ (m._pq = [] ∧ m._sorter = []))) :=
  ⟨by decide, merger_drains_sorted [1, 3, 3] [4, 2, 3] (by decide)⟩

/-- Witness of C15: with equal heads `2` after `update()` the queue element
is yielded, and after `operator++` with queue top `5` and sorter head `2`
the sorter head is yielded. -/
theorem merger_yields_smaller_head_witness :
    ((PQSorterMerger.mk [2, 5] [2, 3] .SrcSorter none : PQSorterMerger Nat).update.deref =
        some 2 ∧
      (PQSorterMerger.mk [2, 5] [2, 3] .SrcSorter none : PQSorterMerger Nat).update.source =
        some .SrcPriorityQueue) ∧
    ((PQSorterMerger.mk [5] [2, 3] .SrcSorter (some 2) : PQSorterMerger Nat).deref =
        some 2 ∧
      (PQSorterMerger.mk [5] [2, 3] .SrcSorter (some 2) : PQSorterMerger Nat).source =
        some .SrcSorter) :=
  ⟨((merger_yields_smaller_head (PQSorterMerger.mk [2, 5] [2, 3] .SrcSorter none)).1.2.2
      2 [5] 2 [3] (by decide) (by decide)).2.2.2 rfl,
   (((merger_yields_smaller_head (PQSorterMerger.mk [2, 5] [2, 3] .SrcPriorityQueue (some 2))).2
      (PQSorterMerger.mk [5] [2, 3] .SrcSorter (some 2))
      (by simp [PQSorterMerger.incr, PQSorterMerger.empty, PQSorterMerger._fetch])).2.2
      5 [] 2 [3] rfl rfl).2.1 (by decide)⟩

/-! ## The configuration model: the node of a half-edge record -/

theorem land_lor_distrib (a b c : Nat) : (a ||| b) &&& c = (a &&& c) ||| (b &&& c) := by
  apply Nat.eq_of_testBit_eq
  intro i
  simp only [Nat.testBit_and, Nat.testBit_or]
  cases a.testBit i <;> cases b.testBit i <;> cases c.testBit i <;> rfl

theorem nodemask_eq : NODEMASK = 2 ^ 36 - 1 := by decide

theorem land_nodemask (x : Nat) : x &&& NODEMASK = x % 2 ^ 36 := by
  rw [nodemask_eq, Nat.and_pow_two_sub_one_eq_mod]

theorem key_bits_high (r : Nat) : (r &&& 0xFFFFFFF000000000) &&& NODEMASK = 0 := by
  rw [Nat.and_assoc]
  have : (0xFFFFFFF000000000 : Nat) &&& NODEMASK = 0 := by decide
  rw [this]
  exact Nat.and_zero r

theorem key_bits_shift (r : Nat) : ((r <<< 36) % 2 ^ 64) &&& NODEMASK = 0 := by
  rw [land_nodemask, Nat.shiftLeft_eq, Nat.mod_mod_of_dvd _ (by decide : 2 ^ 36 ∣ 2 ^ 64)]
  exact Nat.mul_mod_left _ _

/-- The node of a record built from the first endpoint. -/
theorem node_first_record (r a : Nat) :
    (MultiNodeMsg.mk ((r &&& 0xFFFFFFF000000000) ||| a)).node = a % 2 ^ 36 := by
  unfold MultiNodeMsg.node
  simp only
  rw [land_lor_distrib, key_bits_high, Nat.zero_or, land_nodemask]

/-- The node of a record built from the second endpoint. -/
theorem node_second_record (r b : Nat) :
    (MultiNodeMsg.mk (((r <<< 36) % 2 ^ 64) ||| b)).node = b % 2 ^ 36 := by
  unfold MultiNodeMsg.node
  simp only
  rw [land_lor_distrib, key_bits_shift, Nat.zero_or, land_nodemask]

theorem node_lt (m : MultiNodeMsg) : m.node < 2 ^ 36 := by
  unfold MultiNodeMsg.node
  rw [land_nodemask]
  exact Nat.mod_lt _ (by decide)

theorem mod_36_of_mod_64 (a : Nat) : a % 2 ^ 64 % 2 ^ 36 = a % 2 ^ 36 :=
  Nat.mod_mod_of_dvd _ (by decide : 2 ^ 36 ∣ 2 ^ 64)

/-! ## The pairing loop -/

theorem pair_loop_even :
    ∀ (n : Nat) (msgs : List MultiNodeMsg) (acc : List edge_t), msgs.length = 2 * n →
      ∃ out, pair_loop msgs acc = some (acc ++ out) ∧ out.length = n ∧
        (endpoints out).Perm (msgs.map (fun m => m.node)) ∧
        ∀ e ∈ out, e.first ≤ e.second ∧ e.second < 2 ^ 36 ∧
          ∃ f ∈ msgs, ∃ s ∈ msgs, (e.first = f.node ∧ e.second = s.node) := by
  intro n
  induction n with
  | zero =>
    intro msgs acc h
    have : msgs = [] := List.length_eq_zero.mp (by omega)
    subst this
    exact ⟨[], by simp [pair_loop], rfl, by simp [endpoints], by simp⟩
  | succ n ih =>
    intro msgs acc h
    match msgs, h with
    | f :: s :: rest, h =>
      simp only [List.length_cons] at h
      obtain ⟨out, h1, h2, h3, h4⟩ := ih rest
        (acc ++ [if f.node < s.node then ⟨f.node, s.node⟩ else ⟨s.node, f.node⟩]) (by omega)
      refine ⟨(if f.node < s.node then ⟨f.node, s.node⟩ else ⟨s.node, f.node⟩) :: out, ?_, ?_,
        ?_, ?_⟩
      · simp only [pair_loop, h1, List.append_assoc, List.singleton_append]
      · simp only [List.length_cons, h2]
      · simp only [endpoints, List.map_cons]
        split
        · exact (h3.cons _).cons _
        · exact ((h3.cons _).cons _).trans (List.Perm.swap _ _ _)
      · intro e he
        rcases List.mem_cons.mp he with g | g
        · rw [g]
          split
          · rename_i hlt
            exact ⟨le_of_lt hlt, node_lt s, f, List.mem_cons_self _ _, s,
              List.mem_cons_of_mem _ (List.mem_cons_self _ _), rfl, rfl⟩
          · rename_i hlt
            exact ⟨not_lt.mp hlt, node_lt f, s,
              List.mem_cons_of_mem _ (List.mem_cons_self _ _), f, List.mem_cons_self _ _,
              rfl, rfl⟩
        · obtain ⟨g1, g2, f1, hf1, s1, hs1, g3⟩ := h4 e g
          exact ⟨g1, g2, f1, List.mem_cons_of_mem _ (List.mem_cons_of_mem _ hf1), s1,
            List.mem_cons_of_mem _ (List.mem_cons_of_mem _ hs1), g3⟩
    | [], h => simp at h
    | [x], h => simp at h; omega

theorem pair_loop_odd :
    ∀ (n : Nat) (msgs : List MultiNodeMsg) (acc : List edge_t), msgs.length = 2 * n + 1 →
      pair_loop msgs acc = none := by
  intro n
  induction n with
  | zero =>
    intro msgs acc h
    match msgs, h with
    | [x], _ => rfl
    | [], h => simp at h
    | _ :: _ :: _, h => simp at h
  | succ n ih =>
    intro msgs acc h
    match msgs, h with
    | f :: s :: rest, h =>
      simp only [List.length_cons] at h
      simp only [pair_loop]
      exact ih rest _ (by omega)
    | [], h => simp at h
    | [x], h => simp at h

/-! ## The configuration model: the records of `_generateMultiNodes` -/

theorem plain_loop_spec (rnd : RandomDraws) :
    ∀ (edges : List edge_t) (i : Nat) (acc : List MultiNodeMsg),
      ∃ recs, plain_loop rnd edges i acc = acc ++ recs ∧ recs.length = 2 * edges.length ∧
        recs.map (fun m => m.node) = (endpoints edges).map (fun x => x % 2 ^ 36) := by
  intro edges
  induction edges with
  | nil =>
    intro i acc
    exact ⟨[], by simp [plain_loop], rfl, rfl⟩
  | cons e rest ih =>
    intro i acc
    obtain ⟨recs, h1, h2, h3⟩ := ih (i + 1)
      (acc ++ [⟨(rnd.dis64 i % 2 ^ 64 &&& 0xFFFFFFF000000000) ||| (e.first % 2 ^ 64)⟩,
        ⟨(((rnd.dis64 i % 2 ^ 64) <<< 36) % 2 ^ 64) ||| (e.second % 2 ^ 64)⟩])
    refine ⟨⟨(rnd.dis64 i % 2 ^ 64 &&& 0xFFFFFFF000000000) ||| (e.first % 2 ^ 64)⟩ ::
      ⟨(((rnd.dis64 i % 2 ^ 64) <<< 36) % 2 ^ 64) ||| (e.second % 2 ^ 64)⟩ :: recs, ?_, ?_, ?_⟩
    · simp only [plain_loop]
      rw [h1, List.append_assoc]
      rfl
    · simp only [List.length_cons, h2]
      omega
    · simp only [List.map_cons, endpoints, h3, node_first_record, node_second_record,
        mod_36_of_mod_64]

/-- One trip of the first loop consumes one edge and pushes two records:
the widened first endpoint, and the second endpoint, widened when it is
below `nodes_above_threshold`. -/
theorem widen_step_spec (p : CMParams) (rnd : RandomDraws) (st st2 : MultiNodeState)
    (h : widen_step p rnd st = some st2) :
    ∃ e m1 m2 j1 j2, st._edges = e :: st2._edges ∧
      st2._multinodemsg_sorter = st._multinodemsg_sorter ++ [m1, m2] ∧
      m1.node = (p.node_upperbound + (rnd.disShift j1 % 2 ^ 64) * p.nodes_above_threshold +
        e.first % 2 ^ 64) % 2 ^ 64 % 2 ^ 36 ∧
      (e.second < p.nodes_above_threshold →
        m2.node = (p.node_upperbound + (rnd.disShift j2 % 2 ^ 64) * p.nodes_above_threshold +
          e.second % 2 ^ 64) % 2 ^ 64 % 2 ^ 36) ∧
      (¬ e.second < p.nodes_above_threshold → m2.node = e.second % 2 ^ 36) := by
  unfold widen_step at h
  split at h
  · exact Option.noConfusion h
  · rename_i e rest hedges
    simp only at h
    split at h
    · rename_i hsec
      have := (Option.some.inj h).symm
      subst this
      refine ⟨e, _, _, st.drawnShift, st.drawnShift + 1, hedges, rfl, ?_, ?_, ?_⟩
      · rw [node_first_record]
      · intro _
        rw [node_second_record]
      · intro hn
        exact absurd hsec hn
    · rename_i hsec
      have := (Option.some.inj h).symm
      subst this
      refine ⟨e, _, _, st.drawnShift, 0, hedges, rfl, ?_, ?_, ?_⟩
      · rw [node_first_record]
      · intro hn
        exact absurd hn hsec
      · intro _
        rw [node_second_record, mod_36_of_mod_64]

/-- The first loop consumes one edge and pushes two records per trip. -/
theorem widen_loop_shape (p : CMParams) (rnd : RandomDraws) :
    ∀ (n : Nat) (st st1 : MultiNodeState), widen_loop p rnd n st = some st1 →
      ∃ consumed recs, st._edges = consumed ++ st1._edges ∧ consumed.length = n ∧
        st1._multinodemsg_sorter = st._multinodemsg_sorter ++ recs ∧ recs.length = 2 * n := by
  intro n
  induction n with
  | zero =>
    intro st st1 h
    simp only [widen_loop, Option.some.injEq] at h
    subst h
    exact ⟨[], [], rfl, rfl, by simp, rfl⟩
  | succ n ih =>
    intro st st1 h
    simp only [widen_loop] at h
    split at h
    · exact Option.noConfusion h
    · rename_i st2 hstep
      obtain ⟨consumed, recs, g1, g2, g3, g4⟩ := ih st2 st1 h
      obtain ⟨e, m1, m2, _, _, s1, s2, _⟩ := widen_step_spec p rnd st st2 hstep
      refine ⟨e :: consumed, m1 :: m2 :: recs, ?_, ?_, ?_, ?_⟩
      · rw [s1, g1]; rfl
      · simp only [List.length_cons, g2]
      · rw [g3, s2, List.append_assoc]; rfl
      · simp only [List.length_cons, g4]; omega

/-- One trip of the first loop returns when the stream holds an edge. -/
theorem widen_step_some (p : CMParams) (rnd : RandomDraws) (st : MultiNodeState)
    (e : edge_t) (rest : List edge_t) (hE : st._edges = e :: rest) :
    ∃ st2, widen_step p rnd st = some st2 ∧ st2._edges = rest := by
  unfold widen_step
  rw [hE]
  simp only
  split
  · exact ⟨_, rfl, rfl⟩
  · exact ⟨_, rfl, rfl⟩

/-- The first loop returns when the stream holds enough edges. -/
theorem widen_loop_some (p : CMParams) (rnd : RandomDraws) :
    ∀ (n : Nat) (st : MultiNodeState), n ≤ st._edges.length →
      ∃ st1, widen_loop p rnd n st = some st1 := by
  intro n
  induction n with
  | zero => intro st _; exact ⟨st, rfl⟩
  | succ n ih =>
    intro st hlen
    cases hE : st._edges with
    | nil => rw [hE] at hlen; simp at hlen
    | cons e rest =>
      rw [hE] at hlen
      simp only [List.length_cons, Nat.add_le_add_iff_right] at hlen
      obtain ⟨st2, h2, h3⟩ := widen_step_some p rnd st e rest hE
      obtain ⟨st1, h1⟩ := ih st2 (by rw [h3]; exact hlen)
      exact ⟨st1, by simp only [widen_loop, h2]; exact h1⟩

/-- The first loop fails when the stream runs out of edges. -/
theorem widen_loop_none (p : CMParams) (rnd : RandomDraws) :
    ∀ (n : Nat) (st : MultiNodeState), st._edges.length < n →
      widen_loop p rnd n st = none := by
  intro n
  induction n with
  | zero => intro st h; exact absurd h (Nat.not_lt_zero _)
  | succ n ih =>
    intro st hlen
    cases hE : st._edges with
    | nil => simp only [widen_loop, widen_step, hE]
    | cons e rest =>
      rw [hE] at hlen
      simp only [List.length_cons, Nat.add_lt_add_iff_right] at hlen
      obtain ⟨st2, h2, h3⟩ := widen_step_some p rnd st e rest hE
      simp only [widen_loop, h2]
      exact ih st2 (by rw [h3]; exact hlen)

/-- A shift within the bound exists only when `node_upperbound` is below
`2^36`. -/
theorem virtual_id_bound (ub nat s : Nat) (hs : (s : Int) ≤ spec_shift_bound ub nat)
    (hnat : 0 < nat) : ub < 2 ^ 36 := by
  unfold spec_shift_bound at hs
  have h1 : ((s : Int) + 1) ≤ ((2 : Int) ^ 36 - (ub : Int)) / (nat : Int) := by omega
  have h2 := (Int.le_ediv_iff_mul_le (by exact_mod_cast hnat)).mp h1
  have h0 : (0 : Int) < ((s : Int) + 1) * (nat : Int) :=
    Int.mul_pos (by omega) (by exact_mod_cast hnat)
  have h3 : (ub : Int) < 2 ^ 36 := by omega
  exact_mod_cast h3

/-- A shift within the bound keeps the virtual id of node `a` below `2^36`,
and `real_id` maps it back to `a`. -/
theorem virtual_id_spec (ub nat s a : Nat) (hs : (s : Int) ≤ spec_shift_bound ub nat)
    (hnat : 0 < nat) (ha : a < nat) :
    (ub + (s % 2 ^ 64) * nat + a % 2 ^ 64) % 2 ^ 64 % 2 ^ 36 = ub + s * nat + a ∧
    real_id ub nat (ub + s * nat + a) = a := by
  unfold spec_shift_bound at hs
  have h1 : ((s : Int) + 1) ≤ ((2 : Int) ^ 36 - (ub : Int)) / (nat : Int) := by omega
  have h2 := (Int.le_ediv_iff_mul_le (by exact_mod_cast hnat)).mp h1
  have h3 : ((s + 1) * nat + ub : Int) ≤ 2 ^ 36 := by omega
  have h4 : (s + 1) * nat + ub ≤ 2 ^ 36 := by exact_mod_cast h3
  have h5 : s * nat + nat + ub ≤ 2 ^ 36 := by
    have : (s + 1) * nat = s * nat + nat := by ring
    omega
  have hs64 : s < 2 ^ 64 := by
    have : s ≤ s * nat := Nat.le_mul_of_pos_right s hnat
    have : (2 : Nat) ^ 36 < 2 ^ 64 := by decide
    omega
  have h6 : (2 : Nat) ^ 36 < 2 ^ 64 := by decide
  constructor
  · rw [Nat.mod_eq_of_lt hs64, Nat.mod_eq_of_lt (show a < 2 ^ 64 by omega),
      Nat.mod_eq_of_lt (show ub + s * nat + a < 2 ^ 64 by omega),
      Nat.mod_eq_of_lt (show ub + s * nat + a < 2 ^ 36 by omega)]
  · unfold real_id
    rw [if_neg (by omega)]
    have : ub + s * nat + a - ub = a + s * nat := by omega
    rw [this, Nat.add_mul_mod_self_right, Nat.mod_eq_of_lt ha]

theorem real_id_of_lt (ub nat v : Nat) (h : v < ub) : real_id ub nat v = v := by
  unfold real_id
  rw [if_pos h]

/-- With valid shifts the records of the first loop stand for the endpoints
of the edges it consumes. -/
theorem widen_loop_real (p : CMParams) (rnd : RandomDraws)
    (hnat : 0 < p.nodes_above_threshold)
    (hshift : ∀ j, (rnd.disShift j : Int) ≤
      spec_shift_bound p.node_upperbound p.nodes_above_threshold) :
    ∀ (n : Nat) (st st1 : MultiNodeState), widen_loop p rnd n st = some st1 →
      (∀ e ∈ st._edges.take n, e.first < p.nodes_above_threshold) →
      (∀ x ∈ endpoints st._edges, x < p.node_upperbound) →
      ∃ consumed recs, st._edges = consumed ++ st1._edges ∧ consumed.length = n ∧
        st1._multinodemsg_sorter = st._multinodemsg_sorter ++ recs ∧
        recs.map (fun m => real_id p.node_upperbound p.nodes_above_threshold m.node) =
          endpoints consumed := by
  intro n
  induction n with
  | zero =>
    intro st st1 h _ _
    simp only [widen_loop, Option.some.injEq] at h
    subst h
    exact ⟨[], [], rfl, rfl, by simp, rfl⟩
  | succ n ih =>
    intro st st1 h hfirst hbound
    simp only [widen_loop] at h
    split at h
    · exact Option.noConfusion h
    · rename_i st2 hstep
      obtain ⟨e, m1, m2, j1, j2, s1, s2, s3, s4, s5⟩ := widen_step_spec p rnd st st2 hstep
      rw [s1] at hfirst hbound
      have he1 : e.first < p.nodes_above_threshold := hfirst e (by simp)
      have hrest1 : ∀ x ∈ st2._edges.take n, x.first < p.nodes_above_threshold :=
        fun x hx => hfirst x (by simp only [List.take_succ_cons]; exact List.mem_cons_of_mem _ hx)
      have hb2 : e.second < p.node_upperbound := hbound e.second (by simp [endpoints])
      have hrest2 : ∀ x ∈ endpoints st2._edges, x < p.node_upperbound :=
        fun x hx => hbound x (by
          simp only [endpoints]; exact List.mem_cons_of_mem _ (List.mem_cons_of_mem _ hx))
      obtain ⟨v1, v2⟩ := virtual_id_spec p.node_upperbound p.nodes_above_threshold
        (rnd.disShift j1) e.first (hshift _) hnat he1
      obtain ⟨consumed, recs, g1, g2, g3, g4⟩ := ih st2 st1 h hrest1 hrest2
      have hm1 : real_id p.node_upperbound p.nodes_above_threshold m1.node = e.first := by
        rw [s3, v1, v2]
      have hm2 : real_id p.node_upperbound p.nodes_above_threshold m2.node = e.second := by
        by_cases hsec : e.second < p.nodes_above_threshold
        · obtain ⟨w1, w2⟩ := virtual_id_spec p.node_upperbound p.nodes_above_threshold
            (rnd.disShift j2) e.second (hshift _) hnat hsec
          rw [s4 hsec, w1, w2]
        · rw [s5 hsec]
          have hle : e.second % 2 ^ 36 ≤ e.second := Nat.mod_le _ _
          rw [real_id_of_lt _ _ _ (by omega)]
          have hub := virtual_id_bound p.node_upperbound p.nodes_above_threshold
            (rnd.disShift j1) (hshift _) hnat
          exact Nat.mod_eq_of_lt (by omega)
      refine ⟨e :: consumed, m1 :: m2 :: recs, ?_, ?_, ?_, ?_⟩
      · rw [s1, g1]; rfl
      · simp only [List.length_cons, g2]
      · rw [g3, s2, List.append_assoc]; rfl
      · simp only [List.map_cons, endpoints, g4, hm1, hm2]

theorem endpoints_append (a b : List edge_t) : endpoints (a ++ b) = endpoints a ++ endpoints b := by
  induction a with
  | nil => rfl
  | cons e rest ih =>
    show e.first :: e.second :: endpoints (rest ++ b) = _
    rw [ih]
    rfl

theorem endpoints_length (a : List edge_t) : (endpoints a).length = 2 * a.length := by
  induction a with
  | nil => rfl
  | cons e rest ih => simp only [endpoints, List.length_cons, ih]; omega

theorem endpoints_perm (a b : List edge_t) (h : a.Perm b) : (endpoints a).Perm (endpoints b) := by
  induction h with
  | nil => exact List.Perm.refl _
  | cons x _ ih => exact (ih.cons _).cons _
  | swap x y l =>
    simp only [endpoints]
    rw [List.perm_iff_count]
    intro z
    simp only [List.count_cons]
    omega
  | trans _ _ ih1 ih2 => exact ih1.trans ih2

theorem multinode_sort_perm (crc32_u32 : Nat → Nat → Nat) (seed : Nat)
    (xs : List MultiNodeMsg) : (multinode_sort crc32_u32 seed xs).Perm xs :=
  List.perm_insertionSort _ xs

/-! ## The configuration model: `run` -/

/-- The run fails when the first loop fails. -/
theorem cm_run_none (crc32_u32 : Nat → Nat → Nat) (p : CMParams) (rnd : RandomDraws)
    (edges : List edge_t)
    (hw : widen_loop p rnd (p.nodes_above_threshold - p.count_threshold)
      { _edges := edges, _multinodemsg_sorter := [], drawn64 := 0, drawnShift := 0 } = none) :
    HavelHakimi_ConfigurationModel.run crc32_u32 p rnd edges = none := by
  unfold HavelHakimi_ConfigurationModel.run _generateMultiNodes
  simp only [hw]
  split
  · rfl
  · rfl

theorem cm_run_nil (crc32_u32 : Nat → Nat → Nat) (p : CMParams) (rnd : RandomDraws) :
    HavelHakimi_ConfigurationModel.run crc32_u32 p rnd [] = none := rfl

theorem isEmpty_false_of_length {α : Type} (l : List α) (n : Nat) (h : l.length = n)
    (hn : 0 < n) : l.isEmpty = false := by
  cases l with
  | nil => simp at h; omega
  | cons a t => rfl

/-- When the first loop returns, the run returns the sorted pairing of the
sorted half-edge records. -/
theorem cm_run_of_widen (crc32_u32 : Nat → Nat → Nat) (p : CMParams) (rnd : RandomDraws)
    (edges : List edge_t) (st : MultiNodeState) (hne : edges ≠ [])
    (hw : widen_loop p rnd (p.nodes_above_threshold - p.count_threshold)
      { _edges := edges, _multinodemsg_sorter := [], drawn64 := 0, drawnShift := 0 } = some st) :
    ∃ recsP out, recsP.map (fun m => m.node) = (endpoints st._edges).map (fun x => x % 2 ^ 36) ∧
      HavelHakimi_ConfigurationModel.run crc32_u32 p rnd edges = some out ∧
      out.length = edges.length ∧
      (endpoints out).Perm ((st._multinodemsg_sorter ++ recsP).map (fun m => m.node)) ∧
      (∀ e ∈ out, e.first ≤ e.second ∧ e.second < 2 ^ 36) ∧
      out.Sorted (· ≤ ·) := by
  obtain ⟨consumed, recsW, c1, c2, c3, c4⟩ := widen_loop_shape p rnd _ _ st hw
  simp only [List.nil_append] at c1 c3
  obtain ⟨recsP, q1, q2, q3⟩ := plain_loop_spec rnd st._edges st.drawn64 st._multinodemsg_sorter
  have hpos : 0 < edges.length := List.length_pos.mpr hne
  have hlen : (st._multinodemsg_sorter ++ recsP).length = 2 * edges.length := by
    rw [List.length_append, c3, c4, q2, c1, List.length_append, c2]
    omega
  have hperm := multinode_sort_perm crc32_u32 p.seed (st._multinodemsg_sorter ++ recsP)
  have hlen2 : (multinode_sort crc32_u32 p.seed (st._multinodemsg_sorter ++ recsP)).length =
      2 * edges.length := by rw [hperm.length_eq, hlen]
  obtain ⟨out0, r1, r2, r3, r4⟩ := pair_loop_even edges.length _ [] hlen2
  simp only [List.nil_append] at r1
  have hE : edges.isEmpty = false := isEmpty_false_of_length _ _ rfl hpos
  have hS : (multinode_sort crc32_u32 p.seed (st._multinodemsg_sorter ++ recsP)).isEmpty =
      false := isEmpty_false_of_length _ _ hlen2 (by omega)
  have hO : (sorter_sort out0).isEmpty = false :=
    isEmpty_false_of_length _ _ ((sorter_sort_perm out0).length_eq.trans r2) hpos
  refine ⟨recsP, sorter_sort out0, q3, ?_, ?_, ?_, ?_, sorter_sort_sorted out0⟩
  · unfold HavelHakimi_ConfigurationModel.run _generateMultiNodes
    simp only [hE, hw, q1, hS, Bool.false_eq_true, if_false]
    unfold _generateSortedEdgeList
    simp only [hS, r1, hO, Bool.false_eq_true, if_false]
  · rw [(sorter_sort_perm out0).length_eq, r2]
  · exact ((endpoints_perm _ _ (sorter_sort_perm out0)).trans r3).trans (hperm.map _)
  · intro e he
    obtain ⟨g1, g2, _⟩ := r4 e ((mem_sorter_sort out0 e).mp he)
    exact ⟨g1, g2⟩

theorem mem_endpoints (es : List edge_t) (x : Nat) :
    x ∈ endpoints es ↔ ∃ e ∈ es, x = e.first ∨ x = e.second := by
  induction es with
  | nil => simp [endpoints]
  | cons e rest ih =>
    simp only [endpoints, List.mem_cons, ih]
    constructor
    · rintro (h | h | ⟨e1, h1, h2⟩)
      · exact ⟨e, Or.inl rfl, Or.inl h⟩
      · exact ⟨e, Or.inl rfl, Or.inr h⟩
      · exact ⟨e1, Or.inr h1, h2⟩
    · rintro ⟨e1, h1 | h1, h2⟩
      · subst h1
        rcases h2 with h2 | h2
        · exact Or.inl h2
        · exact Or.inr (Or.inl h2)
      · exact Or.inr (Or.inr ⟨e1, h1, h2⟩)

theorem map_mod_of_lt (xs : List Nat) (n : Nat) (h : ∀ x ∈ xs, x < n) :
    xs.map (fun x => x % n) = xs := by
  induction xs with
  | nil => rfl
  | cons a t ih =>
    simp only [List.map_cons]
    rw [Nat.mod_eq_of_lt (h a (List.mem_cons_self _ _)),
      ih (fun x hx => h x (List.mem_cons_of_mem _ hx))]

theorem map_real_id_of_lt (ub nat : Nat) (xs : List Nat) (h : ∀ x ∈ xs, x < ub) :
    xs.map (real_id ub nat) = xs := by
  induction xs with
  | nil => rfl
  | cons a t ih =>
    simp only [List.map_cons]
    rw [real_id_of_lt _ _ _ (h a (List.mem_cons_self _ _)),
      ih (fun x hx => h x (List.mem_cons_of_mem _ hx))]

/-- Without widening the run returns as many edges as it reads, with the
same endpoint occurrences up to the 36-bit mask. -/
theorem cm_run_plain (crc32_u32 : Nat → Nat → Nat) (p : CMParams) (rnd : RandomDraws)
    (edges : List edge_t) (hne : edges ≠ [])
    (hnat : p.nodes_above_threshold - p.count_threshold = 0) :
    ∃ out, HavelHakimi_ConfigurationModel.run crc32_u32 p rnd edges = some out ∧
      out.length = edges.length ∧
      (endpoints out).Perm ((endpoints edges).map (fun x => x % 2 ^ 36)) ∧
      (∀ e ∈ out, e.first ≤ e.second ∧ e.second < 2 ^ 36) := by
  have hw : widen_loop p rnd (p.nodes_above_threshold - p.count_threshold)
      { _edges := edges, _multinodemsg_sorter := [], drawn64 := 0, drawnShift := 0 } =
      some { _edges := edges, _multinodemsg_sorter := [], drawn64 := 0, drawnShift := 0 } := by
    rw [hnat]
    rfl
  obtain ⟨recsP, out, h1, h2, h3, h4, h5, _⟩ := cm_run_of_widen crc32_u32 p rnd edges _ hne hw
  simp only [List.nil_append] at h4
  rw [h1] at h4
  exact ⟨out, h2, h3, h4, h5⟩

/-- With widening and valid shifts the run returns as many edges as it reads,
and `real_id` maps the endpoint occurrences of the output back to those of
the input. -/
theorem cm_run_widened (crc32_u32 : Nat → Nat → Nat) (p : CMParams) (rnd : RandomDraws)
    (edges : List edge_t) (hne : edges ≠ [])
    (hnat : 0 < p.nodes_above_threshold)
    (hub : ∀ x ∈ endpoints edges, x < p.node_upperbound)
    (hlen : p.nodes_above_threshold - p.count_threshold ≤ edges.length)
    (hfirst : ∀ e ∈ edges.take (p.nodes_above_threshold - p.count_threshold),
      e.first < p.nodes_above_threshold)
    (hshift : ∀ j, (rnd.disShift j : Int) ≤
      spec_shift_bound p.node_upperbound p.nodes_above_threshold) :
    ∃ out, HavelHakimi_ConfigurationModel.run crc32_u32 p rnd edges = some out ∧
      out.length = edges.length ∧
      ((endpoints out).map (real_id p.node_upperbound p.nodes_above_threshold)).Perm
        (endpoints edges) := by
  obtain ⟨st, hw⟩ := widen_loop_some p rnd (p.nodes_above_threshold - p.count_threshold)
    { _edges := edges, _multinodemsg_sorter := [], drawn64 := 0, drawnShift := 0 } hlen
  obtain ⟨consumed, recsW, c1, c2, c3, c4⟩ :=
    widen_loop_real p rnd hnat hshift _ _ st hw hfirst hub
  simp only [List.nil_append] at c1 c3
  obtain ⟨recsP, out, h1, h2, h3, h4, _, _⟩ := cm_run_of_widen crc32_u32 p rnd edges st hne hw
  have hub36 := virtual_id_bound p.node_upperbound p.nodes_above_threshold
    (rnd.disShift 0) (hshift 0) hnat
  have hrest : ∀ x ∈ endpoints st._edges, x < p.node_upperbound := by
    intro x hx
    apply hub
    rw [c1, endpoints_append]
    exact List.mem_append_right _ hx
  rw [map_mod_of_lt _ _ (fun x hx => lt_trans (hrest x hx) hub36)] at h1
  refine ⟨out, h2, h3, ?_⟩
  have h5 := h4.map (real_id p.node_upperbound p.nodes_above_threshold)
  rw [List.map_append, List.map_append, List.map_map, List.map_map, c3] at h5
  have e1 : List.map (real_id p.node_upperbound p.nodes_above_threshold ∘ fun m => m.node)
      recsW = endpoints consumed := c4
  have e2 : List.map (real_id p.node_upperbound p.nodes_above_threshold ∘ fun m => m.node)
      recsP = endpoints st._edges := by
    rw [← List.map_map, h1, map_real_id_of_lt _ _ _ hrest]
  rw [e1, e2, ← endpoints_append, ← c1] at h5
  exact h5

/-! ## Properties of the configuration model -/

/-- C17 (as stated, refuted): the output of
`HavelHakimi_ConfigurationModel::run` can hold an id that is not below
`node_upperbound`, and a loop. With `node_upperbound = 2`,
`nodes_above_threshold = 1` and the shift `1`, the edge `(0,1)` becomes
`(1,3)`: node `0` is written as the virtual id `2 + 1 * 1 + 0 = 3`. With
`node_upperbound = 3` and no widening, the path `(0,1), (0,2)` becomes
`(0,0), (1,2)`: the two records of node `0` are adjacent in hash order. -/
theorem output_beyond_node_upperbound :
    HavelHakimi_ConfigurationModel.run crc32c_u32 ⟨1, 2, 0, 0, 1, 0⟩
        ⟨fun _ => 0, fun _ => 1⟩ [⟨0, 1⟩] = some [⟨1, 3⟩] ∧
    HavelHakimi_ConfigurationModel.run crc32c_u32 ⟨1, 3, 0, 0, 0, 0⟩
        ⟨fun _ => 0, fun _ => 1⟩ [⟨0, 1⟩, ⟨0, 2⟩] = some [⟨0, 0⟩, ⟨1, 2⟩] := by
  constructor
  · decide
  · decide

/-- C17 (amended): every edge `(u,v)` in the output of
`HavelHakimi_ConfigurationModel::run` has `u ≤ v` and `v < 2^36`, for every
input stream, seed, hash step and random draw; when `nodes_above_threshold`
is `0` and every input endpoint is below `node_upperbound`, then also
`u < node_upperbound` and `v < node_upperbound`. -/
theorem output_edge_bounds (crc32_u32 : Nat → Nat → Nat) (p : CMParams) (rnd : RandomDraws)
    (edges out : List edge_t)
    (h : HavelHakimi_ConfigurationModel.run crc32_u32 p rnd edges = some out) :
    (∀ e ∈ out, e.first ≤ e.second ∧ e.second < 2 ^ 36) ∧
    (p.nodes_above_threshold = 0 → (∀ x ∈ endpoints edges, x < p.node_upperbound) →
      ∀ e ∈ out, e.first < p.node_upperbound ∧ e.second < p.node_upperbound) := by
  have hne : edges ≠ [] := by
    intro h0
    rw [h0, cm_run_nil] at h
    exact Option.noConfusion h
  constructor
  · cases hw : widen_loop p rnd (p.nodes_above_threshold - p.count_threshold)
        { _edges := edges, _multinodemsg_sorter := [], drawn64 := 0, drawnShift := 0 } with
    | none =>
      rw [cm_run_none crc32_u32 p rnd edges hw] at h
      exact Option.noConfusion h
    | some st =>
      obtain ⟨_, out1, _, h2, _, _, h5, _⟩ := cm_run_of_widen crc32_u32 p rnd edges st hne hw
      rw [h] at h2
      rw [Option.some.inj h2]
      exact h5
  · intro hnat hub e he
    obtain ⟨out1, h2, _, h4, h5⟩ := cm_run_plain crc32_u32 p rnd edges hne (by omega)
    rw [h] at h2
    rw [← Option.some.inj h2] at h4 h5
    have hsec : e.second ∈ endpoints out := (mem_endpoints out e.second).mpr ⟨e, he, Or.inr rfl⟩
    obtain ⟨x, hx, hxe⟩ := List.mem_map.mp (h4.mem_iff.mp hsec)
    have hle : x % 2 ^ 36 ≤ x := Nat.mod_le _ _
    have := hub x hx
    have := (h5 e he).1
    constructor
    · omega
    · omega

/-- Witness of C17 (amended) on the path `(0,1), (0,2)` with
`node_upperbound = 3`. -/
theorem output_edge_bounds_witness :
    HavelHakimi_ConfigurationModel.run crc32c_u32 ⟨1, 3, 0, 0, 0, 0⟩
        ⟨fun _ => 0, fun _ => 1⟩ [⟨0, 1⟩, ⟨0, 2⟩] = some [⟨0, 0⟩, ⟨1, 2⟩] ∧
    (∀ e ∈ ([⟨0, 0⟩, ⟨1, 2⟩] : List edge_t), e.first ≤ e.second ∧ e.second < 2 ^ 36) ∧
    (∀ e ∈ ([⟨0, 0⟩, ⟨1, 2⟩] : List edge_t), e.first < 3 ∧ e.second < 3) :=
  ⟨by decide,
   (output_edge_bounds crc32c_u32 ⟨1, 3, 0, 0, 0, 0⟩ ⟨fun _ => 0, fun _ => 1⟩
      [⟨0, 1⟩, ⟨0, 2⟩] [⟨0, 0⟩, ⟨1, 2⟩] (by decide)).1,
   (output_edge_bounds crc32c_u32 ⟨1, 3, 0, 0, 0, 0⟩ ⟨fun _ => 0, fun _ => 1⟩
      [⟨0, 1⟩, ⟨0, 2⟩] [⟨0, 0⟩, ⟨1, 2⟩] (by decide)).2 rfl (by decide)⟩

/-- C18 (as stated, refuted): with widening the endpoint occurrences of the
input cannot be read off the output. With `node_upperbound = 10` and
`nodes_above_threshold = 1`, the input `(5,7)` under shift `1` and the input
`(4,7)` under shift `2` both give the output `(7,16)`, and the virtual id
`16` maps back to node `0`, an endpoint of neither input. -/
theorem widening_confuses_endpoints :
    HavelHakimi_ConfigurationModel.run crc32c_u32 ⟨1, 10, 0, 0, 1, 0⟩
        ⟨fun _ => 0, fun _ => 1⟩ [⟨5, 7⟩] = some [⟨7, 16⟩] ∧
    HavelHakimi_ConfigurationModel.run crc32c_u32 ⟨1, 10, 0, 0, 1, 0⟩
        ⟨fun _ => 0, fun _ => 2⟩ [⟨4, 7⟩] = some [⟨7, 16⟩] ∧
    (endpoints [⟨7, 16⟩]).map (real_id 10 1) = [7, 0] := by
  refine ⟨?_, ?_, ?_⟩
  · decide
  · decide
  · decide

/-- C18 (amended): for a non-empty input stream the run returns as many
edges as it reads and keeps the endpoint occurrences (every node keeps its
degree, loops counted twice): as they are when `nodes_above_threshold = 0`
and all endpoints are below `2^36`; after mapping every id from
`node_upperbound` on back with `real_id` when `nodes_above_threshold > 0`,
all endpoints are below `node_upperbound`, the stream holds the edges the
first loop reads, each of these has its first endpoint below
`nodes_above_threshold`, and no shift drawn exceeds the bound `H`. -/
theorem cm_preserves_degrees (crc32_u32 : Nat → Nat → Nat) (p : CMParams) (rnd : RandomDraws)
    (edges : List edge_t) (hne : edges ≠ []) :
    (p.nodes_above_threshold = 0 → (∀ x ∈ endpoints edges, x < 2 ^ 36) →
      ∃ out, HavelHakimi_ConfigurationModel.run crc32_u32 p rnd edges = some out ∧
        out.length = edges.length ∧ (endpoints out).Perm (endpoints edges)) ∧
    (0 < p.nodes_above_threshold →
      (∀ x ∈ endpoints edges, x < p.node_upperbound) →
      p.nodes_above_threshold - p.count_threshold ≤ edges.length →
      (∀ e ∈ edges.take (p.nodes_above_threshold - p.count_threshold),
        e.first < p.nodes_above_threshold) →
      (∀ j, (rnd.disShift j : Int) ≤
        spec_shift_bound p.node_upperbound p.nodes_above_threshold) →
      ∃ out, HavelHakimi_ConfigurationModel.run crc32_u32 p rnd edges = some out ∧
        out.length = edges.length ∧
        ((endpoints out).map (real_id p.node_upperbound p.nodes_above_threshold)).Perm
          (endpoints edges)) := by
  constructor
  · intro hnat h36
    obtain ⟨out, h1, h2, h3, _⟩ := cm_run_plain crc32_u32 p rnd edges hne (by omega)
    rw [map_mod_of_lt _ _ h36] at h3
    exact ⟨out, h1, h2, h3⟩
  · intro hnat hub hlen hfirst hshift
    exact cm_run_widened crc32_u32 p rnd edges hne hnat hub hlen hfirst hshift

/-- Witness of C18 (amended): the path `(0,1), (0,2)` without widening, and
the edge `(0,1)` with node `0` widened under shift `1`. -/
theorem cm_preserves_degrees_witness :
    (∃ out, HavelHakimi_ConfigurationModel.run crc32c_u32 ⟨1, 3, 0, 0, 0, 0⟩
        ⟨fun _ => 0, fun _ => 1⟩ [⟨0, 1⟩, ⟨0, 2⟩] = some out ∧
      out.length = 2 ∧ (endpoints out).Perm [0, 1, 0, 2]) ∧
    (∃ out, HavelHakimi_ConfigurationModel.run crc32c_u32 ⟨1, 2, 0, 0, 1, 0⟩
        ⟨fun _ => 0, fun _ => 1⟩ [⟨0, 1⟩] = some out ∧
      out.length = 1 ∧ ((endpoints out).map (real_id 2 1)).Perm [0, 1]) :=
  ⟨(cm_preserves_degrees crc32c_u32 ⟨1, 3, 0, 0, 0, 0⟩ ⟨fun _ => 0, fun _ => 1⟩
      [⟨0, 1⟩, ⟨0, 2⟩] (by decide)).1 rfl (by decide),
   (cm_preserves_degrees crc32c_u32 ⟨1, 2, 0, 0, 1, 0⟩ ⟨fun _ => 0, fun _ => 1⟩
      [⟨0, 1⟩] (by decide)).2 (by decide) (by decide) (by decide) (by decide)
      (fun _ => (by decide : ((1 : Nat) : Int) ≤ spec_shift_bound 2 1))⟩

/-- C19 (as stated, refuted): the shift bound is not checked. With
`node_upperbound = 2^36 - 1` and `nodes_above_threshold = 1` the bound `H`
is `0`, below `1`, and the run on the edge `(0,1)` returns the output
`(0,1)`. -/
theorem run_ignores_shift_bound :
    spec_shift_bound (2 ^ 36 - 1) 1 = 0 ∧
    HavelHakimi_ConfigurationModel.run crc32c_u32 ⟨1, 2 ^ 36 - 1, 0, 0, 1, 0⟩
        ⟨fun _ => 0, fun _ => 1⟩ [⟨0, 1⟩] = some [⟨0, 1⟩] := by
  constructor
  · decide
  · decide

/-- C19 (amended): `HavelHakimi_ConfigurationModel::run` fails on the empty
input stream, and `_generateSortedEdgeList` fails on an odd number of
half-edge records. -/
theorem run_failure_cases (crc32_u32 : Nat → Nat → Nat) (p : CMParams) (rnd : RandomDraws) :
    HavelHakimi_ConfigurationModel.run crc32_u32 p rnd [] = none ∧
    ∀ msgs : List MultiNodeMsg, msgs.length % 2 = 1 → _generateSortedEdgeList msgs = none := by
  refine ⟨rfl, ?_⟩
  intro msgs hodd
  have h := pair_loop_odd (msgs.length / 2) msgs [] (by omega)
  unfold _generateSortedEdgeList
  rw [h]
  split
  · rfl
  · rfl

/-- Witness of C19 (amended) on three records. -/
theorem run_failure_cases_witness :
    HavelHakimi_ConfigurationModel.run crc32c_u32 ⟨1, 3, 0, 0, 0, 0⟩
        ⟨fun _ => 0, fun _ => 1⟩ [] = none ∧
    _generateSortedEdgeList [⟨0⟩, ⟨1⟩, ⟨2⟩] = none :=
  ⟨(run_failure_cases crc32c_u32 ⟨1, 3, 0, 0, 0, 0⟩ ⟨fun _ => 0, fun _ => 1⟩).1,
   (run_failure_cases crc32c_u32 ⟨1, 3, 0, 0, 0, 0⟩ ⟨fun _ => 0, fun _ => 1⟩).2
      [⟨0⟩, ⟨1⟩, ⟨2⟩] (by decide)⟩

/-- C20 (as stated, refuted): the run on the single edge `(0,1)` returns the
output `(0,1)`. -/
theorem single_edge_run_returns :
    HavelHakimi_ConfigurationModel.run crc32c_u32 ⟨1, 2, 0, 0, 0, 0⟩
        ⟨fun _ => 0, fun _ => 1⟩ [⟨0, 1⟩] = some [⟨0, 1⟩] := by
  decide

/-- C20 (amended): on a stream of exactly one edge `(a,b)` the run returns
one output edge when the first loop takes at most one trip, the edge
`(min a b, max a b)` when `nodes_above_threshold = 0` and `a, b < 2^36`; it
fails when the first loop is to take two or more trips, as the stream is
exhausted after the first. -/
theorem single_edge_output (crc32_u32 : Nat → Nat → Nat) (p : CMParams) (rnd : RandomDraws)
    (a b : Nat) :
    (p.nodes_above_threshold - p.count_threshold ≤ 1 →
      ∃ e, HavelHakimi_ConfigurationModel.run crc32_u32 p rnd [⟨a, b⟩] = some [e]) ∧
    (p.nodes_above_threshold = 0 → a < 2 ^ 36 → b < 2 ^ 36 →
      HavelHakimi_ConfigurationModel.run crc32_u32 p rnd [⟨a, b⟩] =
        some [⟨min a b, max a b⟩]) ∧
    (2 ≤ p.nodes_above_threshold - p.count_threshold →
      HavelHakimi_ConfigurationModel.run crc32_u32 p rnd [⟨a, b⟩] = none) := by
  refine ⟨?_, ?_, ?_⟩
  · intro htrips
    obtain ⟨st, hw⟩ := widen_loop_some p rnd (p.nodes_above_threshold - p.count_threshold)
      { _edges := [⟨a, b⟩], _multinodemsg_sorter := [], drawn64 := 0, drawnShift := 0 } htrips
    obtain ⟨_, out, _, h2, h3, _⟩ :=
      cm_run_of_widen crc32_u32 p rnd [⟨a, b⟩] st (by simp) hw
    match out, h3 with
    | [e], _ => exact ⟨e, h2⟩
  · intro hnat ha hb
    obtain ⟨out, h2, h3, h4, h5⟩ := cm_run_plain crc32_u32 p rnd [⟨a, b⟩] (by simp) (by omega)
    match out, h3 with
    | [e], _ =>
      rw [h2]
      simp only [endpoints, List.map_cons, List.map_nil, Nat.mod_eq_of_lt ha,
        Nat.mod_eq_of_lt hb] at h4
      have hle := (h5 e (List.mem_cons_self _ _)).1
      have m1 : e.first ∈ [a, b] := h4.mem_iff.mp (List.mem_cons_self _ _)
      have m2 : e.second ∈ [a, b] :=
        h4.mem_iff.mp (List.mem_cons_of_mem _ (List.mem_cons_self _ _))
      have m3 : a ∈ [e.first, e.second] := h4.mem_iff.mpr (List.mem_cons_self _ _)
      have m4 : b ∈ [e.first, e.second] :=
        h4.mem_iff.mpr (List.mem_cons_of_mem _ (List.mem_cons_self _ _))
      simp only [List.mem_cons, List.mem_singleton, List.mem_nil_iff, or_false] at m1 m2 m3 m4
      cases e with
      | mk u v =>
        simp only at hle m1 m2 m3 m4
        have hu : u = min a b := by rw [Nat.min_def]; split <;> omega
        have hv : v = max a b := by rw [Nat.max_def]; split <;> omega
        rw [hu, hv]
  · intro htrips
    apply cm_run_none
    exact widen_loop_none p rnd _ _ (by simpa using htrips)

/-- Witness of C20 (amended): the edge `(1,0)` without widening, with one
trip of the first loop, and with two. -/
theorem single_edge_output_witness :
    (∃ e, HavelHakimi_ConfigurationModel.run crc32c_u32 ⟨1, 2, 0, 0, 1, 0⟩
        ⟨fun _ => 0, fun _ => 1⟩ [⟨1, 0⟩] = some [e]) ∧
    HavelHakimi_ConfigurationModel.run crc32c_u32 ⟨1, 2, 0, 0, 0, 0⟩
        ⟨fun _ => 0, fun _ => 1⟩ [⟨1, 0⟩] = some [⟨min 1 0, max 1 0⟩] ∧
    HavelHakimi_ConfigurationModel.run crc32c_u32 ⟨1, 2, 0, 0, 2, 0⟩
        ⟨fun _ => 0, fun _ => 1⟩ [⟨1, 0⟩] = none :=
  ⟨(single_edge_output crc32c_u32 ⟨1, 2, 0, 0, 1, 0⟩ ⟨fun _ => 0, fun _ => 1⟩ 1 0).1
      (by decide),
   (single_edge_output crc32c_u32 ⟨1, 2, 0, 0, 0, 0⟩ ⟨fun _ => 0, fun _ => 1⟩ 1 0).2.1
      rfl (by decide) (by decide),
   (single_edge_output crc32c_u32 ⟨1, 2, 0, 0, 2, 0⟩ ⟨fun _ => 0, fun _ => 1⟩ 1 0).2.2
      (by decide)⟩

/-! ## Undoing a performed swap -/

/-- Some direction applied to the two new edges of a swap, in either order,
gives back the two old edges. -/
theorem swap_edges_inverse (a b c d : Nat) (dir : Bool) (hab : a < b) (hcd : c < d)
    (f0 f1 : edge_t)
    (hf : (f0 = (_swap_edges ⟨a, b⟩ ⟨c, d⟩ dir).1 ∧ f1 = (_swap_edges ⟨a, b⟩ ⟨c, d⟩ dir).2) ∨
      (f0 = (_swap_edges ⟨a, b⟩ ⟨c, d⟩ dir).2 ∧ f1 = (_swap_edges ⟨a, b⟩ ⟨c, d⟩ dir).1)) :
    (_swap_edges f0 f1 true = (⟨a, b⟩, ⟨c, d⟩) ∨ _swap_edges f0 f1 true = (⟨c, d⟩, ⟨a, b⟩)) ∨
    (_swap_edges f0 f1 false = (⟨a, b⟩, ⟨c, d⟩) ∨
      _swap_edges f0 f1 false = (⟨c, d⟩, ⟨a, b⟩)) := by
  rcases hf with ⟨g0, g1⟩ | ⟨g0, g1⟩ <;> subst g0 <;> subst g1 <;> cases dir <;>
    simp only [_swap_edges, Bool.false_eq_true, if_false, if_true, edge_t.normalize] <;>
    split_ifs <;> (try dsimp only at *) <;>
    simp only [Prod.mk.injEq, edge_t.mk.injEq, and_true, true_and, or_true, true_or] <;> omega

theorem sorter_sort_eq_of_perm {α : Type} [LinearOrder α] (xs ys : List α) (h : xs.Perm ys) :
    sorter_sort xs = sorter_sort ys :=
  List.eq_of_perm_of_sorted
    (((sorter_sort_perm xs).trans h).trans (sorter_sort_perm ys).symm)
    (sorter_sort_sorted xs) (sorter_sort_sorted ys)

theorem getD_indexOf (M : List edge_t) (x dflt : edge_t) (h : x ∈ M) :
    M.indexOf x < M.length ∧ M.getD (M.indexOf x) dflt = x := by
  have hlt : M.indexOf x < M.length := List.indexOf_lt_length.mpr h
  refine ⟨hlt, ?_⟩
  rw [List.getD_eq_getElem _ _ hlt]
  exact List.getElem_indexOf hlt

/-- The direction the inverse swap is given yields the two old edges. -/
theorem inverse_direction (e0 e1 f0 f1 : edge_t) (dir : Bool) (o0 : e0.first < e0.second)
    (o1 : e1.first < e1.second)
    (hf : (f0 = (_swap_edges e0 e1 dir).1 ∧ f1 = (_swap_edges e0 e1 dir).2) ∨
      (f0 = (_swap_edges e0 e1 dir).2 ∧ f1 = (_swap_edges e0 e1 dir).1)) :
    _swap_edges f0 f1 (decide (_swap_edges f0 f1 true = (e0, e1) ∨
        _swap_edges f0 f1 true = (e1, e0))) = (e0, e1) ∨
    _swap_edges f0 f1 (decide (_swap_edges f0 f1 true = (e0, e1) ∨
        _swap_edges f0 f1 true = (e1, e0))) = (e1, e0) := by
  cases e0 with
  | mk a b =>
    cases e1 with
    | mk c d =>
      have h := swap_edges_inverse a b c d dir o0 o1 f0 f1 hf
      by_cases hP : _swap_edges f0 f1 true = (⟨a, b⟩, ⟨c, d⟩) ∨
          _swap_edges f0 f1 true = (⟨c, d⟩, ⟨a, b⟩)
      · rw [decide_eq_true hP]
        exact hP
      · rw [decide_eq_false hP]
        rcases h with h | h
        · exact absurd h hP
        · exact h

/-- Undoing a swap on the level of edge sets: a swap `u` on a simple list `M`
that holds the edges of `cur` with `e0, e1` replaced by `n0, n1`, names the
ids of `n0, n1` and yields `e0, e1`, is performed and leaves the edges of
`cur`. -/
theorem undo_step_core (cur M : List edge_t) (u : SwapDescriptor) (e0 e1 n0 n1 : edge_t)
    (hcur : cur.Nodup) (hMs : simple_state M)
    (he0 : e0 ∈ cur) (he1 : e1 ∈ cur) (hne : e0 ≠ e1) (hn0 : n0 ∉ cur) (hn1 : n1 ∉ cur)
    (hloop0 : e0.is_loop = false) (hloop1 : e1.is_loop = false)
    (hmem : ∀ y, y ∈ M ↔ (y = n0 ∨ y = n1 ∨ (y ∈ cur ∧ y ≠ e0 ∧ y ≠ e1)))
    (hu0 : u.edges0 < u.edges1) (hu1 : u.edges1 < M.length)
    (hf : ((ref_edges M u).edges0 = n0 ∧ (ref_edges M u).edges1 = n1) ∨
      ((ref_edges M u).edges0 = n1 ∧ (ref_edges M u).edges1 = n0))
    (hx : ((ref_edges M u).new_edges0 = e0 ∧ (ref_edges M u).new_edges1 = e1) ∨
      ((ref_edges M u).new_edges0 = e1 ∧ (ref_edges M u).new_edges1 = e0)) :
    ref_perform M u = true ∧ (ref_step M u).Perm cur ∧
      (e0 :: e1 :: (M.erase n0).erase n1).Perm cur := by
  have hne0 : e0 ≠ n0 := fun h => hn0 (h ▸ he0)
  have hne1 : e0 ≠ n1 := fun h => hn1 (h ▸ he0)
  have hne2 : e1 ≠ n0 := fun h => hn0 (h ▸ he1)
  have hne3 : e1 ≠ n1 := fun h => hn1 (h ▸ he1)
  have hM0 : e0 ∉ M := by
    rw [hmem]
    rintro (h | h | ⟨_, h, _⟩)
    · exact hne0 h
    · exact hne1 h
    · exact h rfl
  have hM1 : e1 ∉ M := by
    rw [hmem]
    rintro (h | h | ⟨_, _, h⟩)
    · exact hne2 h
    · exact hne3 h
    · exact h rfl
  have hperf : ref_perform M u = true := by
    rw [ref_perform_true_iff]
    rcases hx with ⟨x0, x1⟩ | ⟨x0, x1⟩
    · rw [x0, x1]; exact ⟨hM0, hM1, hloop0, hloop1⟩
    · rw [x0, x1]; exact ⟨hM1, hM0, hloop1, hloop0⟩
  have hstep : ∀ y, y ∈ ref_step M u ↔ y ∈ cur := by
    intro y
    rw [mem_ref_step M u hMs.1 hu0 hu1 y, if_pos hperf]
    constructor
    · rintro (h | h | ⟨hy, hy0, hy1⟩)
      · rcases hx with ⟨x0, _⟩ | ⟨x0, _⟩
        · rw [h, x0]; exact he0
        · rw [h, x0]; exact he1
      · rcases hx with ⟨_, x1⟩ | ⟨_, x1⟩
        · rw [h, x1]; exact he1
        · rw [h, x1]; exact he0
      · rcases (hmem y).mp hy with g | g | ⟨g, _, _⟩
        · rcases hf with ⟨f0, f1⟩ | ⟨f0, f1⟩
          · exact absurd (g.trans f0.symm) hy0
          · exact absurd (g.trans f1.symm) hy1
        · rcases hf with ⟨f0, f1⟩ | ⟨f0, f1⟩
          · exact absurd (g.trans f1.symm) hy1
          · exact absurd (g.trans f0.symm) hy0
        · exact g
    · intro hy
      by_cases g0 : y = e0
      · rcases hx with ⟨x0, x1⟩ | ⟨x0, x1⟩
        · exact Or.inl (g0.trans x0.symm)
        · exact Or.inr (Or.inl (g0.trans x1.symm))
      · by_cases g1 : y = e1
        · rcases hx with ⟨x0, x1⟩ | ⟨x0, x1⟩
          · exact Or.inr (Or.inl (g1.trans x1.symm))
          · exact Or.inl (g1.trans x0.symm)
        · refine Or.inr (Or.inr ⟨(hmem y).mpr (Or.inr (Or.inr ⟨hy, g0, g1⟩)), ?_, ?_⟩)
          · rcases hf with ⟨f0, _⟩ | ⟨f0, _⟩
            · rw [f0]; exact fun h => hn0 (h ▸ hy)
            · rw [f0]; exact fun h => hn1 (h ▸ hy)
          · rcases hf with ⟨_, f1⟩ | ⟨_, f1⟩
            · rw [f1]; exact fun h => hn1 (h ▸ hy)
            · rw [f1]; exact fun h => hn0 (h ▸ hy)
  refine ⟨hperf, ?_, ?_⟩
  · exact (List.perm_ext_iff_of_nodup (ref_step_simple M u hMs hu0 hu1).1 hcur).mpr hstep
  · have hnd1 : ((M.erase n0).erase n1).Nodup := (hMs.1.erase n0).erase n1
    have hmem1 : ∀ y, y ∈ (M.erase n0).erase n1 ↔ (y ≠ n1 ∧ y ≠ n0 ∧ y ∈ M) := by
      intro y
      rw [(hMs.1.erase n0).mem_erase_iff, hMs.1.mem_erase_iff]
    have hnd : (e0 :: e1 :: (M.erase n0).erase n1).Nodup := by
      rw [List.nodup_cons, List.nodup_cons]
      refine ⟨?_, ?_, hnd1⟩
      · rw [List.mem_cons, hmem1]
        rintro (h | ⟨_, _, h⟩)
        · exact hne h
        · exact hM0 h
      · rw [hmem1]
        rintro ⟨_, _, h⟩
        exact hM1 h
    refine (List.perm_ext_iff_of_nodup hnd hcur).mpr ?_
    intro y
    rw [List.mem_cons, List.mem_cons, hmem1, hmem]
    constructor
    · rintro (h | h | ⟨g1, g0, (g | g | ⟨g, _, _⟩)⟩)
      · rw [h]; exact he0
      · rw [h]; exact he1
      · exact absurd g g0
      · exact absurd g g1
      · exact g
    · intro hy
      by_cases g0 : y = e0
      · exact Or.inl g0
      · by_cases g1 : y = e1
        · exact Or.inr (Or.inl g1)
        · exact Or.inr (Or.inr ⟨fun h => hn1 (h ▸ hy), fun h => hn0 (h ▸ hy),
            Or.inr (Or.inr ⟨hy, g0, g1⟩)⟩)

/-- The inverse of a performed swap, on any simple list that holds the edges
the swap left, is a valid swap, is performed, and leaves the edges the swap
was applied to. -/
theorem undo_step (cur M : List edge_t) (d : SwapDescriptor)
    (hs : simple_state cur) (ho : oriented cur) (h0 : d.edges0 < d.edges1)
    (h1 : d.edges1 < cur.length) (hp : ref_perform cur d = true) (hM : simple_state M)
    (hperm : M.Perm (ref_step cur d)) :
    (inverse_swap M (ref_edges cur d)).edges0 < (inverse_swap M (ref_edges cur d)).edges1 ∧
    (inverse_swap M (ref_edges cur d)).edges1 < M.length ∧
    ref_perform M (inverse_swap M (ref_edges cur d)) = true ∧
    (ref_step M (inverse_swap M (ref_edges cur d))).Perm cur ∧
    undo M (ref_edges cur d) =
      sorter_sort (ref_step M (inverse_swap M (ref_edges cur d))) := by
  obtain ⟨hn0, hn1, _, _⟩ := (ref_perform_true_iff cur d).mp hp
  have he0 : (ref_edges cur d).edges0 ∈ cur := getD_mem cur d.edges0 _ (by omega)
  have he1 : (ref_edges cur d).edges1 ∈ cur := getD_mem cur d.edges1 _ h1
  have hne : (ref_edges cur d).edges0 ≠ (ref_edges cur d).edges1 := by
    intro h
    have := getD_inj_of_nodup cur hs.1 d.edges0 d.edges1 ⟨0, 0⟩ (by omega) h1 h
    omega
  have hnew : _swap_edges (ref_edges cur d).edges0 (ref_edges cur d).edges1 d.direction =
      ((ref_edges cur d).new_edges0, (ref_edges cur d).new_edges1) := rfl
  have hnn : (ref_edges cur d).new_edges0 ≠ (ref_edges cur d).new_edges1 := by
    intro h
    have h2 : (_swap_edges (ref_edges cur d).edges0 (ref_edges cur d).edges1 d.direction).1 =
        (_swap_edges (ref_edges cur d).edges0 (ref_edges cur d).edges1 d.direction).2 := by
      rw [hnew]; exact h
    rcases swap_edges_ne _ _ d.direction hne (hs.2 _ he0) (hs.2 _ he1) h2 with g | g
    · rw [hnew] at g
      have g2 : (ref_edges cur d).new_edges0 = (ref_edges cur d).edges0 := g
      exact hn0 (g2 ▸ he0)
    · rw [hnew] at g
      have g2 : (ref_edges cur d).new_edges0 = (ref_edges cur d).edges1 := g
      exact hn0 (g2 ▸ he1)
  have hmem : ∀ y, y ∈ M ↔ (y = (ref_edges cur d).new_edges0 ∨ y = (ref_edges cur d).new_edges1 ∨
      (y ∈ cur ∧ y ≠ (ref_edges cur d).edges0 ∧ y ≠ (ref_edges cur d).edges1)) := by
    intro y
    rw [hperm.mem_iff, mem_ref_step cur d hs.1 h0 h1 y, if_pos hp]
  have hl0 := hs.2 _ he0
  have hl1 := hs.2 _ he1
  have o0 := ho _ he0
  have o1 := ho _ he1
  generalize ref_edges cur d = l at *
  have hi := getD_indexOf M l.new_edges0 ⟨0, 0⟩ ((hmem _).mpr (Or.inl rfl))
  have hj := getD_indexOf M l.new_edges1 ⟨0, 0⟩ ((hmem _).mpr (Or.inr (Or.inl rfl)))
  have hij : M.indexOf l.new_edges0 ≠ M.indexOf l.new_edges1 := by
    intro h
    apply hnn
    rw [← hi.2, ← hj.2, h]
  have hu0 : (inverse_swap M l).edges0 < (inverse_swap M l).edges1 := by
    show min (M.indexOf l.new_edges0) (M.indexOf l.new_edges1) <
      max (M.indexOf l.new_edges0) (M.indexOf l.new_edges1)
    omega
  have hu1 : (inverse_swap M l).edges1 < M.length := by
    show max (M.indexOf l.new_edges0) (M.indexOf l.new_edges1) < M.length
    have := hi.1
    have := hj.1
    omega
  have hf : ((ref_edges M (inverse_swap M l)).edges0 = l.new_edges0 ∧
        (ref_edges M (inverse_swap M l)).edges1 = l.new_edges1) ∨
      ((ref_edges M (inverse_swap M l)).edges0 = l.new_edges1 ∧
        (ref_edges M (inverse_swap M l)).edges1 = l.new_edges0) := by
    show (M.getD (min (M.indexOf l.new_edges0) (M.indexOf l.new_edges1)) ⟨0, 0⟩ = _ ∧
        M.getD (max (M.indexOf l.new_edges0) (M.indexOf l.new_edges1)) ⟨0, 0⟩ = _) ∨
      (M.getD (min (M.indexOf l.new_edges0) (M.indexOf l.new_edges1)) ⟨0, 0⟩ = _ ∧
        M.getD (max (M.indexOf l.new_edges0) (M.indexOf l.new_edges1)) ⟨0, 0⟩ = _)
    rcases Nat.lt_or_gt_of_ne hij with g | g
    · rw [Nat.min_eq_left (le_of_lt g), Nat.max_eq_right (le_of_lt g)]
      exact Or.inl ⟨hi.2, hj.2⟩
    · rw [Nat.min_eq_right (le_of_lt g), Nat.max_eq_left (le_of_lt g)]
      exact Or.inr ⟨hj.2, hi.2⟩
  have hx : ((ref_edges M (inverse_swap M l)).new_edges0 = l.edges0 ∧
        (ref_edges M (inverse_swap M l)).new_edges1 = l.edges1) ∨
      ((ref_edges M (inverse_swap M l)).new_edges0 = l.edges1 ∧
        (ref_edges M (inverse_swap M l)).new_edges1 = l.edges0) := by
    have hf2 : ((ref_edges M (inverse_swap M l)).edges0 =
          (_swap_edges l.edges0 l.edges1 d.direction).1 ∧
        (ref_edges M (inverse_swap M l)).edges1 =
          (_swap_edges l.edges0 l.edges1 d.direction).2) ∨
      ((ref_edges M (inverse_swap M l)).edges0 =
          (_swap_edges l.edges0 l.edges1 d.direction).2 ∧
        (ref_edges M (inverse_swap M l)).edges1 =
          (_swap_edges l.edges0 l.edges1 d.direction).1) := by
      rw [hnew]
      exact hf
    have h := inverse_direction l.edges0 l.edges1 _ _ d.direction o0 o1 hf2
    rcases h with h | h
    · exact Or.inl ⟨congrArg Prod.fst h, congrArg Prod.snd h⟩
    · exact Or.inr ⟨congrArg Prod.fst h, congrArg Prod.snd h⟩
  obtain ⟨r1, r2, r3⟩ := undo_step_core cur M (inverse_swap M l) l.edges0 l.edges1
    l.new_edges0 l.new_edges1 hs.1 hM he0 he1 hne hn0 hn1 hl0 hl1 hmem hu0 hu1 hf hx
  refine ⟨hu0, hu1, r1, r2, ?_⟩
  unfold undo
  exact sorter_sort_eq_of_perm _ _ (r3.trans r2.symm)

/-! ## Undoing the performed swaps of a run, last first -/

theorem undo_chain_perm (L X Y : List edge_t) (Q : List (List edge_t × SwapDescriptor))
    (h : X.Perm Y) (hc : UndoChain L X Q) : UndoChain L Y Q := by
  cases Q with
  | nil => exact h.symm.trans hc
  | cons p rest =>
    obtain ⟨cur, d⟩ := p
    exact ⟨h.symm.trans hc.1, hc.2⟩

theorem ref_run_oriented (swaps : List SwapDescriptor) :
    ∀ (cur : List edge_t), simple_state cur → oriented cur → valid_batch cur.length swaps →
      oriented (ref_run cur swaps) := by
  induction swaps with
  | nil => intro cur _ ho _; exact ho
  | cons d rest ih =>
    intro cur hs ho hv
    have hd := hv d (List.mem_cons_self _ _)
    show oriented (ref_run (ref_step cur d) rest)
    apply ih _ (ref_step_simple cur d hs hd.1 hd.2) (ref_step_oriented cur d hs ho hd.1 hd.2)
    rw [ref_step_length]
    exact fun s hs1 => hv s (List.mem_cons_of_mem _ hs1)

theorem performed_rev_append (T1 T2 : List (List edge_t × SwapDescriptor)) :
    performed_rev (T1 ++ T2) = performed_rev T2 ++ performed_rev T1 := by
  unfold performed_rev
  rw [List.filter_append, List.reverse_append]

theorem performed_rev_cons (p : List edge_t × SwapDescriptor)
    (T : List (List edge_t × SwapDescriptor)) :
    performed_rev (p :: T) =
      performed_rev T ++ (if ref_perform p.1 p.2 then [p] else []) := by
  unfold performed_rev
  cases h : ref_perform p.1 p.2
  · simp only [List.filter_cons, h, Bool.false_eq_true, if_false, List.append_nil]
  · simp only [List.filter_cons, h, if_true, List.reverse_cons]

/-- The swaps of one sub-batch extend the chain by those that are
performed. -/
theorem trace_undo_chain (L : List edge_t) (ds : List SwapDescriptor) :
    ∀ (cur : List edge_t) (Q : List (List edge_t × SwapDescriptor)), simple_state cur →
      oriented cur → valid_batch cur.length ds → UndoChain L cur Q →
      UndoChain L (ref_run cur ds) (performed_rev (ref_trace cur ds) ++ Q) := by
  induction ds with
  | nil =>
    intro cur Q _ _ _ hc
    exact hc
  | cons d rest ih =>
    intro cur Q hs ho hv hc
    have hd := hv d (List.mem_cons_self _ _)
    have hv1 : valid_batch (ref_step cur d).length rest := by
      rw [ref_step_length]
      exact fun s hs1 => hv s (List.mem_cons_of_mem _ hs1)
    show UndoChain L (ref_run (ref_step cur d) rest)
      (performed_rev ((cur, d) :: ref_trace (ref_step cur d) rest) ++ Q)
    rw [performed_rev_cons, List.append_assoc]
    apply ih _ _ (ref_step_simple cur d hs hd.1 hd.2)
      (ref_step_oriented cur d hs ho hd.1 hd.2) hv1
    by_cases hp : ref_perform cur d = true
    · rw [if_pos hp]
      exact ⟨List.Perm.refl _, hp, hs, ho, hd.1, hd.2, hc⟩
    · rw [if_neg hp, List.nil_append]
      unfold ref_step
      rw [if_neg hp]
      exact hc

/-- The reference run extends the chain by its performed swaps. -/
theorem tfp_undo_chain (L : List edge_t) (spi : Nat) :
    ∀ (fuel : Nat) (B : List SwapDescriptor) (L0 : List edge_t)
      (Q : List (List edge_t × SwapDescriptor)), simple_list L0 → oriented L0 →
      valid_batch L0.length B → UndoChain L L0 Q →
      UndoChain L (ref_tfp spi fuel L0 B).1 (performed_rev (ref_tfp spi fuel L0 B).2 ++ Q) := by
  intro fuel
  induction fuel with
  | zero =>
    intro B L0 Q _ _ _ hc
    cases B with
    | nil => exact hc
    | cons s rest => exact hc
  | succ fuel ih =>
    intro B L0 Q hs ho hv hc
    cases B with
    | nil => exact hc
    | cons s rest =>
      simp only [ref_tfp]
      rw [performed_rev_append, List.append_assoc]
      have hs0 := simple_state_of_simple_list L0 hs
      have hvt := valid_batch_take L0.length (s :: rest)
        (if spi ≠ 0 then min (rest.length + 1) spi else rest.length + 1) hv
      have hvd := valid_batch_drop L0.length (s :: rest)
        (if spi ≠ 0 then min (rest.length + 1) spi else rest.length + 1) hv
      have hsr := ref_run_simple L0 _ hs0 hvt
      have hor := ref_run_oriented _ L0 hs0 ho hvt
      have hperm := sorter_sort_perm (ref_run L0 ((s :: rest).take
        (if spi ≠ 0 then min (rest.length + 1) spi else rest.length + 1)))
      apply ih _ _ _ (simple_list_sorter_sort _ hsr) (oriented_perm _ _ hperm.symm hor)
      · rw [hperm.length_eq, ref_run_length]
        exact hvd
      · exact undo_chain_perm L _ _ _ hperm.symm (trace_undo_chain L _ L0 Q hs0 ho hvt hc)

theorem undo_chain_length (L : List edge_t) :
    ∀ (Q : List (List edge_t × SwapDescriptor)) (X : List edge_t), UndoChain L X Q →
      X.length = L.length := by
  intro Q
  induction Q with
  | nil => intro X hc; exact hc.length_eq
  | cons p rest ih =>
    intro X hc
    obtain ⟨cur, d⟩ := p
    obtain ⟨h1, _, _, _, _, _, h7⟩ := hc
    rw [h1.length_eq, ref_step_length]
    exact ih cur h7

theorem ref_tfp_one_cons (fuel : Nat) (M : List edge_t) (u : SwapDescriptor)
    (B : List SwapDescriptor) :
    ref_tfp 1 (fuel + 1) M (u :: B) =
      ((ref_tfp 1 fuel (sorter_sort (ref_step M u)) B).1,
        (M, u) :: (ref_tfp 1 fuel (sorter_sort (ref_step M u)) B).2) := by
  have hmin : min (B.length + 1) 1 = 1 := by omega
  simp only [ref_tfp, ne_eq, one_ne_zero, not_false_eq_true, if_true, hmin, List.take_succ_cons,
    List.take_zero, List.drop_succ_cons, List.drop_zero]
  rfl

/-- Run with one swap per iteration, the inverse batch of a chain performs
every swap and ends in the list the chain started from. -/
theorem undo_chain_run (L : List edge_t) (hL : simple_list L) :
    ∀ (Q : List (List edge_t × SwapDescriptor)) (M : List edge_t), simple_list M →
      UndoChain L M Q →
      valid_batch M.length (inverse_batch M (Q.map (fun p => ref_edges p.1 p.2))) ∧
      (inverse_batch M (Q.map (fun p => ref_edges p.1 p.2))).length = Q.length ∧
      (ref_tfp 1 Q.length M (inverse_batch M (Q.map (fun p => ref_edges p.1 p.2)))).1 = L ∧
      ∀ p ∈ (ref_tfp 1 Q.length M (inverse_batch M (Q.map (fun p => ref_edges p.1 p.2)))).2,
        ref_perform p.1 p.2 = true := by
  intro Q
  induction Q with
  | nil =>
    intro M hM hc
    refine ⟨fun s hs => absurd hs (List.not_mem_nil _), rfl, ?_, fun p hp =>
      absurd hp (List.not_mem_nil _)⟩
    exact List.eq_of_perm_of_sorted hc hM.1 hL.1
  | cons p rest ih =>
    intro M hM hc
    obtain ⟨cur, d⟩ := p
    obtain ⟨hperm, hp, hs, ho, h0, h1, hrest⟩ := hc
    have hMs := simple_state_of_simple_list M hM
    obtain ⟨u0, u1, uperf, uperm, uundo⟩ := undo_step cur M d hs ho h0 h1 hp hMs hperm
    have hsort := sorter_sort_perm (ref_step M (inverse_swap M (ref_edges cur d)))
    have hM1 : simple_list (undo M (ref_edges cur d)) := by
      rw [uundo]
      exact simple_list_sorter_sort _ (ref_step_simple M _ hMs u0 u1)
    have hc1 : UndoChain L (undo M (ref_edges cur d)) rest := by
      rw [uundo]
      exact undo_chain_perm L _ _ _ (hsort.trans uperm).symm hrest
    have hlen : (undo M (ref_edges cur d)).length = M.length := by
      rw [uundo, hsort.length_eq, ref_step_length]
    obtain ⟨v1, v2, v3, v4⟩ := ih _ hM1 hc1
    rw [hlen] at v1
    simp only [List.map_cons, inverse_batch, List.length_cons]
    rw [ref_tfp_one_cons, ← uundo]
    refine ⟨?_, by rw [v2], v3, ?_⟩
    · intro s hs1
      rcases List.mem_cons.mp hs1 with g | g
      · rw [g]; exact ⟨u0, u1⟩
      · exact v1 s g
    · intro q hq
      rcases List.mem_cons.mp hq with g | g
      · rw [g]; exact uperf
      · exact v4 q g

/-- The log of performed swaps of a run whose results and logged states are
those of a trace. -/
theorem performed_log_eq (st : TFPState) (T : List (List edge_t × SwapDescriptor))
    (h1 : st._result = T.map (fun p => ref_result p.1 p.2))
    (h2 : st.state_log = T.map (fun p => ref_edges p.1 p.2)) :
    performed_log st = (performed_rev T).map (fun p => ref_edges p.1 p.2) := by
  unfold performed_log performed_rev
  rw [h1, h2, List.map_reverse]
  congr 1
  clear h1 h2
  induction T with
  | nil => rfl
  | cons p rest ih =>
    simp only [List.map_cons, List.zip_cons_cons]
    cases hp : ref_perform p.1 p.2
    · simp only [List.filter_cons, ref_result_performed, hp, Bool.false_eq_true, if_false, ih]
    · simp only [List.filter_cons, ref_result_performed, hp, if_true, List.map_cons, ih]

/-! ## The round trip -/

/-- C9: for every simple edge list `L` (every edge stored smaller node
first) and every valid batch `B`, `run` with `B` returns, and `run` on its
edge list with the inverses of exactly the performed swaps, last performed
swap first, each naming the edge ids its two new edges have in the updated
list (one swap per iteration, so that the list is updated after every
inverse), returns, performs every inverse and yields `L` again. -/
theorem round_trip (L : List edge_t) (B : List SwapDescriptor) (swaps_per_iteration : Nat)
    (hs : simple_list L) (ho : oriented L) (hv : valid_batch L.length B) :
    ∃ st, run L B swaps_per_iteration = some st ∧
      valid_batch st._edges.length (inverse_batch st._edges (performed_log st)) ∧
      (inverse_batch st._edges (performed_log st)).length =
        (st._result.filter (fun r => r.performed)).length ∧
      ∃ st1, run st._edges (inverse_batch st._edges (performed_log st)) 1 = some st1 ∧
        st1._edges = L ∧ ∀ r ∈ st1._result, r.performed = true := by
  obtain ⟨st, r1, r2, r3, r4⟩ := run_spec L B swaps_per_iteration hs hv
  have chain := tfp_undo_chain L swaps_per_iteration B.length B L [] hs ho hv
    (List.Perm.refl L)
  rw [List.append_nil] at chain
  have hL1 := ref_tfp_simple swaps_per_iteration B.length B L hs hv
  have hlog := performed_log_eq st _ r3 r4
  obtain ⟨v1, v2, v3, v4⟩ := undo_chain_run L hs _ _ hL1 chain
  rw [← r2, ← hlog] at v1 v2 v3 v4
  have hcount : (performed_rev (ref_tfp swaps_per_iteration B.length L B).2).length =
      (st._result.filter (fun r => r.performed)).length := by
    rw [r3]
    unfold performed_rev
    rw [List.length_reverse]
    generalize (ref_tfp swaps_per_iteration B.length L B).2 = T
    induction T with
    | nil => rfl
    | cons p rest ih =>
      cases hp : ref_perform p.1 p.2
      · simp only [List.map_cons, List.filter_cons, ref_result_performed, hp,
          Bool.false_eq_true, if_false, ih]
      · simp only [List.map_cons, List.filter_cons, ref_result_performed, hp, if_true,
          List.length_cons, ih]
  refine ⟨st, r1, v1, v2.trans hcount, ?_⟩
  rw [← r2] at hL1
  obtain ⟨st1, q1, q2, q3, _⟩ := run_spec st._edges
    (inverse_batch st._edges (performed_log st)) 1 hL1 v1
  rw [v2] at q2 q3
  refine ⟨st1, q1, q2.trans v3, ?_⟩
  intro r hr
  rw [q3] at hr
  obtain ⟨p, hp, hpr⟩ := List.mem_map.mp hr
  rw [← hpr, ref_result_performed]
  exact v4 p hp

/-- Witness of C9 on the edges `(0,1), (2,3)` and the swap `{0,1,false}`. -/
theorem round_trip_witness :
    simple_list [⟨0, 1⟩, ⟨2, 3⟩] ∧ oriented [⟨0, 1⟩, ⟨2, 3⟩] ∧
    valid_batch ([⟨0, 1⟩, ⟨2, 3⟩] : List edge_t).length [⟨0, 1, false⟩] ∧
    ∃ st, run [⟨0, 1⟩, ⟨2, 3⟩] [⟨0, 1, false⟩] 0 = some st ∧
      valid_batch st._edges.length (inverse_batch st._edges (performed_log st)) ∧
      (inverse_batch st._edges (performed_log st)).length =
        (st._result.filter (fun r => r.performed)).length ∧
      ∃ st1, run st._edges (inverse_batch st._edges (performed_log st)) 1 = some st1 ∧
        st1._edges = [⟨0, 1⟩, ⟨2, 3⟩] ∧ ∀ r ∈ st1._result, r.performed = true :=
  ⟨by decide, by decide, by decide,
   round_trip [⟨0, 1⟩, ⟨2, 3⟩] [⟨0, 1, false⟩] 0 (by decide) (by decide) (by decide)⟩

/-! ## The `double` arithmetic of `_highDegreeShiftBound` -/

theorem round_even_intCast (z : ℤ) : round_even (z : ℚ) = z := by
  unfold round_even
  simp only [Int.floor_intCast, sub_self]
  rw [if_pos (by norm_num)]

theorem le_round_even (z : ℤ) (q : ℚ) (h : (z : ℚ) ≤ q) : z ≤ round_even q := by
  have hf : z ≤ ⌊q⌋ := Int.le_floor.mpr h
  unfold round_even
  simp only
  split_ifs <;> omega

theorem round_even_lt (z : ℤ) (q : ℚ) (h : q < (z : ℚ) - 1 / 2) : round_even q < z := by
  have hf : (⌊q⌋ : ℚ) ≤ q := Int.floor_le q
  have hfz : ⌊q⌋ < z := by
    have : (⌊q⌋ : ℚ) < (z : ℚ) := by linarith
    exact_mod_cast this
  unfold round_even
  simp only
  split_ifs with h1 h2 h3
  · exact hfz
  · have : (⌊q⌋ : ℚ) + 1 < (z : ℚ) + 1 / 2 := by linarith
    have h4 : (⌊q⌋ : ℚ) + 1 ≤ (z : ℚ) := by
      have : ⌊q⌋ + 1 ≤ z := by omega
      exact_mod_cast this
    by_contra hc
    have h5 : z ≤ ⌊q⌋ + 1 := by omega
    have h6 : (z : ℚ) ≤ (⌊q⌋ : ℚ) + 1 := by exact_mod_cast h5
    have h7 : (z : ℚ) = (⌊q⌋ : ℚ) + 1 := le_antisymm h6 h4
    linarith
  · exact hfz
  · have h4 : q - (⌊q⌋ : ℚ) = 1 / 2 := le_antisymm (not_lt.mp h2) (not_lt.mp h1)
    by_contra hc
    have h5 : z ≤ ⌊q⌋ + 1 := by omega
    have h6 : (z : ℚ) ≤ (⌊q⌋ : ℚ) + 1 := by exact_mod_cast h5
    linarith

/-- A value that is an integer multiple of the unit in its last place is a
`double`. -/
theorem round_double_exact (q : ℚ) (M : ℤ) (hM : q * (2 : ℚ) ^ (52 - Int.log 2 |q|) = M) :
    round_double q = q := by
  unfold round_double
  split
  · rename_i h0
    exact h0.symm
  · rw [hM, round_even_intCast, ← hM, mul_assoc, ← zpow_add₀ (by norm_num : (2 : ℚ) ≠ 0)]
    have : 52 - Int.log 2 |q| + (Int.log 2 |q| - 52) = 0 := by ring
    rw [this, zpow_zero, mul_one]

theorem two_zpow_natCast (j : ℕ) : (2 : ℚ) ^ (j : ℤ) = (((2 : ℤ) ^ j : ℤ) : ℚ) := by
  rw [zpow_natCast]
  push_cast
  rfl

/-- Every integer below `2^53` in absolute value is a `double`. -/
theorem round_double_intCast (k : ℤ) (hk : |k| < 2 ^ 53) : round_double (k : ℚ) = k := by
  by_cases h0 : k = 0
  · rw [h0]
    simp [round_double]
  · have hpos : (0 : ℚ) < |(k : ℚ)| := abs_pos.mpr (by exact_mod_cast h0)
    have hlt : |(k : ℚ)| < ((2 : ℕ) : ℚ) ^ (53 : ℤ) := by
      have : ((|k| : ℤ) : ℚ) < ((2 ^ 53 : ℤ) : ℚ) := by exact_mod_cast hk
      rw [Int.cast_abs] at this
      norm_num at this ⊢
      exact this
    have hlog : Int.log 2 |(k : ℚ)| < 53 :=
      (Int.lt_zpow_iff_log_lt (by norm_num) hpos).mp hlt
    obtain ⟨j, hj⟩ := Int.eq_ofNat_of_zero_le (show 0 ≤ 52 - Int.log 2 |(k : ℚ)| by omega)
    apply round_double_exact (k : ℚ) (k * 2 ^ j)
    rw [hj, two_zpow_natCast]
    push_cast
    rfl

/-- The rounded quotient of two integers up to `2^36` has the floor of the
exact quotient, and subtracting `1` from it is exact. -/
theorem round_double_quot (x n k : ℕ) (hn : 0 < n) (hx : x ≤ 2 ^ 36) (hk : 2 ≤ k)
    (hkx : x / n = k) :
    (k : ℚ) ≤ round_double ((x : ℚ) / n) ∧
    round_double ((x : ℚ) / n) < (k : ℚ) + 1 ∧
    round_double (round_double ((x : ℚ) / n) - 1) = round_double ((x : ℚ) / n) - 1 := by
  have hnq : (0 : ℚ) < (n : ℚ) := by exact_mod_cast hn
  have hkq : (k : ℚ) ≤ (x : ℚ) / n := by
    rw [le_div_iff₀ hnq]
    have : k * n ≤ x := by rw [← hkx]; exact Nat.div_mul_le_self x n
    exact_mod_cast this
  have hk1 : (x : ℚ) / n + 1 / n ≤ (k : ℚ) + 1 := by
    have h1 : x + 1 ≤ (k + 1) * n := by
      have h2 : x < x / n * n + n := Nat.lt_div_mul_add hn
      rw [hkx] at h2
      have h3 : (k + 1) * n = k * n + n := by ring
      omega
    have h2 : (x : ℚ) + 1 ≤ ((k : ℚ) + 1) * n := by exact_mod_cast h1
    rw [← add_div, div_le_iff₀ hnq]
    exact h2
  have hxq : (x : ℚ) ≤ 2 ^ 36 := by exact_mod_cast hx
  have hqle : (x : ℚ) / n ≤ 2 ^ 36 :=
    le_trans (div_le_self (by positivity) (by exact_mod_cast hn)) hxq
  have hqn : (x : ℚ) / n * n = x := div_mul_cancel₀ _ (ne_of_gt hnq)
  obtain ⟨q, hq⟩ : ∃ q : ℚ, q = (x : ℚ) / n := ⟨_, rfl⟩
  rw [← hq] at hkq hk1 hqle hqn ⊢
  clear hq
  have hk2 : (2 : ℚ) ≤ (k : ℚ) := by exact_mod_cast hk
  have hq2 : (2 : ℚ) ≤ q := le_trans hk2 hkq
  have hqpos : (0 : ℚ) < q := by linarith
  have habs : |q| = q := abs_of_pos hqpos
  have two : ((2 : ℕ) : ℚ) = 2 := by norm_num
  -- the exponent
  have he1 : 1 ≤ Int.log 2 q := by
    apply (Int.zpow_le_iff_le_log (by norm_num) hqpos).mp
    rw [two, zpow_one]
    exact hq2
  have hE := Int.zpow_log_le_self (by norm_num : 1 < 2) hqpos
  have hE2 := Int.lt_zpow_succ_log_self (by norm_num : 1 < 2) q
  rw [two] at hE hE2
  have he36 : Int.log 2 q < 37 := by
    apply (Int.lt_zpow_iff_log_lt (by norm_num) hqpos).mp
    rw [two]
    have : (2 : ℚ) ^ (37 : ℤ) = 2 ^ 37 := by norm_num
    rw [this]
    have : (2 : ℚ) ^ 36 < 2 ^ 37 := by norm_num
    linarith
  obtain ⟨j, hj⟩ := Int.eq_ofNat_of_zero_le (show 0 ≤ 52 - Int.log 2 q by omega)
  have hlogj : Int.log 2 q = 52 - (j : ℤ) := by omega
  rw [hlogj] at hE hE2
  have hP : (2 : ℚ) ^ (52 - (j : ℤ)) * 2 ^ j = 2 ^ 52 := by
    rw [← zpow_natCast, ← zpow_add₀ (by norm_num : (2 : ℚ) ≠ 0)]
    have : 52 - (j : ℤ) + (j : ℤ) = 52 := by ring
    rw [this]
    norm_num
  have hPpos : (0 : ℚ) < (2 : ℚ) ^ j := by positivity
  have hEpos : (0 : ℚ) < (2 : ℚ) ^ (52 - (j : ℤ)) := by positivity
  have hval : round_double q = (round_even (q * (2 : ℚ) ^ j) : ℚ) / (2 : ℚ) ^ j := by
    unfold round_double
    rw [if_neg (ne_of_gt hqpos), habs, hlogj]
    have h1 : 52 - (52 - (j : ℤ)) = (j : ℤ) := by ring
    have h2 : 52 - (j : ℤ) - 52 = -(j : ℤ) := by ring
    rw [h1, h2, zpow_neg, zpow_natCast, div_eq_mul_inv]
  have hlow : ((k : ℤ) * 2 ^ j : ℤ) ≤ round_even (q * (2 : ℚ) ^ j) := by
    apply le_round_even
    push_cast
    exact mul_le_mul_of_nonneg_right hkq (le_of_lt hPpos)
  have hupp : round_even (q * (2 : ℚ) ^ j) < (((k : ℤ) + 1) * 2 ^ j : ℤ) := by
    apply round_even_lt
    push_cast
    have hgap : (2 : ℚ) ^ j / n ≤ ((k : ℚ) + 1) * 2 ^ j - q * 2 ^ j := by
      have : (1 : ℚ) / n ≤ (k : ℚ) + 1 - q := by linarith
      have h3 := mul_le_mul_of_nonneg_right this (le_of_lt hPpos)
      calc (2 : ℚ) ^ j / n = 1 / n * 2 ^ j := by ring
        _ ≤ ((k : ℚ) + 1 - q) * 2 ^ j := h3
        _ = _ := by ring
    have hhalf : (1 : ℚ) / 2 < (2 : ℚ) ^ j / n := by
      rw [lt_div_iff₀ hnq]
      have hn1 : (1 : ℚ) ≤ (n : ℚ) := by exact_mod_cast hn
      have h4 : (2 : ℚ) ^ (52 - (j : ℤ)) * n ≤ 2 ^ 36 * n := by
        have : (2 : ℚ) ^ (52 - (j : ℤ)) ≤ 2 ^ 36 := le_trans hE hqle
        exact mul_le_mul_of_nonneg_right this (le_of_lt hnq)
      have h4b : q * n ≤ 2 ^ 36 := by rw [hqn]; exact hxq
      have h4c : (2 : ℚ) ^ (52 - (j : ℤ)) * n ≤ q * n :=
        mul_le_mul_of_nonneg_right hE (le_of_lt hnq)
      have h5 : (2 : ℚ) ^ (52 - (j : ℤ)) * n < (2 : ℚ) ^ (52 - (j : ℤ)) * (2 * 2 ^ j) := by
        have : (2 : ℚ) ^ (52 - (j : ℤ)) * (2 * 2 ^ j) = 2 * 2 ^ 52 := by
          rw [← hP]; ring
        rw [this]
        have : (2 : ℚ) ^ 36 < 2 * 2 ^ 52 := by norm_num
        linarith
      have h6 := lt_of_mul_lt_mul_left h5 (le_of_lt hEpos)
      linarith
    linarith
  have hlowq : (k : ℚ) ≤ round_double q := by
    rw [hval, le_div_iff₀ hPpos]
    have : (((k : ℤ) * 2 ^ j : ℤ) : ℚ) ≤ (round_even (q * (2 : ℚ) ^ j) : ℚ) := by
      exact_mod_cast hlow
    push_cast at this
    exact this
  have huppq : round_double q < (k : ℚ) + 1 := by
    rw [hval, div_lt_iff₀ hPpos]
    have : (round_even (q * (2 : ℚ) ^ j) : ℚ) < ((((k : ℤ) + 1) * 2 ^ j : ℤ) : ℚ) := by
      exact_mod_cast hupp
    push_cast at this
    exact this
  refine ⟨hlowq, huppq, ?_⟩
  -- the subtraction is exact
  have hd1 : (1 : ℚ) ≤ round_double q - 1 := by linarith
  have hdpos : (0 : ℚ) < round_double q - 1 := by linarith
  have hdabs : |round_double q - 1| = round_double q - 1 := abs_of_pos hdpos
  have hlog2 : Int.log 2 (round_double q - 1) < 52 - (j : ℤ) + 1 := by
    apply (Int.lt_zpow_iff_log_lt (by norm_num) hdpos).mp
    rw [two]
    linarith
  have hlog0 : 0 ≤ Int.log 2 (round_double q - 1) := by
    apply (Int.zpow_le_iff_le_log (by norm_num) hdpos).mp
    rw [two, zpow_zero]
    exact hd1
  obtain ⟨s, hs⟩ := Int.eq_ofNat_of_zero_le
    (show 0 ≤ 52 - Int.log 2 (round_double q - 1) by omega)
  obtain ⟨t, ht⟩ : ∃ t : ℕ, s = t + j := ⟨s - j, by omega⟩
  apply round_double_exact _ (round_even (q * (2 : ℚ) ^ j) * 2 ^ t - 2 ^ s)
  rw [hdabs, hs, zpow_natCast, hval, ht, pow_add]
  push_cast
  field_simp
  ring

theorem round_double_natCast (k : ℕ) (hk : k < 2 ^ 53) : round_double (k : ℚ) = k := by
  have h := round_double_intCast (k : ℤ) (by rw [abs_of_nonneg (by positivity)]; exact_mod_cast hk)
  rw [Int.cast_natCast] at h
  exact h

/-- Under the premises of the widening the `double` computation of
`_highDegreeShiftBound` returns the bound `H` of the spec. -/
theorem shift_bound_computed (ub n : ℕ) (hub : ub < 2 ^ 36) (hn : 1 ≤ n)
    (hH : 1 ≤ spec_shift_bound ub n) :
    _highDegreeShiftBound ub n = some (spec_shift_bound ub n).toNat := by
  obtain ⟨x, hx⟩ : ∃ x : ℕ, x = 2 ^ 36 - ub := ⟨_, rfl⟩
  obtain ⟨k, hk⟩ : ∃ k : ℕ, x / n = k := ⟨_, rfl⟩
  have hxz : ((2 : ℤ) ^ 36 - (ub : ℤ)) = (x : ℤ) := by
    have : (x : ℤ) + (ub : ℤ) = 2 ^ 36 := by
      have h1 : x + ub = 2 ^ 36 := by omega
      exact_mod_cast h1
    linarith
  have hspec : spec_shift_bound ub n = (k : ℤ) - 1 := by
    unfold spec_shift_bound
    rw [hxz, ← hk]
    norm_cast
  rw [hspec] at hH ⊢
  have hk2 : 2 ≤ k := by omega
  have hx36 : x ≤ 2 ^ 36 := by omega
  have hnx : n ≤ x := by
    by_contra hc
    have : x / n = 0 := Nat.div_eq_of_lt (by omega)
    omega
  have hxq : ((2 : ℚ) ^ 36 - (ub : ℚ)) = (x : ℚ) := by
    have : ((((2 : ℤ) ^ 36 - (ub : ℤ)) : ℤ) : ℚ) = ((x : ℤ) : ℚ) := by rw [hxz]
    push_cast at this
    exact this
  obtain ⟨q1, q2, q3⟩ := round_double_quot x n k (by omega) hx36 hk2 hk
  have hk1q : ((k : ℤ) - 1 : ℤ) ≤ round_double ((x : ℚ) / n) - 1 := by
    push_cast
    linarith
  unfold _highDegreeShiftBound
  rw [if_neg (by omega)]
  simp only
  rw [round_double_natCast ub (by omega), hxq,
    round_double_natCast x (lt_of_le_of_lt hx36 (by norm_num)),
    round_double_natCast n (lt_of_le_of_lt (le_trans hnx hx36) (by norm_num)), q3]
  have hkq : (2 : ℚ) ≤ (k : ℚ) := by exact_mod_cast hk2
  have hk36 : (k : ℚ) ≤ 2 ^ 36 := by
    have : k ≤ 2 ^ 36 := by
      rw [← hk]
      exact le_trans (Nat.div_le_self x n) hx36
    exact_mod_cast this
  rw [if_neg]
  · congr 1
    have hfloor : ⌊round_double ((x : ℚ) / n) - 1⌋ = (k : ℤ) - 1 := by
      rw [Int.floor_eq_iff]
      push_cast
      constructor
      · linarith
      · linarith
    rw [hfloor]
  · rintro (h | h)
    · linarith
    · have : (2 : ℚ) ^ 36 < 2 ^ 64 := by norm_num
      linarith

/-! ## The key of a half-edge record and the sentinels of the comparator -/

theorem mul_pow_lor (m b i : Nat) (hb : b < 2 ^ i) : (m * 2 ^ i) ||| b = m * 2 ^ i + b := by
  rw [Nat.mul_comm, ← Nat.mul_add_lt_is_or hb]

theorem shift_mod_64 (r : Nat) : (r <<< 36) % 2 ^ 64 = (r % 2 ^ 28) * 2 ^ 36 := by
  rw [Nat.shiftLeft_eq]
  have : (2 : Nat) ^ 64 = 2 ^ 28 * 2 ^ 36 := by norm_num
  rw [this, Nat.mul_mod_mul_right]

theorem testBit_high_mask : ∀ i < 28, Nat.testBit 0xFFFFFFF000000000 (36 + i) = true := by
  decide

/-- The key of a record built from the first endpoint: bits 36..63 of the
random word. -/
theorem key_first_record (r a : Nat) (hr : r < 2 ^ 64) (ha : a < 2 ^ 36) :
    (MultiNodeMsg.mk ((r &&& 0xFFFFFFF000000000) ||| a)).key = r >>> 36 := by
  unfold MultiNodeMsg.key
  simp only
  apply Nat.eq_of_testBit_eq
  intro i
  rw [Nat.testBit_shiftRight, Nat.testBit_shiftRight, Nat.testBit_or, Nat.testBit_and]
  have h1 : a.testBit (36 + i) = false :=
    Nat.testBit_lt_two_pow (lt_of_lt_of_le ha (Nat.pow_le_pow_right (by norm_num) (by omega)))
  rw [h1, Bool.or_false]
  by_cases hi : i < 28
  · rw [testBit_high_mask i hi, Bool.and_true]
  · have h2 : r.testBit (36 + i) = false :=
      Nat.testBit_lt_two_pow (lt_of_lt_of_le hr (Nat.pow_le_pow_right (by norm_num) (by omega)))
    rw [h2, Bool.false_and]

/-- The key of a record built from the second endpoint: bits 0..27 of the
random word. -/
theorem key_second_record (r b : Nat) (hb : b < 2 ^ 36) :
    (MultiNodeMsg.mk (((r <<< 36) % 2 ^ 64) ||| b)).key = r % 2 ^ 28 := by
  unfold MultiNodeMsg.key
  simp only
  rw [shift_mod_64, mul_pow_lor _ _ _ hb, Nat.shiftRight_eq_div_pow]
  have h : 0 < 2 ^ 36 := by norm_num
  rw [Nat.add_comm, Nat.add_mul_div_right _ _ h, Nat.div_eq_of_lt hb, Nat.zero_add]

theorem msb_lsb_of_word (s l : Nat) (hs : s < 2 ^ 32) (hl : l < 2 ^ 32) :
    (MultiNodeMsg.mk (((s <<< 32) % 2 ^ 64) ||| l)).msb = s ∧
    (MultiNodeMsg.mk (((s <<< 32) % 2 ^ 64) ||| l)).lsb = l := by
  have h1 : (s <<< 32) % 2 ^ 64 = s * 2 ^ 32 := by
    rw [Nat.shiftLeft_eq]
    apply Nat.mod_eq_of_lt
    have : s * 2 ^ 32 < 2 ^ 32 * 2 ^ 32 := Nat.mul_lt_mul_of_pos_right hs (by norm_num)
    calc s * 2 ^ 32 < 2 ^ 32 * 2 ^ 32 := this
      _ = 2 ^ 64 := by norm_num
  unfold MultiNodeMsg.msb MultiNodeMsg.lsb
  simp only
  rw [h1, mul_pow_lor _ _ _ hl, Nat.shiftRight_eq_div_pow]
  have h : 0 < 2 ^ 32 := by norm_num
  constructor
  · rw [Nat.add_comm, Nat.add_mul_div_right _ _ h, Nat.div_eq_of_lt hl, Nat.zero_add,
      Nat.mod_eq_of_lt hs]
  · rw [Nat.add_comm, Nat.add_mul_mod_self_right, Nat.mod_eq_of_lt hl]

/-- Every hash is a 64-bit word. -/
theorem hash_lt (crc32_u32 : Nat → Nat → Nat) (seed : Nat) (x : MultiNodeMsg) :
    x.hash crc32_u32 seed < 2 ^ 64 := by
  unfold MultiNodeMsg.hash crc64 reverse
  simp only
  apply Nat.or_lt_two_pow
  · exact Nat.mod_lt _ (by norm_num)
  · exact lt_of_lt_of_le (Nat.mod_lt _ (by norm_num)) (by norm_num)

theorem crc32c_zero : crc32c_bits 32 0 = 0 := by decide

theorem crc32c_forward : crc32c_bits 32 MAX_CRCFORWARD = 0xFFFFFFFF := by decide

theorem crc32c_max_lsb : crc32c_u32 0xFFFFFFFF MAX_LSB = 0xFFFFFFFF := by decide

/-- The hash of `min_value()` under its own seed. -/
theorem hash_min_value (seed : Nat) (hseed : seed < 2 ^ 32) :
    (MultiNodeMsgComparator.min_value seed).hash crc32c_u32 seed = 0 := by
  have hw : MultiNodeMsgComparator.min_value seed =
      MultiNodeMsg.mk (((seed <<< 32) % 2 ^ 64) ||| 0) := by
    unfold MultiNodeMsgComparator.min_value _setLimits MIN_LSB
    simp only
    rw [Nat.mod_eq_of_lt hseed]
  obtain ⟨h1, h2⟩ := msb_lsb_of_word seed 0 hseed (by norm_num)
  rw [hw]
  unfold MultiNodeMsg.hash crc64 reverse
  simp only
  rw [h1, h2]
  have h3 : crc32c_u32 seed seed = 0 := by
    unfold crc32c_u32
    rw [Nat.xor_self]
    exact crc32c_zero
  rw [h3]
  decide

/-- The hash of `max_value()` under its own seed. -/
theorem hash_max_value (seed : Nat) (hseed : seed < 2 ^ 32) :
    (MultiNodeMsgComparator.max_value seed).hash crc32c_u32 seed = 2 ^ 64 - 1 := by
  have hx : MAX_CRCFORWARD ^^^ seed < 2 ^ 32 :=
    Nat.xor_lt_two_pow (by decide) hseed
  have hw : MultiNodeMsgComparator.max_value seed =
      MultiNodeMsg.mk ((((MAX_CRCFORWARD ^^^ seed) <<< 32) % 2 ^ 64) ||| MAX_LSB) := by
    unfold MultiNodeMsgComparator.max_value _setLimits
    simp only
    rw [Nat.mod_eq_of_lt hseed, Nat.mod_eq_of_lt hx]
  obtain ⟨h1, h2⟩ := msb_lsb_of_word (MAX_CRCFORWARD ^^^ seed) MAX_LSB hx (by decide)
  rw [hw]
  unfold MultiNodeMsg.hash crc64 reverse
  simp only
  rw [h1, h2]
  have h3 : crc32c_u32 seed (MAX_CRCFORWARD ^^^ seed) = 0xFFFFFFFF := by
    unfold crc32c_u32
    rw [Nat.mod_eq_of_lt hseed, Nat.mod_eq_of_lt hx, Nat.xor_comm MAX_CRCFORWARD seed,
      ← Nat.xor_assoc, Nat.xor_self, Nat.zero_xor]
    exact crc32c_forward
  rw [h3]
  have h4 : (0xFFFFFFFF : Nat) % 2 ^ 32 = 0xFFFFFFFF := by decide
  rw [h4, crc32c_max_lsb]
  decide

/-! ## Properties of the half-edge records -/

/-- C21: for every 64-bit random word `r = dis64(gen64)` and every edge
`(a,b)` with `a, b < 2^36` the second loop of `_generateMultiNodes` pushes the
two records `(r & 0xFFFFFFF000000000) | a` and `(r << 36) | b`; `node()` of
the first is `a` and of the second is `b`; the key (bits 36..63) of the first
is bits 36..63 of `r` and the key of the second is bits 0..27 of `r`, two
disjoint slices of `r` (with bits 28..35 in between). -/
theorem half_edge_records (rnd : RandomDraws) (i a b : Nat) (hr : rnd.dis64 i < 2 ^ 64)
    (ha : a < 2 ^ 36) (hb : b < 2 ^ 36) :
    ∃ m1 m2, plain_loop rnd [⟨a, b⟩] i [] = [m1, m2] ∧
      m1._eid_node = (rnd.dis64 i &&& 0xFFFFFFF000000000) ||| a ∧
      m2._eid_node = ((rnd.dis64 i <<< 36) % 2 ^ 64) ||| b ∧
      m1.node = a ∧ m2.node = b ∧
      m1.key = rnd.dis64 i >>> 36 ∧ m2.key = rnd.dis64 i % 2 ^ 28 ∧
      rnd.dis64 i = m1.key * 2 ^ 36 + (rnd.dis64 i / 2 ^ 28 % 2 ^ 8) * 2 ^ 28 + m2.key := by
  have h64a : a % 2 ^ 64 = a := Nat.mod_eq_of_lt (lt_trans ha (by norm_num))
  have h64b : b % 2 ^ 64 = b := Nat.mod_eq_of_lt (lt_trans hb (by norm_num))
  have hk1 := key_first_record (rnd.dis64 i) a hr ha
  have hk2 := key_second_record (rnd.dis64 i) b hb
  refine ⟨⟨(rnd.dis64 i &&& 0xFFFFFFF000000000) ||| a⟩,
    ⟨((rnd.dis64 i <<< 36) % 2 ^ 64) ||| b⟩, ?_, rfl, rfl, ?_, ?_, hk1, hk2, ?_⟩
  · simp only [plain_loop, List.nil_append, Nat.mod_eq_of_lt hr, h64a, h64b]
  · rw [node_first_record, Nat.mod_eq_of_lt ha]
  · rw [node_second_record, Nat.mod_eq_of_lt hb]
  · rw [hk1, hk2, Nat.shiftRight_eq_div_pow]
    omega

/-- Witness of C21 with the random word `2^63 + 5` and the edge `(3,4)`. -/
theorem half_edge_records_witness :
    ∃ m1 m2, plain_loop ⟨fun _ => 2 ^ 63 + 5, fun _ => 1⟩ [⟨3, 4⟩] 0 [] = [m1, m2] ∧
      m1._eid_node = ((2 ^ 63 + 5) &&& 0xFFFFFFF000000000) ||| 3 ∧
      m2._eid_node = (((2 ^ 63 + 5) <<< 36) % 2 ^ 64) ||| 4 ∧
      m1.node = 3 ∧ m2.node = 4 ∧
      m1.key = (2 ^ 63 + 5) >>> 36 ∧ m2.key = (2 ^ 63 + 5) % 2 ^ 28 ∧
      2 ^ 63 + 5 = m1.key * 2 ^ 36 + ((2 ^ 63 + 5) / 2 ^ 28 % 2 ^ 8) * 2 ^ 28 + m2.key :=
  half_edge_records ⟨fun _ => 2 ^ 63 + 5, fun _ => 1⟩ 0 3 4 (by decide) (by decide) (by decide)

/-- C22: for `node_upperbound < 2^36`, `n = nodes_above_threshold ≥ 1` with
`H = ⌊(2^36 - node_upperbound) / n⌋ - 1 ≥ 1`, every shift `s` in `[1, H]` and
every `a < n`: the widened id `node_upperbound + s * n + a`, which the code
computes without wrapping, is at least `node_upperbound + n` and below
`2^36`; a record made of it keeps the key bits of the random word and
`node()` returns the id; `a` is `(id - node_upperbound) mod n`; and
`_highDegreeShiftBound` returns `H`. -/
theorem widened_id_bounds (ub n s a : Nat) (hub : ub < 2 ^ 36) (hn : 1 ≤ n)
    (hH : 1 ≤ spec_shift_bound ub n) (hs1 : 1 ≤ s) (hs2 : (s : Int) ≤ spec_shift_bound ub n)
    (ha : a < n) :
    (ub + (s % 2 ^ 64) * n + a % 2 ^ 64) % 2 ^ 64 = ub + s * n + a ∧
    ub + n ≤ ub + s * n + a ∧ ub + s * n + a < 2 ^ 36 ∧
    (∀ r, r < 2 ^ 64 →
      (MultiNodeMsg.mk ((r &&& 0xFFFFFFF000000000) ||| (ub + s * n + a))).node =
        ub + s * n + a ∧
      (MultiNodeMsg.mk ((r &&& 0xFFFFFFF000000000) ||| (ub + s * n + a))).key = r >>> 36) ∧
    (ub + s * n + a - ub) % n = a ∧
    _highDegreeShiftBound ub n = some (spec_shift_bound ub n).toNat := by
  obtain ⟨v1, v2⟩ := virtual_id_spec ub n s a hs2 (by omega) ha
  have hlt : ub + s * n + a < 2 ^ 36 := by
    rw [← v1]
    exact Nat.mod_lt _ (by norm_num)
  have hge : ub + n ≤ ub + s * n + a := by
    have : n ≤ s * n := Nat.le_mul_of_pos_left n (by omega)
    omega
  have hwrap : (ub + (s % 2 ^ 64) * n + a % 2 ^ 64) % 2 ^ 64 = ub + s * n + a := by
    have hs64 : s < 2 ^ 64 := by
      have : s ≤ s * n := Nat.le_mul_of_pos_right s (by omega)
      have : (2 : Nat) ^ 36 < 2 ^ 64 := by norm_num
      omega
    have h36 : (2 : Nat) ^ 36 < 2 ^ 64 := by norm_num
    rw [Nat.mod_eq_of_lt hs64, Nat.mod_eq_of_lt (show a < 2 ^ 64 by omega),
      Nat.mod_eq_of_lt (show ub + s * n + a < 2 ^ 64 by omega)]
  refine ⟨hwrap, hge, hlt, ?_, ?_, shift_bound_computed ub n hub hn hH⟩
  · intro r hr
    constructor
    · rw [node_first_record, Nat.mod_eq_of_lt hlt]
    · exact key_first_record r _ hr hlt
  · unfold real_id at v2
    rw [if_neg (by omega)] at v2
    exact v2

/-- Witness of C22 with `node_upperbound = 10`, `n = 3`, shift `2` and
`a = 1`. -/
theorem widened_id_bounds_witness :
    (10 + (2 % 2 ^ 64) * 3 + 1 % 2 ^ 64) % 2 ^ 64 = 10 + 2 * 3 + 1 ∧
    10 + 3 ≤ 10 + 2 * 3 + 1 ∧ 10 + 2 * 3 + 1 < 2 ^ 36 ∧
    (∀ r, r < 2 ^ 64 →
      (MultiNodeMsg.mk ((r &&& 0xFFFFFFF000000000) ||| (10 + 2 * 3 + 1))).node =
        10 + 2 * 3 + 1 ∧
      (MultiNodeMsg.mk ((r &&& 0xFFFFFFF000000000) ||| (10 + 2 * 3 + 1))).key = r >>> 36) ∧
    (10 + 2 * 3 + 1 - 10) % 3 = 1 ∧
    _highDegreeShiftBound 10 3 = some (spec_shift_bound 10 3).toNat :=
  widened_id_bounds 10 3 2 1 (by decide) (by decide) (by decide) (by decide) (by decide)
    (by decide)

/-- C23: for every 32-bit seed, with `crc64` built from the CRC-32C step,
the hash of `min_value()` is `0` and the hash of `max_value()` is
`2^64 - 1`; hence for every record `x` the comparator gives
`comp(x, min_value) = false` and `comp(max_value, x) = false`. -/
theorem sentinels_extremal (seed : Nat) (hseed : seed < 2 ^ 32) :
    (MultiNodeMsgComparator.min_value seed).hash crc32c_u32 seed = 0 ∧
    (MultiNodeMsgComparator.max_value seed).hash crc32c_u32 seed = 2 ^ 64 - 1 ∧
    ∀ x : MultiNodeMsg,
      MultiNodeMsgComparator crc32c_u32 seed x (MultiNodeMsgComparator.min_value seed) = false ∧
      MultiNodeMsgComparator crc32c_u32 seed (MultiNodeMsgComparator.max_value seed) x = false := by
  have hmin := hash_min_value seed hseed
  have hmax := hash_max_value seed hseed
  refine ⟨hmin, hmax, ?_⟩
  intro x
  have hx := hash_lt crc32c_u32 seed x
  unfold MultiNodeMsgComparator
  rw [hmin, hmax]
  constructor
  · exact decide_eq_false (Nat.not_lt_zero _)
  · exact decide_eq_false (by omega)

/-- Witness of C23 with the seed `1`. -/
theorem sentinels_extremal_witness :
    (MultiNodeMsgComparator.min_value 1).hash crc32c_u32 1 = 0 ∧
    (MultiNodeMsgComparator.max_value 1).hash crc32c_u32 1 = 2 ^ 64 - 1 ∧
    ∀ x : MultiNodeMsg,
      MultiNodeMsgComparator crc32c_u32 1 x (MultiNodeMsgComparator.min_value 1) = false ∧
      MultiNodeMsgComparator crc32c_u32 1 (MultiNodeMsgComparator.max_value 1) x = false :=
  sentinels_extremal 1 (by decide)

/-! ## Pass A: the mask, the range of the edge ids and the number of messages -/

theorem mask_step (edges : List edge_t) (done : List (Nat ×ₗ Nat)) (st : DepChainState)
    (e s : Nat) (hinv : MaskInv edges done st) (hle : ∀ q ∈ done, (ofLex q).1 ≤ e)
    (hp : e < edges.length) :
    ∃ st1, depchain_step st e s = some st1 ∧ MaskInv edges (done ++ [toLex (e, s)]) st1 := by
  by_cases hcase : st.eid ≤ e
  · have hskip := skip_edges_spec edges (e - st.eid) st hinv.reader (by omega)
    have heq : st.eid + (e - st.eid) = e := by omega
    rw [heq] at hskip
    have hdrop : edges.drop e = edges[e] :: edges.drop (e + 1) := List.drop_eq_getElem_cons hp
    have hdone_lt : ∀ q ∈ done, (ofLex q).1 < e :=
      fun q hq => lt_of_lt_of_le (hinv.done_lt q hq) hcase
    have hstep : depchain_step st e s = some
        { eid := e + 1, edge_reader := edges.drop (e + 1), last_swap := s,
          edge_remains_valid :=
            st.edge_remains_valid ++ List.replicate (e - st.eid) true ++ [false],
          _depchain_edge_sorter := st._depchain_edge_sorter ++ [⟨s, e, edges[e]⟩],
          _depchain_successor_sorter := st._depchain_successor_sorter } := by
      simp only [depchain_step, hskip, hdrop, if_true]
    refine ⟨_, hstep, ?_⟩
    constructor
    · rfl
    · show e + 1 ≤ edges.length
      omega
    · intro q hq
      show (ofLex q).1 < e + 1
      rcases List.mem_append.mp hq with hq | hq
      · have := hdone_lt q hq; omega
      · simp only [List.mem_singleton] at hq; subst hq; simp
    · intro _
      exact ⟨toLex (e, s), by simp, rfl⟩
    · intro h; simp at h
    · show (st.edge_remains_valid ++ List.replicate (e - st.eid) true ++ [false]).length = e + 1
      simp only [List.length_append, List.length_replicate, List.length_singleton, hinv.mask_len]
      omega
    · intro i hi
      show (st.edge_remains_valid ++ List.replicate (e - st.eid) true ++ [false])[i]? = _
      have hi' : i < e + 1 := hi
      by_cases h1 : i < st.eid
      · rw [List.append_assoc, List.getElem?_append_left (by rw [hinv.mask_len]; exact h1),
          hinv.mask_get i h1]
        congr 1
        simp only [decide_eq_decide]
        constructor
        · intro h p hp1
          rcases List.mem_append.mp hp1 with hp1 | hp1
          · exact h p hp1
          · simp only [List.mem_singleton] at hp1; subst hp1
            simp only [ofLex_toLex]; omega
        · intro h p hp1
          exact h p (List.mem_append_left _ hp1)
      · by_cases h2 : i < e
        · rw [List.getElem?_append_left (by
            simp only [List.length_append, List.length_replicate, hinv.mask_len]; omega),
            List.getElem?_append_right (by rw [hinv.mask_len]; omega), List.getElem?_replicate]
          have : i - st.edge_remains_valid.length < e - st.eid := by
            rw [hinv.mask_len]; omega
          simp only [this, if_true, Option.some.injEq]
          symm
          simp only [decide_eq_true_eq]
          intro p hp1
          rcases List.mem_append.mp hp1 with hp1 | hp1
          · have := hinv.done_lt p hp1; omega
          · simp only [List.mem_singleton] at hp1; subst hp1
            simp only [ofLex_toLex]; omega
        · have hie : i = e := by omega
          subst hie
          have hlen : (st.edge_remains_valid ++ List.replicate (i - st.eid) true).length = i := by
            simp only [List.length_append, List.length_replicate, hinv.mask_len]; omega
          rw [List.getElem?_append_right (by rw [hlen]), hlen, Nat.sub_self]
          simp only [List.getElem?_cons_zero, Option.some.injEq]
          symm
          simp only [decide_eq_false_iff_not, not_forall]
          exact ⟨toLex (i, s), by simp⟩
  · have hlt : e < st.eid := by omega
    have hne : done ≠ [] := fun h => by have := hinv.eid_zero h; omega
    obtain ⟨p0, hp0, hp1⟩ := hinv.last_mem hne
    have hp0e : (ofLex p0).1 = e := by have := hle p0 hp0; omega
    have hzero : e - st.eid = 0 := by omega
    have hstep : depchain_step st e s = some
        { eid := st.eid, edge_reader := st.edge_reader, last_swap := s,
          edge_remains_valid := st.edge_remains_valid,
          _depchain_edge_sorter := st._depchain_edge_sorter,
          _depchain_successor_sorter :=
            st._depchain_successor_sorter ++ [⟨st.last_swap, e, s⟩] } := by
      have hne2 : ¬ st.eid = e := by omega
      simp only [depchain_step, hzero, skip_edges, hne2, if_false]
    refine ⟨_, hstep, ?_⟩
    constructor
    · exact hinv.reader
    · exact hinv.eid_le
    · intro q hq
      show (ofLex q).1 < st.eid
      rcases List.mem_append.mp hq with hq | hq
      · exact hinv.done_lt q hq
      · simp only [List.mem_singleton] at hq; subst hq; simp; omega
    · intro _
      exact ⟨p0, List.mem_append_left _ hp0, hp1⟩
    · intro h; simp at h
    · exact hinv.mask_len
    · intro i hi
      show st.edge_remains_valid[i]? = _
      rw [hinv.mask_get i hi]
      congr 1
      simp only [decide_eq_decide]
      constructor
      · intro h p hp2
        rcases List.mem_append.mp hp2 with hp2 | hp2
        · exact h p hp2
        · simp only [List.mem_singleton] at hp2; subst hp2
          simp only [ofLex_toLex]
          intro hei
          exact h p0 hp0 (by omega)
      · intro h p hp2
        exact h p (List.mem_append_left _ hp2)

theorem mask_scan (edges : List edge_t) :
    ∀ (todo done : List (Nat ×ₗ Nat)) (st : DepChainState), MaskInv edges done st →
      (done ++ todo).Sorted (· ≤ ·) → (∀ p ∈ todo, (ofLex p).1 < edges.length) →
      ∃ st1, depchain_scan todo st = some st1 ∧ MaskInv edges (done ++ todo) st1 := by
  intro todo
  induction todo with
  | nil =>
    intro done st hinv _ _
    exact ⟨st, rfl, by simpa using hinv⟩
  | cons p rest ih =>
    intro done st hinv hs hlen
    have hle : ∀ q ∈ done, (ofLex q).1 ≤ (ofLex p).1 := by
      intro q hq
      have := (List.pairwise_append.mp hs).2.2 q hq p (List.mem_cons_self _ _)
      rcases (lex_pair_le_iff q p).mp this with h | h
      · exact le_of_lt h
      · exact le_of_eq h.1
    have hp : (ofLex p).1 < edges.length := hlen p (List.mem_cons_self _ _)
    obtain ⟨st1, h1, h2⟩ := mask_step edges done st (ofLex p).1 (ofLex p).2 hinv hle hp
    have hs' : (done ++ [p] ++ rest).Sorted (· ≤ ·) := by simpa using hs
    obtain ⟨st2, h3, h4⟩ := ih (done ++ [p]) st1 h2 hs'
      (fun q hq => hlen q (List.mem_cons_of_mem _ hq))
    refine ⟨st2, ?_, by simpa using h4⟩
    simp only [depchain_scan, h1, h3]

/-- Pass A on any batch with edge ids below `|edges|`: it returns, and the
mask has one bit per edge, `false` exactly for the ids some swap names. -/
theorem compute_mask_spec (edges : List edge_t) (swaps : List SwapDescriptor)
    (hlt : ∀ s ∈ swaps, s.edges0 < edges.length ∧ s.edges1 < edges.length) :
    ∃ a, _compute_dependency_chain edges.length edges swaps = some a ∧
      a.edge_remains_valid = mask_spec edges.length swaps := by
  have hsorted := sorter_sort_sorted (edge_swap_msgs swaps 0)
  have hmemP := mem_sorted_edge_swap_msgs swaps
  have hrange : ∀ p ∈ sorter_sort (edge_swap_msgs swaps 0), (ofLex p).1 < edges.length := by
    intro p hp
    obtain ⟨d, h1, h2⟩ := (hmemP p).mp hp
    have hd := hlt d (List.getElem?_mem h1)
    rcases h2 with h2 | h2 <;> omega
  have hinit : MaskInv edges []
      { eid := 0, edge_reader := edges, last_swap := 0, edge_remains_valid := [],
        _depchain_edge_sorter := [], _depchain_successor_sorter := [] } := by
    constructor <;> simp
  obtain ⟨st, hscan, hinv⟩ := mask_scan edges _ [] _ hinit (by simpa using hsorted)
    (by simpa using hrange)
  simp only [List.nil_append] at hinv
  have hres : _compute_dependency_chain edges.length edges swaps = some
      { _depchain_edge_sorter := sorter_sort st._depchain_edge_sorter,
        _depchain_successor_sorter := sorter_sort st._depchain_successor_sorter,
        edge_remains_valid :=
          st.edge_remains_valid ++ List.replicate (edges.length - st.eid) true } := by
    simp only [_compute_dependency_chain, hscan]
  refine ⟨_, hres, ?_⟩
  have htouch : ∀ i, (∀ p ∈ sorter_sort (edge_swap_msgs swaps 0), (ofLex p).1 ≠ i) ↔
      (∀ s ∈ swaps, ¬ touches s i) := by
    intro i
    constructor
    · intro h s hs ht
      obtain ⟨j, hj, hjs⟩ := List.getElem_of_mem hs
      have hj' : swaps[j]? = some s := by rw [List.getElem?_eq_getElem hj, hjs]
      exact h (toLex (i, j)) ((hmemP _).mpr ⟨s, hj', ht⟩) rfl
    · intro h p hp hpi
      obtain ⟨d, h1, h2⟩ := (hmemP p).mp hp
      exact h d (List.getElem?_mem h1) (hpi ▸ h2)
  show st.edge_remains_valid ++ List.replicate (edges.length - st.eid) true = _
  apply List.ext_getElem?
  intro i
  unfold mask_spec
  by_cases h1 : i < st.eid
  · rw [List.getElem?_append_left (by rw [hinv.mask_len]; exact h1), hinv.mask_get i h1]
    have : i < edges.length := lt_of_lt_of_le h1 hinv.eid_le
    simp only [List.getElem?_map, List.getElem?_range this, Option.map_some']
    congr 1
    simp only [decide_eq_decide]
    exact htouch i
  · rw [List.getElem?_append_right (by rw [hinv.mask_len]; omega), List.getElem?_replicate]
    by_cases h2 : i < edges.length
    · have : i - st.edge_remains_valid.length < edges.length - st.eid := by
        rw [hinv.mask_len]; omega
      simp only [this, if_true, List.getElem?_map, List.getElem?_range h2, Option.map_some',
        Option.some.injEq]
      symm
      simp only [decide_eq_true_eq]
      apply (htouch i).mp
      intro p hp hpi
      have := hinv.done_lt p hp
      omega
    · have : ¬ i - st.edge_remains_valid.length < edges.length - st.eid := by
        rw [hinv.mask_len]; omega
      simp only [this, if_false]
      symm
      rw [List.getElem?_eq_none]
      simp only [List.length_map, List.length_range]
      omega

theorem skip_edges_some :
    ∀ (k : Nat) (st st1 : DepChainState), skip_edges k st = some st1 →
      st1.eid = st.eid + k ∧
      st1.eid + st1.edge_reader.length = st.eid + st.edge_reader.length ∧
      st1._depchain_edge_sorter = st._depchain_edge_sorter ∧
      st1._depchain_successor_sorter = st._depchain_successor_sorter := by
  intro k
  induction k with
  | zero =>
    intro st st1 h
    simp only [skip_edges, Option.some.injEq] at h
    subst h
    exact ⟨rfl, rfl, rfl, rfl⟩
  | succ k ih =>
    intro st st1 h
    unfold skip_edges at h
    split at h
    · exact Option.noConfusion h
    · rename_i e rest hr
      obtain ⟨g1, g2, g3, g4⟩ := ih _ st1 h
      simp only at g1 g2 g3 g4
      rw [hr]
      simp only [List.length_cons]
      refine ⟨by omega, by omega, g3, g4⟩

/-- One step of the merge scan reads an edge id below the number of edges
and pushes exactly one message. -/
theorem depchain_step_some (st st1 : DepChainState) (e s : Nat)
    (h : depchain_step st e s = some st1) :
    e < st.eid + st.edge_reader.length ∧
    st1.eid + st1.edge_reader.length = st.eid + st.edge_reader.length ∧
    st1._depchain_edge_sorter.length + st1._depchain_successor_sorter.length =
      st._depchain_edge_sorter.length + st._depchain_successor_sorter.length + 1 := by
  unfold depchain_step at h
  split at h
  · exact Option.noConfusion h
  · rename_i st2 hskip
    obtain ⟨g1, g2, g3, g4⟩ := skip_edges_some _ st st2 hskip
    split at h
    · rename_i heq
      split at h
      · exact Option.noConfusion h
      · rename_i edge rest hr
        have := (Option.some.inj h).symm
        subst this
        rw [hr] at g2
        simp only [List.length_cons] at g2
        simp only [List.length_append, List.length_singleton, g3, g4]
        refine ⟨by omega, by omega, by omega⟩
    · rename_i hne
      have := (Option.some.inj h).symm
      subst this
      simp only [List.length_append, List.length_singleton, g3, g4]
      refine ⟨by omega, g2, by omega⟩

theorem depchain_scan_some :
    ∀ (todo : List (Nat ×ₗ Nat)) (st st1 : DepChainState), depchain_scan todo st = some st1 →
      (∀ p ∈ todo, (ofLex p).1 < st.eid + st.edge_reader.length) ∧
      st1._depchain_edge_sorter.length + st1._depchain_successor_sorter.length =
        st._depchain_edge_sorter.length + st._depchain_successor_sorter.length + todo.length := by
  intro todo
  induction todo with
  | nil =>
    intro st st1 h
    simp only [depchain_scan, Option.some.injEq] at h
    subst h
    exact ⟨fun p hp => absurd hp (List.not_mem_nil _), rfl⟩
  | cons p rest ih =>
    intro st st1 h
    unfold depchain_scan at h
    split at h
    · exact Option.noConfusion h
    · rename_i st2 hstep
      obtain ⟨g1, g2, g3⟩ := depchain_step_some st st2 _ _ hstep
      obtain ⟨i1, i2⟩ := ih st2 st1 h
      refine ⟨?_, ?_⟩
      · intro q hq
        rcases List.mem_cons.mp hq with hq | hq
        · rw [hq]; exact g1
        · rw [← g2]; exact i1 q hq
      · rw [i2, g3, List.length_cons]
        omega

theorem edge_swap_msgs_length (swaps : List SwapDescriptor) :
    ∀ k, (edge_swap_msgs swaps k).length = 2 * swaps.length := by
  induction swaps with
  | nil => intro k; rfl
  | cons d rest ih =>
    intro k
    simp only [edge_swap_msgs, List.length_cons, ih]
    omega

/-- When Pass A returns, every edge id of the batch is below the number of
edges, and Pass A has pushed one message per named edge id. -/
theorem compute_dependency_chain_some (edges : List edge_t) (swaps : List SwapDescriptor)
    (a : DepChainResult)
    (h : _compute_dependency_chain edges.length edges swaps = some a) :
    (∀ s ∈ swaps, s.edges0 < edges.length ∧ s.edges1 < edges.length) ∧
    a._depchain_edge_sorter.length + a._depchain_successor_sorter.length = 2 * swaps.length := by
  unfold _compute_dependency_chain at h
  simp only at h
  split at h
  · exact Option.noConfusion h
  · rename_i st hscan
    obtain ⟨g1, g2⟩ := depchain_scan_some _ _ st hscan
    simp only [List.length_nil, Nat.zero_add] at g1 g2
    have := (Option.some.inj h).symm
    subst this
    simp only
    rw [(sorter_sort_perm _).length_eq, (sorter_sort_perm _).length_eq, g2,
      (sorter_sort_perm _).length_eq, edge_swap_msgs_length]
    refine ⟨?_, rfl⟩
    intro s hs
    obtain ⟨j, hj, hjs⟩ := List.getElem_of_mem hs
    have hj' : swaps[j]? = some s := by rw [List.getElem?_eq_getElem hj, hjs]
    have m0 := g1 (toLex (s.edges0, j))
      ((mem_sorted_edge_swap_msgs swaps _).mpr ⟨s, hj', Or.inl rfl⟩)
    have m1 := g1 (toLex (s.edges1, j))
      ((mem_sorted_edge_swap_msgs swaps _).mpr ⟨s, hj', Or.inr rfl⟩)
    exact ⟨m0, m1⟩

/-! ## Pass A: the successor ids and the number of edge messages -/

/-- When every swap names two distinct edge ids and Pass A returns, the
successor named by a successor message is a later swap. -/
theorem depchain_successor_lt (edges : List edge_t) (swaps : List SwapDescriptor)
    (hne : ∀ s ∈ swaps, s.edges0 ≠ s.edges1) (a : DepChainResult)
    (h : _compute_dependency_chain edges.length edges swaps = some a) :
    ∀ msg ∈ a._depchain_successor_sorter, msg.swap_id < msg.successor := by
  have hlt := (compute_dependency_chain_some edges swaps a h).1
  have hsorted := sorter_sort_strict _ (nodup_edge_swap_msgs swaps 0 hne)
  have hrange : ∀ p ∈ sorter_sort (edge_swap_msgs swaps 0), (ofLex p).1 < edges.length := by
    intro p hp
    obtain ⟨d, h1, h2⟩ := (mem_sorted_edge_swap_msgs swaps p).mp hp
    have hd := hlt d (List.getElem?_mem h1)
    rcases h2 with h2 | h2 <;> omega
  have hinit : ScanInv edges []
      { eid := 0, edge_reader := edges, last_swap := 0, edge_remains_valid := [],
        _depchain_edge_sorter := [], _depchain_successor_sorter := [] } := by
    constructor <;> simp
  obtain ⟨st, hscan, hinv⟩ := depchain_scan_inv edges _ [] _ hinit (by simpa using hsorted)
    (by simpa using hrange)
  simp only [_compute_dependency_chain, hscan, Option.some.injEq] at h
  subst h
  intro msg hm
  exact ((hinv.succ_mem msg).mp ((mem_sorter_sort _ _).mp hm)).2.2.1

theorem mem_touched_ids (swaps : List SwapDescriptor) (e : Nat) :
    e ∈ touched_ids swaps ↔ ∃ s ∈ swaps, touches s e := by
  unfold touched_ids touches
  rw [List.mem_dedup, List.mem_flatMap]
  constructor
  · rintro ⟨s, hs, he⟩
    simp only [List.mem_cons, List.mem_singleton, List.not_mem_nil, or_false] at he
    exact ⟨s, hs, he⟩
  · rintro ⟨s, hs, he⟩
    exact ⟨s, hs, by simpa using he⟩

theorem touched_iff_next_touch (swaps : List SwapDescriptor) (e : Nat) :
    (∃ s ∈ swaps, touches s e) ↔ ∃ s, next_touch swaps 0 e s := by
  constructor
  · rintro ⟨s, hs, ht⟩
    obtain ⟨j, hj, hjs⟩ := List.getElem_of_mem hs
    exact exists_next_touch swaps 0 e
      ⟨j, s, Nat.zero_le _, by rw [List.getElem?_eq_getElem hj, hjs], ht⟩
  · rintro ⟨s, _, ⟨d, hd, ht⟩, _⟩
    exact ⟨d, List.getElem?_mem hd, ht⟩

/-- Pass A emits one edge message per distinct edge id of the batch. -/
theorem dep_length_eq (edges : List edge_t) (swaps : List SwapDescriptor)
    (hv : valid_batch edges.length swaps) (a : DepChainResult) (ha : PassASpec edges swaps a) :
    (a._depchain_edge_sorter.map (fun msg => msg.edge_id)).Nodup ∧
    a._depchain_edge_sorter.length = (touched_ids swaps).length := by
  have hnd : (a._depchain_edge_sorter.map (fun msg => msg.edge_id)).Nodup := by
    apply List.Nodup.map_on _ ha.dep_sorted.nodup
    intro x hx y hy hxy
    obtain ⟨hx1, hx2⟩ := (ha.dep_mem x).mp hx
    obtain ⟨hy1, hy2⟩ := (ha.dep_mem y).mp hy
    simp only at hxy
    rw [← hxy] at hy1 hy2
    have h1 := next_touch_unique swaps 0 _ _ _ hx1 hy1
    have h2 : x.edge = y.edge := Option.some.inj (hx2.symm.trans hy2)
    cases x; cases y
    simp only at hxy h1 h2
    simp [hxy, h1, h2]
  refine ⟨hnd, ?_⟩
  have hperm : (a._depchain_edge_sorter.map (fun msg => msg.edge_id)).Perm (touched_ids swaps) := by
    have hnd2 : (touched_ids swaps).Nodup := List.nodup_dedup _
    rw [List.perm_ext_iff_of_nodup hnd hnd2]
    intro e
    rw [mem_touched_ids, touched_iff_next_touch, List.mem_map]
    constructor
    · rintro ⟨msg, hm, rfl⟩
      exact ⟨msg.swap_id, ((ha.dep_mem msg).mp hm).1⟩
    · rintro ⟨s, hs⟩
      have he : e < edges.length := by
        obtain ⟨_, ⟨d, hd, ht⟩, _⟩ := hs
        have hvd := hv d (List.getElem?_mem hd)
        rcases ht with h | h <;> omega
      refine ⟨⟨s, e, edges[e]⟩, (ha.dep_mem _).mpr ⟨hs, ?_⟩, rfl⟩
      show edges[e]? = some edges[e]
      exact List.getElem?_eq_getElem he
  have := hperm.length_eq
  rwa [List.length_map] at this

theorem touched_ids_length_le (swaps : List SwapDescriptor) :
    (touched_ids swaps).length ≤ 2 * swaps.length := by
  unfold touched_ids
  refine le_trans (List.Sublist.length_le (List.dedup_sublist _)) ?_
  induction swaps with
  | nil => simp
  | cons d rest ih =>
    simp only [List.flatMap_cons, List.length_append, List.length_cons, List.length_nil]
    omega

/-! ## Pass B: exactly what one iteration pushes -/

theorem pushEff_refl (st : ConflictState) : PushEff st st [] [] :=
  ⟨by simp, by simp, rfl, rfl⟩

theorem pushEff_trans (s1 s2 s3 : ConflictState) (r1 r2 : List ExistenceRequestMsg)
    (q1 q2 : List DependencyChainEdgeMsg) (h12 : PushEff s1 s2 r1 q1)
    (h23 : PushEff s2 s3 r2 q2) : PushEff s1 s3 (r1 ++ r2) (q1 ++ q2) := by
  constructor
  · rw [h23.req, h12.req, List.append_assoc]
  · refine h23.pq.trans ?_
    rw [← List.append_assoc]
    exact List.Perm.append_right _ h12.pq
  · rw [h23.sorter, h12.sorter]
  · rw [h23.succ, h12.succ]

theorem foldl_eff {A : Type} (f : ConflictState → A → ConflictState)
    (r : A → List ExistenceRequestMsg) (q : A → List DependencyChainEdgeMsg)
    (hstep : ∀ s x, PushEff s (f s x) (r x) (q x)) :
    ∀ (l : List A) (st : ConflictState),
      PushEff st (l.foldl f st) (l.flatMap r) (l.flatMap q) := by
  intro l
  induction l with
  | nil => intro st; exact pushEff_refl st
  | cons x rest ih =>
    intro st
    simp only [List.foldl_cons, List.flatMap_cons]
    exact pushEff_trans _ _ _ _ _ _ _ (hstep st x) (ih (f st x))

theorem push_new_edge_eff (sid eid succ : Nat) (e : edge_t) (st : ConflictState) :
    PushEff st (push_new_edge sid eid succ e st) [⟨e, sid, false⟩]
      (if succ ≠ 0 then [⟨succ, eid, e⟩] else []) := by
  by_cases h : succ ≠ 0
  · simp only [if_pos h]
    refine ⟨by simp [push_new_edge], ?_, by simp [push_new_edge, PQSorterMerger.pq_pushed, h],
      by simp [push_new_edge]⟩
    simp only [push_new_edge, if_pos h, PQSorterMerger.pq_pushed, pq_push]
    exact (List.perm_orderedInsert _ _ _).trans (List.perm_append_singleton _ _).symm
  · simp only [if_neg h]
    refine ⟨by simp [push_new_edge], ?_, by simp [push_new_edge, h], by simp [push_new_edge]⟩
    simp [push_new_edge, h]

theorem push_old_edge_eff (sid eid succ : Nat) (st : ConflictState) (e : edge_t) :
    PushEff st (push_old_edge sid eid succ st e) [⟨e, sid, true⟩]
      (if succ ≠ 0 then [⟨succ, eid, e⟩] else []) := by
  by_cases h : succ ≠ 0
  · simp only [if_pos h]
    refine ⟨by simp [push_old_edge], ?_, by simp [push_old_edge, PQSorterMerger.pq_pushed, h],
      by simp [push_old_edge]⟩
    simp only [push_old_edge, if_pos h, PQSorterMerger.pq_pushed, pq_push]
    exact (List.perm_orderedInsert _ _ _).trans (List.perm_append_singleton _ _).symm
  · simp only [if_neg h]
    refine ⟨by simp [push_old_edge], ?_, by simp [push_old_edge, h], by simp [push_old_edge]⟩
    simp [push_old_edge, h]

theorem push_pair_eff (sid : Nat) (swap : SwapDescriptor) (succ0 succ1 : Nat)
    (st : ConflictState) (e1 e2 : edge_t) :
    PushEff st (push_pair sid swap (succ0, succ1) st e1 e2)
      [⟨(_swap_edges e1 e2 swap.direction).1, sid, false⟩,
       ⟨(_swap_edges e1 e2 swap.direction).2, sid, false⟩]
      ((if succ0 ≠ 0 then [⟨succ0, swap.edges0, (_swap_edges e1 e2 swap.direction).1⟩] else []) ++
       (if succ1 ≠ 0 then [⟨succ1, swap.edges1, (_swap_edges e1 e2 swap.direction).2⟩]
        else [])) := by
  unfold push_pair
  exact pushEff_trans _ _ _ _ _ _ _ (push_new_edge_eff _ _ _ _ _) (push_new_edge_eff _ _ _ _ _)

theorem flatMap_singleton_map {A B : Type} (f : A → B) (l : List A) :
    l.flatMap (fun x => [f x]) = l.map f := by
  induction l with
  | nil => rfl
  | cons x rest ih => simp only [List.flatMap_cons, List.map_cons, ih, List.singleton_append]

theorem flatMap_nil_fun {A B : Type} (l : List A) :
    l.flatMap (fun _ => ([] : List B)) = [] := by
  induction l with
  | nil => rfl
  | cons x rest ih => simp only [List.flatMap_cons, ih, List.append_nil]

theorem pushed_requests_length (sid : Nat) (swap : SwapDescriptor) (E0 E1 : List edge_t) :
    (pushed_requests sid swap E0 E1).length =
      2 * E0.length * E1.length + E0.length + E1.length := by
  unfold pushed_requests
  simp only [List.length_append, List.length_map]
  have inner : ∀ (e1 : edge_t), (E1.flatMap (fun e2 =>
      [(⟨(_swap_edges e1 e2 swap.direction).1, sid, false⟩ : ExistenceRequestMsg),
       ⟨(_swap_edges e1 e2 swap.direction).2, sid, false⟩])).length = 2 * E1.length := by
    intro e1
    induction E1 with
    | nil => rfl
    | cons x rest ih =>
      simp only [List.flatMap_cons, List.length_append, List.length_cons, List.length_nil, ih]
      omega
  have outer : (E0.flatMap (fun e1 => E1.flatMap (fun e2 =>
      [(⟨(_swap_edges e1 e2 swap.direction).1, sid, false⟩ : ExistenceRequestMsg),
       ⟨(_swap_edges e1 e2 swap.direction).2, sid, false⟩]))).length =
      2 * E0.length * E1.length := by
    induction E0 with
    | nil => simp
    | cons x rest ih =>
      simp only [List.flatMap_cons, List.length_append, List.length_cons, inner, ih]
      ring
  rw [outer]

/-- The pushes of one iteration of Pass B, as lists. -/
theorem conflicts_pushes_exact (sid : Nat) (swap : SwapDescriptor) (succ0 succ1 : Nat)
    (E0 E1 : List edge_t) (st : ConflictState) :
    let st2 := E0.foldl
      (fun s e1 => E1.foldl (fun s2 e2 => push_pair sid swap (succ0, succ1) s2 e1 e2) s) st
    let st3 := E0.foldl (push_old_edge sid swap.edges0 succ0) st2
    let st4 := E1.foldl (push_old_edge sid swap.edges1 succ1) st3
    PushEff st st4 (pushed_requests sid swap E0 E1)
      ((if succ0 ≠ 0 then pushed_states0 succ0 swap E0 E1 else []) ++
       (if succ1 ≠ 0 then pushed_states1 succ1 swap E0 E1 else [])) := by
  intro st2 st3 st4
  have h12 : PushEff st st2 _ _ :=
    foldl_eff _ _ _ (fun s e1 => foldl_eff _ _ _
      (fun s2 e2 => push_pair_eff sid swap succ0 succ1 s2 e1 e2) E1 s) E0 st
  have h23 : PushEff st2 st3 _ _ :=
    foldl_eff _ _ _ (fun s e => push_old_edge_eff sid swap.edges0 succ0 s e) E0 st2
  have h34 : PushEff st3 st4 _ _ :=
    foldl_eff _ _ _ (fun s e => push_old_edge_eff sid swap.edges1 succ1 s e) E1 st3
  have h := pushEff_trans _ _ _ _ _ _ _ (pushEff_trans _ _ _ _ _ _ _ h12 h23) h34
  refine ⟨?_, ?_, h.sorter, h.succ⟩
  · rw [h.req]
    unfold pushed_requests
    rw [flatMap_singleton_map, flatMap_singleton_map]
  · refine h.pq.trans (List.Perm.append_left _ ?_)
    unfold pushed_states0 pushed_states1
    by_cases h0 : succ0 ≠ 0 <;> by_cases h1 : succ1 ≠ 0
    · simp only [if_pos h0, if_pos h1, flatMap_singleton_map]
      have e1 : ∀ (x : edge_t), (E1.flatMap (fun e2 =>
          [(⟨succ0, swap.edges0, (_swap_edges x e2 swap.direction).1⟩ : DependencyChainEdgeMsg)] ++
          [⟨succ1, swap.edges1, (_swap_edges x e2 swap.direction).2⟩])).Perm
          (E1.map (fun e2 => ⟨succ0, swap.edges0, (_swap_edges x e2 swap.direction).1⟩) ++
           E1.map (fun e2 => ⟨succ1, swap.edges1, (_swap_edges x e2 swap.direction).2⟩)) := by
        intro x
        have := List.flatMap_append_perm E1
          (fun e2 => [(⟨succ0, swap.edges0, (_swap_edges x e2 swap.direction).1⟩ :
            DependencyChainEdgeMsg)])
          (fun e2 => [⟨succ1, swap.edges1, (_swap_edges x e2 swap.direction).2⟩])
        rw [flatMap_singleton_map, flatMap_singleton_map] at this
        exact this.symm
      have e2 : (E0.flatMap (fun x => E1.flatMap (fun e2 =>
          [(⟨succ0, swap.edges0, (_swap_edges x e2 swap.direction).1⟩ : DependencyChainEdgeMsg)] ++
          [⟨succ1, swap.edges1, (_swap_edges x e2 swap.direction).2⟩]))).Perm
          (E0.flatMap (fun x =>
            E1.map (fun e2 => ⟨succ0, swap.edges0, (_swap_edges x e2 swap.direction).1⟩)) ++
           E0.flatMap (fun x =>
            E1.map (fun e2 => ⟨succ1, swap.edges1, (_swap_edges x e2 swap.direction).2⟩))) := by
        refine List.Perm.trans ?_ (List.flatMap_append_perm E0 _ _).symm
        exact List.Perm.flatMap_left _ (fun x _ => e1 x)
      refine (List.Perm.append_right _ (List.Perm.append_right _ e2)).trans ?_
      simp only [List.append_assoc]
      refine List.Perm.append_left _ ?_
      rw [← List.append_assoc, ← List.append_assoc]
      exact List.Perm.append_right _ List.perm_append_comm
    · have h1' : succ1 = 0 := by omega
      simp only [if_pos h0, h1', ne_eq, not_true_eq_false, if_false, List.append_nil,
        flatMap_singleton_map, flatMap_nil_fun]
      exact List.Perm.refl _
    · have h0' : succ0 = 0 := by omega
      simp only [if_pos h1, h0', ne_eq, not_true_eq_false, if_false, List.append_nil,
        List.nil_append, flatMap_singleton_map, flatMap_nil_fun]
      exact List.Perm.refl _
    · have h0' : succ0 = 0 := by omega
      have h1' : succ1 = 0 := by omega
      simp only [h0', h1', ne_eq, not_true_eq_false, if_false, List.append_nil,
        flatMap_nil_fun]
      exact List.Perm.refl _

/-- A fetch that returns has passed its two assertions and leaves the
requests as they are. -/
theorem fetch_messages_some (sid eid : Nat) (st st1 : ConflictState) (succ : Nat)
    (E : List edge_t) (h : fetch_messages sid eid st = some (st1, succ, E)) :
    E ≠ [] ∧ (succ = 0 ∨ succ > sid) ∧
    st1._existence_request_sorter = st._existence_request_sorter := by
  unfold fetch_messages at h
  split at h
  · exact Option.noConfusion h
  · split at h
    · exact Option.noConfusion h
    · rename_i m1 edges hf
      split at h
      · exact Option.noConfusion h
      · rename_i hne
        split at h
        · exact Option.noConfusion h
        · rename_i hs
          simp only [Option.some.injEq, Prod.mk.injEq] at h
          obtain ⟨h1, h2, h3⟩ := h
          subst h1; subst h2; subst h3
          refine ⟨?_, not_not.mp hs, rfl⟩
          intro hnil
          exact hne (by rw [hnil]; rfl)

/-- One iteration of Pass B that returns: the two fetches, the assertion
on the merger and the exact pushes. -/
theorem conflicts_step_some (sid : Nat) (swap : SwapDescriptor) (st st1 : ConflictState)
    (h : conflicts_step sid swap st = some st1) :
    ∃ sa succ0 E0 sb succ1 E1,
      fetch_messages sid swap.edges0 st = some (sa, succ0, E0) ∧
      fetch_messages sid swap.edges1 sa = some (sb, succ1, E1) ∧
      all_consumed sid sb.depchain_pqsort = true ∧
      PushEff sb st1 (pushed_requests sid swap E0 E1)
        ((if succ0 ≠ 0 then pushed_states0 succ0 swap E0 E1 else []) ++
         (if succ1 ≠ 0 then pushed_states1 succ1 swap E0 E1 else [])) := by
  unfold conflicts_step at h
  split at h
  · exact Option.noConfusion h
  · rename_i sa succ0 E0 hf0
    split at h
    · exact Option.noConfusion h
    · rename_i sb succ1 E1 hf1
      split at h
      · exact Option.noConfusion h
      · rename_i hall
        have hall' : all_consumed sid sb.depchain_pqsort = true := by
          cases hc : all_consumed sid sb.depchain_pqsort
          · rw [hc] at hall; exact absurd rfl hall
          · rfl
        have heff := conflicts_pushes_exact sid swap succ0 succ1 E0 E1 sb
        simp only at heff
        refine ⟨sa, succ0, E0, sb, succ1, E1, hf0, hf1, hall', ?_⟩
        simp only at h
        split at h
        · have := (Option.some.inj h).symm
          subst this
          refine ⟨heff.req, ?_, ?_, heff.succ⟩
          · show (PQSorterMerger.update _)._pq.Perm _
            rw [(PQSorterMerger.update_pq _).1]
            exact heff.pq
          · show (PQSorterMerger.update _)._sorter = _
            rw [(PQSorterMerger.update_pq _).2]
            exact heff.sorter
        · have := (Option.some.inj h).symm
          subst this
          exact heff

theorem conflicts_loop_append (l : List SwapDescriptor) (d : SwapDescriptor) :
    ∀ (sid : Nat) (st : ConflictState),
      conflicts_loop (l ++ [d]) sid st =
        match conflicts_loop l sid st with
        | none => none
        | some st1 => conflicts_step (sid + l.length) d st1 := by
  induction l with
  | nil =>
    intro sid st
    simp only [List.nil_append, conflicts_loop, List.length_nil, Nat.add_zero]
    cases conflicts_step sid d st <;> rfl
  | cons s rest ih =>
    intro sid st
    simp only [List.cons_append, conflicts_loop, List.length_cons]
    cases h : conflicts_step sid s st with
    | none => rfl
    | some st1 =>
      simp only
      have := ih (sid + 1) st1
      have h2 : sid + 1 + rest.length = sid + (rest.length + 1) := by omega
      rw [h2] at this
      exact this

theorem conflicts_init_inv (edges : List edge_t) (swaps : List SwapDescriptor)
    (hv : valid_batch edges.length swaps) (a : DepChainResult) (ha : PassASpec edges swaps a) :
    ConflictInv edges swaps 0 (conflicts_init a) := by
  unfold conflicts_init
  constructor
  · unfold PQSorterMerger.Ascending
    rw [(PQSorterMerger.init_pq _ _).1, (PQSorterMerger.init_pq _ _).2]
    exact ⟨List.sorted_nil, ha.dep_sorted.le_of_lt⟩
  · exact PQSorterMerger.init_fresh _ _
  · exact ha.succ_sorted
  · intro msg
    show msg ∈ a._depchain_successor_sorter ↔ _
    rw [ha.succ_mem]
    exact ⟨fun h => ⟨h, Nat.zero_le _⟩, fun h => h.1⟩
  · intro msg hm
    change msg ∈ (PQSorterMerger.init [] a._depchain_edge_sorter).items at hm
    rw [PQSorterMerger.init_items, List.nil_append, ha.dep_mem] at hm
    exact hm.1
  · intro e s hnt
    show _ ∈ (PQSorterMerger.init [] a._depchain_edge_sorter).items
    rw [PQSorterMerger.init_items, List.nil_append, ha.dep_mem, ref_state_zero]
    refine ⟨hnt, ?_⟩
    obtain ⟨_, ⟨d, hd, ht⟩, _⟩ := hnt
    have hvd := hv d (List.getElem?_mem hd)
    have he : e < edges.length := by rcases ht with h | h <;> omega
    show edges[e]? = some (edges.getD e ⟨0, 0⟩)
    rw [List.getD_eq_getElem?_getD, List.getElem?_eq_getElem he]
    rfl
  · intro r hr; simp at hr
  · intro j d hj; omega
  · intro j d hj; omega

/-- Pass B reaches swap `k` of a valid batch, in a state that satisfies the
loop invariant. -/
theorem conflicts_prefix_inv (edges : List edge_t) (swaps : List SwapDescriptor)
    (hv : valid_batch edges.length swaps) (a : DepChainResult) (ha : PassASpec edges swaps a) :
    ∀ k, k ≤ swaps.length →
      ∃ st, conflicts_loop (swaps.take k) 0 (conflicts_init a) = some st ∧
        ConflictInv edges swaps k st := by
  intro k
  induction k with
  | zero =>
    intro _
    exact ⟨conflicts_init a, rfl, conflicts_init_inv edges swaps hv a ha⟩
  | succ k ih =>
    intro hk
    obtain ⟨st, h1, h2⟩ := ih (by omega)
    have hd : swaps[k]? = some swaps[k] := List.getElem?_eq_getElem (by omega)
    have hvd := hv _ (List.getElem?_mem hd)
    obtain ⟨st1, g1, g2⟩ := conflicts_step_inv edges swaps k _ hd hvd.1 hvd.2 st h2
    refine ⟨st1, ?_, g2⟩
    rw [take_succ_of_getElem? swaps k _ hd, conflicts_loop_append, h1]
    simp only [List.length_take, Nat.zero_add]
    rw [Nat.min_eq_left (by omega)]
    exact g1

theorem mem_pushed_states0 (succ : Nat) (swap : SwapDescriptor) (E0 E1 : List edge_t)
    (x : DependencyChainEdgeMsg) (hx : x ∈ pushed_states0 succ swap E0 E1) :
    x.swap_id = succ ∧ x.edge_id = swap.edges0 := by
  unfold pushed_states0 at hx
  simp only [List.mem_append, List.mem_flatMap, List.mem_map] at hx
  rcases hx with ⟨e1, _, e2, _, rfl⟩ | ⟨e, _, rfl⟩ <;> exact ⟨rfl, rfl⟩

theorem mem_pushed_states1 (succ : Nat) (swap : SwapDescriptor) (E0 E1 : List edge_t)
    (x : DependencyChainEdgeMsg) (hx : x ∈ pushed_states1 succ swap E0 E1) :
    x.swap_id = succ ∧ x.edge_id = swap.edges1 := by
  unfold pushed_states1 at hx
  simp only [List.mem_append, List.mem_flatMap, List.mem_map] at hx
  rcases hx with ⟨e1, _, e2, _, rfl⟩ | ⟨e, _, rfl⟩ <;> exact ⟨rfl, rfl⟩

/-! ## Pass C: what a run that returns has done -/

/-- The inner loop of Pass C, when it returns: it has read the leading
requests for `c`, every successor message it pushed names a later swap, and
the flag tells whether one of the requests read is a target. -/
theorem chain_requests_some (c : edge_t) :
    ∀ (todo : List ExistenceRequestMsg) (last : Nat) (found : Bool)
      (succ : List ExistenceSuccessorMsg) (rest : List ExistenceRequestMsg) (last1 : Nat)
      (found1 : Bool) (succ1 : List ExistenceSuccessorMsg),
      chain_requests c todo last found succ = some (rest, last1, found1, succ1) →
      ∃ run, todo = run ++ rest ∧ (∀ r ∈ run, r.edge = c) ∧
        (∀ r, rest.head? = some r → r.edge ≠ c) ∧
        (∀ r, todo.head? = some r → r.edge = c → r ∈ run) ∧
        (∀ m ∈ succ1, m ∈ succ ∨ m.swap_id < m.successor) ∧
        (found1 = true ↔ found = true ∨ ∃ r ∈ run, r.forward_only = false) := by
  intro todo
  induction todo with
  | nil =>
    intro last found succ rest last1 found1 succ1 h
    simp only [chain_requests, Option.some.injEq, Prod.mk.injEq] at h
    obtain ⟨h1, h2, h3, h4⟩ := h
    subst h1; subst h2; subst h3; subst h4
    refine ⟨[], rfl, by simp, by simp, by simp, fun m hm => Or.inl hm, by simp⟩
  | cons r todo ih =>
    intro last found succ rest last1 found1 succ1 h
    by_cases hr : r.edge = c
    · have hne : ¬ r.edge ≠ c := not_not.mpr hr
      simp only [chain_requests, if_neg hne] at h
      have finish : ∀ (succ0 : List ExistenceSuccessorMsg),
          (∀ m ∈ succ0, m ∈ succ ∨ m.swap_id < m.successor) →
          chain_requests c todo r.swap_id (found || !r.forward_only) succ0 =
            some (rest, last1, found1, succ1) →
          ∃ run, r :: todo = run ++ rest ∧ (∀ q ∈ run, q.edge = c) ∧
            (∀ q, rest.head? = some q → q.edge ≠ c) ∧
            (∀ q, (r :: todo).head? = some q → q.edge = c → q ∈ run) ∧
            (∀ m ∈ succ1, m ∈ succ ∨ m.swap_id < m.successor) ∧
            (found1 = true ↔ found = true ∨ ∃ q ∈ run, q.forward_only = false) := by
        intro succ0 hsucc0 h0
        obtain ⟨run, g1, g2, g3, _, g5, g6⟩ := ih _ _ _ _ _ _ _ h0
        refine ⟨r :: run, by rw [g1]; rfl, ?_, g3, ?_, ?_, ?_⟩
        · intro q hq
          rcases List.mem_cons.mp hq with h | h
          · subst h; exact hr
          · exact g2 q h
        · intro q hq _
          simp only [List.head?_cons, Option.some.injEq] at hq
          subst hq
          exact List.mem_cons_self _ _
        · intro m hm
          rcases g5 m hm with h | h
          · exact hsucc0 m h
          · exact Or.inr h
        · rw [g6]
          simp only [Bool.or_eq_true, Bool.not_eq_true', List.mem_cons, exists_eq_or_imp]
          constructor
          · rintro ((h | h) | h)
            · exact Or.inl h
            · exact Or.inr (Or.inl h)
            · exact Or.inr (Or.inr h)
          · rintro (h | h | h)
            · exact Or.inl (Or.inl h)
            · exact Or.inl (Or.inr h)
            · exact Or.inr h
      split at h
      · split at h
        · exact Option.noConfusion h
        · rename_i hgt
          apply finish _ _ h
          intro m hm
          rcases List.mem_append.mp hm with h1 | h1
          · exact Or.inl h1
          · right
            simp only [List.mem_singleton] at h1
            subst h1
            exact not_not.mp hgt
      · exact finish succ (fun m hm => Or.inl hm) h
    · simp only [chain_requests, if_pos hr, Option.some.injEq, Prod.mk.injEq] at h
      obtain ⟨h1, h2, h3, h4⟩ := h
      subst h1; subst h2; subst h3; subst h4
      refine ⟨[], rfl, by simp, ?_, ?_, fun m hm => Or.inl hm, by simp⟩
      · intro q hq
        simp only [List.head?_cons, Option.some.injEq] at hq
        subst hq; exact hr
      · intro q hq hqc
        simp only [List.head?_cons, Option.some.injEq] at hq
        subst hq; exact absurd hqc hr

/-- Every successor message of a run of the outer loop of Pass C that
returns names a later swap. -/
theorem existence_loop_succ_lt :
    ∀ (fuel : Nat) (st st1 : ExistenceState),
      (∀ m ∈ st._existence_successor_sorter, m.swap_id < m.successor) →
      existence_loop fuel st = some st1 →
      ∀ m ∈ st1._existence_successor_sorter, m.swap_id < m.successor := by
  intro fuel
  induction fuel with
  | zero =>
    intro st st1 hinv h
    unfold existence_loop at h
    split at h
    · have := (Option.some.inj h).symm
      subst this; exact hinv
    · exact Option.noConfusion h
  | succ fuel ih =>
    intro st st1 hinv h
    unfold existence_loop at h
    split at h
    · have := (Option.some.inj h).symm
      subst this; exact hinv
    · rename_i request todo htodo
      simp only at h
      split at h
      · exact Option.noConfusion h
      · rename_i rest last1 found1 succ1 hchain
        obtain ⟨run, _, _, _, _, g5, _⟩ := chain_requests_some _ _ _ _ _ _ _ _ _ hchain
        apply ih _ st1 _ h
        intro m hm
        rcases g5 m hm with h1 | h1
        · exact hinv m h1
        · exact h1

/-- Every existence successor message of a run of Pass C that returns names
a later swap. -/
theorem existence_successor_lt (edges : List edge_t) (R : List ExistenceRequestMsg)
    (c : ExistenceResult) (h : _process_existence_requests edges R = some c) :
    ∀ msg ∈ c._existence_successor_sorter, msg.swap_id < msg.successor := by
  unfold _process_existence_requests at h
  split at h
  · exact Option.noConfusion h
  · rename_i st hloop
    have := (Option.some.inj h).symm
    subst this
    intro msg hm
    have hm' := (mem_sorter_sort _ _).mp hm
    exact existence_loop_succ_lt _ _ st (by simp) hloop msg hm'

/-- The outer loop of Pass C on a sorted duplicate-free edge list and
requests grouped in ascending edge order: when it returns, every info it
has emitted carries the membership bit of its edge, and no edge has two
infos. -/
theorem existence_loop_bits (edges : List edge_t) (hedges : edges.Sorted (· < ·)) :
    ∀ (fuel : Nat) (P : List ExistenceRequestMsg) (st st1 : ExistenceState),
      BitInv edges P st →
      (P ++ st._existence_request_sorter).Pairwise (fun a b => a.edge ≤ b.edge) →
      (∀ q ∈ P, ∀ r ∈ st._existence_request_sorter, q.edge < r.edge) →
      existence_loop fuel st = some st1 →
      BitInv edges (P ++ st._existence_request_sorter) st1 := by
  intro fuel
  induction fuel with
  | zero =>
    intro P st st1 hinv _ _ h
    unfold existence_loop at h
    split at h
    · rename_i hnil
      have := (Option.some.inj h).symm
      subst this
      rw [hnil, List.append_nil]; exact hinv
    · exact Option.noConfusion h
  | succ fuel ih =>
    intro P st st1 hinv hs hPlt h
    unfold existence_loop at h
    split at h
    · rename_i hnil
      have := (Option.some.inj h).symm
      subst this
      rw [hnil, List.append_nil]; exact hinv
    · rename_i request todo htodo
      simp only at h
      split at h
      · exact Option.noConfusion h
      · rename_i rest last1 found1 succ1 hchain
        rw [htodo] at hs hPlt hchain ⊢
        obtain ⟨run, g1, g2, g3, g4, _, _⟩ := chain_requests_some _ _ _ _ _ _ _ _ _ hchain
        have hreq_run : request ∈ run := g4 request rfl rfl
        obtain ⟨consumed, hcons1, hcons2⟩ := hinv.consumed
        have hreader : st.edge_reader.Sorted (· < ·) := by
          rw [hcons1] at hedges
          exact (List.pairwise_append.mp hedges).2.1
        obtain ⟨pre, hp1, hp2, hp3, hp4⟩ := find_edge_spec request.edge st.edge_reader hreader
        have hsr : (run ++ rest).Pairwise (fun a b => a.edge ≤ b.edge) := by
          rw [← g1]; exact (List.pairwise_append.mp hs).2.1
        have hrest_gt : ∀ r ∈ rest, request.edge < r.edge := by
          intro r hr
          cases hrest : rest with
          | nil => rw [hrest] at hr; exact absurd hr (List.not_mem_nil _)
          | cons y rest' =>
            have hy := g3 y (by rw [hrest]; rfl)
            have h1 : request.edge ≤ y.edge :=
              (List.pairwise_append.mp hsr).2.2 request hreq_run y
                (by rw [hrest]; exact List.mem_cons_self _ _)
            have h2 : request.edge < y.edge := lt_of_le_of_ne h1 (fun h => hy h.symm)
            rw [hrest] at hr
            rcases List.mem_cons.mp hr with h | h
            · subst h; exact h2
            · have hsr2 : (y :: rest').Pairwise (fun a b => a.edge ≤ b.edge) := by
                rw [← hrest]; exact (List.pairwise_append.mp hsr).2.1
              exact lt_of_lt_of_le h2 (List.rel_of_pairwise_cons hsr2 h)
        have hmem : (request.edge ∈ pre) = (request.edge ∈ edges) := by
          apply propext
          constructor
          · intro hm
            rw [hcons1, hp1]
            exact List.mem_append_right _ (List.mem_append_left _ hm)
          · intro hm
            rw [hcons1, hp1] at hm
            rcases List.mem_append.mp hm with h1 | h1
            · obtain ⟨q, hq, hqx⟩ := hcons2 _ h1
              have := hPlt q hq request (List.mem_cons_self _ _)
              exact absurd (lt_of_le_of_lt hqx this) (lt_irrefl _)
            · rcases List.mem_append.mp h1 with h2 | h2
              · exact h2
              · exact absurd (hp3 _ h2) (lt_irrefl _)
        have hbit : (find_edge request.edge st.edge_reader false).2 =
            decide (request.edge ∈ edges) := by
          rw [hp4]
          simp only [hmem]
        have hinv1 : BitInv edges (P ++ run)
            { edge_reader := (find_edge request.edge st.edge_reader false).1,
              _existence_request_sorter := rest,
              _existence_successor_sorter := succ1,
              _existence_info_sorter :=
                if found1 then
                  st._existence_info_sorter ++
                    [⟨last1, request.edge, (find_edge request.edge st.edge_reader false).2⟩]
                else st._existence_info_sorter } := by
          have hold_asked : ∀ msg ∈ st._existence_info_sorter,
              ∃ q ∈ P ++ run, q.edge = msg.edge := by
            intro msg hm
            obtain ⟨q, hq, hqe⟩ := hinv.asked msg hm
            exact ⟨q, List.mem_append_left _ hq, hqe⟩
          constructor
          · refine ⟨consumed ++ pre, ?_, ?_⟩
            · show edges = (consumed ++ pre) ++ _
              rw [List.append_assoc, ← hp1]; exact hcons1
            · intro x hx
              rcases List.mem_append.mp hx with h1 | h1
              · obtain ⟨q, hq, hqx⟩ := hcons2 x h1
                exact ⟨q, List.mem_append_left _ hq, hqx⟩
              · exact ⟨request, List.mem_append_right _ hreq_run, hp2 x h1⟩
          · intro msg hm
            simp only at hm
            split at hm
            · rcases List.mem_append.mp hm with h1 | h1
              · exact hinv.bit msg h1
              · simp only [List.mem_singleton] at h1
                subst h1
                exact hbit
            · exact hinv.bit msg hm
          · intro msg hm
            simp only at hm
            split at hm
            · rcases List.mem_append.mp hm with h1 | h1
              · exact hold_asked msg h1
              · simp only [List.mem_singleton] at h1
                subst h1
                exact ⟨request, List.mem_append_right _ hreq_run, rfl⟩
            · exact hold_asked msg hm
          · simp only
            split
            · rw [List.map_append, List.map_singleton]
              apply List.Nodup.append hinv.nodup (List.nodup_singleton _)
              intro e he1 he2
              simp only [List.mem_singleton] at he2
              obtain ⟨msg, hm, hme⟩ := List.mem_map.mp he1
              obtain ⟨q, hq, hqe⟩ := hinv.asked msg hm
              have := hPlt q hq request (List.mem_cons_self _ _)
              rw [hqe, hme, he2] at this
              exact lt_irrefl _ this
            · exact hinv.nodup
        have hs1 : ((P ++ run) ++ rest).Pairwise (fun a b => a.edge ≤ b.edge) := by
          rw [List.append_assoc, ← g1]; exact hs
        have hPlt1 : ∀ q ∈ P ++ run, ∀ r ∈ rest, q.edge < r.edge := by
          intro q hq r hr
          rcases List.mem_append.mp hq with h1 | h1
          · exact hPlt q h1 r (by rw [g1]; exact List.mem_append_right _ hr)
          · rw [g2 q h1]; exact hrest_gt r hr
        have := ih (P ++ run) _ st1 hinv1 hs1 hPlt1 h
        simp only at this
        rw [List.append_assoc, ← g1] at this
        exact this

/-- Pass C on a sorted duplicate-free edge list and requests grouped in
ascending edge order: when it returns, every info carries the membership
bit of its edge, answers a request, and no edge has two infos. -/
theorem process_existence_requests_bits (edges : List edge_t) (hedges : edges.Sorted (· < ·))
    (R : List ExistenceRequestMsg) (hR : R.Pairwise (fun a b => a.edge ≤ b.edge))
    (c : ExistenceResult) (h : _process_existence_requests edges R = some c) :
    (∀ msg ∈ c._existence_info_sorter, msg.exists_bit = decide (msg.edge ∈ edges)) ∧
    (∀ msg ∈ c._existence_info_sorter, ∃ q ∈ R, q.edge = msg.edge) ∧
    (c._existence_info_sorter.map (fun msg => msg.edge)).Nodup := by
  unfold _process_existence_requests at h
  split at h
  · exact Option.noConfusion h
  · rename_i st hloop
    have := (Option.some.inj h).symm
    subst this
    have hinit : BitInv edges []
        { edge_reader := edges, _existence_request_sorter := R,
          _existence_successor_sorter := [], _existence_info_sorter := [] } := by
      constructor
      · exact ⟨[], rfl, by simp⟩
      · intro msg hm; exact absurd hm (List.not_mem_nil _)
      · intro msg hm; exact absurd hm (List.not_mem_nil _)
      · exact List.nodup_nil
    have hinv := existence_loop_bits edges hedges R.length [] _ st hinit
      (by simpa using hR) (by simp) hloop
    simp only [List.nil_append] at hinv
    refine ⟨?_, ?_, ?_⟩
    · intro msg hm
      exact hinv.bit msg ((mem_sorter_sort _ _).mp hm)
    · intro msg hm
      exact hinv.asked msg ((mem_sorter_sort _ _).mp hm)
    · exact ((sorter_sort_perm _).map _).nodup_iff.mpr hinv.nodup

theorem request_edge_le (a b : ExistenceRequestMsg) (h : a ≤ b) : a.edge ≤ b.edge := by
  rw [existence_request_le_iff] at h
  rcases h with h | ⟨h, _⟩
  · exact le_of_lt h
  · exact le_of_eq h

theorem requests_grouped_of_sorted (R : List ExistenceRequestMsg) (hR : R.Sorted (· ≤ ·)) :
    R.Pairwise (fun a b => a.edge ≤ b.edge) :=
  List.Pairwise.imp (fun {a b} h => request_edge_le a b h) hR

/-! ## Pass A: the messages of one edge id -/

theorem mem_touching (swaps : List SwapDescriptor) (e j : Nat) :
    j ∈ touching swaps e ↔ ∃ d, swaps[j]? = some d ∧ touches d e := by
  unfold touching
  rw [List.mem_filter, List.mem_range]
  constructor
  · rintro ⟨_, h2⟩
    split at h2
    · rename_i d hd
      exact ⟨d, hd, of_decide_eq_true h2⟩
    · exact Bool.noConfusion h2
  · rintro ⟨d, hd, ht⟩
    refine ⟨lt_length_of_getElem? swaps j d hd, ?_⟩
    rw [hd]
    exact decide_eq_true ht

theorem touching_sorted (swaps : List SwapDescriptor) (e : Nat) :
    (touching swaps e).Sorted (· < ·) := by
  unfold touching
  exact List.Pairwise.filter _ (List.sorted_lt_range _)

/-- The links of an ascending list are the pairs of neighbours. -/
theorem mem_chain_links (e : Nat) :
    ∀ (T : List Nat), T.Sorted (· < ·) → ∀ (msg : DependencyChainSuccessorMsg),
      msg ∈ chain_links e T ↔
        (msg.edge_id = e ∧ msg.swap_id ∈ T ∧ msg.successor ∈ T ∧ msg.swap_id < msg.successor ∧
          ∀ t ∈ T, ¬ (msg.swap_id < t ∧ t < msg.successor)) := by
  intro T
  induction T with
  | nil =>
    intro _ msg
    simp [chain_links]
  | cons x rest ih =>
    intro hs msg
    cases rest with
    | nil =>
      simp only [chain_links, List.tail_cons, List.zipWith_nil_right, List.not_mem_nil,
        List.mem_singleton, false_iff, not_and]
      intro _ h1 h2 h3
      omega
    | cons y rest' =>
      have hxy : x < y := List.rel_of_sorted_cons hs y (List.mem_cons_self _ _)
      have hx : ∀ t ∈ y :: rest', x < t := fun t ht => List.rel_of_sorted_cons hs t ht
      have hy : ∀ t ∈ rest', y < t :=
        fun t ht => List.rel_of_sorted_cons hs.of_cons t ht
      have ih' := ih hs.of_cons msg
      have hunf : chain_links e (x :: y :: rest') = ⟨x, e, y⟩ :: chain_links e (y :: rest') := rfl
      rw [hunf, List.mem_cons, ih']
      constructor
      · rintro (h | ⟨h1, h2, h3, h4, h5⟩)
        · subst h
          refine ⟨rfl, List.mem_cons_self _ _, List.mem_cons_of_mem _ (List.mem_cons_self _ _),
            hxy, ?_⟩
          intro t ht
          simp only
          rcases List.mem_cons.mp ht with h | h
          · omega
          · rcases List.mem_cons.mp h with h | h
            · omega
            · have := hy t h
              omega
        · refine ⟨h1, List.mem_cons_of_mem _ h2, List.mem_cons_of_mem _ h3, h4, ?_⟩
          intro t ht
          rcases List.mem_cons.mp ht with h | h
          · have := hx _ h2
            omega
          · exact h5 t h
      · rintro ⟨h1, h2, h3, h4, h5⟩
        rcases List.mem_cons.mp h2 with h2 | h2
        · -- the message starts at the head: its successor is the second member
          left
          have hsucc : msg.successor = y := by
            rcases List.mem_cons.mp h3 with h | h
            · omega
            · rcases List.mem_cons.mp h with h | h
              · exact h
              · exfalso
                have := hy _ h
                exact h5 y (List.mem_cons_of_mem _ (List.mem_cons_self _ _)) ⟨by omega, this⟩
          cases msg
          simp only at h1 h2 hsucc
          simp [h1, h2, hsucc]
        · right
          have h3' : msg.successor ∈ y :: rest' := by
            rcases List.mem_cons.mp h3 with h | h
            · have := hx _ h2
              omega
            · exact h
          exact ⟨h1, h2, h3', h4, fun t ht => h5 t (List.mem_cons_of_mem _ ht)⟩

theorem chain_links_sorted (e : Nat) :
    ∀ (T : List Nat), T.Sorted (· < ·) → (chain_links e T).Sorted (· < ·) := by
  intro T hs
  have key : ∀ (T : List Nat), T.Sorted (· < ·) →
      (chain_links e T).Pairwise (fun a b => a.swap_id < b.swap_id) ∧
      ∀ m ∈ chain_links e T, m.swap_id ∈ T := by
    intro T
    induction T with
    | nil => intro _; simp [chain_links]
    | cons x rest ih =>
      intro hs
      cases rest with
      | nil => simp [chain_links]
      | cons y rest' =>
        have hunf : chain_links e (x :: y :: rest') =
            ⟨x, e, y⟩ :: chain_links e (y :: rest') := rfl
        obtain ⟨i1, i2⟩ := ih hs.of_cons
        rw [hunf]
        refine ⟨List.Pairwise.cons ?_ i1, ?_⟩
        · intro m hm
          exact List.rel_of_sorted_cons hs _ (i2 m hm)
        · intro m hm
          rcases List.mem_cons.mp hm with h | h
          · subst h; exact List.mem_cons_self _ _
          · exact List.mem_cons_of_mem _ (i2 m h)
  refine List.Pairwise.imp ?_ (key T hs).1
  intro a b hab
  apply lt_of_le_of_ne
  · rw [depchain_succ_le_iff]; exact Or.inl hab
  · intro h; rw [h] at hab; exact lt_irrefl _ hab

/-- Two strictly ascending lists with the same members are equal. -/
theorem eq_of_sorted_of_mem {α : Type} [LinearOrder α] (l1 l2 : List α)
    (h1 : l1.Sorted (· < ·)) (h2 : l2.Sorted (· < ·)) (h : ∀ x, x ∈ l1 ↔ x ∈ l2) : l1 = l2 := by
  apply List.eq_of_perm_of_sorted _ h1.le_of_lt h2.le_of_lt
  exact (List.perm_ext_iff_of_nodup h1.nodup h2.nodup).mpr h

/-- The messages Pass A emits for one edge id: the edge message for the
first swap touching it and the links between consecutive touching swaps. -/
theorem messages_of_edge (edges : List edge_t) (swaps : List SwapDescriptor)
    (hv : valid_batch edges.length swaps) (a : DepChainResult) (ha : PassASpec edges swaps a)
    (e s : Nat) (T : List Nat) (hT : touching swaps e = s :: T) :
    (∃ x, edges[e]? = some x ∧
      a._depchain_edge_sorter.filter (fun msg => decide (msg.edge_id = e)) = [⟨s, e, x⟩]) ∧
    a._depchain_successor_sorter.filter (fun msg => decide (msg.edge_id = e)) =
      chain_links e (s :: T) := by
  have hsT : (s :: T).Sorted (· < ·) := hT ▸ touching_sorted swaps e
  have hmT : ∀ j, j ∈ s :: T ↔ ∃ d, swaps[j]? = some d ∧ touches d e :=
    fun j => hT ▸ mem_touching swaps e j
  have hs : next_touch swaps 0 e s := by
    refine ⟨Nat.zero_le _, (hmT s).mp (List.mem_cons_self _ _), ?_⟩
    intro j d _ hj hd ht
    have hj2 : j ∈ s :: T := (hmT j).mpr ⟨d, hd, ht⟩
    rcases List.mem_cons.mp hj2 with h | h
    · omega
    · have := List.rel_of_sorted_cons hsT j h
      omega
  have he : e < edges.length := by
    obtain ⟨_, ⟨d, hd, ht⟩, _⟩ := hs
    have hvd := hv d (List.getElem?_mem hd)
    rcases ht with h | h <;> omega
  refine ⟨⟨edges[e], List.getElem?_eq_getElem he, ?_⟩, ?_⟩
  · apply eq_of_sorted_of_mem
    · exact List.Pairwise.filter _ ha.dep_sorted
    · exact List.sorted_singleton _
    · intro msg
      rw [List.mem_filter, ha.dep_mem, List.mem_singleton, decide_eq_true_eq]
      constructor
      · rintro ⟨⟨h1, h2⟩, h3⟩
        rw [h3] at h1 h2
        have h4 := next_touch_unique swaps 0 e _ _ h1 hs
        rw [List.getElem?_eq_getElem he] at h2
        have h5 : msg.edge = edges[e] := (Option.some.inj h2).symm
        cases msg
        simp only at h3 h4 h5
        simp [h3, h4, h5]
      · rintro rfl
        exact ⟨⟨hs, List.getElem?_eq_getElem he⟩, rfl⟩
  · apply eq_of_sorted_of_mem
    · exact List.Pairwise.filter _ ha.succ_sorted
    · exact chain_links_sorted e _ hsT
    · intro msg
      rw [List.mem_filter, ha.succ_mem, mem_chain_links e _ hsT, decide_eq_true_eq, SuccSpec,
        next_touch, hmT, hmT]
      constructor
      · rintro ⟨⟨h1, h2, h3, h4⟩, h5⟩
        rw [h5] at h1 h3 h4
        refine ⟨h5, h1, h3, by omega, ?_⟩
        rintro t ht ⟨ht1, ht2⟩
        obtain ⟨d, hd, htd⟩ := (hmT t).mp ht
        exact h4 t d (by omega) ht2 hd htd
      · rintro ⟨h1, h2, h3, h4, h5⟩
        rw [h1]
        refine ⟨⟨h2, by omega, h3, ?_⟩, rfl⟩
        intro j d hj1 hj2 hd ht
        exact h5 j ((hmT j).mpr ⟨d, hd, ht⟩) ⟨by omega, hj2⟩

theorem touching_ne_nil_iff (swaps : List SwapDescriptor) (e : Nat) :
    touching swaps e ≠ [] ↔ e ∈ touched_ids swaps := by
  rw [mem_touched_ids]
  constructor
  · intro h
    obtain ⟨j, hj⟩ := List.exists_mem_of_ne_nil _ h
    obtain ⟨d, hd, ht⟩ := (mem_touching swaps e j).mp hj
    exact ⟨d, List.getElem?_mem hd, ht⟩
  · rintro ⟨d, hd, ht⟩ hnil
    obtain ⟨j, hj, hjs⟩ := List.getElem_of_mem hd
    have : j ∈ touching swaps e :=
      (mem_touching swaps e j).mpr ⟨d, by rw [List.getElem?_eq_getElem hj, hjs], ht⟩
    rw [hnil] at this
    exact absurd this (List.not_mem_nil _)

/-! ## Pass C: the addresses do not depend on the edge list -/

/-- The outer loop of Pass C run on two edge readers: the successor
messages agree, and the infos agree up to their bits. -/
theorem existence_loop_reader :
    ∀ (fuel : Nat) (reader reader0 : List edge_t) (reqs : List ExistenceRequestMsg)
      (succ : List ExistenceSuccessorMsg) (info info0 : List ExistenceInfoMsg),
      info.map (fun m => (m.swap_id, m.edge)) = info0.map (fun m => (m.swap_id, m.edge)) →
      ∀ st0, existence_loop fuel ⟨reader0, reqs, succ, info0⟩ = some st0 →
      ∃ st1, existence_loop fuel ⟨reader, reqs, succ, info⟩ = some st1 ∧
        st1._existence_successor_sorter = st0._existence_successor_sorter ∧
        st1._existence_info_sorter.map (fun m => (m.swap_id, m.edge)) =
          st0._existence_info_sorter.map (fun m => (m.swap_id, m.edge)) := by
  intro fuel
  induction fuel with
  | zero =>
    intro reader reader0 reqs succ info info0 hinfo st0 h
    cases reqs with
    | nil =>
      simp only [existence_loop, Option.some.injEq] at h
      subst h
      exact ⟨_, rfl, rfl, hinfo⟩
    | cons r rest =>
      simp only [existence_loop] at h
      exact Option.noConfusion h
  | succ fuel ih =>
    intro reader reader0 reqs succ info info0 hinfo st0 h
    cases reqs with
    | nil =>
      simp only [existence_loop, Option.some.injEq] at h
      subst h
      exact ⟨_, rfl, rfl, hinfo⟩
    | cons r rest =>
      simp only [existence_loop] at h ⊢
      cases hc : chain_requests r.edge (r :: rest) r.swap_id false succ with
      | none =>
        rw [hc] at h
        exact Option.noConfusion h
      | some res =>
        obtain ⟨rest1, last1, found1, succ1⟩ := res
        rw [hc] at h
        simp only at h ⊢
        refine ih _ _ rest1 succ1 _ _ ?_ st0 h
        cases found1
        · simpa using hinfo
        · simp only [if_true, List.map_append, List.map_singleton, hinfo]

/-- Pass C returns on every sorted request stream, whatever the edge list;
its successor messages and the addresses of its infos are the ones it
emits on the empty edge list. -/
theorem process_existence_requests_total (edges : List edge_t)
    (R : List ExistenceRequestMsg) (hR : R.Sorted (· ≤ ·)) :
    ∃ c c0, _process_existence_requests edges R = some c ∧
      _process_existence_requests [] R = some c0 ∧ PassCSpec [] R c0 ∧
      c._existence_successor_sorter = c0._existence_successor_sorter ∧
      (c._existence_info_sorter.map (fun m => (m.swap_id, m.edge))).Perm
        (c0._existence_info_sorter.map (fun m => (m.swap_id, m.edge))) := by
  obtain ⟨c0, h0, hspec⟩ := process_existence_requests_spec [] List.sorted_nil R hR
  have h0' := h0
  unfold _process_existence_requests at h0'
  split at h0'
  · exact Option.noConfusion h0'
  · rename_i st0 hloop0
    have := (Option.some.inj h0').symm
    subst this
    obtain ⟨st1, hloop1, hsucc, hinfo⟩ :=
      existence_loop_reader R.length edges [] R [] [] [] rfl st0 hloop0
    refine ⟨{ _existence_successor_sorter := sorter_sort st1._existence_successor_sorter,
              _existence_info_sorter := sorter_sort st1._existence_info_sorter }, _, ?_, h0,
      hspec, ?_, ?_⟩
    · simp only [_process_existence_requests, hloop1]
    · simp only [hsucc]
    · simp only
      refine ((sorter_sort_perm _).map _).trans ?_
      rw [hinfo]
      exact ((sorter_sort_perm _).map _).symm

/-! ## Claims on the passes A, B and C -/

/-- C24: for every batch whose swaps each name two distinct edge ids, every
`DependencyChainSuccessorMsg {sid, eid, next}` Pass A emits has `next > sid`,
and every `ExistenceSuccessorMsg {sid, e, next}` Pass C emits (on any
request stream, in particular the one Pass B produces) has `next > sid`; on a
sorted edge list and a valid batch the three passes return, so the messages
exist. -/
theorem chain_ids_increase (edges : List edge_t) (swaps : List SwapDescriptor)
    (hd : ∀ d ∈ swaps, d.edges0 ≠ d.edges1) :
    (∀ a, _compute_dependency_chain edges.length edges swaps = some a →
      ∀ msg ∈ a._depchain_successor_sorter, msg.successor > msg.swap_id) ∧
    (∀ R c, _process_existence_requests edges R = some c →
      ∀ msg ∈ c._existence_successor_sorter, msg.successor > msg.swap_id) ∧
    (valid_batch edges.length swaps →
      ∃ a R c, _compute_dependency_chain edges.length edges swaps = some a ∧
        _compute_conflicts swaps a = some R ∧
        _process_existence_requests edges R = some c) := by
  refine ⟨?_, ?_, ?_⟩
  · intro a ha msg hm
    exact depchain_successor_lt edges swaps hd a ha msg hm
  · intro R c hc msg hm
    exact existence_successor_lt edges R c hc msg hm
  · intro hv
    obtain ⟨a, ha1, ha2⟩ := compute_dependency_chain_spec edges swaps hv
    obtain ⟨R, hR1, hR2⟩ := compute_conflicts_spec edges swaps hv a ha2
    obtain ⟨c, _, hc, _⟩ := process_existence_requests_total edges R hR2.sorted
    exact ⟨a, R, c, ha1, hR1, hc⟩

/-- Witness of C24 on the edges `(0,1)`, `(2,3)` and the swap of the edge
ids `0` and `1`, twice. -/
theorem chain_ids_increase_witness :
    (∀ d ∈ ([⟨0, 1, false⟩, ⟨0, 1, false⟩] : List SwapDescriptor), d.edges0 ≠ d.edges1) ∧
    (∀ a, _compute_dependency_chain 2 [⟨0, 1⟩, ⟨2, 3⟩] [⟨0, 1, false⟩, ⟨0, 1, false⟩] = some a →
      ∀ msg ∈ a._depchain_successor_sorter, msg.successor > msg.swap_id) ∧
    (∀ R c, _process_existence_requests [⟨0, 1⟩, ⟨2, 3⟩] R = some c →
      ∀ msg ∈ c._existence_successor_sorter, msg.successor > msg.swap_id) ∧
    (valid_batch 2 [⟨0, 1, false⟩, ⟨0, 1, false⟩] →
      ∃ a R c, _compute_dependency_chain 2 [⟨0, 1⟩, ⟨2, 3⟩] [⟨0, 1, false⟩, ⟨0, 1, false⟩] =
          some a ∧
        _compute_conflicts [⟨0, 1, false⟩, ⟨0, 1, false⟩] a = some R ∧
        _process_existence_requests [⟨0, 1⟩, ⟨2, 3⟩] R = some c) :=
  ⟨by decide, chain_ids_increase [⟨0, 1⟩, ⟨2, 3⟩] [⟨0, 1, false⟩, ⟨0, 1, false⟩] (by decide)⟩

/-- C25: for every edge list and every batch whose edge ids are all below
`|edges|`, `_compute_dependency_chain` returns and its mask
`edge_remains_valid` has length exactly `|edges|`; its bit at position `e`
is `false` iff at least one swap of the batch names edge id `e`, and `true`
iff none does. -/
theorem mask_marks_touched_edges (edges : List edge_t) (swaps : List SwapDescriptor)
    (hlt : ∀ s ∈ swaps, s.edges0 < edges.length ∧ s.edges1 < edges.length) :
    ∃ a, _compute_dependency_chain edges.length edges swaps = some a ∧
      a.edge_remains_valid.length = edges.length ∧
      ∀ e, e < edges.length →
        (a.edge_remains_valid[e]? = some false ↔ ∃ s ∈ swaps, e = s.edges0 ∨ e = s.edges1) ∧
        (a.edge_remains_valid[e]? = some true ↔ ∀ s ∈ swaps, e ≠ s.edges0 ∧ e ≠ s.edges1) := by
  obtain ⟨a, ha, hmask⟩ := compute_mask_spec edges swaps hlt
  refine ⟨a, ha, ?_, ?_⟩
  · rw [hmask, mask_spec_length]
  · intro e he
    rw [hmask, mask_spec_get _ _ _ he]
    simp only [Option.some.injEq, decide_eq_false_iff_not, decide_eq_true_eq, touches]
    constructor
    · constructor
      · intro h
        by_contra hcon
        apply h
        intro s hs ht
        exact hcon ⟨s, hs, ht⟩
      · rintro ⟨s, hs, ht⟩ h
        exact h s hs ht
    · constructor
      · intro h s hs
        exact ⟨fun h0 => h s hs (Or.inl h0), fun h1 => h s hs (Or.inr h1)⟩
      · intro h s hs ht
        rcases ht with h0 | h1
        · exact (h s hs).1 h0
        · exact (h s hs).2 h1

/-- Witness of C25 on three edges and a batch that names the edge id `1`
twice in one swap and never the edge id `2`. -/
theorem mask_marks_touched_edges_witness :
    (∀ s ∈ ([⟨1, 1, false⟩, ⟨0, 1, true⟩] : List SwapDescriptor),
      s.edges0 < ([⟨0, 1⟩, ⟨2, 3⟩, ⟨4, 5⟩] : List edge_t).length ∧
      s.edges1 < ([⟨0, 1⟩, ⟨2, 3⟩, ⟨4, 5⟩] : List edge_t).length) ∧
    ∃ a, _compute_dependency_chain ([⟨0, 1⟩, ⟨2, 3⟩, ⟨4, 5⟩] : List edge_t).length
        [⟨0, 1⟩, ⟨2, 3⟩, ⟨4, 5⟩] [⟨1, 1, false⟩, ⟨0, 1, true⟩] = some a ∧
      a.edge_remains_valid.length = ([⟨0, 1⟩, ⟨2, 3⟩, ⟨4, 5⟩] : List edge_t).length ∧
      ∀ e, e < ([⟨0, 1⟩, ⟨2, 3⟩, ⟨4, 5⟩] : List edge_t).length →
        (a.edge_remains_valid[e]? = some false ↔
          ∃ s ∈ ([⟨1, 1, false⟩, ⟨0, 1, true⟩] : List SwapDescriptor),
            e = s.edges0 ∨ e = s.edges1) ∧
        (a.edge_remains_valid[e]? = some true ↔
          ∀ s ∈ ([⟨1, 1, false⟩, ⟨0, 1, true⟩] : List SwapDescriptor),
            e ≠ s.edges0 ∧ e ≠ s.edges1) :=
  ⟨by decide, mask_marks_touched_edges [⟨0, 1⟩, ⟨2, 3⟩, ⟨4, 5⟩]
    [⟨1, 1, false⟩, ⟨0, 1, true⟩] (by decide)⟩

/-- C26: for every valid batch Pass A returns, and for every edge id `e`
touched by the swaps `s_1 < s_2 < ... < s_k` (the list `touching swaps e`,
`k >= 1`) the edge messages it emits for `e` are exactly the one message
`{s_1, e, edges[e]}` and the successor messages it emits for `e` are exactly
the `k-1` links `{s_j, e, s_(j+1)}`; every message is for a touched edge id,
so there are (distinct touched ids) edge messages and
`2*|batch| - (distinct touched ids)` successor messages. -/
theorem dependency_chain_messages (edges : List edge_t) (swaps : List SwapDescriptor)
    (hv : valid_batch edges.length swaps) :
    ∃ a, _compute_dependency_chain edges.length edges swaps = some a ∧
      (∀ e s T, touching swaps e = s :: T →
        (∃ x, edges[e]? = some x ∧
          a._depchain_edge_sorter.filter (fun msg => decide (msg.edge_id = e)) = [⟨s, e, x⟩]) ∧
        a._depchain_successor_sorter.filter (fun msg => decide (msg.edge_id = e)) =
          List.zipWith (fun sj next => ⟨sj, e, next⟩) (s :: T) T ∧
        (a._depchain_successor_sorter.filter (fun msg => decide (msg.edge_id = e))).length + 1 =
          (touching swaps e).length) ∧
      (∀ msg ∈ a._depchain_edge_sorter, touching swaps msg.edge_id ≠ []) ∧
      (∀ msg ∈ a._depchain_successor_sorter, touching swaps msg.edge_id ≠ []) ∧
      a._depchain_edge_sorter.length = (touched_ids swaps).length ∧
      a._depchain_successor_sorter.length = 2 * swaps.length - (touched_ids swaps).length := by
  obtain ⟨a, ha1, ha2⟩ := compute_dependency_chain_spec edges swaps hv
  have hcount := (compute_dependency_chain_some edges swaps a ha1).2
  have hdep := (dep_length_eq edges swaps hv a ha2).2
  refine ⟨a, ha1, ?_, ?_, ?_, hdep, by omega⟩
  · intro e s T hT
    obtain ⟨h1, h2⟩ := messages_of_edge edges swaps hv a ha2 e s T hT
    refine ⟨h1, h2, ?_⟩
    rw [h2, hT]
    simp only [chain_links, List.tail_cons, List.length_zipWith, List.length_cons]
    omega
  · intro msg hm
    rw [touching_ne_nil_iff, mem_touched_ids, touched_iff_next_touch]
    exact ⟨msg.swap_id, ((ha2.dep_mem msg).mp hm).1⟩
  · intro msg hm
    rw [touching_ne_nil_iff, mem_touched_ids]
    obtain ⟨⟨d, hd, ht⟩, _⟩ := (ha2.succ_mem msg).mp hm
    exact ⟨d, List.getElem?_mem hd, ht⟩

/-- Witness of C26 on three edges and the batch `{0,1}`, `{0,2}`, `{0,1}`. -/
theorem dependency_chain_messages_witness :
    valid_batch ([⟨0, 1⟩, ⟨2, 3⟩, ⟨4, 5⟩] : List edge_t).length
      [⟨0, 1, false⟩, ⟨0, 2, false⟩, ⟨0, 1, true⟩] ∧
    ∃ a, _compute_dependency_chain ([⟨0, 1⟩, ⟨2, 3⟩, ⟨4, 5⟩] : List edge_t).length
        [⟨0, 1⟩, ⟨2, 3⟩, ⟨4, 5⟩] [⟨0, 1, false⟩, ⟨0, 2, false⟩, ⟨0, 1, true⟩] = some a ∧
      (∀ e s T, touching [⟨0, 1, false⟩, ⟨0, 2, false⟩, ⟨0, 1, true⟩] e = s :: T →
        (∃ x, ([⟨0, 1⟩, ⟨2, 3⟩, ⟨4, 5⟩] : List edge_t)[e]? = some x ∧
          a._depchain_edge_sorter.filter (fun msg => decide (msg.edge_id = e)) = [⟨s, e, x⟩]) ∧
        a._depchain_successor_sorter.filter (fun msg => decide (msg.edge_id = e)) =
          List.zipWith (fun sj next => ⟨sj, e, next⟩) (s :: T) T ∧
        (a._depchain_successor_sorter.filter (fun msg => decide (msg.edge_id = e))).length + 1 =
          (touching [⟨0, 1, false⟩, ⟨0, 2, false⟩, ⟨0, 1, true⟩] e).length) ∧
      (∀ msg ∈ a._depchain_edge_sorter,
        touching [⟨0, 1, false⟩, ⟨0, 2, false⟩, ⟨0, 1, true⟩] msg.edge_id ≠ []) ∧
      (∀ msg ∈ a._depchain_successor_sorter,
        touching [⟨0, 1, false⟩, ⟨0, 2, false⟩, ⟨0, 1, true⟩] msg.edge_id ≠ []) ∧
      a._depchain_edge_sorter.length =
        (touched_ids [⟨0, 1, false⟩, ⟨0, 2, false⟩, ⟨0, 1, true⟩]).length ∧
      a._depchain_successor_sorter.length =
        2 * ([⟨0, 1, false⟩, ⟨0, 2, false⟩, ⟨0, 1, true⟩] : List SwapDescriptor).length -
          (touched_ids [⟨0, 1, false⟩, ⟨0, 2, false⟩, ⟨0, 1, true⟩]).length :=
  ⟨by decide, dependency_chain_messages [⟨0, 1⟩, ⟨2, 3⟩, ⟨4, 5⟩]
    [⟨0, 1, false⟩, ⟨0, 2, false⟩, ⟨0, 1, true⟩] (by decide)⟩

/-- C27: one iteration of Pass B for swap `sid` that returns has fetched the
state sets `E0`, `E1` and the successors `succ0`, `succ1` of its two edge
ids; the existence requests it pushes are exactly, for every pair
`(e1,e2)` of `E0 x E1`, the two new edges of `_swap_edges e1 e2 dir` with
`forward_only = false`, then every `e` of `E0` and every `e` of `E1` with
`forward_only = true` (`2*|E0|*|E1| + |E0| + |E1|` requests); the messages
it adds to the dependency queue are, for a side `i` with `succ_i != 0`,
`{succ_i, eid_i, new_i}` for every pair and `{succ_i, eid_i, e}` for every
`e` of `E_i`, and none for a side with `succ_i = 0`. -/
theorem conflict_pass_pushes (sid : Nat) (swap : SwapDescriptor) (st st1 : ConflictState)
    (h : conflicts_step sid swap st = some st1) :
    ∃ sa succ0 E0 sb succ1 E1,
      fetch_messages sid swap.edges0 st = some (sa, succ0, E0) ∧
      fetch_messages sid swap.edges1 sa = some (sb, succ1, E1) ∧
      st1._existence_request_sorter =
        st._existence_request_sorter ++
          (E0.flatMap (fun e1 => E1.flatMap (fun e2 =>
            [⟨(_swap_edges e1 e2 swap.direction).1, sid, false⟩,
             ⟨(_swap_edges e1 e2 swap.direction).2, sid, false⟩])) ++
           E0.map (fun e => ⟨e, sid, true⟩) ++ E1.map (fun e => ⟨e, sid, true⟩)) ∧
      st1._existence_request_sorter.length =
        st._existence_request_sorter.length +
          (2 * E0.length * E1.length + E0.length + E1.length) ∧
      st1.depchain_pqsort._pq.Perm (sb.depchain_pqsort._pq ++
        ((if succ0 ≠ 0 then
            E0.flatMap (fun e1 => E1.map (fun e2 =>
              ⟨succ0, swap.edges0, (_swap_edges e1 e2 swap.direction).1⟩)) ++
            E0.map (fun e => ⟨succ0, swap.edges0, e⟩)
          else []) ++
         (if succ1 ≠ 0 then
            E0.flatMap (fun e1 => E1.map (fun e2 =>
              ⟨succ1, swap.edges1, (_swap_edges e1 e2 swap.direction).2⟩)) ++
            E1.map (fun e => ⟨succ1, swap.edges1, e⟩)
          else []))) := by
  obtain ⟨sa, succ0, E0, sb, succ1, E1, h0, h1, _, heff⟩ := conflicts_step_some sid swap st st1 h
  have hr0 := (fetch_messages_some sid swap.edges0 st sa succ0 E0 h0).2.2
  have hr1 := (fetch_messages_some sid swap.edges1 sa sb succ1 E1 h1).2.2
  have hreq : st1._existence_request_sorter =
      st._existence_request_sorter ++ pushed_requests sid swap E0 E1 := by
    rw [heff.req, hr1, hr0]
  refine ⟨sa, succ0, E0, sb, succ1, E1, h0, h1, hreq, ?_, heff.pq⟩
  rw [hreq, List.length_append, pushed_requests_length]

/-- Witness of C27: the first swap of the batch `{0,1}`, `{0,1}` on the
edges `(0,1)`, `(2,3)`, started on the output of Pass A. -/
theorem conflict_pass_pushes_witness :
    ∃ st1, conflicts_step 0 (⟨0, 1, false⟩ : SwapDescriptor) (conflicts_init ⟨[⟨0, 0, ⟨0, 1⟩⟩, ⟨0, 1, ⟨2, 3⟩⟩], [⟨0, 0, 1⟩, ⟨0, 1, 1⟩], [false, false]⟩) = some st1 ∧
    ∃ sa succ0 E0 sb succ1 E1,
      fetch_messages 0 (⟨0, 1, false⟩ : SwapDescriptor).edges0 (conflicts_init ⟨[⟨0, 0, ⟨0, 1⟩⟩, ⟨0, 1, ⟨2, 3⟩⟩], [⟨0, 0, 1⟩, ⟨0, 1, 1⟩], [false, false]⟩) = some (sa, succ0, E0) ∧
      fetch_messages 0 (⟨0, 1, false⟩ : SwapDescriptor).edges1 sa = some (sb, succ1, E1) ∧
      st1._existence_request_sorter =
        (conflicts_init ⟨[⟨0, 0, ⟨0, 1⟩⟩, ⟨0, 1, ⟨2, 3⟩⟩], [⟨0, 0, 1⟩, ⟨0, 1, 1⟩], [false, false]⟩)._existence_request_sorter ++
          (E0.flatMap (fun e1 => E1.flatMap (fun e2 =>
            [⟨(_swap_edges e1 e2 (⟨0, 1, false⟩ : SwapDescriptor).direction).1, 0, false⟩,
             ⟨(_swap_edges e1 e2 (⟨0, 1, false⟩ : SwapDescriptor).direction).2, 0, false⟩])) ++
           E0.map (fun e => ⟨e, 0, true⟩) ++ E1.map (fun e => ⟨e, 0, true⟩)) ∧
      st1._existence_request_sorter.length =
        (conflicts_init ⟨[⟨0, 0, ⟨0, 1⟩⟩, ⟨0, 1, ⟨2, 3⟩⟩], [⟨0, 0, 1⟩, ⟨0, 1, 1⟩], [false, false]⟩)._existence_request_sorter.length +
          (2 * E0.length * E1.length + E0.length + E1.length) ∧
      st1.depchain_pqsort._pq.Perm (sb.depchain_pqsort._pq ++
        ((if succ0 ≠ 0 then
            E0.flatMap (fun e1 => E1.map (fun e2 =>
              ⟨succ0, (⟨0, 1, false⟩ : SwapDescriptor).edges0, (_swap_edges e1 e2 (⟨0, 1, false⟩ : SwapDescriptor).direction).1⟩)) ++
            E0.map (fun e => ⟨succ0, (⟨0, 1, false⟩ : SwapDescriptor).edges0, e⟩)
          else []) ++
         (if succ1 ≠ 0 then
            E0.flatMap (fun e1 => E1.map (fun e2 =>
              ⟨succ1, (⟨0, 1, false⟩ : SwapDescriptor).edges1, (_swap_edges e1 e2 (⟨0, 1, false⟩ : SwapDescriptor).direction).2⟩)) ++
            E1.map (fun e => ⟨succ1, (⟨0, 1, false⟩ : SwapDescriptor).edges1, e⟩)
          else []))) :=
  ⟨_, rfl, conflict_pass_pushes 0 ⟨0, 1, false⟩ _ _ rfl⟩

/-! ## Claims on the safety of Pass B and on Pass C -/

/-- C28: for every valid batch Pass A and Pass B return, and Pass B reaches
every swap `sid` of the batch; there the two fetches return with non-empty
state sets (assertion `!edges[i].empty()`) and successors that are `0` or
larger than `sid` (assertion `successors[i] == 0 || successors[i] > sid`);
after them the merger is empty or its head has `swap_id > sid` (assertion
"all messages to this swap have been consumed"); the iteration returns;
every message it pushes into the dependency queue is addressed to a swap id
larger than `sid`, and afterwards the merger holds only messages for swaps
after `sid`. -/
theorem conflict_pass_safety (edges : List edge_t) (swaps : List SwapDescriptor)
    (hv : valid_batch edges.length swaps) (sid : Nat) (swap : SwapDescriptor)
    (hd : swaps[sid]? = some swap) :
    ∃ a R st sa succ0 E0 sb succ1 E1 st1 pushed,
      _compute_dependency_chain edges.length edges swaps = some a ∧
      _compute_conflicts swaps a = some R ∧
      conflicts_loop (swaps.take sid) 0 (conflicts_init a) = some st ∧
      fetch_messages sid swap.edges0 st = some (sa, succ0, E0) ∧
      fetch_messages sid swap.edges1 sa = some (sb, succ1, E1) ∧
      E0 ≠ [] ∧ E1 ≠ [] ∧ (succ0 = 0 ∨ succ0 > sid) ∧ (succ1 = 0 ∨ succ1 > sid) ∧
      (sb.depchain_pqsort.empty = true ∨
        ∃ msg, sb.depchain_pqsort.deref = some msg ∧ msg.swap_id > sid) ∧
      conflicts_step sid swap st = some st1 ∧
      st1.depchain_pqsort._pq.Perm (sb.depchain_pqsort._pq ++ pushed) ∧
      (∀ msg ∈ pushed, msg.swap_id > sid) ∧
      (∀ msg ∈ st1.depchain_pqsort._pq ++ st1.depchain_pqsort._sorter, msg.swap_id > sid) := by
  obtain ⟨a, ha1, ha2⟩ := compute_dependency_chain_spec edges swaps hv
  obtain ⟨R, hR1, _⟩ := compute_conflicts_spec edges swaps hv a ha2
  have hk := lt_length_of_getElem? swaps sid swap hd
  obtain ⟨st, hst, hinv⟩ := conflicts_prefix_inv edges swaps hv a ha2 sid (by omega)
  have hvd := hv swap (List.getElem?_mem hd)
  obtain ⟨st1, hstep, hinv1⟩ := conflicts_step_inv edges swaps sid swap hd hvd.1 hvd.2 st hinv
  obtain ⟨sa, succ0, E0, sb, succ1, E1, h0, h1, hall, heff⟩ :=
    conflicts_step_some sid swap st st1 hstep
  obtain ⟨hE0, hs0, _⟩ := fetch_messages_some sid swap.edges0 st sa succ0 E0 h0
  obtain ⟨hE1, hs1, _⟩ := fetch_messages_some sid swap.edges1 sa sb succ1 E1 h1
  refine ⟨a, R, st, sa, succ0, E0, sb, succ1, E1, st1, _, ha1, hR1, hst, h0, h1, hE0, hE1, hs0,
    hs1, ?_, hstep, heff.pq, ?_, ?_⟩
  · unfold all_consumed at hall
    cases hemp : sb.depchain_pqsort.empty
    · right
      rw [hemp, Bool.false_or] at hall
      split at hall
      · exact Bool.noConfusion hall
      · rename_i msg hmsg
        exact ⟨msg, hmsg, of_decide_eq_true hall⟩
    · exact Or.inl rfl
  · intro msg hm
    rcases List.mem_append.mp hm with h | h
    · split at h
      · rename_i hne
        have := (mem_pushed_states0 _ _ _ _ _ h).1
        rcases hs0 with h2 | h2
        · exact absurd h2 hne
        · omega
      · exact absurd h (List.not_mem_nil _)
    · split at h
      · rename_i hne
        have := (mem_pushed_states1 _ _ _ _ _ h).1
        rcases hs1 with h2 | h2
        · exact absurd h2 hne
        · omega
      · exact absurd h (List.not_mem_nil _)
  · intro msg hm
    have := next_touch_ge _ _ _ _ (hinv1.dep_sound msg hm)
    omega

/-- Witness of C28: the second swap of the batch `{0,1}`, `{0,2}`, `{0,1}`
on three edges. -/
theorem conflict_pass_safety_witness :
    valid_batch ([⟨0, 1⟩, ⟨2, 3⟩, ⟨4, 5⟩] : List edge_t).length ([⟨0, 1, false⟩, ⟨0, 2, false⟩, ⟨0, 1, true⟩] : List SwapDescriptor) ∧
    ([⟨0, 1, false⟩, ⟨0, 2, false⟩, ⟨0, 1, true⟩] : List SwapDescriptor)[1]? = some (⟨0, 2, false⟩ : SwapDescriptor) ∧
    ∃ a R st sa succ0 E0 sb succ1 E1 st1 pushed,
      _compute_dependency_chain ([⟨0, 1⟩, ⟨2, 3⟩, ⟨4, 5⟩] : List edge_t).length ([⟨0, 1⟩, ⟨2, 3⟩, ⟨4, 5⟩] : List edge_t) ([⟨0, 1, false⟩, ⟨0, 2, false⟩, ⟨0, 1, true⟩] : List SwapDescriptor) = some a ∧
      _compute_conflicts ([⟨0, 1, false⟩, ⟨0, 2, false⟩, ⟨0, 1, true⟩] : List SwapDescriptor) a = some R ∧
      conflicts_loop (([⟨0, 1, false⟩, ⟨0, 2, false⟩, ⟨0, 1, true⟩] : List SwapDescriptor).take 1) 0 (conflicts_init a) = some st ∧
      fetch_messages 1 (⟨0, 2, false⟩ : SwapDescriptor).edges0 st = some (sa, succ0, E0) ∧
      fetch_messages 1 (⟨0, 2, false⟩ : SwapDescriptor).edges1 sa = some (sb, succ1, E1) ∧
      E0 ≠ [] ∧ E1 ≠ [] ∧ (succ0 = 0 ∨ succ0 > 1) ∧ (succ1 = 0 ∨ succ1 > 1) ∧
      (sb.depchain_pqsort.empty = true ∨
        ∃ msg, sb.depchain_pqsort.deref = some msg ∧ msg.swap_id > 1) ∧
      conflicts_step 1 (⟨0, 2, false⟩ : SwapDescriptor) st = some st1 ∧
      st1.depchain_pqsort._pq.Perm (sb.depchain_pqsort._pq ++ pushed) ∧
      (∀ msg ∈ pushed, msg.swap_id > 1) ∧
      (∀ msg ∈ st1.depchain_pqsort._pq ++ st1.depchain_pqsort._sorter, msg.swap_id > 1) :=
  ⟨by decide, rfl,
    conflict_pass_safety [⟨0, 1⟩, ⟨2, 3⟩, ⟨4, 5⟩]
      [⟨0, 1, false⟩, ⟨0, 2, false⟩, ⟨0, 1, true⟩] (by decide) 1 ⟨0, 2, false⟩ rfl⟩

/-- C29: on a sorted duplicate-free edge list and a request stream grouped
in ascending edge order, every info a run of Pass C emits carries as its
`exists` bit whether its edge is a member of the edge list, and no edge gets
two infos; one step of the interleaved scan (the loop "find edge in graph"
started where the reader stands after the queries for smaller edges)
computes for the queried edge `e` the bit `e ∈ edges` and leaves the reader
ready for the next larger query; and on a fully sorted request stream Pass C
returns and answers every edge that some request targets. -/
theorem exists_bit_is_membership (edges : List edge_t) (hedges : edges.Sorted (· < ·))
    (R : List ExistenceRequestMsg) (hR : (R.map (fun r => r.edge)).Sorted (· ≤ ·)) :
    (∀ c, _process_existence_requests edges R = some c →
      (∀ msg ∈ c._existence_info_sorter, msg.exists_bit = decide (msg.edge ∈ edges)) ∧
      (c._existence_info_sorter.map (fun msg => msg.edge)).Nodup) ∧
    (∀ (consumed reader : List edge_t) (e : edge_t), edges = consumed ++ reader →
      (∀ x ∈ consumed, x < e) →
      (find_edge e reader false).2 = decide (e ∈ edges) ∧
      ∃ pre, reader = pre ++ (find_edge e reader false).1 ∧
        (∀ x ∈ consumed ++ pre, x ≤ e) ∧ ∀ x ∈ (find_edge e reader false).1, e < x) ∧
    (R.Sorted (· ≤ ·) →
      ∃ c, _process_existence_requests edges R = some c ∧
        ∀ e t, (⟨e, t, false⟩ : ExistenceRequestMsg) ∈ R →
          ∃ s, (⟨s, e, decide (e ∈ edges)⟩ : ExistenceInfoMsg) ∈ c._existence_info_sorter) := by
  have hgrouped : R.Pairwise (fun a b => a.edge ≤ b.edge) := List.pairwise_map.mp hR
  refine ⟨?_, ?_, ?_⟩
  · intro c hc
    obtain ⟨h1, _, h3⟩ := process_existence_requests_bits edges hedges R hgrouped c hc
    exact ⟨h1, h3⟩
  · intro consumed reader e hsplit hlt
    have hreader : reader.Sorted (· < ·) := by
      rw [hsplit] at hedges
      exact (List.pairwise_append.mp hedges).2.1
    obtain ⟨pre, hp1, hp2, hp3, hp4⟩ := find_edge_spec e reader hreader
    refine ⟨?_, pre, hp1, ?_, hp3⟩
    · rw [hp4]
      congr 1
      apply propext
      constructor
      · intro hm
        rw [hsplit, hp1]
        exact List.mem_append_right _ (List.mem_append_left _ hm)
      · intro hm
        rw [hsplit, hp1] at hm
        rcases List.mem_append.mp hm with h1 | h1
        · exact absurd (hlt e h1) (lt_irrefl _)
        · rcases List.mem_append.mp h1 with h2 | h2
          · exact h2
          · exact absurd (hp3 e h2) (lt_irrefl _)
    · intro x hx
      rcases List.mem_append.mp hx with h | h
      · exact le_of_lt (hlt x h)
      · exact hp2 x h
  · intro hsorted
    obtain ⟨c, hc, hspec⟩ := process_existence_requests_spec edges hedges R hsorted
    refine ⟨c, hc, ?_⟩
    intro e t ht
    obtain ⟨s, hs⟩ : ∃ s, asks R e s ∧ ∀ t, asks R e t → s ≤ t := by
      classical
      have hex : ∃ s, asks R e s := ⟨t, false, ht⟩
      exact ⟨Nat.find hex, Nat.find_spec hex, fun t' ht' => Nat.find_min' hex ht'⟩
    refine ⟨s, ?_⟩
    rw [hspec.info_mem]
    exact ⟨hs.1, hs.2, ⟨t, ht⟩, rfl⟩

/-- Witness of C29 on the edges `(0,1)`, `(2,3)` and requests for `(0,1)`
and `(1,3)`. -/
theorem exists_bit_is_membership_witness :
    ([⟨0, 1⟩, ⟨2, 3⟩] : List edge_t).Sorted (· < ·) ∧
    (([⟨⟨0, 1⟩, 1, false⟩, ⟨⟨0, 1⟩, 0, true⟩, ⟨⟨1, 3⟩, 0, false⟩] :
      List ExistenceRequestMsg).map (fun r => r.edge)).Sorted (· ≤ ·) ∧
    _process_existence_requests [⟨0, 1⟩, ⟨2, 3⟩]
        [⟨⟨0, 1⟩, 1, false⟩, ⟨⟨0, 1⟩, 0, true⟩, ⟨⟨1, 3⟩, 0, false⟩] =
      some ⟨[⟨0, ⟨0, 1⟩, 1⟩], [⟨0, ⟨0, 1⟩, true⟩, ⟨0, ⟨1, 3⟩, false⟩]⟩ ∧
    (∀ msg ∈ ([⟨0, ⟨0, 1⟩, true⟩, ⟨0, ⟨1, 3⟩, false⟩] : List ExistenceInfoMsg),
      msg.exists_bit = decide (msg.edge ∈ ([⟨0, 1⟩, ⟨2, 3⟩] : List edge_t))) ∧
    (([⟨0, ⟨0, 1⟩, true⟩, ⟨0, ⟨1, 3⟩, false⟩] : List ExistenceInfoMsg).map
      (fun msg => msg.edge)).Nodup :=
  ⟨by decide, by decide, by decide,
    ((exists_bit_is_membership [⟨0, 1⟩, ⟨2, 3⟩]
      (by decide) [⟨⟨0, 1⟩, 1, false⟩, ⟨⟨0, 1⟩, 0, true⟩, ⟨⟨1, 3⟩, 0, false⟩]
      (by decide)).1 ⟨[⟨0, ⟨0, 1⟩, 1⟩], [⟨0, ⟨0, 1⟩, true⟩, ⟨0, ⟨1, 3⟩, false⟩]⟩ (by decide))⟩

/-- C30, what the code does instead: on the edges `(0,1)`, `(2,3)` and the
batch that swaps the edge ids `0` and `1` twice, the requests for the edge
`(0,1)` are a target request of swap 1 and source requests of the swaps 1
and 0; swap 1 is the only swap with a request `forward_only = false` for
`(0,1)`, yet the single info for `(0,1)` is addressed to swap 0. -/
theorem info_addressed_to_source_asker :
    ∃ a R c,
      _compute_dependency_chain 2 [⟨0, 1⟩, ⟨2, 3⟩] [⟨0, 1, false⟩, ⟨0, 1, false⟩] = some a ∧
      _compute_conflicts [⟨0, 1, false⟩, ⟨0, 1, false⟩] a = some R ∧
      _process_existence_requests [⟨0, 1⟩, ⟨2, 3⟩] R = some c ∧
      R.filter (fun r => decide (r.edge = ⟨0, 1⟩)) =
        [⟨⟨0, 1⟩, 1, false⟩, ⟨⟨0, 1⟩, 1, false⟩, ⟨⟨0, 1⟩, 1, true⟩, ⟨⟨0, 1⟩, 0, true⟩] ∧
      c._existence_info_sorter.filter (fun msg => decide (msg.edge = ⟨0, 1⟩)) =
        [⟨0, ⟨0, 1⟩, true⟩] :=
  ⟨_, _, _, rfl, rfl, rfl, by decide, by decide⟩

/-- C30, amended: on a sorted request stream Pass C returns, and for every
queried edge `e` whose requests contain at least one with
`forward_only = false` it emits a single `ExistenceInfoMsg` for `e`; that
info is addressed to the smallest swap id among all the requests for `e`,
whatever their `forward_only` (on a sorted duplicate-free edge list its bit
is whether `e` is in the list). -/
theorem info_goes_to_earliest_asker (edges : List edge_t) (R : List ExistenceRequestMsg)
    (hR : R.Sorted (· ≤ ·)) (e : edge_t) (t : Nat)
    (ht : (⟨e, t, false⟩ : ExistenceRequestMsg) ∈ R) :
    ∃ c s b, _process_existence_requests edges R = some c ∧
      c._existence_info_sorter.filter (fun msg => decide (msg.edge = e)) = [⟨s, e, b⟩] ∧
      (∃ f, (⟨e, s, f⟩ : ExistenceRequestMsg) ∈ R) ∧
      (∀ q ∈ R, q.edge = e → s ≤ q.swap_id) ∧
      (edges.Sorted (· < ·) → b = decide (e ∈ edges)) := by
  obtain ⟨c, c0, hc, hc0, hspec, _, hperm⟩ := process_existence_requests_total edges R hR
  -- the info for `e` on the empty edge list
  obtain ⟨s, hs⟩ : ∃ s, asks R e s ∧ ∀ t, asks R e t → s ≤ t := by
    classical
    have hex : ∃ s, asks R e s := ⟨t, false, ht⟩
    exact ⟨Nat.find hex, Nat.find_spec hex, fun t' ht' => Nat.find_min' hex ht'⟩
  have hm0 : (⟨s, e, false⟩ : ExistenceInfoMsg) ∈ c0._existence_info_sorter := by
    rw [hspec.info_mem]
    exact ⟨hs.1, hs.2, ⟨t, ht⟩, by simp⟩
  have hnd0 := (process_existence_requests_bits [] List.sorted_nil R
    (requests_grouped_of_sorted R hR) c0 hc0).2.2
  -- the addresses of the infos for `e`
  have hnd : (c._existence_info_sorter.map (fun m => m.edge)).Nodup := by
    have h1 : (c._existence_info_sorter.map (fun m => (m.swap_id, m.edge))).map Prod.snd =
        c._existence_info_sorter.map (fun m => m.edge) := by
      rw [List.map_map]; rfl
    have h2 : (c0._existence_info_sorter.map (fun m => (m.swap_id, m.edge))).map Prod.snd =
        c0._existence_info_sorter.map (fun m => m.edge) := by
      rw [List.map_map]; rfl
    rw [← h1]
    refine (hperm.map Prod.snd).nodup_iff.mpr ?_
    rw [h2]; exact hnd0
  have hmem : (s, e) ∈ c._existence_info_sorter.map (fun m => (m.swap_id, m.edge)) := by
    rw [hperm.mem_iff]
    exact List.mem_map.mpr ⟨_, hm0, rfl⟩
  obtain ⟨msg, hmsg, hmsg2⟩ := List.mem_map.mp hmem
  simp only [Prod.mk.injEq] at hmsg2
  have hfilter : c._existence_info_sorter.filter (fun m => decide (m.edge = e)) = [msg] := by
    have hone : ∀ x ∈ c._existence_info_sorter, x.edge = e → x = msg := by
      intro x hx hxe
      by_contra hne
      have := List.inj_on_of_nodup_map hnd hx hmsg (by rw [hxe, hmsg2.2])
      exact hne this
    have hsub : ∀ (l : List ExistenceInfoMsg), l.Nodup → (∀ x ∈ l, x.edge = e → x = msg) →
        msg ∈ l → l.filter (fun m => decide (m.edge = e)) = [msg] := by
      intro l
      induction l with
      | nil => intro _ _ h; exact absurd h (List.not_mem_nil _)
      | cons y rest ih =>
        intro hnd1 hall hin
        have hy : y ∉ rest := (List.nodup_cons.mp hnd1).1
        by_cases hye : y.edge = e
        · have hyy := hall y (List.mem_cons_self _ _) hye
          subst hyy
          rw [List.filter_cons_of_pos (by simpa using hye)]
          congr 1
          rw [List.filter_eq_nil_iff]
          intro x hx hxe
          have := hall x (List.mem_cons_of_mem _ hx) (of_decide_eq_true hxe)
          rw [this] at hx
          exact hy hx
        · rw [List.filter_cons_of_neg (by simpa using hye)]
          have hin' : msg ∈ rest := by
            rcases List.mem_cons.mp hin with h | h
            · rw [← h] at hye; exact absurd hmsg2.2 hye
            · exact h
          exact ih (List.nodup_cons.mp hnd1).2
            (fun x hx => hall x (List.mem_cons_of_mem _ hx)) hin'
    exact hsub _ (List.Nodup.of_map _ hnd) hone hmsg
  refine ⟨c, s, msg.exists_bit, hc, ?_, hs.1, ?_, ?_⟩
  · rw [hfilter]
    cases msg
    simp only at hmsg2
    simp [hmsg2.1, hmsg2.2]
  · intro q hq hqe
    apply hs.2
    exact ⟨q.forward_only, by cases q; simp only at hqe; subst hqe; exact hq⟩
  · intro hedges
    have := (process_existence_requests_bits edges hedges R
      (requests_grouped_of_sorted R hR) c hc).1 msg hmsg
    rw [this, hmsg2.2]

/-- Witness of the amended C30 on the requests of the counterexample for
the edge `(0,1)`. -/
theorem info_goes_to_earliest_asker_witness :
    ([⟨⟨0, 1⟩, 1, false⟩, ⟨⟨0, 1⟩, 1, true⟩, ⟨⟨0, 1⟩, 0, true⟩] :
      List ExistenceRequestMsg).Sorted (· ≤ ·) ∧
    (⟨⟨0, 1⟩, 1, false⟩ : ExistenceRequestMsg) ∈
      ([⟨⟨0, 1⟩, 1, false⟩, ⟨⟨0, 1⟩, 1, true⟩, ⟨⟨0, 1⟩, 0, true⟩] : List ExistenceRequestMsg) ∧
    ∃ c s b, _process_existence_requests [⟨0, 1⟩, ⟨2, 3⟩]
        [⟨⟨0, 1⟩, 1, false⟩, ⟨⟨0, 1⟩, 1, true⟩, ⟨⟨0, 1⟩, 0, true⟩] = some c ∧
      c._existence_info_sorter.filter (fun msg => decide (msg.edge = ⟨0, 1⟩)) =
        [⟨s, ⟨0, 1⟩, b⟩] ∧
      (∃ f, (⟨⟨0, 1⟩, s, f⟩ : ExistenceRequestMsg) ∈
        ([⟨⟨0, 1⟩, 1, false⟩, ⟨⟨0, 1⟩, 1, true⟩, ⟨⟨0, 1⟩, 0, true⟩] :
          List ExistenceRequestMsg)) ∧
      (∀ q ∈ ([⟨⟨0, 1⟩, 1, false⟩, ⟨⟨0, 1⟩, 1, true⟩, ⟨⟨0, 1⟩, 0, true⟩] :
          List ExistenceRequestMsg), q.edge = ⟨0, 1⟩ → s ≤ q.swap_id) ∧
      (([⟨0, 1⟩, ⟨2, 3⟩] : List edge_t).Sorted (· < ·) →
        b = decide ((⟨0, 1⟩ : edge_t) ∈ ([⟨0, 1⟩, ⟨2, 3⟩] : List edge_t))) :=
  ⟨by decide, by decide,
    info_goes_to_earliest_asker [⟨0, 1⟩, ⟨2, 3⟩]
      [⟨⟨0, 1⟩, 1, false⟩, ⟨⟨0, 1⟩, 1, true⟩, ⟨⟨0, 1⟩, 0, true⟩] (by decide) ⟨0, 1⟩ 1
      (by decide)⟩

/-! ## Pass C: which edges get an info -/

/-- Pass C on a sorted request stream returns; no edge gets two infos,
every info answers a targeted edge and is addressed to its earliest asker,
and every targeted edge gets an info. -/
theorem process_existence_requests_infos (edges : List edge_t)
    (R : List ExistenceRequestMsg) (hR : R.Sorted (· ≤ ·)) :
    ∃ c, _process_existence_requests edges R = some c ∧
      (c._existence_info_sorter.map (fun m => m.edge)).Nodup ∧
      (∀ msg ∈ c._existence_info_sorter, asks R msg.edge msg.swap_id ∧
        (∀ t, asks R msg.edge t → msg.swap_id ≤ t) ∧ ∃ t, targets R msg.edge t) ∧
      (∀ e t, targets R e t → ∃ msg ∈ c._existence_info_sorter, msg.edge = e) := by
  obtain ⟨c, c0, hc, hc0, hspec, _, hperm⟩ := process_existence_requests_total edges R hR
  have hnd0 := (process_existence_requests_bits [] List.sorted_nil R
    (requests_grouped_of_sorted R hR) c0 hc0).2.2
  refine ⟨c, hc, ?_, ?_, ?_⟩
  · have h1 : (c._existence_info_sorter.map (fun m => (m.swap_id, m.edge))).map Prod.snd =
        c._existence_info_sorter.map (fun m => m.edge) := by
      rw [List.map_map]; rfl
    have h2 : (c0._existence_info_sorter.map (fun m => (m.swap_id, m.edge))).map Prod.snd =
        c0._existence_info_sorter.map (fun m => m.edge) := by
      rw [List.map_map]; rfl
    rw [← h1]
    refine (hperm.map Prod.snd).nodup_iff.mpr ?_
    rw [h2]; exact hnd0
  · intro msg hm
    have h1 : (msg.swap_id, msg.edge) ∈
        c0._existence_info_sorter.map (fun m => (m.swap_id, m.edge)) := by
      rw [← hperm.mem_iff]
      exact List.mem_map.mpr ⟨msg, hm, rfl⟩
    obtain ⟨m0, hm0, heq⟩ := List.mem_map.mp h1
    simp only [Prod.mk.injEq] at heq
    obtain ⟨g1, g2, g3, _⟩ := (hspec.info_mem m0).mp hm0
    rw [heq.1] at g1 g2
    rw [heq.2] at g1 g2 g3
    exact ⟨g1, g2, g3⟩
  · intro e t ht
    obtain ⟨s, hs⟩ : ∃ s, asks R e s ∧ ∀ t, asks R e t → s ≤ t := by
      classical
      have hex : ∃ s, asks R e s := ⟨t, false, ht⟩
      exact ⟨Nat.find hex, Nat.find_spec hex, fun t' ht' => Nat.find_min' hex ht'⟩
    have hm0 : (⟨s, e, false⟩ : ExistenceInfoMsg) ∈ c0._existence_info_sorter := by
      rw [hspec.info_mem]
      exact ⟨hs.1, hs.2, ⟨t, ht⟩, by simp⟩
    have hmem : (s, e) ∈ c._existence_info_sorter.map (fun m => (m.swap_id, m.edge)) := by
      rw [hperm.mem_iff]
      exact List.mem_map.mpr ⟨_, hm0, rfl⟩
    obtain ⟨msg, hmsg, hmsg2⟩ := List.mem_map.mp hmem
    simp only [Prod.mk.injEq] at hmsg2
    exact ⟨msg, hmsg, hmsg2.2⟩

/-- In a list whose keys are pairwise distinct at most one member has a
given key. -/
theorem filter_length_le_one {A B : Type} [DecidableEq B] (f : A → B) (b : B) :
    ∀ (l : List A), (l.map f).Nodup → (l.filter (fun x => decide (f x = b))).length ≤ 1 := by
  intro l
  induction l with
  | nil => intro _; simp
  | cons x rest ih =>
    intro hnd
    rw [List.map_cons, List.nodup_cons] at hnd
    by_cases hx : f x = b
    · rw [List.filter_cons_of_pos (by simpa using hx)]
      have : rest.filter (fun y => decide (f y = b)) = [] := by
        rw [List.filter_eq_nil_iff]
        intro y hy hyb
        apply hnd.1
        rw [hx, ← of_decide_eq_true hyb]
        exact List.mem_map.mpr ⟨y, hy, rfl⟩
      rw [this]; simp
    · rw [List.filter_cons_of_neg (by simpa using hx)]
      exact ih hnd.2

/-! ## Pass B: the state sets are strictly increasing -/

theorem getLast?_of_sorted {α : Type} [LinearOrder α] (l : List α) (hs : l.Sorted (· < ·))
    (hne : l ≠ []) : ∃ x, l.getLast? = some x ∧ x ∈ l ∧ ∀ e ∈ l, e ≤ x := by
  refine ⟨l.getLast hne, List.getLast?_eq_getLast l hne, List.getLast_mem hne, ?_⟩
  intro e he
  obtain ⟨pre, hpre⟩ : ∃ pre, l = pre ++ [l.getLast hne] :=
    ⟨l.dropLast, (List.dropLast_append_getLast hne).symm⟩
  rw [hpre] at he hs
  rcases List.mem_append.mp he with h | h
  · exact le_of_lt ((List.pairwise_append.mp hs).2.2 e h _ (List.mem_singleton_self _))
  · rw [List.mem_singleton.mp h]

/-- The loop "fetch possible edge state before swap" on a merger whose two
sources are ascending and whose cached head is up to date: the edges it
collects are strictly increasing, and it leaves the merger in such a state. -/
theorem fetch_states_sorted (k eid : Nat) :
    ∀ (fuel : Nat) (m : PQSorterMerger DependencyChainEdgeMsg) (acc : List edge_t),
      m.Ascending → m.Fresh → acc.Sorted (· < ·) →
      (∀ e ∈ acc, ∀ msg ∈ m.items, msg.swap_id = k → msg.edge_id = eid → e ≤ msg.edge) →
      ∀ m1 E, fetch_states k eid fuel m acc = some (m1, E) →
        E.Sorted (· < ·) ∧ m1.Ascending ∧ m1.Fresh := by
  intro fuel
  induction fuel with
  | zero =>
    intro m acc hasc hfresh hacc _ m1 E h
    simp only [fetch_states, Option.some.injEq, Prod.mk.injEq] at h
    rw [← h.1, ← h.2]
    exact ⟨hacc, hasc, hfresh⟩
  | succ fuel ih =>
    intro m acc hasc hfresh hacc hle m1 E h
    by_cases hne : m.items = []
    · simp only [fetch_states, (PQSorterMerger.empty_iff m).mpr hne, if_true, Option.some.injEq,
        Prod.mk.injEq] at h
      rw [← h.1, ← h.2]
      exact ⟨hacc, hasc, hfresh⟩
    · obtain ⟨x, m2, hderef, hincr, hasc2, hfresh2, hperm, hleast, _, _⟩ :=
        PQSorterMerger.pop_spec m hasc hfresh hne
      have hemp : m.empty = false := (PQSorterMerger.empty_false_iff m).mpr hne
      have hxmem : x ∈ m.items := hperm.mem_iff.mpr (List.mem_cons_self _ _)
      by_cases hmatch : x.swap_id = k ∧ x.edge_id = eid
      · have hcond : ¬ (x.swap_id ≠ k ∨ x.edge_id ≠ eid) := by
          simp only [not_or, not_not]; exact hmatch
        have hsub : ∀ msg ∈ m2.items, msg ∈ m.items :=
          fun msg hm => hperm.mem_iff.mpr (List.mem_cons_of_mem _ hm)
        have hxle : ∀ msg ∈ m2.items, msg.swap_id = k → msg.edge_id = eid →
            x.edge ≤ msg.edge := by
          intro msg hm h1 h2
          have := hleast msg (hsub msg hm)
          rw [depchain_edge_le_iff] at this
          rcases this with g | ⟨_, g | ⟨_, g⟩⟩
          · omega
          · omega
          · exact g
        by_cases hdup : acc.isEmpty ∨ some x.edge ≠ acc.getLast?
        · simp only [fetch_states, hemp, hderef, hincr, if_neg hcond, if_pos hdup] at h
          apply ih m2 (acc ++ [x.edge]) hasc2 hfresh2 ?_ ?_ m1 E h
          · rw [List.Sorted, List.pairwise_append]
            refine ⟨hacc, List.pairwise_singleton _ _, ?_⟩
            intro e he y hy
            rw [List.mem_singleton.mp hy]
            have hex : e ≤ x.edge := hle e he x hxmem hmatch.1 hmatch.2
            apply lt_of_le_of_ne hex
            intro heq
            have hane : acc ≠ [] := List.ne_nil_of_mem he
            obtain ⟨last, hl1, hl2, hl3⟩ := getLast?_of_sorted acc hacc hane
            have h1 : last ≤ x.edge := hle last hl2 x hxmem hmatch.1 hmatch.2
            have h2 : e ≤ last := hl3 e he
            have h3 : last = x.edge := le_antisymm h1 (heq ▸ h2)
            rcases hdup with hd | hd
            · cases acc with
              | nil => exact hane rfl
              | cons _ _ => exact Bool.noConfusion hd
            · exact hd (by rw [hl1, h3])
          · intro e he msg hm h1 h2
            rcases List.mem_append.mp he with g | g
            · exact hle e g msg (hsub msg hm) h1 h2
            · rw [List.mem_singleton.mp g]
              exact hxle msg hm h1 h2
        · simp only [fetch_states, hemp, hderef, hincr, if_neg hcond, if_neg hdup] at h
          exact ih m2 acc hasc2 hfresh2 hacc
            (fun e he msg hm h1 h2 => hle e he msg (hsub msg hm) h1 h2) m1 E h
      · have hcond : x.swap_id ≠ k ∨ x.edge_id ≠ eid := by
          by_cases h : x.swap_id = k
          · right; intro h2; exact hmatch ⟨h, h2⟩
          · left; exact h
        simp only [fetch_states, hemp, hderef, if_pos hcond, Bool.false_eq_true, if_false,
          Option.some.injEq, Prod.mk.injEq] at h
        rw [← h.1, ← h.2]
        exact ⟨hacc, hasc, hfresh⟩

/-- A fetch of Pass B on such a merger: the state set is strictly
increasing, hence without duplicates. -/
theorem fetch_messages_sorted (sid eid : Nat) (st st1 : ConflictState) (succ : Nat)
    (E : List edge_t) (hasc : st.depchain_pqsort.Ascending) (hfresh : st.depchain_pqsort.Fresh)
    (h : fetch_messages sid eid st = some (st1, succ, E)) :
    E.Sorted (· < ·) ∧ st1.depchain_pqsort.Ascending ∧ st1.depchain_pqsort.Fresh := by
  unfold fetch_messages at h
  split at h
  · exact Option.noConfusion h
  · split at h
    · exact Option.noConfusion h
    · rename_i m1 edges hf
      split at h
      · exact Option.noConfusion h
      · split at h
        · exact Option.noConfusion h
        · simp only [Option.some.injEq, Prod.mk.injEq] at h
          obtain ⟨h1, h2, h3⟩ := h
          subst h1; subst h3
          exact fetch_states_sorted sid eid _ _ [] hasc hfresh List.sorted_nil
            (fun e he => absurd he (List.not_mem_nil _)) m1 edges hf

/-! ## Pass D: the loops of an iteration that returns -/

/-- An iteration of Pass D that returns: the values of its loops and the
parts of the new state that depend on the existence information. -/
theorem perform_step_some (sid : Nat) (swap : SwapDescriptor) (st st1 : PerformState)
    (h : perform_step sid swap st = some st1) :
    ∃ (e0 e1 : edge_t) (m0 m1 : PQSorterMerger DependencyChainEdgeMsg)
      (x1 : PQSorterMerger ExistenceInfoMsg) (I M : List edge_t) (c0 c1 : Bool)
      (exsucc1 : List ExistenceSuccessorMsg) (expq1 : List ExistenceInfoMsg),
      pop_edge_state sid swap.edges0 st.edge_state_pqsort.update = some (e0, m0) ∧
      pop_edge_state sid swap.edges1 m0 = some (e1, m1) ∧
      gather_infos sid st.existence_info_pqsort.update.size st.existence_info_pqsort.update
        [] [] = some (x1, I, M) ∧
      check_conflict I M (_swap_edges e0 e1 swap.direction).1 = some c0 ∧
      check_conflict I M (_swap_edges e0 e1 swap.direction).2 = some c1 ∧
      forward_existence sid
        ⟨e0, e1, (_swap_edges e0 e1 swap.direction).1, (_swap_edges e0 e1 swap.direction).2⟩
        (!(c0 || c1 || ((_swap_edges e0 e1 swap.direction).1.is_loop ||
          (_swap_edges e0 e1 swap.direction).2.is_loop)))
        I M st._existence_successor_sorter x1._pq = some (exsucc1, expq1) ∧
      st1.existence_info_pqsort._pq = expq1 ∧
      st1.existence_info_pqsort._sorter = x1._sorter ∧
      st1._existence_successor_sorter = exsucc1 ∧
      st1.state_log = st.state_log ++
        [⟨e0, e1, (_swap_edges e0 e1 swap.direction).1, (_swap_edges e0 e1 swap.direction).2⟩] ∧
      st1._result = st._result ++
        [(SwapResult.mk
          (!(c0 || c1 || ((_swap_edges e0 e1 swap.direction).1.is_loop ||
            (_swap_edges e0 e1 swap.direction).2.is_loop)))
          ((_swap_edges e0 e1 swap.direction).1.is_loop ||
            (_swap_edges e0 e1 swap.direction).2.is_loop)
          (_swap_edges e0 e1 swap.direction).1 (_swap_edges e0 e1 swap.direction).2
          c0 c1).normalize] := by
  unfold perform_step at h
  split at h
  · exact Option.noConfusion h
  · split at h
    · exact Option.noConfusion h
    · rename_i e0 m0 hp0
      split at h
      · exact Option.noConfusion h
      · rename_i e1 m1 hp1
        simp only at h
        split at h
        · exact Option.noConfusion h
        · rename_i x1 I M hg
          split at h
          · rename_i c0 c1 hc0 hc1
            split at h
            · exact Option.noConfusion h
            · rename_i succ1 pq1 found1 hfw
              split at h
              · exact Option.noConfusion h
              · rename_i exsucc1 expq1 hfx
                have hst := (Option.some.inj h).symm
                refine ⟨e0, e1, m0, m1, x1, I, M, c0, c1, exsucc1, expq1, hp0, hp1, hg, hc0,
                  hc1, hfx, ?_, ?_, ?_, ?_, ?_⟩ <;> rw [hst]
          · exact Option.noConfusion h

/-- The loop "forward existence information" when it returns: it has read
the leading successor messages for swap `sid` and pushed for each of them
one info, with the bit of the branch it took. -/
theorem forward_existence_some (sid : Nat) (edges : SwapEdges) (perform : Bool)
    (I M : List edge_t) :
    ∀ (l : List ExistenceSuccessorMsg) (pq : List ExistenceInfoMsg)
      (rest : List ExistenceSuccessorMsg) (pq1 : List ExistenceInfoMsg),
      forward_existence sid edges perform I M l pq = some (rest, pq1) →
      ∃ pre, l = pre ++ rest ∧ (∀ x ∈ pre, x.swap_id = sid) ∧
        (∀ r, rest.head? = some r → sid < r.swap_id) ∧
        pq1.Perm (pq ++ pre.map (fun x =>
          ⟨x.successor, x.edge, forwarded_bit edges perform I x.edge⟩)) := by
  intro l
  induction l with
  | nil =>
    intro pq rest pq1 h
    simp only [forward_existence, Option.some.injEq, Prod.mk.injEq] at h
    obtain ⟨h1, h2⟩ := h
    subst h1; subst h2
    exact ⟨[], rfl, by simp, by simp, by simp⟩
  | cons s t ih =>
    intro pq rest pq1 h
    unfold forward_existence at h
    split at h
    · exact Option.noConfusion h
    · rename_i hge
      split at h
      · rename_i hgt
        simp only [Option.some.injEq, Prod.mk.injEq] at h
        obtain ⟨h1, h2⟩ := h
        subst h1; subst h2
        refine ⟨[], rfl, by simp, ?_, by simp⟩
        intro r hr
        simp only [List.head?_cons, Option.some.injEq] at hr
        subst hr; exact hgt
      · rename_i hngt
        have hs : s.swap_id = sid := by
          have := not_not.mp hge
          omega
        have finish : ∀ (b : Bool), b = forwarded_bit edges perform I s.edge →
            forward_existence sid edges perform I M t (pq_push ⟨s.successor, s.edge, b⟩ pq) =
              some (rest, pq1) →
            ∃ pre, s :: t = pre ++ rest ∧ (∀ x ∈ pre, x.swap_id = sid) ∧
              (∀ r, rest.head? = some r → sid < r.swap_id) ∧
              pq1.Perm (pq ++ pre.map (fun x =>
                ⟨x.successor, x.edge, forwarded_bit edges perform I x.edge⟩)) := by
          intro b hb h0
          obtain ⟨pre, g1, g2, g3, g4⟩ := ih _ _ _ h0
          refine ⟨s :: pre, by rw [g1]; rfl, ?_, g3, ?_⟩
          · intro x hx
            rcases List.mem_cons.mp hx with hx | hx
            · rw [hx]; exact hs
            · exact g2 x hx
          · refine g4.trans ?_
            rw [List.map_cons, ← hb]
            have hp : (pq_push (⟨s.successor, s.edge, b⟩ : ExistenceInfoMsg) pq).Perm
                (pq ++ [⟨s.successor, s.edge, b⟩]) :=
              (List.perm_orderedInsert _ _ _).trans (List.perm_append_singleton _ _).symm
            refine (List.Perm.append_right _ hp).trans ?_
            rw [List.append_assoc]
            rfl
        split at h
        · rename_i hA
          exact finish true (by unfold forwarded_bit; rw [if_pos hA]) h
        · rename_i hA
          split at h
          · rename_i hB
            exact finish false (by unfold forwarded_bit; rw [if_neg hA, if_pos hB]) h
          · rename_i hB
            simp only at h
            split at h
            · exact Option.noConfusion h
            · exact finish _ (by unfold forwarded_bit; rw [if_neg hA, if_neg hB]) h

/-! ## Pass D: one iteration on a valid batch, loop by loop -/

/-- One iteration of Pass D in the state the loop invariant describes: it
returns, and its loops compute the values of the sequential reference. -/
theorem perform_step_view (edges : List edge_t) (swaps : List SwapDescriptor)
    (R : List ExistenceRequestMsg) (hs : simple_state edges)
    (hv : valid_batch edges.length swaps) (hR : PassBSpec edges swaps R) (k : Nat)
    (d : SwapDescriptor) (hd : swaps[k]? = some d) (st : PerformState)
    (inv : PerformInv edges swaps R k st) :
    ∃ (st1 : PerformState) (m0 m1 : PQSorterMerger DependencyChainEdgeMsg)
      (x1 : PQSorterMerger ExistenceInfoMsg) (I M : List edge_t),
      perform_step k d st = some st1 ∧ PerformInv edges swaps R (k + 1) st1 ∧
      pop_edge_state k d.edges0 st.edge_state_pqsort.update =
        some ((ref_edges (ref_state edges swaps k) d).edges0, m0) ∧
      pop_edge_state k d.edges1 m0 = some ((ref_edges (ref_state edges swaps k) d).edges1, m1) ∧
      gather_infos k st.existence_info_pqsort.update.size st.existence_info_pqsort.update
        [] [] = some (x1, I, M) ∧
      I.Sorted (· ≤ ·) ∧ M.Sorted (· ≤ ·) ∧
      (∀ e, e ∈ I ↔ (⟨k, e, true⟩ : ExistenceInfoMsg) ∈ st.existence_info_pqsort.items) ∧
      (∀ e, e ∈ M ↔ (⟨k, e, false⟩ : ExistenceInfoMsg) ∈ st.existence_info_pqsort.items) ∧
      check_conflict I M (ref_edges (ref_state edges swaps k) d).new_edges0 =
        some (decide ((ref_edges (ref_state edges swaps k) d).new_edges0 ∈
          ref_state edges swaps k)) ∧
      check_conflict I M (ref_edges (ref_state edges swaps k) d).new_edges1 =
        some (decide ((ref_edges (ref_state edges swaps k) d).new_edges1 ∈
          ref_state edges swaps k)) ∧
      forward_existence k (ref_edges (ref_state edges swaps k) d)
        (ref_perform (ref_state edges swaps k) d) I M st._existence_successor_sorter x1._pq =
        some (st1._existence_successor_sorter, st1.existence_info_pqsort._pq) ∧
      st1.existence_info_pqsort._sorter = x1._sorter ∧
      st1.state_log = st.state_log ++ [ref_edges (ref_state edges swaps k) d] ∧
      st1._result = st._result ++ [ref_result (ref_state edges swaps k) d] := by
  obtain ⟨h0, h1⟩ := hv d (List.getElem?_mem hd)
  obtain ⟨st1, hstep, inv1⟩ := perform_step_inv edges swaps R hs hv hR k d hd st inv
  obtain ⟨m0, m1, hp0, hp1, _, _⟩ := pop_both_spec edges swaps R k d hd h0 st inv
  have hxitm : st.existence_info_pqsort.update.items = st.existence_info_pqsort.items :=
    PQSorterMerger.update_items _
  obtain ⟨x1, I, M, hg, _, _, _, hI, hM, hIm, hMm⟩ :=
    gather_infos_spec k st.existence_info_pqsort.update.size st.existence_info_pqsort.update
      [] [] (PQSorterMerger.update_ascending _ inv.ex_asc) (PQSorterMerger.update_fresh _)
      (by rw [PQSorterMerger.size_eq])
      (by intro msg hm; rw [hxitm, inv.ex_mem] at hm; exact hm.1)
      List.sorted_nil List.sorted_nil (by simp) (by simp)
  simp only [List.not_mem_nil, false_or, hxitm] at hIm hMm
  obtain ⟨_, _, t0, t1⟩ := asks_of_swap edges swaps R hR k d hd
  have hc0 := check_conflict_spec edges swaps R k _ inv.ex_mem I M hI hM hIm hMm _ t0
  have hc1 := check_conflict_spec edges swaps R k _ inv.ex_mem I M hI hM hIm hMm _ t1
  obtain ⟨e0, e1, m0', m1', x1', I', M', c0, c1, exsucc1, expq1, q0, q1, qg, qc0, qc1, qfx,
    r1, r2, r3, r4, r5⟩ := perform_step_some k d st st1 hstep
  rw [hp0] at q0
  simp only [Option.some.injEq, Prod.mk.injEq] at q0
  obtain ⟨he0, hm0⟩ := q0
  subst hm0
  rw [hp1] at q1
  simp only [Option.some.injEq, Prod.mk.injEq] at q1
  obtain ⟨he1, hm1⟩ := q1
  subst hm1
  rw [hg] at qg
  simp only [Option.some.injEq, Prod.mk.injEq] at qg
  obtain ⟨hx1, hI', hM'⟩ := qg
  subst hx1; subst hI'; subst hM'
  subst he0; subst he1
  have hc0' : check_conflict I M (_swap_edges ((ref_state edges swaps k).getD d.edges0 ⟨0, 0⟩)
      ((ref_state edges swaps k).getD d.edges1 ⟨0, 0⟩) d.direction).1 = some
        (decide ((ref_edges (ref_state edges swaps k) d).new_edges0 ∈
          ref_state edges swaps k)) := hc0
  have hc1' : check_conflict I M (_swap_edges ((ref_state edges swaps k).getD d.edges0 ⟨0, 0⟩)
      ((ref_state edges swaps k).getD d.edges1 ⟨0, 0⟩) d.direction).2 = some
        (decide ((ref_edges (ref_state edges swaps k) d).new_edges1 ∈
          ref_state edges swaps k)) := hc1
  rw [hc0'] at qc0
  rw [hc1'] at qc1
  have hcc0 := (Option.some.inj qc0).symm
  have hcc1 := (Option.some.inj qc1).symm
  subst hcc0; subst hcc1
  refine ⟨st1, m0, m1, x1, I, M, hstep, inv1, hp0, hp1, hg, hI, hM, hIm, hMm, hc0, hc1, ?_, r2,
    r4, r5⟩
  rw [r1, r3]
  exact qfx

/-! ## Claims on Pass C and Pass D -/

/-- C31: on a sorted request stream Pass C (the build that carries the
exists bit) returns, and for every edge `e`: an `ExistenceInfoMsg` for `e`
is emitted iff at least one request for `e` has `forward_only = false`; at
most one is emitted for `e`; and an info emitted for `e` is addressed to a
swap that asked about `e`, the smallest swap id among all the requests for
`e`, whatever their `forward_only`. -/
theorem info_emitted_iff_target (edges : List edge_t) (R : List ExistenceRequestMsg)
    (hR : R.Sorted (· ≤ ·)) :
    ∃ c, _process_existence_requests edges R = some c ∧
      ∀ e : edge_t,
        ((∃ msg ∈ c._existence_info_sorter, msg.edge = e) ↔
          ∃ q ∈ R, q.edge = e ∧ q.forward_only = false) ∧
        (c._existence_info_sorter.filter (fun msg => decide (msg.edge = e))).length ≤ 1 ∧
        ∀ msg ∈ c._existence_info_sorter, msg.edge = e →
          (∃ q ∈ R, q.edge = e ∧ q.swap_id = msg.swap_id) ∧
          ∀ q ∈ R, q.edge = e → msg.swap_id ≤ q.swap_id := by
  obtain ⟨c, hc, hnd, hinfo, htgt⟩ := process_existence_requests_infos edges R hR
  refine ⟨c, hc, ?_⟩
  intro e
  refine ⟨⟨?_, ?_⟩, filter_length_le_one _ e _ hnd, ?_⟩
  · rintro ⟨msg, hm, hme⟩
    obtain ⟨_, _, t, ht⟩ := hinfo msg hm
    rw [hme] at ht
    exact ⟨_, ht, rfl, rfl⟩
  · rintro ⟨q, hq, hqe, hqf⟩
    apply htgt e q.swap_id
    cases q
    simp only at hqe hqf
    subst hqe; subst hqf
    exact hq
  · intro msg hm hme
    obtain ⟨⟨f, hf⟩, hmin, _⟩ := hinfo msg hm
    rw [hme] at hf hmin
    refine ⟨⟨_, hf, rfl, rfl⟩, ?_⟩
    intro q hq hqe
    apply hmin
    exact ⟨q.forward_only, by cases q; simp only at hqe; subst hqe; exact hq⟩

/-- Witness of C31 on requests for the edges `(0,1)` (a target of swap 1,
a source of swap 0) and `(2,3)` (a source only). -/
theorem info_emitted_iff_target_witness :
    ([⟨⟨0, 1⟩, 1, false⟩, ⟨⟨0, 1⟩, 0, true⟩, ⟨⟨2, 3⟩, 0, true⟩] :
      List ExistenceRequestMsg).Sorted (· ≤ ·) ∧
    _process_existence_requests [⟨0, 1⟩, ⟨2, 3⟩]
        [⟨⟨0, 1⟩, 1, false⟩, ⟨⟨0, 1⟩, 0, true⟩, ⟨⟨2, 3⟩, 0, true⟩] =
      some ⟨[⟨0, ⟨0, 1⟩, 1⟩], [⟨0, ⟨0, 1⟩, true⟩]⟩ ∧
    ∃ c, _process_existence_requests [⟨0, 1⟩, ⟨2, 3⟩]
        [⟨⟨0, 1⟩, 1, false⟩, ⟨⟨0, 1⟩, 0, true⟩, ⟨⟨2, 3⟩, 0, true⟩] = some c ∧
      ∀ e : edge_t,
        ((∃ msg ∈ c._existence_info_sorter, msg.edge = e) ↔
          ∃ q ∈ ([⟨⟨0, 1⟩, 1, false⟩, ⟨⟨0, 1⟩, 0, true⟩, ⟨⟨2, 3⟩, 0, true⟩] :
            List ExistenceRequestMsg), q.edge = e ∧ q.forward_only = false) ∧
        (c._existence_info_sorter.filter (fun msg => decide (msg.edge = e))).length ≤ 1 ∧
        ∀ msg ∈ c._existence_info_sorter, msg.edge = e →
          (∃ q ∈ ([⟨⟨0, 1⟩, 1, false⟩, ⟨⟨0, 1⟩, 0, true⟩, ⟨⟨2, 3⟩, 0, true⟩] :
            List ExistenceRequestMsg), q.edge = e ∧ q.swap_id = msg.swap_id) ∧
          ∀ q ∈ ([⟨⟨0, 1⟩, 1, false⟩, ⟨⟨0, 1⟩, 0, true⟩, ⟨⟨2, 3⟩, 0, true⟩] :
            List ExistenceRequestMsg), q.edge = e → msg.swap_id ≤ q.swap_id :=
  ⟨by decide, by decide,
    info_emitted_iff_target [⟨0, 1⟩, ⟨2, 3⟩]
      [⟨⟨0, 1⟩, 1, false⟩, ⟨⟨0, 1⟩, 0, true⟩, ⟨⟨2, 3⟩, 0, true⟩] (by decide)⟩

/-- C32: on a simple edge list and a valid batch Pass D reaches every swap
`sid`; the existence-successor messages it drains there are the messages
`pre` for `sid`, and for each `{sid, e, next}` of them it pushes one info
`{next, e, bit}` into the existence-info queue. The bit equals whether `e`
is in the edge set right after swap `sid`; it is `true` if `e` is a final
edge of the swap (a new edge when performed, an old edge when not), `false`
if the swap was performed and `e` is one of its old edges, and otherwise the
bit the swap itself received for `e` (the info `{sid, e, bit}` was in its
queue, and `bit` is the result of the search in `existence_infos`). -/
theorem existence_bit_forwarded (edges : List edge_t) (swaps : List SwapDescriptor)
    (hs : simple_list edges) (hv : valid_batch edges.length swaps) (sid : Nat)
    (swap : SwapDescriptor) (hd : swaps[sid]? = some swap) :
    ∃ (a : DepChainResult) (R : List ExistenceRequestMsg) (c : ExistenceResult)
      (st st1 : PerformState) (E : SwapEdges) (r : SwapResult)
      (x1 : PQSorterMerger ExistenceInfoMsg) (I M : List edge_t)
      (pre : List ExistenceSuccessorMsg),
      _compute_dependency_chain edges.length edges swaps = some a ∧
      _compute_conflicts swaps a = some R ∧
      _process_existence_requests edges R = some c ∧
      perform_loop (swaps.take sid) 0 (perform_init a c) = some st ∧
      perform_step sid swap st = some st1 ∧
      st1.state_log = st.state_log ++ [E] ∧ st1._result = st._result ++ [r] ∧
      gather_infos sid st.existence_info_pqsort.update.size st.existence_info_pqsort.update
        [] [] = some (x1, I, M) ∧
      st._existence_successor_sorter = pre ++ st1._existence_successor_sorter ∧
      (∀ x ∈ pre, x.swap_id = sid) ∧
      (∀ x ∈ st1._existence_successor_sorter, sid < x.swap_id) ∧
      st1.existence_info_pqsort._pq.Perm (x1._pq ++ pre.map (fun x =>
        ⟨x.successor, x.edge, forwarded_bit E r.performed I x.edge⟩)) ∧
      ∀ x ∈ pre,
        forwarded_bit E r.performed I x.edge =
          decide (x.edge ∈ ref_state edges swaps (sid + 1)) ∧
        (((r.performed = true ∧ (x.edge = E.new_edges0 ∨ x.edge = E.new_edges1)) ∨
            (r.performed = false ∧ (x.edge = E.edges0 ∨ x.edge = E.edges1))) →
          forwarded_bit E r.performed I x.edge = true) ∧
        (r.performed = true → (x.edge = E.edges0 ∨ x.edge = E.edges1) →
          forwarded_bit E r.performed I x.edge = false) ∧
        (¬ ((r.performed = true ∧ (x.edge = E.new_edges0 ∨ x.edge = E.new_edges1)) ∨
            (r.performed = false ∧ (x.edge = E.edges0 ∨ x.edge = E.edges1))) →
          ¬ (x.edge = E.edges0 ∨ x.edge = E.edges1) →
          forwarded_bit E r.performed I x.edge = binary_search I x.edge) ∧
        (⟨sid, x.edge, binary_search I x.edge⟩ : ExistenceInfoMsg) ∈
          st.existence_info_pqsort.items := by
  have hsim := simple_state_of_simple_list _ hs
  obtain ⟨a, ha1, ha2⟩ := compute_dependency_chain_spec edges swaps hv
  obtain ⟨R, hR1, hR2⟩ := compute_conflicts_spec edges swaps hv a ha2
  obtain ⟨c, hc1, hc2⟩ := process_existence_requests_spec edges hs.1 R hR2.sorted
  have hk := lt_length_of_getElem? swaps sid swap hd
  obtain ⟨st, hst, inv⟩ := perform_prefix_inv edges swaps hsim hv a ha2 R hR2 c hc2 sid (by omega)
  obtain ⟨st1, m0, m1, x1, I, M, hstep, inv1, _, _, hg, hI, hM, hIm, hMm, _, _, hfx, hsorter,
    hlog, hres⟩ := perform_step_view edges swaps R hsim hv hR2 sid swap hd st inv
  obtain ⟨pre, g1, g2, g3, g4⟩ := forward_existence_some _ _ _ _ _ _ _ _ _ hfx
  obtain ⟨v0, v1⟩ := hv swap (List.getElem?_mem hd)
  have hlen : (ref_state edges swaps sid).length = edges.length := ref_state_length _ _ _
  have hperf : (ref_result (ref_state edges swaps sid) swap).performed =
      ref_perform (ref_state edges swaps sid) swap := ref_result_performed _ _
  have hrest : ∀ x ∈ st1._existence_successor_sorter, sid < x.swap_id := by
    intro x hx
    have hsorted : st1._existence_successor_sorter.Sorted (· ≤ ·) := by
      have := inv.exsucc_sorted
      rw [g1] at this
      exact (List.pairwise_append.mp this).2.1
    cases hl : st1._existence_successor_sorter with
    | nil => rw [hl] at hx; exact absurd hx (List.not_mem_nil _)
    | cons y rest =>
      have hy := g3 y (by rw [hl]; rfl)
      rw [hl] at hx hsorted
      rcases List.mem_cons.mp hx with h | h
      · rw [h]; exact hy
      · have := List.rel_of_sorted_cons hsorted x h
        rw [existence_succ_le_iff] at this
        omega
  refine ⟨a, R, c, st, st1, ref_edges (ref_state edges swaps sid) swap,
    ref_result (ref_state edges swaps sid) swap, x1, I, M, pre, ha1, hR1, hc1, hst, hstep, hlog,
    hres, hg, g1, g2, hrest, ?_, ?_⟩
  · rw [hperf]; exact g4
  · intro x hx
    rw [hperf]
    have hxin : x ∈ st._existence_successor_sorter := by
      rw [g1]; exact List.mem_append_left _ hx
    obtain ⟨⟨hask, _, _, _, t, ht1, ht2⟩, _⟩ := (inv.exsucc_mem x).mp hxin
    have hxs := g2 x hx
    rw [hxs] at hask
    have hpushed : (⟨x.successor, x.edge,
        forwarded_bit (ref_edges (ref_state edges swaps sid) swap)
          (ref_perform (ref_state edges swaps sid) swap) I x.edge⟩ : ExistenceInfoMsg) ∈
        st1.existence_info_pqsort.items := by
      unfold PQSorterMerger.items
      apply List.mem_append_left
      rw [g4.mem_iff]
      apply List.mem_append_right
      exact List.mem_map.mpr ⟨x, hx, rfl⟩
    have hbit := ((inv1.ex_mem _).mp hpushed).2.2.2.2
    simp only at hbit
    have hold0 : (ref_edges (ref_state edges swaps sid) swap).edges0 ∈
        ref_state edges swaps sid := getD_mem _ _ _ (by omega)
    have hold1 : (ref_edges (ref_state edges swaps sid) swap).edges1 ∈
        ref_state edges swaps sid := getD_mem _ _ _ (by omega)
    obtain ⟨b1, b2⟩ := binary_search_infos edges swaps R sid _ inv.ex_mem I M hI hM hIm hMm
      x.edge hask ⟨t, by have := (inv.exsucc_mem x).mp hxin; omega, ht2⟩
    obtain ⟨l1, l2⟩ := info_lookup edges swaps R sid _ inv.ex_mem x.edge hask
      ⟨t, by have := (inv.exsucc_mem x).mp hxin; omega, ht2⟩
    refine ⟨hbit, ?_, ?_, ?_, ?_⟩
    · intro hA
      unfold forwarded_bit
      rw [if_pos hA]
    · intro hp hB
      have hnew := (ref_perform_true_iff _ _).mp hp
      have hA : ¬ ((ref_perform (ref_state edges swaps sid) swap = true ∧
          (x.edge = (ref_edges (ref_state edges swaps sid) swap).new_edges0 ∨
            x.edge = (ref_edges (ref_state edges swaps sid) swap).new_edges1)) ∨
          (ref_perform (ref_state edges swaps sid) swap = false ∧
            (x.edge = (ref_edges (ref_state edges swaps sid) swap).edges0 ∨
              x.edge = (ref_edges (ref_state edges swaps sid) swap).edges1))) := by
        rintro (⟨_, h | h⟩ | ⟨h, _⟩)
        · rcases hB with g | g
          · exact hnew.1 (h ▸ g ▸ hold0)
          · exact hnew.1 (h ▸ g ▸ hold1)
        · rcases hB with g | g
          · exact hnew.2.1 (h ▸ g ▸ hold0)
          · exact hnew.2.1 (h ▸ g ▸ hold1)
        · rw [hp] at h; exact Bool.noConfusion h
      unfold forwarded_bit
      rw [if_neg hA, if_pos hB]
    · intro hA hB
      unfold forwarded_bit
      rw [if_neg hA, if_neg hB]
    · rw [b1]
      by_cases hmem : x.edge ∈ ref_state edges swaps sid
      · rw [decide_eq_true hmem]; exact l1.mpr hmem
      · rw [decide_eq_false hmem]; exact l2.mpr hmem

/-- Witness of C32: the first swap of the batch `{0,1}`, `{0,1}` on the edges
`(0,1)`, `(2,3)`, which drains four existence-successor messages. -/
theorem existence_bit_forwarded_witness :
    simple_list ([⟨0, 1⟩, ⟨2, 3⟩] : List edge_t) ∧
    valid_batch ([⟨0, 1⟩, ⟨2, 3⟩] : List edge_t).length ([⟨0, 1, false⟩, ⟨0, 1, false⟩] : List SwapDescriptor) ∧
    ([⟨0, 1, false⟩, ⟨0, 1, false⟩] : List SwapDescriptor)[0]? = some (⟨0, 1, false⟩ : SwapDescriptor) ∧
    ∃ (a : DepChainResult) (R : List ExistenceRequestMsg) (c : ExistenceResult)
      (st st1 : PerformState) (E : SwapEdges) (r : SwapResult)
      (x1 : PQSorterMerger ExistenceInfoMsg) (I M : List edge_t)
      (pre : List ExistenceSuccessorMsg),
      _compute_dependency_chain ([⟨0, 1⟩, ⟨2, 3⟩] : List edge_t).length ([⟨0, 1⟩, ⟨2, 3⟩] : List edge_t) ([⟨0, 1, false⟩, ⟨0, 1, false⟩] : List SwapDescriptor) = some a ∧
      _compute_conflicts ([⟨0, 1, false⟩, ⟨0, 1, false⟩] : List SwapDescriptor) a = some R ∧
      _process_existence_requests ([⟨0, 1⟩, ⟨2, 3⟩] : List edge_t) R = some c ∧
      perform_loop (([⟨0, 1, false⟩, ⟨0, 1, false⟩] : List SwapDescriptor).take 0) 0 (perform_init a c) = some st ∧
      perform_step 0 (⟨0, 1, false⟩ : SwapDescriptor) st = some st1 ∧
      st1.state_log = st.state_log ++ [E] ∧ st1._result = st._result ++ [r] ∧
      gather_infos 0 st.existence_info_pqsort.update.size st.existence_info_pqsort.update
        [] [] = some (x1, I, M) ∧
      st._existence_successor_sorter = pre ++ st1._existence_successor_sorter ∧
      (∀ x ∈ pre, x.swap_id = 0) ∧
      (∀ x ∈ st1._existence_successor_sorter, 0 < x.swap_id) ∧
      st1.existence_info_pqsort._pq.Perm (x1._pq ++ pre.map (fun x =>
        ⟨x.successor, x.edge, forwarded_bit E r.performed I x.edge⟩)) ∧
      ∀ x ∈ pre,
        forwarded_bit E r.performed I x.edge =
          decide (x.edge ∈ ref_state ([⟨0, 1⟩, ⟨2, 3⟩] : List edge_t) ([⟨0, 1, false⟩, ⟨0, 1, false⟩] : List SwapDescriptor) (0 + 1)) ∧
        (((r.performed = true ∧ (x.edge = E.new_edges0 ∨ x.edge = E.new_edges1)) ∨
            (r.performed = false ∧ (x.edge = E.edges0 ∨ x.edge = E.edges1))) →
          forwarded_bit E r.performed I x.edge = true) ∧
        (r.performed = true → (x.edge = E.edges0 ∨ x.edge = E.edges1) →
          forwarded_bit E r.performed I x.edge = false) ∧
        (¬ ((r.performed = true ∧ (x.edge = E.new_edges0 ∨ x.edge = E.new_edges1)) ∨
            (r.performed = false ∧ (x.edge = E.edges0 ∨ x.edge = E.edges1))) →
          ¬ (x.edge = E.edges0 ∨ x.edge = E.edges1) →
          forwarded_bit E r.performed I x.edge = binary_search I x.edge) ∧
        (⟨0, x.edge, binary_search I x.edge⟩ : ExistenceInfoMsg) ∈
          st.existence_info_pqsort.items :=
  ⟨by decide, by decide, rfl,
    existence_bit_forwarded [⟨0, 1⟩, ⟨2, 3⟩] [⟨0, 1, false⟩, ⟨0, 1, false⟩] (by decide) (by decide) 0
      ⟨0, 1, false⟩ rfl⟩

/-! ## Pass B: what the two fetches of an iteration collect -/

/-- The two fetches of an iteration of Pass B in the state the loop
invariant describes: they return, and the state set of each side holds
exactly the edges of the messages queued for it. -/
theorem conflicts_fetch_view (edges : List edge_t) (swaps : List SwapDescriptor) (k : Nat)
    (d : SwapDescriptor) (hd : swaps[k]? = some d) (hv0 : d.edges0 < d.edges1)
    (st : ConflictState) (hinv : ConflictInv edges swaps k st) :
    ∃ sa succ0 E0 sb succ1 E1,
      fetch_messages k d.edges0 st = some (sa, succ0, E0) ∧
      fetch_messages k d.edges1 sa = some (sb, succ1, E1) ∧
      (∀ e, e ∈ E0 ↔ (⟨k, d.edges0, e⟩ : DependencyChainEdgeMsg) ∈ st.depchain_pqsort.items) ∧
      (∀ e, e ∈ E1 ↔ (⟨k, d.edges1, e⟩ : DependencyChainEdgeMsg) ∈ st.depchain_pqsort.items) ∧
      (ref_state edges swaps k).getD d.edges0 ⟨0, 0⟩ ∈ E0 ∧
      (ref_state edges swaps k).getD d.edges1 ⟨0, 0⟩ ∈ E1 := by
  have htk : ∀ e, next_touch swaps k e k → e = d.edges0 ∨ e = d.edges1 :=
    fun e h => next_touch_touches swaps k e d hd h
  have hsuccT : ∀ msg, SuccSpec swaps msg → msg.swap_id = k →
      msg.edge_id = d.edges0 ∨ msg.edge_id = d.edges1 := by
    rintro msg ⟨⟨d1, hd1, ht1⟩, _⟩ hk
    rw [hk, hd] at hd1
    exact (Option.some.inj hd1) ▸ ht1
  have hc0 := hinv.dep_complete _ _ (next_touch_self swaps k _ d hd (Or.inl rfl))
  have hc1 := hinv.dep_complete _ _ (next_touch_self swaps k _ d hd (Or.inr rfl))
  obtain ⟨st0, succ0, E0, f0, r0, s0, ss0, sm0, a0, fr0, i0, e0⟩ :=
    fetch_messages_spec swaps k d.edges0 d hd (Or.inl rfl) st hinv.pq_asc hinv.pq_fresh
      hinv.succ_sorted (fun msg hm => (hinv.succ_mem msg).mp hm)
      (fun msg h1 h2 _ => (hinv.succ_mem msg).mpr ⟨h1, by omega⟩)
      (fun msg hm hk => by
        rcases hsuccT msg ((hinv.succ_mem msg).mp hm).1 hk with h | h <;> omega)
      (fun msg hm => by
        have h := hinv.dep_sound msg hm
        refine ⟨h.1, fun hk => ?_⟩
        rcases htk _ (hk ▸ h) with h1 | h1 <;> omega)
      _ hc0
  obtain ⟨st1, succ1, E1, f1, r1, s1, ss1, sm1, a1, fr1, i1, e1⟩ :=
    fetch_messages_spec swaps k d.edges1 d hd (Or.inr rfl) st0 a0 fr0 ss0
      (fun msg hm => (hinv.succ_mem msg).mp ((sm0 msg).mp hm).1)
      (fun msg h1 h2 h3 => (sm0 msg).mpr ⟨(hinv.succ_mem msg).mpr ⟨h1, by omega⟩,
        fun h => by omega⟩)
      (fun msg hm hk => by
        have h := (sm0 msg).mp hm
        rcases hsuccT msg ((hinv.succ_mem msg).mp h.1).1 hk with h1 | h1
        · exact absurd ⟨hk, h1⟩ h.2
        · omega)
      (fun msg hm => by
        have h := (i0 msg).mp hm
        have h2 := hinv.dep_sound msg h.1
        refine ⟨h2.1, fun hk => ?_⟩
        rcases htk _ (hk ▸ h2) with h1 | h1
        · exact absurd ⟨hk, h1⟩ h.2
        · omega)
      _ ((i0 _).mpr ⟨hc1, fun h => by have := h.2; simp only at this; omega⟩)
  have hE1 : ∀ e, e ∈ E1 ↔
      (⟨k, d.edges1, e⟩ : DependencyChainEdgeMsg) ∈ st.depchain_pqsort.items := by
    intro e
    rw [e1 e, i0]
    constructor
    · exact fun h => h.1
    · intro h
      exact ⟨h, fun g => by have := g.2; simp only at this; omega⟩
  exact ⟨st0, succ0, E0, st1, succ1, E1, f0, f1, e0, hE1, (e0 _).mpr hc0, (hE1 _).mpr hc1⟩

/-! ## Claims on the state sets of Pass B and their use in Pass D -/

/-- C33: with the dependency-chain messages ordered lexicographically by
`(swap_id, edge_id, edge)`, a fetch of Pass B on a merger whose two sources
are ascending and whose cached head is up to date collects a state set that
is strictly increasing in the edge value, hence free of duplicates although
only adjacent duplicates are dropped; on a valid batch Pass B reaches every
swap in such a state, so the two state sets of every swap are strictly
increasing. -/
theorem state_sets_strictly_increasing (edges : List edge_t) (swaps : List SwapDescriptor)
    (hv : valid_batch edges.length swaps) (sid : Nat) (swap : SwapDescriptor)
    (hd : swaps[sid]? = some swap) :
    (∀ (k eid : Nat) (st st1 : ConflictState) (succ : Nat) (E : List edge_t),
      st.depchain_pqsort.Ascending → st.depchain_pqsort.Fresh →
      fetch_messages k eid st = some (st1, succ, E) → E.Sorted (· < ·) ∧ E.Nodup) ∧
    ∃ a st sa succ0 E0 sb succ1 E1,
      _compute_dependency_chain edges.length edges swaps = some a ∧
      conflicts_loop (swaps.take sid) 0 (conflicts_init a) = some st ∧
      st.depchain_pqsort.Ascending ∧ st.depchain_pqsort.Fresh ∧
      fetch_messages sid swap.edges0 st = some (sa, succ0, E0) ∧
      fetch_messages sid swap.edges1 sa = some (sb, succ1, E1) ∧
      E0.Sorted (· < ·) ∧ E1.Sorted (· < ·) ∧ E0.Nodup ∧ E1.Nodup := by
  refine ⟨?_, ?_⟩
  · intro k eid st st1 succ E hasc hfresh h
    have := (fetch_messages_sorted k eid st st1 succ E hasc hfresh h).1
    exact ⟨this, this.nodup⟩
  · obtain ⟨a, ha1, ha2⟩ := compute_dependency_chain_spec edges swaps hv
    have hk := lt_length_of_getElem? swaps sid swap hd
    obtain ⟨st, hst, hinv⟩ := conflicts_prefix_inv edges swaps hv a ha2 sid (by omega)
    have hvd := hv swap (List.getElem?_mem hd)
    obtain ⟨sa, succ0, E0, sb, succ1, E1, f0, f1, _⟩ :=
      conflicts_fetch_view edges swaps sid swap hd hvd.1 st hinv
    obtain ⟨s0, a0, fr0⟩ := fetch_messages_sorted sid _ st sa succ0 E0 hinv.pq_asc hinv.pq_fresh f0
    obtain ⟨s1, _, _⟩ := fetch_messages_sorted sid _ sa sb succ1 E1 a0 fr0 f1
    exact ⟨a, st, sa, succ0, E0, sb, succ1, E1, ha1, hst, hinv.pq_asc, hinv.pq_fresh, f0, f1,
      s0, s1, s0.nodup, s1.nodup⟩

/-- Witness of C33: the second swap of the batch `{0,1}`, `{0,1}` on the edges
`(0,1)`, `(2,3)`, whose two state sets hold two edges each. -/
theorem state_sets_strictly_increasing_witness :
    valid_batch ([⟨0, 1⟩, ⟨2, 3⟩] : List edge_t).length ([⟨0, 1, false⟩, ⟨0, 1, false⟩] : List SwapDescriptor) ∧
    ([⟨0, 1, false⟩, ⟨0, 1, false⟩] : List SwapDescriptor)[1]? = some (⟨0, 1, false⟩ : SwapDescriptor) ∧
    (∀ (k eid : Nat) (st st1 : ConflictState) (succ : Nat) (E : List edge_t),
      st.depchain_pqsort.Ascending → st.depchain_pqsort.Fresh →
      fetch_messages k eid st = some (st1, succ, E) → E.Sorted (· < ·) ∧ E.Nodup) ∧
    ∃ a st sa succ0 E0 sb succ1 E1,
      _compute_dependency_chain ([⟨0, 1⟩, ⟨2, 3⟩] : List edge_t).length ([⟨0, 1⟩, ⟨2, 3⟩] : List edge_t) ([⟨0, 1, false⟩, ⟨0, 1, false⟩] : List SwapDescriptor) = some a ∧
      conflicts_loop (([⟨0, 1, false⟩, ⟨0, 1, false⟩] : List SwapDescriptor).take 1) 0 (conflicts_init a) = some st ∧
      st.depchain_pqsort.Ascending ∧ st.depchain_pqsort.Fresh ∧
      fetch_messages 1 (⟨0, 1, false⟩ : SwapDescriptor).edges0 st = some (sa, succ0, E0) ∧
      fetch_messages 1 (⟨0, 1, false⟩ : SwapDescriptor).edges1 sa = some (sb, succ1, E1) ∧
      E0.Sorted (· < ·) ∧ E1.Sorted (· < ·) ∧ E0.Nodup ∧ E1.Nodup :=
  ⟨by decide, rfl,
    state_sets_strictly_increasing [⟨0, 1⟩, ⟨2, 3⟩] [⟨0, 1, false⟩, ⟨0, 1, false⟩] (by decide) 1
      ⟨0, 1, false⟩ rfl⟩

/-- C34: on a simple edge list and a valid batch, for every swap `sid` the
pre-state Pass D pops for each side is a member of the state set Pass B
collected for that side; the two new edges Pass D computes are among the
requests of Pass B with `forward_only = false` for `sid`; an existence info
for each of them is in the queue of Pass D when it reaches `sid`, so each is
in `existence_infos` or in `missing_infos`; both lists are ascending, so the
binary search decides membership; the two checks with their assertion on
`missing_infos` return, and so does the iteration. -/
theorem prestate_in_state_set (edges : List edge_t) (swaps : List SwapDescriptor)
    (hs : simple_list edges) (hv : valid_batch edges.length swaps) (sid : Nat)
    (swap : SwapDescriptor) (hd : swaps[sid]? = some swap) :
    ∃ (a : DepChainResult) (R : List ExistenceRequestMsg) (c : ExistenceResult)
      (stB sa sb : ConflictState) (succ0 succ1 : Nat) (E0 E1 : List edge_t)
      (stD st1 : PerformState) (e0 e1 : edge_t)
      (m0 m1 : PQSorterMerger DependencyChainEdgeMsg)
      (x1 : PQSorterMerger ExistenceInfoMsg) (I M : List edge_t) (c0 c1 : Bool),
      _compute_dependency_chain edges.length edges swaps = some a ∧
      _compute_conflicts swaps a = some R ∧
      _process_existence_requests edges R = some c ∧
      conflicts_loop (swaps.take sid) 0 (conflicts_init a) = some stB ∧
      fetch_messages sid swap.edges0 stB = some (sa, succ0, E0) ∧
      fetch_messages sid swap.edges1 sa = some (sb, succ1, E1) ∧
      perform_loop (swaps.take sid) 0 (perform_init a c) = some stD ∧
      pop_edge_state sid swap.edges0 stD.edge_state_pqsort.update = some (e0, m0) ∧
      pop_edge_state sid swap.edges1 m0 = some (e1, m1) ∧
      e0 ∈ E0 ∧ e1 ∈ E1 ∧
      (⟨(_swap_edges e0 e1 swap.direction).1, sid, false⟩ : ExistenceRequestMsg) ∈ R ∧
      (⟨(_swap_edges e0 e1 swap.direction).2, sid, false⟩ : ExistenceRequestMsg) ∈ R ∧
      (∃ b, (⟨sid, (_swap_edges e0 e1 swap.direction).1, b⟩ : ExistenceInfoMsg) ∈
        stD.existence_info_pqsort.items) ∧
      (∃ b, (⟨sid, (_swap_edges e0 e1 swap.direction).2, b⟩ : ExistenceInfoMsg) ∈
        stD.existence_info_pqsort.items) ∧
      gather_infos sid stD.existence_info_pqsort.update.size stD.existence_info_pqsort.update
        [] [] = some (x1, I, M) ∧
      ((_swap_edges e0 e1 swap.direction).1 ∈ I ∨ (_swap_edges e0 e1 swap.direction).1 ∈ M) ∧
      ((_swap_edges e0 e1 swap.direction).2 ∈ I ∨ (_swap_edges e0 e1 swap.direction).2 ∈ M) ∧
      I.Sorted (· ≤ ·) ∧ M.Sorted (· ≤ ·) ∧
      (∀ e, binary_search I e = decide (e ∈ I)) ∧ (∀ e, binary_search M e = decide (e ∈ M)) ∧
      check_conflict I M (_swap_edges e0 e1 swap.direction).1 = some c0 ∧
      check_conflict I M (_swap_edges e0 e1 swap.direction).2 = some c1 ∧
      perform_step sid swap stD = some st1 := by
  have hsim := simple_state_of_simple_list _ hs
  obtain ⟨a, ha1, ha2⟩ := compute_dependency_chain_spec edges swaps hv
  obtain ⟨R, hR1, hR2⟩ := compute_conflicts_spec edges swaps hv a ha2
  obtain ⟨c, hc1, hc2⟩ := process_existence_requests_spec edges hs.1 R hR2.sorted
  have hk := lt_length_of_getElem? swaps sid swap hd
  have hvd := hv swap (List.getElem?_mem hd)
  obtain ⟨stB, hstB, hinvB⟩ := conflicts_prefix_inv edges swaps hv a ha2 sid (by omega)
  obtain ⟨sa, succ0, E0, sb, succ1, E1, f0, f1, _, _, hm0, hm1⟩ :=
    conflicts_fetch_view edges swaps sid swap hd hvd.1 stB hinvB
  obtain ⟨stD, hstD, inv⟩ :=
    perform_prefix_inv edges swaps hsim hv a ha2 R hR2 c hc2 sid (by omega)
  obtain ⟨st1, m0, m1, x1, I, M, hstep, _, hp0, hp1, hg, hI, hM, hIm, hMm, hcc0, hcc1, _⟩ :=
    perform_step_view edges swaps R hsim hv hR2 sid swap hd stD inv
  obtain ⟨_, _, t0, t1⟩ := asks_of_swap edges swaps R hR2 sid swap hd
  obtain ⟨l0a, l0b⟩ := info_lookup edges swaps R sid _ inv.ex_mem _ ⟨false, t0⟩
    ⟨sid, le_refl _, t0⟩
  obtain ⟨l1a, l1b⟩ := info_lookup edges swaps R sid _ inv.ex_mem _ ⟨false, t1⟩
    ⟨sid, le_refl _, t1⟩
  refine ⟨a, R, c, stB, sa, sb, succ0, succ1, E0, E1, stD, st1, _, _, m0, m1, x1, I, M, _, _,
    ha1, hR1, hc1, hstB, f0, f1, hstD, hp0, hp1, hm0, hm1, t0, t1, ?_, ?_, hg, ?_, ?_, hI, hM,
    fun e => binary_search_eq_mem I e hI, fun e => binary_search_eq_mem M e hM, hcc0, hcc1,
    hstep⟩
  · by_cases h : (ref_edges (ref_state edges swaps sid) swap).new_edges0 ∈
        ref_state edges swaps sid
    · exact ⟨true, l0a.mpr h⟩
    · exact ⟨false, l0b.mpr h⟩
  · by_cases h : (ref_edges (ref_state edges swaps sid) swap).new_edges1 ∈
        ref_state edges swaps sid
    · exact ⟨true, l1a.mpr h⟩
    · exact ⟨false, l1b.mpr h⟩
  · by_cases h : (ref_edges (ref_state edges swaps sid) swap).new_edges0 ∈
        ref_state edges swaps sid
    · exact Or.inl ((hIm _).mpr (l0a.mpr h))
    · exact Or.inr ((hMm _).mpr (l0b.mpr h))
  · by_cases h : (ref_edges (ref_state edges swaps sid) swap).new_edges1 ∈
        ref_state edges swaps sid
    · exact Or.inl ((hIm _).mpr (l1a.mpr h))
    · exact Or.inr ((hMm _).mpr (l1b.mpr h))

/-- Witness of C34: the second swap of the batch `{0,1}`, `{0,1}` on the edges
`(0,1)`, `(2,3)`. -/
theorem prestate_in_state_set_witness :
    simple_list ([⟨0, 1⟩, ⟨2, 3⟩] : List edge_t) ∧
    valid_batch ([⟨0, 1⟩, ⟨2, 3⟩] : List edge_t).length ([⟨0, 1, false⟩, ⟨0, 1, false⟩] : List SwapDescriptor) ∧
    ([⟨0, 1, false⟩, ⟨0, 1, false⟩] : List SwapDescriptor)[1]? = some (⟨0, 1, false⟩ : SwapDescriptor) ∧
    ∃ (a : DepChainResult) (R : List ExistenceRequestMsg) (c : ExistenceResult)
      (stB sa sb : ConflictState) (succ0 succ1 : Nat) (E0 E1 : List edge_t)
      (stD st1 : PerformState) (e0 e1 : edge_t)
      (m0 m1 : PQSorterMerger DependencyChainEdgeMsg)
      (x1 : PQSorterMerger ExistenceInfoMsg) (I M : List edge_t) (c0 c1 : Bool),
      _compute_dependency_chain ([⟨0, 1⟩, ⟨2, 3⟩] : List edge_t).length ([⟨0, 1⟩, ⟨2, 3⟩] : List edge_t) ([⟨0, 1, false⟩, ⟨0, 1, false⟩] : List SwapDescriptor) = some a ∧
      _compute_conflicts ([⟨0, 1, false⟩, ⟨0, 1, false⟩] : List SwapDescriptor) a = some R ∧
      _process_existence_requests ([⟨0, 1⟩, ⟨2, 3⟩] : List edge_t) R = some c ∧
      conflicts_loop (([⟨0, 1, false⟩, ⟨0, 1, false⟩] : List SwapDescriptor).take 1) 0 (conflicts_init a) = some stB ∧
      fetch_messages 1 (⟨0, 1, false⟩ : SwapDescriptor).edges0 stB = some (sa, succ0, E0) ∧
      fetch_messages 1 (⟨0, 1, false⟩ : SwapDescriptor).edges1 sa = some (sb, succ1, E1) ∧
      perform_loop (([⟨0, 1, false⟩, ⟨0, 1, false⟩] : List SwapDescriptor).take 1) 0 (perform_init a c) = some stD ∧
      pop_edge_state 1 (⟨0, 1, false⟩ : SwapDescriptor).edges0 stD.edge_state_pqsort.update = some (e0, m0) ∧
      pop_edge_state 1 (⟨0, 1, false⟩ : SwapDescriptor).edges1 m0 = some (e1, m1) ∧
      e0 ∈ E0 ∧ e1 ∈ E1 ∧
      (⟨(_swap_edges e0 e1 (⟨0, 1, false⟩ : SwapDescriptor).direction).1, 1, false⟩ : ExistenceRequestMsg) ∈ R ∧
      (⟨(_swap_edges e0 e1 (⟨0, 1, false⟩ : SwapDescriptor).direction).2, 1, false⟩ : ExistenceRequestMsg) ∈ R ∧
      (∃ b, (⟨1, (_swap_edges e0 e1 (⟨0, 1, false⟩ : SwapDescriptor).direction).1, b⟩ : ExistenceInfoMsg) ∈
        stD.existence_info_pqsort.items) ∧
      (∃ b, (⟨1, (_swap_edges e0 e1 (⟨0, 1, false⟩ : SwapDescriptor).direction).2, b⟩ : ExistenceInfoMsg) ∈
        stD.existence_info_pqsort.items) ∧
      gather_infos 1 stD.existence_info_pqsort.update.size stD.existence_info_pqsort.update
        [] [] = some (x1, I, M) ∧
      ((_swap_edges e0 e1 (⟨0, 1, false⟩ : SwapDescriptor).direction).1 ∈ I ∨ (_swap_edges e0 e1 (⟨0, 1, false⟩ : SwapDescriptor).direction).1 ∈ M) ∧
      ((_swap_edges e0 e1 (⟨0, 1, false⟩ : SwapDescriptor).direction).2 ∈ I ∨ (_swap_edges e0 e1 (⟨0, 1, false⟩ : SwapDescriptor).direction).2 ∈ M) ∧
      I.Sorted (· ≤ ·) ∧ M.Sorted (· ≤ ·) ∧
      (∀ e, binary_search I e = decide (e ∈ I)) ∧ (∀ e, binary_search M e = decide (e ∈ M)) ∧
      check_conflict I M (_swap_edges e0 e1 (⟨0, 1, false⟩ : SwapDescriptor).direction).1 = some c0 ∧
      check_conflict I M (_swap_edges e0 e1 (⟨0, 1, false⟩ : SwapDescriptor).direction).2 = some c1 ∧
      perform_step 1 (⟨0, 1, false⟩ : SwapDescriptor) stD = some st1 :=
  ⟨by decide, by decide, rfl,
    prestate_in_state_set [⟨0, 1⟩, ⟨2, 3⟩] [⟨0, 1, false⟩, ⟨0, 1, false⟩] (by decide) (by decide) 1
      ⟨0, 1, false⟩ rfl⟩

/-! ## The CRC-32C step is a bijection of the 32-bit words -/

theorem crc32c_step_lt (x : Nat) (hx : x < 2 ^ 32) :
    (if x % 2 = 1 then (x >>> 1) ^^^ 0x82F63B78 else x >>> 1) < 2 ^ 32 := by
  have h1 : x >>> 1 < 2 ^ 32 := by
    rw [Nat.shiftRight_eq_div_pow]
    omega
  split
  · exact Nat.xor_lt_two_pow h1 (by decide)
  · exact h1

theorem crc32c_step_bit (x : Nat) (hx : x < 2 ^ 32) :
    (if x % 2 = 1 then (x >>> 1) ^^^ 0x82F63B78 else x >>> 1).testBit 31 =
      decide (x % 2 = 1) := by
  have h1 : x >>> 1 < 2 ^ 31 := by
    rw [Nat.shiftRight_eq_div_pow]
    omega
  have h2 : (x >>> 1).testBit 31 = false := Nat.testBit_lt_two_pow h1
  have h3 : Nat.testBit 0x82F63B78 31 = true := by decide
  split
  · rename_i h
    rw [Nat.testBit_xor, h2, h3]
    simp [h]
  · rename_i h
    rw [h2]
    simp [h]

theorem crc32c_step_inj (x y : Nat) (hx : x < 2 ^ 32) (hy : y < 2 ^ 32)
    (h : (if x % 2 = 1 then (x >>> 1) ^^^ 0x82F63B78 else x >>> 1) =
      (if y % 2 = 1 then (y >>> 1) ^^^ 0x82F63B78 else y >>> 1)) : x = y := by
  have hb := congrArg (fun z => Nat.testBit z 31) h
  simp only at hb
  rw [crc32c_step_bit x hx, crc32c_step_bit y hy, decide_eq_decide] at hb
  have hshift : x >>> 1 = y >>> 1 := by
    by_cases hxo : x % 2 = 1
    · rw [if_pos hxo, if_pos (hb.mp hxo)] at h
      exact Nat.xor_left_inj.mp h
    · rw [if_neg hxo, if_neg (fun g => hxo (hb.mpr g))] at h
      exact h
  rw [Nat.shiftRight_eq_div_pow, Nat.shiftRight_eq_div_pow] at hshift
  have hpar : x % 2 = y % 2 := by
    by_cases hxo : x % 2 = 1
    · rw [hxo, hb.mp hxo]
    · have hyo : ¬ y % 2 = 1 := fun g => hxo (hb.mpr g)
      omega
  omega

theorem crc32c_bits_lt : ∀ (k x : Nat), x < 2 ^ 32 → crc32c_bits k x < 2 ^ 32 := by
  intro k
  induction k with
  | zero => intro x hx; exact hx
  | succ k ih =>
    intro x hx
    unfold crc32c_bits
    exact ih _ (crc32c_step_lt x hx)

theorem crc32c_bits_inj : ∀ (k x y : Nat), x < 2 ^ 32 → y < 2 ^ 32 →
    crc32c_bits k x = crc32c_bits k y → x = y := by
  intro k
  induction k with
  | zero => intro x y _ _ h; exact h
  | succ k ih =>
    intro x y hx hy h
    unfold crc32c_bits at h
    exact crc32c_step_inj x y hx hy (ih _ _ (crc32c_step_lt x hx) (crc32c_step_lt y hy) h)

theorem crc32c_u32_lt (crc v : Nat) : crc32c_u32 crc v < 2 ^ 32 := by
  unfold crc32c_u32
  exact crc32c_bits_lt 32 _
    (Nat.xor_lt_two_pow (Nat.mod_lt _ (by norm_num)) (Nat.mod_lt _ (by norm_num)))

/-- For a fixed first operand the CRC-32C step is injective on the 32-bit
words. -/
theorem crc32c_u32_inj (crc v w : Nat) (hv : v < 2 ^ 32) (hw : w < 2 ^ 32)
    (h : crc32c_u32 crc v = crc32c_u32 crc w) : v = w := by
  unfold crc32c_u32 at h
  have h1 := crc32c_bits_inj 32 _ _
    (Nat.xor_lt_two_pow (Nat.mod_lt crc (by norm_num)) (Nat.mod_lt v (by norm_num)))
    (Nat.xor_lt_two_pow (Nat.mod_lt crc (by norm_num)) (Nat.mod_lt w (by norm_num))) h
  have h2 := Nat.xor_right_inj.mp h1
  rwa [Nat.mod_eq_of_lt hv, Nat.mod_eq_of_lt hw] at h2

/-- The hash as a sum of its two 32-bit halves. -/
theorem hash_eq_halves (seed : Nat) (m : MultiNodeMsg) :
    m.hash crc32c_u32 seed =
      crc32c_u32 seed m.msb * 2 ^ 32 + crc32c_u32 (crc32c_u32 seed m.msb) m.lsb := by
  unfold MultiNodeMsg.hash crc64 reverse
  simp only
  have h1 := crc32c_u32_lt seed m.msb
  have h2 := crc32c_u32_lt (crc32c_u32 seed m.msb) m.lsb
  rw [Nat.mod_eq_of_lt h1, Nat.mod_eq_of_lt h2]
  have h3 : (crc32c_u32 seed m.msb <<< 32) % 2 ^ 64 = crc32c_u32 seed m.msb * 2 ^ 32 := by
    rw [Nat.shiftLeft_eq]
    apply Nat.mod_eq_of_lt
    calc crc32c_u32 seed m.msb * 2 ^ 32 < 2 ^ 32 * 2 ^ 32 :=
          Nat.mul_lt_mul_of_pos_right h1 (by norm_num)
      _ = 2 ^ 64 := by norm_num
  rw [h3, mul_pow_lor _ _ _ h2]

/-- The hash is injective on the 64-bit words. -/
theorem hash_inj (seed : Nat) (a b : MultiNodeMsg) (ha : a._eid_node < 2 ^ 64)
    (hb : b._eid_node < 2 ^ 64) (h : a.hash crc32c_u32 seed = b.hash crc32c_u32 seed) :
    a = b := by
  rw [hash_eq_halves, hash_eq_halves] at h
  have la := crc32c_u32_lt (crc32c_u32 seed a.msb) a.lsb
  have lb := crc32c_u32_lt (crc32c_u32 seed b.msb) b.lsb
  have hhi : crc32c_u32 seed a.msb = crc32c_u32 seed b.msb := by omega
  have hlo : crc32c_u32 (crc32c_u32 seed a.msb) a.lsb =
      crc32c_u32 (crc32c_u32 seed a.msb) b.lsb := by
    rw [hhi] at h ⊢
    omega
  have hmsb : a.msb = b.msb :=
    crc32c_u32_inj seed _ _ (Nat.mod_lt _ (by norm_num)) (Nat.mod_lt _ (by norm_num)) hhi
  have hlsb : a.lsb = b.lsb :=
    crc32c_u32_inj _ _ _ (Nat.mod_lt _ (by norm_num)) (Nat.mod_lt _ (by norm_num)) hlo
  unfold MultiNodeMsg.msb at hmsb
  unfold MultiNodeMsg.lsb at hlsb
  rw [Nat.shiftRight_eq_div_pow, Nat.shiftRight_eq_div_pow] at hmsb
  cases a with
  | mk x =>
    cases b with
    | mk y =>
      simp only at ha hb hmsb hlsb
      have : x = y := by omega
      rw [this]

theorem sentinel_lt (seed : Nat) :
    (MultiNodeMsgComparator.min_value seed)._eid_node < 2 ^ 64 ∧
    (MultiNodeMsgComparator.max_value seed)._eid_node < 2 ^ 64 := by
  unfold MultiNodeMsgComparator.min_value MultiNodeMsgComparator.max_value _setLimits
  simp only
  constructor
  · exact Nat.or_lt_two_pow (Nat.mod_lt _ (by norm_num)) (by decide)
  · exact Nat.or_lt_two_pow (Nat.mod_lt _ (by norm_num)) (by decide)

/-! ## `MonotonicUniformRandomStream`: how long the stream lasts -/

section StreamLemmas

open MonotonicUniformRandomStream

variable {T : Type}

theorem stream_incr_of_left (ops : DoubleOps T) (rnd : Nat → T) (Increasing : Bool)
    (s : MonotonicUniformRandomStream T) (he : s._empty = false) (hl : s._elements_left ≠ 0) :
    ∃ s1, incr ops rnd Increasing s = some s1 ∧ s1._empty = false ∧
      s1._elements_left = s._elements_left - 1 := by
  unfold incr
  simp only [he, Bool.false_eq_true, if_false, if_neg hl]
  exact ⟨_, rfl, rfl, rfl⟩

theorem stream_incr_of_none_left (ops : DoubleOps T) (rnd : Nat → T) (Increasing : Bool)
    (s : MonotonicUniformRandomStream T) (he : s._empty = false) (hl : s._elements_left = 0) :
    ∃ s1, incr ops rnd Increasing s = some s1 ∧ s1._empty = true := by
  unfold incr
  simp only [he, Bool.false_eq_true, if_false, if_pos hl]
  exact ⟨_, rfl, rfl⟩

theorem stream_incr_of_empty (ops : DoubleOps T) (rnd : Nat → T) (Increasing : Bool)
    (s : MonotonicUniformRandomStream T) (he : s._empty = true) :
    incr ops rnd Increasing s = none := by
  unfold incr
  simp only [he, if_true]

/-- While elements are left the increments return and the stream is not
empty. -/
theorem stream_incr_n_of_left (ops : DoubleOps T) (rnd : Nat → T) (Increasing : Bool) :
    ∀ (k : Nat) (s : MonotonicUniformRandomStream T), s._empty = false →
      k ≤ s._elements_left →
      ∃ sk, incr_n ops rnd Increasing k s = some sk ∧ sk._empty = false ∧
        sk._elements_left = s._elements_left - k := by
  intro k
  induction k with
  | zero => intro s he _; exact ⟨s, rfl, he, rfl⟩
  | succ k ih =>
    intro s he hk
    obtain ⟨s1, h1, h2, h3⟩ := stream_incr_of_left ops rnd Increasing s he (by omega)
    obtain ⟨sk, g1, g2, g3⟩ := ih s1 h2 (by omega)
    refine ⟨sk, ?_, g2, by omega⟩
    simp only [incr_n, h1, g1]

theorem stream_incr_n_succ (ops : DoubleOps T) (rnd : Nat → T) (Increasing : Bool) :
    ∀ (k : Nat) (s : MonotonicUniformRandomStream T),
      incr_n ops rnd Increasing (k + 1) s =
        match incr_n ops rnd Increasing k s with
        | none => none
        | some sk => incr ops rnd Increasing sk := by
  intro k
  induction k with
  | zero =>
    intro s
    simp only [incr_n]
    cases incr ops rnd Increasing s <;> rfl
  | succ k ih =>
    intro s
    cases h : incr ops rnd Increasing s with
    | none => simp only [incr_n, h]
    | some s1 =>
      have := ih s1
      simp only [incr_n, h] at this ⊢
      exact this

end StreamLemmas

/-! ## Claims on the hash of the configuration model and on the random stream -/

/-- C35: for every seed, with `crc64` built from the CRC-32C step, two
records with 64-bit words have equal hashes only if they are equal; hence
`MultiNodeMsgComparator` is irreflexive, asymmetric and transitive, and it
orders every two distinct records one way or the other (never a tie); and a
record hashes to the hash of `min_value()` or of `max_value()` only if it is
that sentinel. -/
theorem hash_injective (seed : Nat) (a b : MultiNodeMsg) (ha : a._eid_node < 2 ^ 64)
    (hb : b._eid_node < 2 ^ 64) :
    (a.hash crc32c_u32 seed = b.hash crc32c_u32 seed → a = b) ∧
    MultiNodeMsgComparator crc32c_u32 seed a a = false ∧
    (MultiNodeMsgComparator crc32c_u32 seed a b = true →
      MultiNodeMsgComparator crc32c_u32 seed b a = false) ∧
    (∀ c : MultiNodeMsg, MultiNodeMsgComparator crc32c_u32 seed a b = true →
      MultiNodeMsgComparator crc32c_u32 seed b c = true →
      MultiNodeMsgComparator crc32c_u32 seed a c = true) ∧
    (a ≠ b → (MultiNodeMsgComparator crc32c_u32 seed a b = true ∨
      MultiNodeMsgComparator crc32c_u32 seed b a = true)) ∧
    (a.hash crc32c_u32 seed = (MultiNodeMsgComparator.min_value seed).hash crc32c_u32 seed →
      a = MultiNodeMsgComparator.min_value seed) ∧
    (a.hash crc32c_u32 seed = (MultiNodeMsgComparator.max_value seed).hash crc32c_u32 seed →
      a = MultiNodeMsgComparator.max_value seed) := by
  refine ⟨hash_inj seed a b ha hb, ?_, ?_, ?_, ?_, ?_, ?_⟩
  · unfold MultiNodeMsgComparator
    exact decide_eq_false (lt_irrefl _)
  · unfold MultiNodeMsgComparator
    intro h
    have := of_decide_eq_true h
    exact decide_eq_false (by omega)
  · unfold MultiNodeMsgComparator
    intro c h1 h2
    have g1 := of_decide_eq_true h1
    have g2 := of_decide_eq_true h2
    exact decide_eq_true (by omega)
  · unfold MultiNodeMsgComparator
    intro hne
    have hh : a.hash crc32c_u32 seed ≠ b.hash crc32c_u32 seed :=
      fun h => hne (hash_inj seed a b ha hb h)
    rcases Nat.lt_or_gt_of_ne hh with h | h
    · exact Or.inl (decide_eq_true h)
    · exact Or.inr (decide_eq_true h)
  · exact hash_inj seed a _ ha (sentinel_lt seed).1
  · exact hash_inj seed a _ ha (sentinel_lt seed).2

/-- Witness of C35 with the seed `1` and the words `3` and `2^36 + 3`. -/
theorem hash_injective_witness :
    (MultiNodeMsg.mk 3)._eid_node < 2 ^ 64 ∧ (MultiNodeMsg.mk (2 ^ 36 + 3))._eid_node < 2 ^ 64 ∧
    ((MultiNodeMsg.mk 3).hash crc32c_u32 1 = (MultiNodeMsg.mk (2 ^ 36 + 3)).hash crc32c_u32 1 →
      MultiNodeMsg.mk 3 = MultiNodeMsg.mk (2 ^ 36 + 3)) ∧
    (MultiNodeMsg.mk 3 ≠ MultiNodeMsg.mk (2 ^ 36 + 3) →
      (MultiNodeMsgComparator crc32c_u32 1 (MultiNodeMsg.mk 3) (MultiNodeMsg.mk (2 ^ 36 + 3)) =
          true ∨
        MultiNodeMsgComparator crc32c_u32 1 (MultiNodeMsg.mk (2 ^ 36 + 3)) (MultiNodeMsg.mk 3) =
          true)) :=
  ⟨by decide, by decide,
    (hash_injective 1 ⟨3⟩ ⟨2 ^ 36 + 3⟩ (by decide) (by decide)).1,
    (hash_injective 1 ⟨3⟩ ⟨2 ^ 36 + 3⟩ (by decide) (by decide)).2.2.2.2.1⟩

/-- C36: for every `n ≥ 1`, every seed (every sequence of draws) and both
directions, the constructor of a `MonotonicUniformRandomStream` with `n`
elements returns a stream with `empty()` false; `empty()` is false after
each of the first `n-1` increments and true after the `n`-th, after which a
further increment violates `assert(!_empty)`: the stream yields exactly `n`
values. For `n = 0` the stream starts with `empty()` true and the
constructor's own increment violates the assertion. -/
theorem stream_yields_n_values {T : Type} (ops : DoubleOps T) (rnd : Nat → T)
    (Increasing : Bool) (n : Nat) (hn : 1 ≤ n) :
    (∃ s0, MonotonicUniformRandomStream.init ops rnd Increasing n = some s0 ∧
      s0.empty = false ∧
      (∀ k, k ≤ n - 1 →
        ∃ sk, MonotonicUniformRandomStream.incr_n ops rnd Increasing k s0 = some sk ∧
          sk.empty = false) ∧
      (∃ sn, MonotonicUniformRandomStream.incr_n ops rnd Increasing n s0 = some sn ∧
        sn.empty = true) ∧
      MonotonicUniformRandomStream.incr_n ops rnd Increasing (n + 1) s0 = none) ∧
    (MonotonicUniformRandomStream.start ops Increasing 0).empty = true ∧
    MonotonicUniformRandomStream.init ops rnd Increasing 0 = none := by
  refine ⟨?_, rfl, ?_⟩
  · have hstart : (MonotonicUniformRandomStream.start ops Increasing n)._empty = false := by
      unfold MonotonicUniformRandomStream.start
      simp only [beq_eq_false_iff_ne, ne_eq]
      omega
    obtain ⟨s0, h0, h1, h2⟩ := stream_incr_of_left ops rnd Increasing
      (MonotonicUniformRandomStream.start ops Increasing n) hstart
      (by unfold MonotonicUniformRandomStream.start; simp only; omega)
    have hleft : s0._elements_left = n - 1 := h2
    have hlast : ∃ sl, MonotonicUniformRandomStream.incr_n ops rnd Increasing (n - 1) s0 =
        some sl ∧ sl._empty = false ∧ sl._elements_left = 0 := by
      obtain ⟨sl, g1, g2, g3⟩ := stream_incr_n_of_left ops rnd Increasing (n - 1) s0 h1
        (by omega)
      exact ⟨sl, g1, g2, by omega⟩
    obtain ⟨sl, l1, l2, l3⟩ := hlast
    obtain ⟨sn, e1, e2⟩ := stream_incr_of_none_left ops rnd Increasing sl l2 l3
    have hn1 : n - 1 + 1 = n := by omega
    have hnth : MonotonicUniformRandomStream.incr_n ops rnd Increasing n s0 = some sn := by
      have := stream_incr_n_succ ops rnd Increasing (n - 1) s0
      rw [hn1, l1] at this
      rw [this]; exact e1
    refine ⟨s0, h0, h1, ?_, ⟨sn, hnth, e2⟩, ?_⟩
    · intro k hk
      obtain ⟨sk, g1, g2, _⟩ := stream_incr_n_of_left ops rnd Increasing k s0 h1 (by omega)
      exact ⟨sk, g1, g2⟩
    · rw [stream_incr_n_succ, hnth]
      exact stream_incr_of_empty ops rnd Increasing sn e2
  · exact stream_incr_of_empty ops rnd Increasing _ rfl

/-- Witness of C36 with three elements, on natural numbers in place of
`double`. -/
theorem stream_yields_n_values_witness :
    (1 : Nat) ≤ 3 ∧
    (∃ s0, MonotonicUniformRandomStream.init
        (⟨0, 1, Nat.sub, Nat.mul, Nat.div, Nat.pow, id⟩ : DoubleOps Nat) (fun _ => 0) true 3 =
        some s0 ∧
      s0.empty = false ∧
      (∀ k, k ≤ 3 - 1 →
        ∃ sk, MonotonicUniformRandomStream.incr_n
            (⟨0, 1, Nat.sub, Nat.mul, Nat.div, Nat.pow, id⟩ : DoubleOps Nat) (fun _ => 0) true
            k s0 = some sk ∧
          sk.empty = false) ∧
      (∃ sn, MonotonicUniformRandomStream.incr_n
          (⟨0, 1, Nat.sub, Nat.mul, Nat.div, Nat.pow, id⟩ : DoubleOps Nat) (fun _ => 0) true
          3 s0 = some sn ∧
        sn.empty = true) ∧
      MonotonicUniformRandomStream.incr_n
        (⟨0, 1, Nat.sub, Nat.mul, Nat.div, Nat.pow, id⟩ : DoubleOps Nat) (fun _ => 0) true
        (3 + 1) s0 = none) ∧
    (MonotonicUniformRandomStream.start
      (⟨0, 1, Nat.sub, Nat.mul, Nat.div, Nat.pow, id⟩ : DoubleOps Nat) true 0).empty = true ∧
    MonotonicUniformRandomStream.init
      (⟨0, 1, Nat.sub, Nat.mul, Nat.div, Nat.pow, id⟩ : DoubleOps Nat) (fun _ => 0) true 0 =
      none :=
  ⟨by decide, stream_yields_n_values ⟨0, 1, Nat.sub, Nat.mul, Nat.div, Nat.pow, id⟩
    (fun _ => 0) true 3 (by decide)⟩
